import Mathlib

/-!
# humanus.cpp: a verification development

Shallow embedding of the parts of the agent runtime that the specification
makes claims about, followed by the theorems that settle those claims.

Conventions of the embedding.

* `std::string` is a sequence of bytes: `Str := List Nat` (every byte `< 256`).
  A string literal of the source is written `lit "..."`, its UTF-8 bytes.
* `nlohmann::json` values are modelled by the fragment the modelled fields
  carry (`Json`): `null`, a string, or an array of typed content parts.
* A C++ `int` is an `Int`, a `size_t` a `Nat`; the mixed comparison
  `size_t > int` converts the `int` to `size_t` (64 bit), see `to_size_t`.
  Token counts and message counts stay far below `2^31`, and signed
  overflow is not modelled.
* A function whose C++ body can run into undefined behaviour or raise a C++
  exception returns `Option`/`Except`; loops that need not terminate take
  fuel. One read is modelled by the value the storage holds although the
  lifetime of the object has ended: the read through the reference to the
  top of the queue in `HNSWLibVectorStore::search` (`slot_after_pop`).
* A member that the source leaves without an initial value is a parameter of
  the initial state (`Memory.constructed`).
-/

namespace Humanus

/-! ## Strings and JSON values -/

/-- A `std::string`: a sequence of bytes. -/
abbrev Str := List Nat

/-- UTF-8 encoding of one code point. -/
def utf8_char (n : Nat) : List Nat :=
  if n < 0x80 then [n]
  else if n < 0x800 then [0xC0 + n / 64, 0x80 + n % 64]
  else if n < 0x10000 then [0xE0 + n / 4096, 0x80 + n / 64 % 64, 0x80 + n % 64]
  else [0xF0 + n / 262144, 0x80 + n / 4096 % 64, 0x80 + n / 64 % 64, 0x80 + n % 64]

/-- The bytes of a string literal of the source (the sources are UTF-8). -/
def lit (s : String) : Str := s.toList.flatMap (fun c => utf8_char c.toNat)

/-- Conversion of an `int` operand to `size_t` in a mixed comparison. -/
def to_size_t (i : Int) : Nat := (i % 2 ^ 64).toNat

/-- One typed part of an array-valued message content or tool output:
`{"type":"text","text":t}` or `{"type":"image_url","image_url":{"url":u}}`. -/
inductive ContentPart where
  | text (t : Str)
  | image_url (url : Str)
  deriving DecidableEq, Repr

/-- The JSON values carried by `Message::content`, `ToolResult::output` and
`ToolResult::error`. -/
inductive Json where
  | null
  | str (s : Str)
  | parts (ps : List ContentPart)
  deriving DecidableEq, Repr

/-- `json::empty()`: true for `null` and for an empty array, false for every
string (also for the empty string). -/
def Json.empty : Json → Bool
  | .null => true
  | .str _ => false
  | .parts ps => ps.isEmpty

/-- `json::size()`: 0 for `null`, 1 for a string, the length of an array. -/
def Json.size : Json → Nat
  | .null => 0
  | .str _ => 1
  | .parts ps => ps.length

/-- `json::get<std::string>()`, also the implicit conversion to
`std::string`: raises `type_error` (here `none`) unless the value is a string. -/
def Json.get_string : Json → Option Str
  | .str s => some s
  | _ => none

/-! ## Messages (src/include/schema.h) -/

/-- The JSON value of `function.arguments`: `null`, a JSON string that still
has to be parsed, or a structured value (whether it has no elements, and its
dump). -/
inductive Arguments where
  | null
  | text (s : Str)
  | value (no_elements : Bool) (dump : Str)
  deriving DecidableEq, Repr

/-- `json::empty()` on the arguments. -/
def Arguments.empty : Arguments → Bool
  | .null => true
  | .text _ => false
  | .value no_elements _ => no_elements

/-- `struct Function`. -/
structure Function where
  name : Str
  arguments : Arguments
  deriving DecidableEq, Repr

/-- `Function::empty`. -/
def Function.empty (f : Function) : Bool := f.name.isEmpty && f.arguments.empty

/-- `struct ToolCall`. -/
structure ToolCall where
  id : Str
  type : Str
  function : Function
  deriving DecidableEq, Repr

/-- `ToolCall::empty`. -/
def ToolCall.empty (c : ToolCall) : Bool :=
  c.id.isEmpty && c.type.isEmpty && c.function.empty

/-- `struct Message`. `num_tokens` is the count cached by the constructor. -/
structure Message where
  role : Str
  content : Json
  name : Str
  tool_call_id : Str
  tool_calls : List ToolCall
  num_tokens : Nat
  deriving DecidableEq, Repr

/-- A tokenizer, seen through `tokenizer.encode(text).size()`. -/
abbrev Tokenizer := Str → Nat

/-- Tokens contributed by the `content` value in `num_tokens_from_messages`
(src/tokenizer/utils.cpp): a string is encoded, an array contributes its text
parts encoded and 1024 per image. -/
def content_tokens (tok : Tokenizer) : Json → Nat
  | .null => 0
  | .str s => tok s
  | .parts ps => (ps.map (fun p => match p with
      | .text t => tok t
      | .image_url _ => 1024)).sum

/-- `num_tokens_from_messages(tokenizer, message.to_json())` for one message:
3 per message, every string value encoded, 1 more for a `name` key, 3 for
the reply priming. `to_json` leaves out an empty content, name and
tool_call_id; the `tool_calls` array holds objects without `text` or
`image_url` keys and adds nothing. -/
def num_tokens_from_message (tok : Tokenizer) (role : Str) (content : Json)
    (name tool_call_id : Str) : Nat :=
  3 + tok role
    + (if content.empty then 0 else content_tokens tok content)
    + (if name.isEmpty then 0 else tok name + 1)
    + (if tool_call_id.isEmpty then 0 else tok tool_call_id)
    + 3

/-- The `Message` constructor. -/
def Message.make (tok : Tokenizer) (role : Str) (content : Json) (name : Str)
    (tool_call_id : Str) (tool_calls : List ToolCall) : Message :=
  { role := role, content := content, name := name, tool_call_id := tool_call_id,
    tool_calls := tool_calls,
    num_tokens := num_tokens_from_message tok role content name tool_call_id }

/-- `Message::user_message`. -/
def Message.user_message (tok : Tokenizer) (content : Json) : Message :=
  Message.make tok (lit "user") content [] [] []

/-- `Message::system_message`. -/
def Message.system_message (tok : Tokenizer) (content : Json) : Message :=
  Message.make tok (lit "system") content [] [] []

/-- `Message::tool_message`. -/
def Message.tool_message (tok : Tokenizer) (content : Json) (tool_call_id : Str)
    (name : Str) : Message :=
  Message.make tok (lit "tool") content name tool_call_id []

/-- `Message::assistant_message`. -/
def Message.assistant_message (tok : Tokenizer) (content : Json)
    (tool_calls : List ToolCall) : Message :=
  Message.make tok (lit "assistant") content [] [] tool_calls

/-! ## Short-term memory (src/memory/base.h, `struct Memory`) -/

/-- The fields of `MemoryConfig` that `Memory` reads. -/
structure MemoryConfig where
  max_messages : Int
  max_tokens_message : Int
  max_tokens_messages : Int
  max_tokens_context : Int
  retrieval_limit : Int
  deriving DecidableEq, Repr

/-- The state of a `Memory`: the message window (`std::deque<Message>`),
`current_request` and the running counter `num_tokens_messages`. -/
structure Memory where
  config : MemoryConfig
  messages : List Message
  current_request : Str
  num_tokens_messages : Int
  deriving DecidableEq, Repr

/-- Sum of the cached token counts of a list of messages. -/
def sum_tokens (ms : List Message) : Nat := (ms.map (fun m => m.num_tokens)).sum

/-- The eviction loop of `Memory::add_message`:
`while (messages.size() > max_messages || num_tokens_messages > max_tokens_messages)`
moves `messages.front()` to `messages_to_memory`. `front()` on an empty deque
is undefined behaviour: `none`. -/
def evict_loop (max_messages max_tokens_messages : Int) :
    List Message → Int → List Message → Option (List Message × Int × List Message)
  | [], n, out =>
      if 0 > to_size_t max_messages ∨ n > max_tokens_messages then none
      else some ([], n, out)
  | m :: ms, n, out =>
      if (m :: ms).length > to_size_t max_messages ∨ n > max_tokens_messages then
        evict_loop max_messages max_tokens_messages ms (n - m.num_tokens) (out ++ [m])
      else some (m :: ms, n, out)

/-- The message `add_message` pushes in front of an assistant head. -/
def synthesized_message (tok : Tokenizer) (current_request : Str) : Message :=
  Message.user_message tok (.str (lit "Current request: " ++ current_request ++
    lit "\n\nDue to limited memory, some previous messages are not shown."))

/-- The head fix-up of `Memory::add_message` ("Ensure the first message is
always a user or system message"): one `if`/`else if` on the role of the
front message, executed once. -/
def fix_head (tok : Tokenizer) (current_request : Str) :
    List Message → Int → List Message → List Message × Int × List Message
  | [], n, out => ([], n, out)
  | m :: ms, n, out =>
      if m.role = lit "assistant" then
        let s := synthesized_message tok current_request
        (s :: m :: ms, n + s.num_tokens, out)
      else if m.role = lit "tool" then
        (ms, n - m.num_tokens, out ++ [m])
      else (m :: ms, n, out)

/-- Result of one `add_message` call: the new state, the returned `bool`, and
the eviction batch `messages_to_memory` (what is forwarded to the fact
pipeline when long-term memory is enabled). -/
structure AddResult where
  memory : Memory
  accepted : Bool
  messages_to_memory : List Message
  deriving DecidableEq, Repr

/-- `Memory::add_message`, up to the hand-over of the eviction batch. -/
def Memory.add_message (tok : Tokenizer) (mem : Memory) (message : Message) :
    Option AddResult :=
  if (message.num_tokens : Int) > mem.config.max_tokens_message then
    some { memory := mem, accepted := false, messages_to_memory := [] }
  else
    match evict_loop mem.config.max_messages mem.config.max_tokens_messages
        (mem.messages ++ [message]) (mem.num_tokens_messages + message.num_tokens) [] with
    | none => none
    | some (ms, n, out) =>
        let r := fix_head tok mem.current_request ms n out
        some { memory := { mem with messages := r.1, num_tokens_messages := r.2.1 },
               accepted := true, messages_to_memory := r.2.2 }

/-- A `Memory` right after its constructor: the window is empty and the
counter `num_tokens_messages` holds `counter`. The constructor assigns no
value to `int num_tokens_messages` and the member has no initialiser, so the
source does not determine the value a run starts with. -/
def Memory.constructed (config : MemoryConfig) (current_request : Str) (counter : Int) :
    Memory :=
  { config := config, messages := [], current_request := current_request,
    num_tokens_messages := counter }

/-- The `Memory` with an empty window and the counter at zero, the token sum
of the empty window. The constructor does not establish this value of the
counter (see `Memory.constructed`); it is the start that a statement names
when it speaks of a token counter of zero. -/
def Memory.fresh (config : MemoryConfig) (current_request : Str) : Memory :=
  { config := config, messages := [], current_request := current_request,
    num_tokens_messages := 0 }

/-- A sequence of `add_message` calls; each call is given together with the
value of `current_request` at that time (the agent sets it in `run`). -/
def Memory.add_all (tok : Tokenizer) (mem : Memory) :
    List (Str × Message) → Option Memory
  | [] => some mem
  | (req, m) :: rest =>
      match Memory.add_message tok { mem with current_request := req } m with
      | none => none
      | some r => Memory.add_all tok r.memory rest



/-- The two bounds of the memory window: at most `max_messages` messages and
at most `max_tokens_messages` tokens. -/
def within_bounds (cfg : MemoryConfig) (ms : List Message) : Prop :=
  (ms.length : Int) ≤ cfg.max_messages ∧ (sum_tokens ms : Int) ≤ cfg.max_tokens_messages

instance (cfg : MemoryConfig) (ms : List Message) : Decidable (within_bounds cfg ms) := by
  unfold within_bounds; infer_instance

/-- A tokenizer for the concrete runs: one token per byte. -/
def byte_tokenizer : Tokenizer := fun s => s.length

/-- A configuration with room for `n` messages and generous token limits. -/
def cfg_max (n : Int) : MemoryConfig :=
  { max_messages := n, max_tokens_message := 4096, max_tokens_messages := 100000,
    max_tokens_context := 100000, retrieval_limit := 5 }

/-- A configuration with room for one message and for the tokens of one short
assistant message (16 with `byte_tokenizer`). -/
def cfg_one : MemoryConfig :=
  { max_messages := 1, max_tokens_message := 4096, max_tokens_messages := 16,
    max_tokens_context := 100000, retrieval_limit := 5 }

/-- What `add_message` leaves behind: a window within both bounds, or a
synthesized "Current request" message in front of a window within both bounds. -/
def window_ok (tok : Tokenizer) (cfg : MemoryConfig) (ms : List Message) : Prop :=
  within_bounds cfg ms ∨
    ∃ req rest, ms = synthesized_message tok req :: rest ∧ within_bounds cfg rest

/-- The calls `user "u"`, `tool "t1"`, `tool "t2"` (one tool-call batch with two
results), with an empty current request. -/
def calls_user_tool_tool : List (Str × Message) :=
  [([], Message.user_message byte_tokenizer (.str (lit "u"))),
   ([], Message.tool_message byte_tokenizer (.str (lit "t1")) (lit "call_1") (lit "f")),
   ([], Message.tool_message byte_tokenizer (.str (lit "t2")) (lit "call_2") (lit "g"))]

/-! ## UTF-8 helper (src/src/utils.cpp) -/

/-- The loop of `validate_utf8`: `for (i = 1; i <= 4 && i <= len; ++i)` over
the byte `text[len - i]`, with the three lead-byte tests of the source. The
first argument bounds the number of iterations (at most 4). -/
def validate_utf8_loop (text : Str) (len : Nat) : Nat → Nat → Nat
  | 0, _ => len
  | k + 1, i =>
      if i ≤ 4 ∧ i ≤ len then
        let c := text.getD (len - i) 0
        if c &&& 0xE0 = 0xC0 then
          if i < 2 then len - i else validate_utf8_loop text len k (i + 1)
        else if c &&& 0xF0 = 0xE0 then
          if i < 3 then len - i else validate_utf8_loop text len k (i + 1)
        else if c &&& 0xF8 = 0xF0 then
          if i < 4 then len - i else validate_utf8_loop text len k (i + 1)
        else validate_utf8_loop text len k (i + 1)
      else len

/-- `validate_utf8`: the length of the longest prefix that does not end in a
cut-off multi-byte character. -/
def validate_utf8 (text : Str) : Nat :=
  if text.length = 0 then 0 else validate_utf8_loop text text.length 4 1

/-! ## Content provider (src/tool/content_provider.h) -/

/-- The natural break characters of `split_text_into_chunks`:
space, newline, `.`, `,`, `;`, `:`, `!`, `?`. -/
def is_break_char (c : Nat) : Bool :=
  c = 32 || c = 10 || c = 46 || c = 44 || c = 59 || c = 58 || c = 33 || c = 63

/-- The backward search `while (break_pos > min_pos && text[break_pos] is no
break character) break_pos--`, by recursion on `break_pos`. -/
def find_break (text : Str) (min_pos : Nat) : Nat → Nat
  | 0 => 0
  | b + 1 =>
      if b + 1 > min_pos ∧ is_break_char (text.getD (b + 1) 0) = false then
        find_break text min_pos b
      else b + 1

/-- Body of the `while (offset < text_length)` loop of
`split_text_into_chunks`: the size of the chunk cut at `offset`. -/
def chunk_size_at (text : Str) (max_chunk_size : Int) (offset : Nat) : Nat :=
  let text_length := text.length
  let raw_chunk_size := min (to_size_t max_chunk_size) (text_length - offset)
  let potential_chunk := (text.drop offset).take raw_chunk_size
  let valid_utf8_length := validate_utf8 potential_chunk
  if offset + valid_utf8_length < text_length ∧ valid_utf8_length = raw_chunk_size then
    let min_pos := offset + valid_utf8_length / 2
    let break_pos := find_break text min_pos (offset + valid_utf8_length)
    if break_pos > min_pos then break_pos + 1 - offset else valid_utf8_length
  else valid_utf8_length

/-- `text.substr(offset, n)`. -/
def substr (text : Str) (offset n : Nat) : Str := (text.drop offset).take n

/-- The chunk loop run for at most `fuel` iterations from `offset`: the chunks
pushed so far, and whether the loop has exited (`offset >= text_length`). -/
def split_run (text : Str) (max_chunk_size : Int) : Nat → Nat → List Str × Bool
  | 0, offset => ([], decide (text.length ≤ offset))
  | fuel + 1, offset =>
      if offset < text.length then
        let chunk_size := chunk_size_at text max_chunk_size offset
        let r := split_run text max_chunk_size fuel (offset + chunk_size)
        (substr text offset chunk_size :: r.1, r.2)
      else ([], true)

/-- `split_text_into_chunks`: the text of the chunks, `none` when the loop
has not exited within `fuel` iterations. -/
def split_text_into_chunks (fuel : Nat) (text : Str) (max_chunk_size : Int) :
    Option (List Str) :=
  if text.isEmpty then some []
  else
    let r := split_run text max_chunk_size fuel 0
    if r.2 then some r.1 else none

/-- `struct ToolResult`. -/
structure ToolResult where
  output : Json
  error : Json
  system : Json
  deriving DecidableEq, Repr

/-- `ToolResult(output)`. -/
def ToolResult.ok (output : Json) : ToolResult :=
  { output := output, error := .null, system := .null }

/-- `ToolError(error)`. -/
def ToolError (error : Str) : ToolResult :=
  { output := .null, error := .str error, system := .null }

/-- Lexicographic `std::string::operator<`. -/
def str_lt : Str → Str → Bool
  | [], [] => false
  | [], _ :: _ => true
  | _ :: _, [] => false
  | a :: as, b :: bs => a < b || (a = b && str_lt as bs)

/-- `map[key] = value` on a `std::map<std::string, V>`, kept as a list of
entries in key order. -/
def map_set {V : Type} (key : Str) (value : V) : List (Str × V) → List (Str × V)
  | [] => [(key, value)]
  | (k, v) :: rest =>
      if key = k then (key, value) :: rest
      else if str_lt key k then (key, value) :: (k, v) :: rest
      else (k, v) :: map_set key value rest

/-- `map.find(key)`. -/
def map_find {V : Type} (key : Str) : List (Str × V) → Option V
  | [] => none
  | (k, v) :: rest => if key = k then some v else map_find key rest

/-- One item of the `content` array of a `write`: a well-formed text or image
part, or one of the shapes `handle_write` rejects. -/
inductive WriteItem where
  | text (t : Str)
  | image_url (url : Str)
  | no_type
  | text_without_text
  | image_without_url
  | unsupported (type : Str)
  deriving DecidableEq, Repr

/-- The static state of `ContentProvider`: `content_store_`, `MAX_STORE_ID`
and `current_id_`. -/
structure ContentProvider where
  content_store_ : List (Str × List ContentPart)
  MAX_STORE_ID : Nat
  current_id_ : Nat
  deriving DecidableEq, Repr

/-- The loop of `handle_write` over the items: the processed content collected
so far and the pending `text_content`. `none`: a chunk loop did not exit
within `fuel` iterations; `some (.error e)`: the `ToolError` returned. -/
def process_items (fuel : Nat) (max_chunk_size : Int) :
    List WriteItem → List ContentPart → Str → Option (Except Str (List ContentPart × Str))
  | [], processed, text_content => some (.ok (processed, text_content))
  | .no_type :: _, _, _ => some (.error (lit "Each content item must have a `type` field"))
  | .text t :: rest, processed, text_content =>
      process_items fuel max_chunk_size rest processed (text_content ++ (t ++ lit "\n\n"))
  | .text_without_text :: _, _, _ =>
      some (.error (lit "Text items must have a `text` field with string value"))
  | .image_url url :: rest, processed, text_content =>
      if ¬ text_content.isEmpty then
        match split_text_into_chunks fuel text_content max_chunk_size with
        | none => none
        | some chunks =>
            process_items fuel max_chunk_size rest
              (processed ++ chunks.map ContentPart.text ++ [.image_url url]) []
      else process_items fuel max_chunk_size rest (processed ++ [.image_url url]) text_content
  | .image_without_url :: _, _, text_content =>
      if ¬ text_content.isEmpty then
        match split_text_into_chunks fuel text_content max_chunk_size with
        | none => none
        | some _ =>
            some (.error (lit "Image items must have an `image_url` field with a `url` property"))
      else some (.error (lit "Image items must have an `image_url` field with a `url` property"))
  | .unsupported type :: _, _, _ => some (.error (lit "Unsupported content type: " ++ type))

/-- `std::to_string` of a `size_t`. -/
def to_string (n : Nat) : Str := lit (toString n)

/-- The text `result.dump(2)` of the object `handle_write` returns. -/
def write_result_dump (store_id : Str) (total_items : Nat) : Str :=
  lit "\x7b\n  \"store_id\": \"" ++ store_id ++ lit "\",\n  \"total_items\": " ++
    to_string total_items ++ lit "\n\x7d"

/-- `ContentProvider::handle_write`. `content = none` stands for a missing
`content` or one that is not an array. Result: `none` when a chunk loop
does not exit within `fuel` iterations, else the new state and the
`ToolResult`. -/
def ContentProvider.handle_write (fuel : Nat) (cp : ContentProvider)
    (content : Option (List WriteItem)) (max_chunk_size : Int) :
    Option (ContentProvider × ToolResult) :=
  match content with
  | none => some (cp, ToolError (lit "`content` is required and must be an array"))
  | some items =>
      match process_items fuel max_chunk_size items [] [] with
      | none => none
      | some (.error e) => some (cp, ToolError e)
      | some (.ok (processed, text_content)) =>
          let rest :=
            if ¬ text_content.isEmpty then
              (split_text_into_chunks fuel text_content max_chunk_size).map
                (fun chunks => processed ++ chunks.map ContentPart.text)
            else some processed
          match rest with
          | none => none
          | some processed_content =>
              let store_id := lit "content_" ++ to_string cp.current_id_
              some ({ cp with
                        current_id_ := (cp.current_id_ + 1) % cp.MAX_STORE_ID
                        content_store_ := map_set store_id processed_content cp.content_store_ },
                    ToolResult.ok (.str (write_result_dump store_id processed_content.length)))

/-- The text of a stored chunk (an image chunk has none). -/
def ContentPart.text_of : ContentPart → Str
  | .text t => t
  | .image_url _ => []

/-- The text of all chunks of a store, read from index 0 to the last and
concatenated. -/
def joined_text (chunks : List ContentPart) : Str :=
  chunks.flatMap ContentPart.text_of

/-- The parts joined by a blank line: `part1 \n\n part2 ... \n\n partN`. -/
def join_blank_line : List Str → Str
  | [] => []
  | [p] => p
  | p :: q :: rest => p ++ lit "\n\n" ++ join_blank_line (q :: rest)

/-- An empty content provider as at program start (`MAX_STORE_ID = 100`). -/
def ContentProvider.init : ContentProvider :=
  { content_store_ := [], MAX_STORE_ID := 100, current_id_ := 0 }

/-! ## Valid UTF-8 (RFC 3629), the notion the chunking claims refer to -/

/-- A continuation byte `10xxxxxx`. -/
def is_cont (b : Nat) : Bool := 0x80 ≤ b && b ≤ 0xBF

/-- The well-formed encodings of one code point (RFC 3629, Unicode table 3-7):
no overlong forms, no surrogates, nothing above U+10FFFF. -/
def utf8_char_ok : Str → Bool
  | [b0] => b0 < 0x80
  | [b0, b1] => 0xC2 ≤ b0 && b0 ≤ 0xDF && is_cont b1
  | [b0, b1, b2] =>
      (b0 = 0xE0 && 0xA0 ≤ b1 && b1 ≤ 0xBF && is_cont b2)
      || (((0xE1 ≤ b0 && b0 ≤ 0xEC) || (0xEE ≤ b0 && b0 ≤ 0xEF)) && is_cont b1 && is_cont b2)
      || (b0 = 0xED && 0x80 ≤ b1 && b1 ≤ 0x9F && is_cont b2)
  | [b0, b1, b2, b3] =>
      (b0 = 0xF0 && 0x90 ≤ b1 && b1 ≤ 0xBF && is_cont b2 && is_cont b3)
      || (0xF1 ≤ b0 && b0 ≤ 0xF3 && is_cont b1 && is_cont b2 && is_cont b3)
      || (b0 = 0xF4 && 0x80 ≤ b1 && b1 ≤ 0x8F && is_cont b2 && is_cont b3)
  | _ => false

/-- The byte string is valid UTF-8: a concatenation of well-formed code point
encodings. -/
def valid_utf8 : Str → Bool
  | [] => true
  | b0 :: rest =>
      if b0 < 0x80 then valid_utf8 rest
      else match rest with
        | [] => false
        | b1 :: rest1 =>
            if utf8_char_ok [b0, b1] then valid_utf8 rest1
            else match rest1 with
              | [] => false
              | b2 :: rest2 =>
                  if utf8_char_ok [b0, b1, b2] then valid_utf8 rest2
                  else match rest2 with
                    | [] => false
                    | b3 :: rest3 => utf8_char_ok [b0, b1, b2, b3] && valid_utf8 rest3

/-- Whether the body of the `validate_utf8` loop returns at iteration `i` on
the byte `c` (a lead byte of a sequence longer than `i`). -/
def cuts_at (c i : Nat) : Bool :=
  if c &&& 0xE0 = 0xC0 then decide (i < 2)
  else if c &&& 0xF0 = 0xE0 then decide (i < 3)
  else if c &&& 0xF8 = 0xF0 then decide (i < 4)
  else false

/-- The provider state after writing the two text parts `"a"`, `"b"` to the
empty provider. -/
def cp_after_write_ab : ContentProvider :=
  { content_store_ := [(lit "content_0", [ContentPart.text (lit "a\n\nb\n\n")])],
    MAX_STORE_ID := 100, current_id_ := 1 }

/-! ## Planning tool (src/tool/planning.cpp) -/

/-- A plan of the plan table: the JSON object with the keys `plan_id`, `title`,
`steps`, `step_statuses`, `step_notes`; the three arrays hold strings. -/
structure Plan where
  plan_id : Str
  title : Str
  steps : List Str
  step_statuses : List Str
  step_notes : List Str
  deriving DecidableEq, Repr

/-- The state of a `PlanningTool`: the table `plans` (a `std::map` keyed by
plan id) and the active plan id. -/
structure PlanningTool where
  plans : List (Str × Plan)
  _current_plan_id : Str
  deriving DecidableEq, Repr

/-- The values `PlanningTool::execute` reads from its argument object, after
the defaults of `args.value(key, default)` are applied. -/
structure PlanningArgs where
  command : Str
  plan_id : Str
  title : Str
  steps : List Str
  step_index : Int
  step_status : Str
  step_notes : Str
  deriving DecidableEq, Repr

/-- The argument object `{}`: every key takes its default. -/
def PlanningArgs.default : PlanningArgs :=
  { command := [], plan_id := [], title := [], steps := [], step_index := -1,
    step_status := lit "not_started", step_notes := [] }

/-- `map.erase(key)`. -/
def map_erase {V : Type} (key : Str) : List (Str × V) → List (Str × V)
  | [] => []
  | (k, v) :: rest => if key = k then rest else (k, v) :: map_erase key rest

/-- `std::to_string` of an `int`. -/
def to_string_int (i : Int) : Str := lit (toString i)

/-- `_format_plan` reads `step_statuses[i]` and `step_notes[i]` of a
`const json&` for every `i < steps.size()`; reading past the end of a const
array is undefined. The text it builds is not modelled. -/
def format_plan_defined (plan : Plan) : Bool :=
  decide (plan.steps.length ≤ plan.step_statuses.length)
    && decide (plan.steps.length ≤ plan.step_notes.length)

/-- A successful result whose text starts with `header`; the plan rendered by
`_format_plan`, which follows the header, is left out. `none` when
`_format_plan` would read past the end of an array. -/
def plan_result (header : Str) (plan : Plan) : Option ToolResult :=
  if format_plan_defined plan then some (ToolResult.ok (.str header)) else none

/-- The allowed step statuses. -/
def valid_statuses : List Str :=
  [lit "not_started", lit "in_progress", lit "completed", lit "blocked"]

/-- `PlanningTool::_create_plan`. -/
def PlanningTool._create_plan (t : PlanningTool) (plan_id title : Str) (steps : List Str) :
    Option (PlanningTool × ToolResult) :=
  if plan_id.isEmpty then
    some (t, ToolError (lit "Parameter `plan_id` is required for command: create"))
  else if (map_find plan_id t.plans).isSome then
    some (t, ToolError (lit "Plan with ID " ++ plan_id ++
      lit " already exists. Use 'update' to modify existing plans."))
  else if title.isEmpty then
    some (t, ToolError (lit "Parameter `title` is required for command: create"))
  else if steps.isEmpty then
    some (t, ToolError
      (lit "Parameter `steps` must be a non-empty list of strings for command: create"))
  else
    let plan : Plan :=
      { plan_id := plan_id, title := title, steps := steps,
        step_statuses := List.replicate steps.length (lit "not_started"),
        step_notes := List.replicate steps.length [] }
    (plan_result (lit "Plan created successfully with ID: " ++ plan_id ++ lit "\n\n") plan).map
      (fun r => ({ plans := map_set plan_id plan t.plans, _current_plan_id := plan_id }, r))

/-- The loop of `_update_plan` that builds the new statuses and notes, for the
steps from position `i` on. `none`: `old_step_statuses[i]` or
`old_step_notes[i]` does not exist, so the conversion of the padded `null` to
a string raises `type_error`. -/
def update_slots (old_steps old_statuses old_notes : List Str) :
    List Str → Nat → Option (List Str × List Str)
  | [], _ => some ([], [])
  | s :: rest, i =>
      if i < old_steps.length ∧ old_steps.getD i [] = s then
        match old_statuses.get? i, old_notes.get? i,
            update_slots old_steps old_statuses old_notes rest (i + 1) with
        | some st, some nt, some (sts, nts) => some (st :: sts, nt :: nts)
        | _, _, _ => none
      else
        (update_slots old_steps old_statuses old_notes rest (i + 1)).map
          (fun r => (lit "not_started" :: r.1, [] :: r.2))

/-- `PlanningTool::_update_plan`. -/
def PlanningTool._update_plan (t : PlanningTool) (plan_id title : Str) (steps : List Str) :
    Option (PlanningTool × ToolResult) :=
  if plan_id.isEmpty then
    some (t, ToolError (lit "Parameter `plan_id` is required for command: update"))
  else
    match map_find plan_id t.plans with
    | none => some (t, ToolError (lit "No plan found with ID: " ++ plan_id))
    | some old =>
        let plan1 : Plan := if ¬ title.isEmpty then { old with title := title } else old
        let plan2 : Option Plan :=
          if ¬ steps.isEmpty then
            (update_slots old.steps old.step_statuses old.step_notes steps 0).map
              (fun r => { plan1 with steps := steps, step_statuses := r.1, step_notes := r.2 })
          else some plan1
        match plan2 with
        | none => some (t, ToolError
            (lit "[json.exception.type_error.302] type must be string, but is null"))
        | some plan =>
            (plan_result (lit "Plan updated successfully with ID: " ++ plan_id ++ lit "\n\n")
              plan).map (fun r => ({ t with plans := map_set plan_id plan t.plans }, r))

/-- `PlanningTool::_list_plans`; the listing text is left out. -/
def PlanningTool._list_plans (t : PlanningTool) : Option (PlanningTool × ToolResult) :=
  if t.plans.isEmpty then
    some (t, ToolResult.ok
      (.str (lit "No plans available. Create a plan with the 'create' command.")))
  else some (t, ToolResult.ok (.str (lit "Available plans:\n")))

/-- `PlanningTool::_get_plan`. -/
def PlanningTool._get_plan (t : PlanningTool) (plan_id : Str) :
    Option (PlanningTool × ToolResult) :=
  if plan_id.isEmpty ∧ t._current_plan_id.isEmpty then
    some (t, ToolError (lit "No active plan. Please specify a plan_id or set an active plan."))
  else
    let _plan_id := if plan_id.isEmpty then t._current_plan_id else plan_id
    match map_find _plan_id t.plans with
    | none => some (t, ToolError (lit "No plan found with ID: " ++ _plan_id))
    | some plan => (plan_result [] plan).map (fun r => (t, r))

/-- `PlanningTool::_set_active_plan`. -/
def PlanningTool._set_active_plan (t : PlanningTool) (plan_id : Str) :
    Option (PlanningTool × ToolResult) :=
  if plan_id.isEmpty then
    some (t, ToolError (lit "Parameter `plan_id` is required for command: set_active"))
  else
    match map_find plan_id t.plans with
    | none => some (t, ToolError (lit "No plan found with ID: " ++ plan_id))
    | some plan =>
        (plan_result (lit "Plan '" ++ plan_id ++ lit "' is now the active plan.\n\n") plan).map
          (fun r => ({ t with _current_plan_id := plan_id }, r))

/-- `array[index] = value` on a JSON array of strings, for an index inside the
array; outside it the array would be padded with `null`, which a list of
strings cannot hold: `none`. -/
def json_array_set (xs : List Str) (index : Nat) (value : Str) : Option (List Str) :=
  if index < xs.length then some (xs.set index value) else none

/-- `PlanningTool::_mark_step`. -/
def PlanningTool._mark_step (t : PlanningTool) (plan_id : Str) (step_index : Int)
    (step_status step_notes : Str) : Option (PlanningTool × ToolResult) :=
  if plan_id.isEmpty ∧ t._current_plan_id.isEmpty then
    some (t, ToolError (lit "No active plan. Please specify a plan_id or set an active plan."))
  else
    let _plan_id := if plan_id.isEmpty then t._current_plan_id else plan_id
    match map_find _plan_id t.plans with
    | none => some (t, ToolError (lit "No plan found with ID: " ++ _plan_id))
    | some plan =>
        if step_index < 0 ∨ step_index.toNat ≥ plan.steps.length then
          some (t, ToolError (lit "Invalid step index: " ++ to_string_int step_index ++
            lit ". Valid indices range from 0 to " ++
            to_string_int ((plan.steps.length : Int) - 1)))
        else if ¬ step_status.isEmpty ∧ step_status ∉ valid_statuses then
          some (t, ToolError (lit "Invalid step status: " ++ step_status ++
            lit ". Valid statuses are: not_started, in_progress, completed, blocked"))
        else
          let statuses :=
            if ¬ step_status.isEmpty then
              json_array_set plan.step_statuses step_index.toNat step_status
            else some plan.step_statuses
          let notes :=
            if ¬ step_notes.isEmpty then
              json_array_set plan.step_notes step_index.toNat step_notes
            else some plan.step_notes
          match statuses, notes with
          | some sts, some nts =>
              let plan' : Plan := { plan with step_statuses := sts, step_notes := nts }
              (plan_result (lit "Step " ++ to_string_int step_index ++ lit " updated in plan '" ++
                _plan_id ++ lit "'.\n\n") plan').map
                (fun r => ({ t with plans := map_set _plan_id plan' t.plans }, r))
          | _, _ => none

/-- `PlanningTool::_delete_plan`. -/
def PlanningTool._delete_plan (t : PlanningTool) (plan_id : Str) :
    Option (PlanningTool × ToolResult) :=
  if plan_id.isEmpty then
    some (t, ToolError (lit "Parameter `plan_id` is required for command: delete"))
  else if (map_find plan_id t.plans).isNone then
    some (t, ToolError (lit "No plan found with ID: " ++ plan_id))
  else
    some ({ plans := map_erase plan_id t.plans,
            _current_plan_id := if t._current_plan_id = plan_id then [] else t._current_plan_id },
          ToolResult.ok (.str (lit "Plan '" ++ plan_id ++ lit "' has been deleted.")))

/-- `PlanningTool::execute`. `args = none`: an argument has the wrong JSON
type, `args.value` raises and the `catch` returns a `ToolError` (its text is
the one of the JSON library). The result `none`: undefined behaviour or a
JSON `null` inside a plan array, which the model does not represent. -/
def PlanningTool.execute (t : PlanningTool) (args : Option PlanningArgs) :
    Option (PlanningTool × ToolResult) :=
  match args with
  | none => some (t, ToolError (lit "[json.exception.type_error.302] type error"))
  | some a =>
      if a.command = lit "create" then t._create_plan a.plan_id a.title a.steps
      else if a.command = lit "update" then t._update_plan a.plan_id a.title a.steps
      else if a.command = lit "list" then t._list_plans
      else if a.command = lit "get" then t._get_plan a.plan_id
      else if a.command = lit "set_active" then t._set_active_plan a.plan_id
      else if a.command = lit "mark_step" then
        t._mark_step a.plan_id a.step_index a.step_status a.step_notes
      else if a.command = lit "delete" then t._delete_plan a.plan_id
      else some (t, ToolError (lit "Unrecognized command: " ++ a.command ++
        lit ". Allowed commands are: create, update, list, get, set_active, mark_step, delete"))

/-- A planning tool right after construction: no plans, no active plan. -/
def PlanningTool.init : PlanningTool := { plans := [], _current_plan_id := [] }

/-- A sequence of planning-tool commands. -/
def PlanningTool.execute_all (t : PlanningTool) : List (Option PlanningArgs) → Option PlanningTool
  | [] => some t
  | a :: rest =>
      match t.execute a with
      | none => none
      | some (t', _) => PlanningTool.execute_all t' rest

/-- The plan invariant: the three arrays have equal length and every status is
one of `not_started`, `in_progress`, `completed`, `blocked`. -/
def plan_ok (plan : Plan) : Prop :=
  plan.steps.length = plan.step_statuses.length
    ∧ plan.steps.length = plan.step_notes.length
    ∧ ∀ s ∈ plan.step_statuses, s ∈ valid_statuses

/-! ## Stuck detection (src/agent/base.h) -/

/-- The inner loop of `get_lcs_length` for one row `i` of the table: given the
rest of `s2` from column `j` on, the previous row from column `j - 1` on and
`dp[i][j - 1]`, the entries `dp[i][j], dp[i][j + 1], ...`. -/
def lcs_row_aux (c : Nat) : Str → List Nat → Nat → List Nat
  | b :: bs, p0 :: p1 :: ps, left =>
      let v := if c = b then p0 + 1 else max p1 left
      v :: lcs_row_aux c bs (p1 :: ps) v
  | _, _, _ => []

/-- Row `i` of the table from row `i - 1`, for the byte `c = s1[i - 1]`;
`dp[i][0] = 0`. -/
def lcs_row (c : Nat) (s2 : Str) (prev : List Nat) : List Nat :=
  0 :: lcs_row_aux c s2 prev 0

/-- The last row `dp[s1.size()]` of the table of `get_lcs_length`, starting from
the zero row `dp[0]`. -/
def lcs_table (s1 s2 : Str) : List Nat :=
  s1.foldl (fun row c => lcs_row c s2 row) (List.replicate (s2.length + 1) 0)

/-- `BaseAgent::get_lcs_length`: `dp[s1.size()][s2.size()]`. -/
def get_lcs_length (s1 s2 : Str) : Nat := (lcs_table s1 s2).getLastD 0

/-- One step of the textbook recursion for the longest common subsequence:
the first string starts with `a`, and `f` answers for its tail. -/
def lcs_step (a : Nat) (f : Str → Nat) : Str → Nat
  | [] => 0
  | b :: bs => if a = b then f bs + 1 else max (f (b :: bs)) (lcs_step a f bs)

/-- The length of a longest common subsequence of two strings, by the textbook
recursion (the notion the claims refer to; `lcs_spec_is_max` shows that it is
the maximum length of a common subsequence). -/
def lcs_spec : Str → Str → Nat
  | [] => fun _ => 0
  | a :: as => lcs_step a (lcs_spec as)

/-- The backward scan of `is_stuck` over the messages before the last one
(given newest first), with the early `break`; the result is the final
`duplicate_count`. The `int duplicate_lcs_length` is never negative, so its
conversion to `size_t` in the comparison with the LCS length is the identity.
`none`: an assistant message with non-empty content that
is not a string, whose conversion to `std::string` raises `type_error`. -/
def stuck_scan (last : Str) (duplicate_lcs_length : Nat) (duplicate_threshold : Int) :
    List Message → Int → Option Int
  | [], duplicate_count => some duplicate_count
  | message :: rest, duplicate_count =>
      if message.role = lit "assistant" ∧ message.content.empty = false then
        match message.content.get_string with
        | none => none
        | some content =>
            if get_lcs_length content last > duplicate_lcs_length then
              if duplicate_count + 1 ≥ duplicate_threshold then some (duplicate_count + 1)
              else stuck_scan last duplicate_lcs_length duplicate_threshold rest
                (duplicate_count + 1)
            else stuck_scan last duplicate_lcs_length duplicate_threshold rest duplicate_count
      else stuck_scan last duplicate_lcs_length duplicate_threshold rest duplicate_count

/-- `BaseAgent::is_stuck` on the message list `memory->get_messages()`.
`int duplicate_lcs_length = 0.6 * size` is the integer `3 * size / 5`: for the
sizes that fit an `int` the double product is exact when `size` is a multiple
of 5 and otherwise at least 0.2 away from an integer. `none`: `back()` on an
empty vector, or a `type_error` raised by a conversion to `std::string`. -/
def is_stuck (messages : List Message) (duplicate_threshold : Int) : Option Bool :=
  if messages.length < to_size_t duplicate_threshold then some false
  else
    match messages.getLast? with
    | none => none
    | some last_message =>
        if last_message.content.empty = true ∨ last_message.role ≠ lit "assistant" then
          some false
        else
          match last_message.content.get_string with
          | none => none
          | some last =>
              (stuck_scan last (3 * last.length / 5) duplicate_threshold
                messages.dropLast.reverse 0).map
                (fun duplicate_count => decide (duplicate_count ≥ duplicate_threshold))

/-- Spec side of stuck detection: an assistant message with non-empty string
content whose longest common subsequence with `last` is strictly longer than
60% of the byte length of `last`. -/
def similar_to_last (last : Str) (m : Message) : Bool :=
  decide (m.role = lit "assistant") &&
    match m.content with
    | .str t => decide (t ≠ []) && decide (5 * lcs_spec t last > 3 * last.length)
    | _ => false

/-- Spec side of stuck detection, in the words of the specification: the last
message is an assistant message with non-empty string content and at least
`duplicate_threshold` earlier messages are `similar_to_last`. -/
def is_stuck_spec (messages : List Message) (duplicate_threshold : Int) : Bool :=
  match messages.getLast? with
  | none => false
  | some last_message =>
      decide (last_message.role = lit "assistant") &&
        match last_message.content with
        | .str last =>
            decide (last ≠ []) &&
              decide (duplicate_threshold ≤ (messages.dropLast.countP (similar_to_last last) : Nat))
        | _ => false

/-- An assistant message with string content, as `think` appends it. -/
def assistant_text (s : String) : Message :=
  Message.assistant_message byte_tokenizer (.str (lit s)) []

/-- An assistant message whose content is an array with one text part. -/
def assistant_parts (s : String) : Message :=
  Message.assistant_message byte_tokenizer (.parts [.text (lit s)]) []

/-- Three assistant messages that differ in their last three bytes, after an
unrelated one. -/
def stuck_messages : List Message :=
  [assistant_text "AAAAAAAAzzz", assistant_text "B", assistant_text "AAAAAAAAxxx",
   assistant_text "AAAAAAAAyyy"]

/-- Four assistant messages; the second one carries an array of parts. -/
def messages_with_parts : List Message :=
  [assistant_text "x", assistant_parts "x", assistant_text "x", assistant_text "x"]

/-! ## Agents (src/agent/base.h, src/agent/react.h, src/agent/toolcall.cpp) -/

/-- `enum class AgentState`. -/
inductive AgentState where
  | IDLE
  | RUNNING
  | FINISHED
  | ERR
  deriving DecidableEq, Repr

/-- `agent_state_map` (src/src/schema.cpp). -/
def agent_state_map : AgentState → Str
  | .IDLE => lit "IDLE"
  | .RUNNING => lit "RUNNING"
  | .FINISHED => lit "FINISHED"
  | .ERR => lit "ERROR"

/-- The virtual interface of `BaseMemory` as the agent uses it, over a memory
state `M`. `add_message` gives the new state and whether the call raised an
exception after updating it (the fact pipeline of `Memory` can); `none` is
undefined behaviour. `get_messages` is the call with the empty query. -/
structure MemoryOps (M : Type) where
  add_message : M → Message → Option (M × Bool)
  get_messages : M → List Message
  set_current_request : M → Str → M

/-- `Memory` behind the `BaseMemory` interface. The hand-over of a non-empty
eviction batch to the fact pipeline happens only when `retrieval_enabled`; it
raises when the pipeline does (`pipeline_raises`, an LLM or embedding call that
fails). -/
def Memory.ops (tok : Tokenizer) (retrieval_enabled : Bool)
    (pipeline_raises : List Message → Bool) : MemoryOps Memory :=
  { add_message := fun mem message =>
      (Memory.add_message tok mem message).map (fun r =>
        (r.memory,
          retrieval_enabled && !r.messages_to_memory.isEmpty
            && pipeline_raises r.messages_to_memory))
    get_messages := fun mem => mem.messages
    set_current_request := fun mem request => { mem with current_request := request } }

/-- What `llm->ask_tool` and the parsing of its reply deliver to `think`:
an exception (the request fails after its retries, or the `tool_calls` of the
reply are malformed), or the `content` and the parsed `tool_calls`. -/
inductive LLMReply where
  | raises
  | message (content : Json) (tool_calls : List ToolCall)

/-- The collaborators of an agent. `llm k` is the reply to the `k`-th LLM call
of the agent; `run_tool k name args` is what `available_tools.execute(name,
args)` returns for the `k`-th tool execution (`ToolCollection::execute` turns
an exception of the tool into a `ToolError`); `parse_ok` tells whether
`json::parse` accepts an arguments string; `json_dump` is `json::dump`. -/
structure Env where
  tok : Tokenizer
  llm : Nat → LLMReply
  parse_ok : Str → Bool
  run_tool : Nat → Str → Arguments → ToolResult
  json_dump : Json → Str

/-- The data of a `BaseTool`; its `execute` is `Env.run_tool`. -/
structure BaseTool where
  name : Str
  description : Str
  deriving DecidableEq, Repr

/-- `struct ToolCollection`: the ordered list and the name-to-tool map. -/
structure ToolCollection where
  tools : List BaseTool
  tools_map : List (Str × BaseTool)
  deriving DecidableEq, Repr

/-- `struct ToolCallAgent` with the fields of its bases that the step loop
uses. The last four fields are ghost fields that record the history: every
value assigned to `state`, every tool call dispatched to the registry, every
message passed to `memory->add_message`, and the number of LLM calls. -/
structure ToolCallAgent (M : Type) where
  memory : M
  state : AgentState
  max_steps : Int
  current_step : Int
  duplicate_threshold : Int
  tool_calls : List ToolCall
  available_tools : ToolCollection
  tool_choice : Str
  special_tool_names : List Str
  content_provider : ContentProvider
  state_log : List AgentState
  executed : List ToolCall
  passed : List Message
  llm_calls : Nat

/-- Result of a member function that can raise a C++ exception: it returns
`a` in agent state `s`, an exception leaves it in agent state `s`, or its
behaviour is undefined (undefined behaviour in the memory or in `is_stuck`, or
a chunk loop of the content provider that never exits). -/
inductive Res (σ α : Type) where
  | ok (s : σ) (a : α)
  | raised (s : σ)
  | undefined

/-- The assignment `state = s`. -/
def ToolCallAgent.set_state {M : Type} (a : ToolCallAgent M) (s : AgentState) :
    ToolCallAgent M :=
  { a with state := s, state_log := a.state_log ++ [s] }

/-- `memory->add_message(message)`: the agent after the call and whether the
call raised; `none` is undefined behaviour. -/
def ToolCallAgent.add_message {M : Type} (ops : MemoryOps M) (a : ToolCallAgent M)
    (message : Message) : Option (ToolCallAgent M × Bool) :=
  (ops.add_message a.memory message).map (fun r =>
    ({ a with memory := r.1, passed := a.passed ++ [message] }, r.2))

/-- The array branch of `parse_json_content`: text parts are concatenated, the
`n`-th image becomes `[imageN]`. -/
def parse_parts : List ContentPart → Nat → Str
  | [], _ => []
  | .text t :: rest, image_cnt => t ++ parse_parts rest image_cnt
  | .image_url _ :: rest, image_cnt =>
      lit "[image" ++ to_string (image_cnt + 1) ++ lit "]" ++ parse_parts rest (image_cnt + 1)

/-- `parse_json_content` (src/src/utils.cpp); `null` is dumped as `null`. -/
def parse_json_content : Json → Str
  | .str s => s
  | .parts ps => parse_parts ps 0
  | .null => lit "null"

/-- `ToolResult::to_string()` without a length limit. -/
def ToolResult.to_string (r : ToolResult) : Str :=
  if r.error.empty = false then lit "Error: " ++ parse_json_content r.error
  else parse_json_content r.output

/-- `ToolResult::empty`. -/
def ToolResult.empty (r : ToolResult) : Bool :=
  r.output.empty && r.error.empty && r.system.empty

/-- The `std::accumulate` of `execute_tool` over the keys of `tools_map`. -/
def join_tool_names (tools_map : List (Str × BaseTool)) : Str :=
  tools_map.foldl (fun a b => a ++ (if a.isEmpty then [] else lit ", ") ++ b.1) []

/-- The text of the `ToolError` for an unregistered tool name. -/
def unknown_tool_text (name : Str) (tools_map : List (Str × BaseTool)) : Str :=
  lit "Unknown tool `" ++ name ++ lit "`. Please use one of the following tools: " ++
    join_tool_names tools_map

/-- `ToolCallAgent::execute_tool`, with `_handle_special_tool` inlined
(`_should_finish_execution` always returns true). Every exception is caught
inside, so it always returns. -/
def ToolCallAgent.execute_tool {M : Type} (env : Env) (a : ToolCallAgent M)
    (tool_call : ToolCall) : ToolCallAgent M × ToolResult :=
  if tool_call.empty = true ∨ tool_call.function.empty = true
      ∨ tool_call.function.name.isEmpty = true then
    (a, ToolError (lit "Invalid command format"))
  else
    let name := tool_call.function.name
    if (map_find name a.available_tools.tools_map).isNone then
      (a, ToolError (unknown_tool_text name a.available_tools.tools_map))
    else
      let parse_fails :=
        match tool_call.function.arguments with
        | .text s => !env.parse_ok s
        | _ => false
      if parse_fails then
        (a, ToolError (lit "Error parsing arguments for " ++ name ++ lit ": Invalid JSON format"))
      else
        let result := env.run_tool a.executed.length name tool_call.function.arguments
        let a1 := { a with executed := a.executed ++ [tool_call] }
        (if name ∈ a.special_tool_names then a1.set_state .FINISHED else a1, result)

/-- The first line of the pointer message that replaces a spilled observation. -/
def spill_text : Str :=
  lit "This tool call has been split into multiple chunks and saved to memory. Please refer to below information to use the `content_provider` tool to read the chunks:\n"

/-- The `content` argument of `handle_write` for a JSON value: an array of
parts is an array, `null` and a string are not. -/
def write_content : Json → Option (List WriteItem)
  | .parts ps => some (ps.map (fun p =>
      match p with
      | .text t => WriteItem.text t
      | .image_url url => WriteItem.image_url url))
  | _ => none

/-- Enough iterations for every chunk loop of a write of this content: a chunk
loop that has not exited after as many iterations as its text has bytes stands
still at one offset and never exits (`split_run_stalls`). -/
def write_fuel : Option (List WriteItem) → Nat
  | none => 0
  | some items => (items.map (fun i =>
      match i with
      | .text t => t.length + 2
      | _ => 0)).sum

/-- `content_provider->handle_write({{"content", content}})` as `act` calls
it (`max_chunk_size` takes its default 4000). -/
def ToolCallAgent.spill {M : Type} (a : ToolCallAgent M) (content : Json) :
    Option (ToolCallAgent M × ToolResult) :=
  (a.content_provider.handle_write (write_fuel (write_content content))
      (write_content content) 4000).map
    (fun r => ({ a with content_provider := r.1 }, r.2))

/-- The condition `result.output.size() == 1 && result.output[0]["type"] ==
"image_url"`; indexing a JSON string with a number raises `type_error`
(`none`). -/
def is_single_image : Json → Option Bool
  | .null => some false
  | .str _ => none
  | .parts [.image_url _] => some true
  | .parts _ => some false

/-- The pre-check of `act` before tokenization: a result whose text is longer
than 12288 bytes and that is not a single image is written to the content
provider and replaced by the pointer message. -/
def ToolCallAgent.precheck {M : Type} (a : ToolCallAgent M) (result : ToolResult) :
    Res (ToolCallAgent M) ToolResult :=
  if result.to_string.length > 12288 then
    match is_single_image result.output with
    | none => .raised a
    | some true => .ok a result
    | some false =>
        match a.spill result.output with
        | none => .undefined
        | some (a1, written) =>
            .ok a1 { written with output := .str (spill_text ++ written.to_string) }
  else .ok a result

/-- The tool message `act` builds from a result:
`Message::tool_message(result.error.empty() ? result.output : result.error,
tool_call.id, tool_call.function.name)`. -/
def tool_result_message (env : Env) (result : ToolResult) (tool_call : ToolCall) : Message :=
  Message.tool_message env.tok
    (if result.error.empty then result.output else result.error)
    tool_call.id tool_call.function.name

/-- The second check of `act`: a tool message above 4096 tokens is written to
the content provider and replaced by the pointer message. -/
def ToolCallAgent.limit_message {M : Type} (env : Env) (a : ToolCallAgent M)
    (tool_msg : Message) (tool_call : ToolCall) : Option (ToolCallAgent M × Message) :=
  if tool_msg.num_tokens > 4096 then
    (a.spill tool_msg.content).map (fun w =>
      (w.1, Message.tool_message env.tok (.str (spill_text ++ w.2.to_string))
        tool_call.id tool_call.function.name))
  else some (a, tool_msg)

/-- The observation `act` appends to `result_str` for one tool call. -/
def observation_text (result : ToolResult) (name : Str) : Str :=
  if result.empty then lit "Tool `" ++ name ++ lit "` completed with no output"
  else lit "Observed output of tool `" ++ name ++ lit "` executed:\n" ++ result.to_string

/-- The result `act` starts from for one tool call: the tool is executed only
in state Running. -/
def ToolCallAgent.dispatch {M : Type} (env : Env) (a : ToolCallAgent M)
    (tool_call : ToolCall) : ToolCallAgent M × ToolResult :=
  if a.state = .RUNNING then a.execute_tool env tool_call
  else (a, ToolError (lit "Agent is not running, so no more tool calls will be executed."))

/-- The body of the `for` loop of `act` for one tool call; the value is the
observation text appended to `result_str`. -/
def ToolCallAgent.act_step {M : Type} (env : Env) (ops : MemoryOps M) (a : ToolCallAgent M)
    (tool_call : ToolCall) : Res (ToolCallAgent M) Str :=
  match (a.dispatch env tool_call).1.precheck (a.dispatch env tool_call).2 with
  | .undefined => .undefined
  | .raised a1 => .raised a1
  | .ok a1 result =>
      match a1.limit_message env (tool_result_message env result tool_call) tool_call with
      | none => .undefined
      | some (a2, tool_msg) =>
          match a2.add_message ops tool_msg with
          | none => .undefined
          | some (a3, true) => .raised a3
          | some (a3, false) => .ok a3 (observation_text result tool_msg.name)

/-- The `for` loop of `act` over the tool calls, with `result_str`. -/
def ToolCallAgent.act_loop {M : Type} (env : Env) (ops : MemoryOps M) :
    List ToolCall → ToolCallAgent M → Str → Res (ToolCallAgent M) Str
  | [], a, result_str => .ok a result_str
  | tool_call :: rest, a, result_str =>
      match a.act_step env ops tool_call with
      | .undefined => .undefined
      | .raised a1 => .raised a1
      | .ok a1 observation =>
          ToolCallAgent.act_loop env ops rest a1 (result_str ++ (observation ++ lit "\n\n"))

/-- `ToolCallAgent::act`. -/
def ToolCallAgent.act {M : Type} (env : Env) (ops : MemoryOps M) (a : ToolCallAgent M) :
    Res (ToolCallAgent M) Str :=
  if a.tool_calls.isEmpty then
    if a.tool_choice = lit "required" then .raised a
    else
      .ok a
        (match (ops.get_messages a.memory).getLast? with
         | none => lit "No content or commands to execute"
         | some last =>
             if last.content.empty then lit "No content or commands to execute"
             else env.json_dump last.content)
  else ToolCallAgent.act_loop env ops a.tool_calls a []

/-- `memory->add_message(message)` inside the `try` block of `think`: an
exception is caught there and `think` returns false, otherwise it returns
`value`. -/
def ToolCallAgent.think_add {M : Type} (ops : MemoryOps M) (a : ToolCallAgent M)
    (message : Message) (value : Bool) : Res (ToolCallAgent M) Bool :=
  match a.add_message ops message with
  | none => .undefined
  | some (a1, true) => .ok a1 false
  | some (a1, false) => .ok a1 value

/-- `ToolCallAgent::think`. `ask_tool` raises for a `tool_choice` other than
`none`, `auto`, `required`; the log line `response["content"].get<std::string>()`
raises for a non-empty content that is not a string. -/
def ToolCallAgent.think {M : Type} (env : Env) (ops : MemoryOps M) (a : ToolCallAgent M) :
    Res (ToolCallAgent M) Bool :=
  if a.tool_choice ≠ lit "none" ∧ a.tool_choice ≠ lit "auto"
      ∧ a.tool_choice ≠ lit "required" then .raised a
  else
    match env.llm a.llm_calls with
    | .raises => .raised { a with llm_calls := a.llm_calls + 1 }
    | .message content tool_calls =>
        let a1 := { a with llm_calls := a.llm_calls + 1, tool_calls := tool_calls }
        if content.empty = false ∧ content.get_string = none then .raised a1
        else if a1.state ≠ .RUNNING then .ok a1 false
        else if a1.tool_choice = lit "none" then
          if content.empty = false then
            a1.think_add ops (Message.assistant_message env.tok content []) true
          else .ok a1 false
        else
          a1.think_add ops (Message.assistant_message env.tok content tool_calls)
            (if a1.tool_choice = lit "required" ∧ tool_calls.isEmpty then true
             else !tool_calls.isEmpty)

/-- `ReActAgent::step`. -/
def ToolCallAgent.step {M : Type} (env : Env) (ops : MemoryOps M) (a : ToolCallAgent M) :
    Res (ToolCallAgent M) Str :=
  match a.think env ops with
  | .undefined => .undefined
  | .raised a1 => .raised a1
  | .ok a1 should_act =>
      if should_act = false then .ok a1 (lit "Thinking complete - no action needed")
      else if a1.state = .RUNNING then a1.act env ops
      else .ok a1 (lit "Agent is not running")

/-- The prompt `handle_stuck_state` adds. -/
def stuck_prompt : Str :=
  lit "Observed duplicate responses. Consider new strategies and avoid repeating ineffective paths already attempted."

/-- `if (is_stuck()) handle_stuck_state();` in the loop of `run`. When
`is_stuck` has no value on a non-empty message list a string conversion
raised; on an empty list `back()` was undefined. -/
def ToolCallAgent.check_stuck {M : Type} (env : Env) (ops : MemoryOps M)
    (a : ToolCallAgent M) : Res (ToolCallAgent M) Unit :=
  match is_stuck (ops.get_messages a.memory) a.duplicate_threshold with
  | none => if (ops.get_messages a.memory).isEmpty then .undefined else .raised a
  | some false => .ok a ()
  | some true =>
      match a.add_message ops (Message.user_message env.tok (.str stuck_prompt)) with
      | none => .undefined
      | some (a1, true) => .raised a1
      | some (a1, false) => .ok a1 ()

/-- The `while (current_step < max_steps && state == RUNNING)` loop of `run`,
with the list `results`. The first argument bounds the number of iterations;
`run` passes `max_steps - current_step`, which the loop cannot exceed. -/
def ToolCallAgent.run_loop {M : Type} (env : Env) (ops : MemoryOps M) :
    Nat → ToolCallAgent M → List Str → Res (ToolCallAgent M) (List Str)
  | 0, a, results =>
      if a.current_step < a.max_steps ∧ a.state = .RUNNING then .undefined else .ok a results
  | n + 1, a, results =>
      if a.current_step < a.max_steps ∧ a.state = .RUNNING then
        let a1 := { a with current_step := a.current_step + 1 }
        match a1.step env ops with
        | .undefined => .undefined
        | .raised a2 => .ok (a2.set_state .ERR) results
        | .ok a2 step_result =>
            match a2.check_stuck env ops with
            | .undefined => .undefined
            | .raised a3 => .raised a3
            | .ok a3 _ =>
                ToolCallAgent.run_loop env ops n a3
                  (results ++ [lit "Step " ++ to_string_int a3.current_step ++ lit ": " ++
                    step_result])
      else .ok a results

/-- `BaseAgent::run`. -/
def ToolCallAgent.run {M : Type} (env : Env) (ops : MemoryOps M) (a : ToolCallAgent M)
    (request : Str) : Res (ToolCallAgent M) Str :=
  let a0 := { a with memory := ops.set_current_request a.memory request }
  if a0.state ≠ .IDLE then
    .ok a0 (lit "Cannot run agent from state " ++ agent_state_map a0.state)
  else
    let r1 : Option (ToolCallAgent M × Bool) :=
      if request.isEmpty = false then
        a0.add_message ops (Message.user_message env.tok (.str request))
      else some (a0, false)
    match r1 with
    | none => .undefined
    | some (a1, true) => .raised a1
    | some (a1, false) =>
        let a2 := a1.set_state .RUNNING
        match ToolCallAgent.run_loop env ops (a2.max_steps - a2.current_step).toNat a2 [] with
        | .undefined => .undefined
        | .raised a3 => .raised a3
        | .ok a3 results =>
            let results1 :=
              if a3.current_step ≥ a3.max_steps then
                results ++ [lit "Terminated: Reached max steps (" ++ to_string_int a3.max_steps ++
                  lit ")"]
              else results
            let a4 := if a3.state ≠ .FINISHED then a3 else a3.set_state .IDLE
            let results2 :=
              if a3.state ≠ .FINISHED then
                results1 ++ [lit "Terminated: Agent state is " ++ agent_state_map a3.state]
              else results1
            let result_str := results2.flatMap (fun result => result ++ lit "\n")
            .ok a4 (if result_str.isEmpty then lit "No steps executed" else result_str)

/-- The state changes the specification allows: Idle→Running,
Running→Finished, Running→Error, Finished→Idle. -/
def allowed_transition : AgentState → AgentState → Bool
  | .IDLE, .RUNNING => true
  | .RUNNING, .FINISHED => true
  | .RUNNING, .ERR => true
  | .FINISHED, .IDLE => true
  | _, _ => false

/-- The state changes `run` performs: the allowed ones and Finished→Error. -/
def run_transition : AgentState → AgentState → Bool
  | .FINISHED, .ERR => true
  | s, t => allowed_transition s t

/-- Every change in the sequence of states `s, t1, t2, ...` is permitted by
`allowed`. -/
def transitions_ok (allowed : AgentState → AgentState → Bool) :
    AgentState → List AgentState → Bool
  | _, [] => true
  | s, t :: rest => allowed s t && transitions_ok allowed t rest

/-- The agent state in which a call ended, by return or by an exception. -/
def Res.agent? {σ α : Type} : Res σ α → Option σ
  | .ok s _ => some s
  | .raised s => some s
  | .undefined => none

/-- The property `P` holds for the agent state in which the call ended. -/
def Res.all {σ α : Type} (r : Res σ α) (P : σ → Prop) : Prop :=
  match r with
  | .ok s _ => P s
  | .raised s => P s
  | .undefined => True

/-- From agent `a` to agent `a'` the values assigned to `state` are `new`, in
this order, every change is permitted by `allowed`, and `a'` is in the last
of them. -/
def state_history_ok {M : Type} (allowed : AgentState → AgentState → Bool)
    (a a' : ToolCallAgent M) : Prop :=
  ∃ new, a'.state_log = a.state_log ++ new
    ∧ transitions_ok allowed a.state new = true
    ∧ a'.state = new.getLastD a.state

/-- A registry with the two tools every `ToolCallAgent` has. -/
def demo_tools : ToolCollection :=
  { tools := [⟨lit "content_provider", lit "content provider"⟩, ⟨lit "terminate", lit "terminate"⟩]
    tools_map := [(lit "content_provider", ⟨lit "content_provider", lit "content provider"⟩),
      (lit "terminate", ⟨lit "terminate", lit "terminate"⟩)] }

/-- The tool call `terminate({"status": "success"})`. -/
def terminate_call : ToolCall :=
  { id := lit "call_1", type := lit "function"
    function := { name := lit "terminate", arguments := .text (lit "\x7b\"status\": \"success\"\x7d") } }

/-- A tool call of the unregistered tool `zzz`. -/
def zzz_call : ToolCall :=
  { id := lit "call_2", type := lit "function"
    function := { name := lit "zzz", arguments := .text (lit "\x7b\x7d") } }

/-- An environment whose LLM always answers with the tool calls `calls` and no
content, and whose tools return a short text. -/
def demo_env (calls : List ToolCall) : Env :=
  { tok := byte_tokenizer
    llm := fun _ => .message .null calls
    parse_ok := fun _ => true
    run_tool := fun _ name _ =>
      if name = lit "terminate" then
        ToolResult.ok (.str (lit "The interaction has been completed with status: success"))
      else ToolResult.ok (.str (lit "done"))
    json_dump := fun _ => lit "null" }

/-- A freshly constructed tool-call agent over a `Memory` with room for
`max_messages` messages. -/
def demo_agent (max_messages : Int) : ToolCallAgent Memory :=
  { memory := Memory.fresh (cfg_max max_messages) []
    state := .IDLE, max_steps := 30, current_step := 0, duplicate_threshold := 2
    tool_calls := [], available_tools := demo_tools, tool_choice := lit "auto"
    special_tool_names := [lit "terminate"], content_provider := ContentProvider.init
    state_log := [], executed := [], passed := [], llm_calls := 0 }

/-- A `Memory` without long-term memory (the FIFO fallback). -/
def fifo_ops : MemoryOps Memory := Memory.ops byte_tokenizer false (fun _ => false)

/-- A `Memory` with long-term memory whose fact pipeline fails (the LLM behind
it is unreachable). -/
def failing_pipeline_ops : MemoryOps Memory := Memory.ops byte_tokenizer true (fun _ => true)

/-- Role, `tool_call_id` and `name` of a message. -/
def message_keys (m : Message) : Str × Str × Str := (m.role, m.tool_call_id, m.name)

/-- Role, `tool_call_id` and `name` of the tool message that answers a call. -/
def call_keys (c : ToolCall) : Str × Str × Str := (lit "tool", c.id, c.function.name)

/-- Whether the call ended by return. -/
def Res.is_ok {σ α : Type} : Res σ α → Bool
  | .ok _ _ => true
  | _ => false

/-- Whether the call ended by an exception. -/
def Res.is_raised {σ α : Type} : Res σ α → Bool
  | .raised _ => true
  | _ => false

/-- Whether `execute_tool` hands the call to the registry: the call is well
formed, its name is registered, and its arguments, when they are a string,
parse as JSON. -/
def executable (env : Env) (tools : ToolCollection) (c : ToolCall) : Bool :=
  !(c.empty || c.function.empty || c.function.name.isEmpty)
    && (map_find c.function.name tools.tools_map).isSome
    && (match c.function.arguments with
        | .text s => env.parse_ok s
        | _ => true)

/-- The calls of a batch that are executed, in the order of the batch:
while the agent is Running (`running`) every executable call is executed, and
the execution of a special tool ends the Running state. -/
def expected_executed (env : Env) (tools : ToolCollection) (special : List Str) :
    Bool → List ToolCall → List ToolCall
  | _, [] => []
  | false, _ :: _ => []
  | true, c :: rest =>
      if executable env tools c then
        c :: expected_executed env tools special (decide (c.function.name ∉ special)) rest
      else expected_executed env tools special true rest

/-- What `act` has done with the batch `calls` when it ends in agent state
`a'`, having dispatched the first `j` calls and answered the first `k`: it has
passed one tool message per answered call to the memory, in the order of the
calls, each with the id and the function name of its call, and it has executed
the tools of the dispatched calls in the order of the batch. -/
def act_handled {M : Type} (env : Env) (calls : List ToolCall) (k j : Nat)
    (a a' : ToolCallAgent M) : Prop :=
  ∃ msgs, a'.passed = a.passed ++ msgs
    ∧ msgs.map message_keys = (calls.take k).map call_keys
    ∧ a'.executed = a.executed ++
        expected_executed env a.available_tools a.special_tool_names
          (decide (a.state = .RUNNING)) (calls.take j)

/-- A tool result that `act` passes on as it is: its text has at most 12288
bytes and its tool message at most 4096 tokens. -/
def small_result (env : Env) (c : ToolCall) (r : ToolResult) : Prop :=
  r.to_string.length ≤ 12288 ∧ (tool_result_message env r c).num_tokens ≤ 4096

/-- The invariant of a `Memory` with the configuration `cfg_max 2`: the counter
is the token sum of the window, and the window is as `add_message` leaves it. -/
def memory_inv (mem : Memory) : Prop :=
  mem.config = cfg_max 2 ∧ mem.num_tokens_messages = (sum_tokens mem.messages : Int)
    ∧ window_ok byte_tokenizer mem.config mem.messages

/-- The agent in state Running with the tool calls `calls` of the last LLM
reply, after the user message `go` and the assistant message. -/
def agent_before_act (calls : List ToolCall) : ToolCallAgent Memory :=
  { demo_agent 2 with
    state := .RUNNING
    tool_calls := calls
    current_step := 1
    llm_calls := 1
    state_log := [.RUNNING]
    memory :=
      { config := cfg_max 2
        messages := [Message.user_message byte_tokenizer (.str (lit "go")),
          Message.assistant_message byte_tokenizer .null calls]
        current_request := lit "go"
        num_tokens_messages :=
          sum_tokens [Message.user_message byte_tokenizer (.str (lit "go")),
            Message.assistant_message byte_tokenizer .null calls] } }

instance (env : Env) (c : ToolCall) (r : ToolResult) : Decidable (small_result env c r) := by
  unfold small_result; infer_instance

/-- What one iteration of the loop of `act` leaves behind, relative to the
agent `d` after the dispatch of the call: the registry, the special names, the
state and the executed tools of `d`, and one more passed message (`answered`)
or, after an exception, possibly none. -/
def step_frame {M : Type} (c : ToolCall) (d a' : ToolCallAgent M) (answered : Bool) : Prop :=
  a'.available_tools = d.available_tools ∧ a'.special_tool_names = d.special_tool_names
    ∧ a'.state = d.state ∧ a'.executed = d.executed
    ∧ (if answered then ∃ m, a'.passed = d.passed ++ [m] ∧ message_keys m = call_keys c
        else a'.passed = d.passed)

/-- An unregistered tool name of 12289 bytes `z`. -/
def long_name : Str := List.replicate 12289 122

/-- A tool call of the unregistered tool `long_name`. -/
def long_name_call : ToolCall :=
  { id := lit "call_3", type := lit "function"
    function := { name := long_name, arguments := .text (lit "\x7b\x7d") } }

/-- The error text of `handle_write` for a `content` that is not an array. -/
def content_required_text : Str := lit "`content` is required and must be an array"

/-- The `result` of `act` after the pre-check has written a result whose
`output` is not an array: `handle_write` has returned its error, and the
pointer text has been assigned to `result.output`. -/
def spilled_not_array : ToolResult :=
  { output := .str (spill_text ++ (ToolError content_required_text).to_string)
    error := .str content_required_text
    system := .null }

/-- The tool message `act` passes to the memory after that pre-check. -/
def spilled_not_array_message (env : Env) (c : ToolCall) : Message :=
  if (Message.tool_message env.tok (.str content_required_text) c.id c.function.name).num_tokens
      > 4096 then
    Message.tool_message env.tok
      (.str (spill_text ++ (ToolError content_required_text).to_string)) c.id c.function.name
  else Message.tool_message env.tok (.str content_required_text) c.id c.function.name

/-- How `act` ends one iteration once the tool message is built: it passes the
message to the memory and returns the observation. -/
def pass_message {M : Type} (ops : MemoryOps M) (a : ToolCallAgent M) (tool_msg : Message)
    (observation : Str) : Res (ToolCallAgent M) Str :=
  match a.add_message ops tool_msg with
  | none => .undefined
  | some (a3, true) => .raised a3
  | some (a3, false) => .ok a3 observation

/-- An environment whose LLM always answers with the content `hi` and the tool
calls `calls`. -/
def talk_env (calls : List ToolCall) : Env :=
  { demo_env calls with llm := fun _ => .message (.str (lit "hi")) calls }

/-- A Running tool-call agent constructed with `tool_choice = "none"`. -/
def none_agent : ToolCallAgent Memory :=
  { demo_agent 10 with state := .RUNNING, tool_choice := lit "none", state_log := [.RUNNING] }

/-- A plain text of 12289 bytes `x`. -/
def long_text : Str := List.replicate 12289 120

/-- A registry with a file tool next to the two standard tools. -/
def file_tools : ToolCollection :=
  { tools := [⟨lit "filesystem", lit "file access"⟩, ⟨lit "content_provider", lit "content provider"⟩,
      ⟨lit "terminate", lit "terminate"⟩]
    tools_map := [(lit "content_provider", ⟨lit "content_provider", lit "content provider"⟩),
      (lit "filesystem", ⟨lit "filesystem", lit "file access"⟩),
      (lit "terminate", ⟨lit "terminate", lit "terminate"⟩)] }

/-- A call of the file tool. -/
def read_file_call : ToolCall :=
  { id := lit "call_4", type := lit "function"
    function := { name := lit "filesystem", arguments := .text (lit "\x7b\x7d") } }

/-- An environment whose file tool returns the plain string `long_text`. -/
def long_text_env : Env :=
  { demo_env [read_file_call] with run_tool := fun _ _ _ => ToolResult.ok (.str long_text) }

/-- A Running agent with the file tool, about to act on one call of it. -/
def file_agent : ToolCallAgent Memory :=
  { agent_before_act [read_file_call] with available_tools := file_tools }

/-! ## Tool registry (src/tool/tool_collection.h) -/

/-- The list constructor `ToolCollection(tools)`: the list is taken as it is
and `tools_map[tool->name] = tool` runs over it in order. -/
def ToolCollection.of_tools (tools : List BaseTool) : ToolCollection :=
  { tools := tools, tools_map := tools.foldl (fun m tool => map_set tool.name tool m) [] }

/-- `ToolCollection::add_tool`. -/
def ToolCollection.add_tool (tc : ToolCollection) (tool : BaseTool) : ToolCollection :=
  { tools := tc.tools ++ [tool], tools_map := map_set tool.name tool tc.tools_map }

/-- `ToolCollection::add_tools`. -/
def ToolCollection.add_tools (tc : ToolCollection) (tools : List BaseTool) : ToolCollection :=
  tools.foldl ToolCollection.add_tool tc

/-- The last tool of a list that has the name `name`. -/
def last_named (name : Str) (tools : List BaseTool) : Option BaseTool :=
  tools.foldl (fun found tool => if name = tool.name then some tool else found) none

/-- The map of a registry points, for every name, to the last listed tool of
that name. -/
def map_is_last (tc : ToolCollection) : Prop :=
  ∀ name, map_find name tc.tools_map = last_named name tc.tools

/-! ## Vector store search (src/memory/vector_store/hnswlib.cpp) -/

/-- `struct MemoryItem` (src/include/schema.h). The `float` score is a
rational: scores are only stored and compared, and NaN does not occur as a
distance of finite vectors. -/
structure MemoryItem where
  id : Nat
  memory : Str
  hash : Str
  created_at : Int
  updated_at : Int
  score : ℚ
  deriving DecidableEq

/-- `operator<` of `std::pair<float, labeltype>`, the order of the priority
queue `searchKnn` returns. -/
def pair_lt (a b : ℚ × Nat) : Bool :=
  decide (a.1 < b.1) || (!decide (b.1 < a.1) && decide (a.2 < b.2))

/-- `results.top()` of the `std::priority_queue<std::pair<dist_t, labeltype>>`
that `searchKnn` of hnswlib returns (default comparison): a greatest element.
The queue is given by its elements. -/
def pq_top : List (ℚ × Nat) → Option (ℚ × Nat)
  | [] => none
  | x :: xs => some (xs.foldl (fun m y => if pair_lt m y then y else m) x)

/-- `cache_map.find(id)` and `*cache_map[id]`. -/
def cache_find (id : Nat) : List (Nat × MemoryItem) → Option MemoryItem
  | [] => none
  | (k, item) :: rest => if id = k then some item else cache_find id rest

/-- What `distance` and `id` give when they are read. The structured binding
`const auto& [distance, id] = results.top()` binds a reference to the front
slot of the vector under the queue, and both names are read only after
`results.pop()`. `pop` moves the top to the back, restores the heap and removes
the back: while the queue is not empty the front slot then holds the new top.
After the pop of the only entry the slot still holds the pair that was removed
(`pop_back` ends its lifetime and does not overwrite it). `top` is the pair
that was the top before the pop, `rest` the queue after it. -/
def slot_after_pop (top : ℚ × Nat) (rest : List (ℚ × Nat)) : ℚ × Nat :=
  match pq_top rest with
  | some next => next
  | none => top

/-- The loop `while (!results.empty())` of `HNSWLibVectorStore::search`: bind
the reference to the top, pop, and push the cached item for the `id` read
through the reference, with the `distance` read through it as score (see
`slot_after_pop`). The first argument bounds the iterations; `search` passes
the size of the queue. -/
def search_loop (cache_map : List (Nat × MemoryItem)) :
    Nat → List (ℚ × Nat) → List MemoryItem → List MemoryItem
  | 0, _, memory_items => memory_items
  | fuel + 1, results, memory_items =>
      match pq_top results with
      | none => memory_items
      | some top =>
          match cache_find (slot_after_pop top (results.erase top)).2 cache_map with
          | some item =>
              search_loop cache_map fuel (results.erase top)
                (memory_items ++
                  [{ item with score := (slot_after_pop top (results.erase top)).1 }])
          | none => search_loop cache_map fuel (results.erase top) memory_items

/-- `HNSWLibVectorStore::search`, given the queue `results` that
`hnsw->searchKnn(query, limit, filter)` returns. -/
def HNSWLibVectorStore.search (cache_map : List (Nat × MemoryItem))
    (results : List (ℚ × Nat)) : List MemoryItem :=
  search_loop cache_map results.length results []

/-- A cached item with the id `id`. -/
def cached_item (id : Nat) : MemoryItem :=
  { id := id, memory := lit "m", hash := [], created_at := 0, updated_at := 0, score := -1 }

/-- The line `run` appends when the step counter has reached the cap. -/
def cap_line (max_steps : Int) : Str :=
  lit "Terminated: Reached max steps (" ++ to_string_int max_steps ++ lit ")"

/-- The line `run` appends when the agent is not Finished after the loop. -/
def state_line (s : AgentState) : Str :=
  lit "Terminated: Agent state is " ++ agent_state_map s

/-- The lines `run` appends to `results` after the loop, for the agent `a` at
the exit of the loop. -/
def final_lines {M : Type} (a : ToolCallAgent M) : List Str :=
  (if a.current_step ≥ a.max_steps then [cap_line a.max_steps] else [])
    ++ (if a.state ≠ .FINISHED then [state_line a.state] else [])

/-- The report of `run` for the list `results`: every entry followed by a
newline, or `No steps executed` when that text is empty. -/
def render_report (results : List Str) : Str :=
  if (results.flatMap (fun result => result ++ lit "\n")).isEmpty then lit "No steps executed"
  else results.flatMap (fun result => result ++ lit "\n")

/-- The step counter and the cap are the same in `a` and `a'`. -/
def same_counters {M : Type} (a a' : ToolCallAgent M) : Prop :=
  a'.current_step = a.current_step ∧ a'.max_steps = a.max_steps

/-- The value a call returned. -/
def Res.value? {σ α : Type} : Res σ α → Option α
  | .ok _ a => some a
  | _ => none

/-- A line `Step k: ...` of the report. -/
def is_step_line (l : Str) : Prop :=
  ∃ (k : Int) (step_result : Str), l = lit "Step " ++ to_string_int k ++ lit ": " ++ step_result

/-- A sequence of `add_message` calls with the eviction batches
`messages_to_memory` of all calls, in order. -/
def Memory.add_all_evicted (tok : Tokenizer) (mem : Memory) :
    List (Str × Message) → Option (Memory × List Message)
  | [] => some (mem, [])
  | (req, m) :: rest =>
      match Memory.add_message tok { mem with current_request := req } m with
      | none => none
      | some r =>
          (Memory.add_all_evicted tok r.memory rest).map
            (fun p => (p.1, r.messages_to_memory ++ p.2))

/-- The calls user `u1`, assistant `a1`, user `u2`, assistant `a2`, with an
empty current request. -/
def calls_u1_a1_u2_a2 : List (Str × Message) :=
  [([], Message.user_message byte_tokenizer (.str (lit "u1"))),
   ([], Message.assistant_message byte_tokenizer (.str (lit "a1")) []),
   ([], Message.user_message byte_tokenizer (.str (lit "u2"))),
   ([], Message.assistant_message byte_tokenizer (.str (lit "a2")) [])]

/-- The user message `get_messages` builds from a retrieved memory. -/
def memory_message (tok : Tokenizer) (item : MemoryItem) : Message :=
  Message.user_message tok (.str (lit "<memory>" ++ item.memory ++ lit "</memory>"))

/-- The loop of `get_messages` over the sorted memories, with the running
`num_tokens_context` and the deque `memory_messages` (`push_front`); it stops
at the first memory that does not fit. -/
def memory_loop (tok : Tokenizer) (max_tokens_context : Int) :
    List MemoryItem → Int → List Message → List Message
  | [], _, memory_messages => memory_messages
  | memory_item :: rest, num_tokens_context, memory_messages =>
      if num_tokens_context + (memory_message tok memory_item).num_tokens
          > max_tokens_context then memory_messages
      else
        memory_loop tok max_tokens_context rest
          (num_tokens_context + (memory_message tok memory_item).num_tokens)
          (memory_message tok memory_item :: memory_messages)

/-- The `sort` call of `get_messages`: descending `updated_at`. `std::sort`
leaves the order of memories with equal `updated_at` open; the model keeps
their order. -/
def sort_by_updated_at (memories : List MemoryItem) : List MemoryItem :=
  memories.insertionSort (fun a b => b.updated_at ≤ a.updated_at)

/-- `Memory::get_messages(query)`. `retrieve query` is what the embedding of
the query and `vector_store->search(embeddings, retrieval_limit, filter)`
deliver (the empty list without a vector store), `none` when one of them
raises; then `get_messages` raises too (`none`). -/
def Memory.get_messages (tok : Tokenizer) (mem : Memory) (retrieval_enabled : Bool)
    (retrieve : Str → Option (List MemoryItem)) (query : Str) : Option (List Message) :=
  if retrieval_enabled = true ∧ query.isEmpty = false then
    match retrieve query with
    | none => none
    | some memories =>
        if memories.isEmpty = false then
          some (memory_loop tok mem.config.max_tokens_context (sort_by_updated_at memories)
            mem.num_tokens_messages [] ++ mem.messages)
        else some mem.messages
  else some mem.messages

/-- A configuration whose context limit of 5 tokens is below the size of one
message. -/
def cfg_small_context : MemoryConfig :=
  { max_messages := 3, max_tokens_message := 4096, max_tokens_messages := 100000,
    max_tokens_context := 5, retrieval_limit := 5 }

/-- A retrieval that finds one memory for every query. -/
def one_memory (_query : Str) : Option (List MemoryItem) :=
  some [{ id := 1, memory := lit "likes tea", hash := [], created_at := 0, updated_at := 0,
          score := 0 }]

/-- A memory whose window of one message already exceeds the context limit:
the state after one `add_message` with `cfg_small_context`. -/
def small_context_memory : Memory :=
  { config := cfg_small_context
    messages := [Message.user_message byte_tokenizer (.str (lit "hello"))]
    current_request := []
    num_tokens_messages := 15 }

/-- A memory with room in the context: the window after one message with the
generous limits of `cfg_max 3`. -/
def roomy_memory : Memory :=
  { config := cfg_max 3
    messages := [Message.user_message byte_tokenizer (.str (lit "hello"))]
    current_request := []
    num_tokens_messages := 15 }

/-- `isspace` in the C locale. -/
def is_space (b : Nat) : Bool := b = 32 || (9 ≤ b && b ≤ 13)

/-- `isdigit`. -/
def is_digit (b : Nat) : Bool := 48 ≤ b && b ≤ 57

/-- The value of a run of decimal digits. -/
def digits_value (digits : Str) : Nat := digits.foldl (fun acc b => acc * 10 + (b - 48)) 0

/-- `std::stoul(s)` with a 64-bit `unsigned long`: leading white space, an
optional sign, then decimal digits up to the first other byte. `none`: the
call raises (`invalid_argument` without a digit, `out_of_range` above
`ULONG_MAX`). A minus sign negates modulo 2^64, as `strtoul` does. -/
def stoul (s : Str) : Option Nat :=
  let s1 := s.dropWhile is_space
  let negative := s1.head? = some 45
  let s2 := if s1.head? = some 45 ∨ s1.head? = some 43 then s1.drop 1 else s1
  let digits := s2.takeWhile is_digit
  if digits.isEmpty then none
  else if digits_value digits ≥ 2 ^ 64 then none
  else some (if negative then (2 ^ 64 - digits_value digits) % 2 ^ 64 else digits_value digits)

/-- The JSON value `handle_read` returns, before `dump(2)`: the list of the
stores, one of the two fixed texts, a chunk with `next_cursor` and
`remaining_items` added, or a `ToolError`. -/
inductive ReadReply where
  | stores (available_stores : List (Str × Nat))
  | no_content
  | item (chunk : ContentPart) (next_cursor : Str) (remaining_items : Nat)
  | end_reached
  | error (text : Str)
  deriving DecidableEq

/-- `ContentProvider::handle_read`. `cursor = none` stands for a missing
`cursor` or one that is not a string. Result `none`: `std::stoul` raises
(`execute` turns that into a `ToolError`); the `none` after the range check
is never reached. -/
def ContentProvider.handle_read (cp : ContentProvider) (cursor : Option Str) :
    Option ReadReply :=
  match cursor with
  | none => some (.error (lit "`cursor` is required for read operations"))
  | some cursor =>
      if cursor = lit "start" then
        if cp.content_store_.isEmpty then some .no_content
        else some (.stores (cp.content_store_.map (fun e => (e.1, e.2.length))))
      else if cursor = lit "select_store" then
        some (.error (lit "Please provide a store_id as cursor in format `content_X:Y`"))
      else if 58 ∈ cursor then
        let store_id := cursor.takeWhile (fun b => b ≠ 58)
        match stoul ((cursor.dropWhile (fun b => b ≠ 58)).drop 1) with
        | none => none
        | some index =>
            match map_find store_id cp.content_store_ with
            | none => some (.error (lit "Store ID `" ++ store_id ++ lit "` not found"))
            | some content =>
                if index ≥ content.length then some (.error (lit "Index out of range"))
                else
                  match content.get? index with
                  | none => none
                  | some chunk =>
                      if index + 1 < content.length then
                        some (.item chunk (store_id ++ lit ":" ++ to_string (index + 1))
                          (content.length - index - 1))
                      else some (.item chunk (lit "end") 0)
      else if cursor = lit "end" then some .end_reached
      else some (.error (lit "Invalid cursor format"))

/-- Reading a store by following `next_cursor`, for at most the given number
of reads: the chunks returned, and whether `next_cursor` has become `end`. -/
def read_chain (cp : ContentProvider) : Nat → Str → List ContentPart × Bool
  | 0, _ => ([], false)
  | reads + 1, cursor =>
      match cp.handle_read (some cursor) with
      | some (.item chunk next_cursor _) =>
          if next_cursor = lit "end" then ([chunk], true)
          else (chunk :: (read_chain cp reads next_cursor).1, (read_chain cp reads next_cursor).2)
      | _ => ([], false)

/-- The store ids `handle_write` creates: `content_` and a number. -/
def store_ids_generated (cp : ContentProvider) : Prop :=
  ∀ e ∈ cp.content_store_, ∃ k : Nat, e.1 = lit "content_" ++ to_string k

/-- The next cursor after the chunk `index` of a store with `n` chunks. -/
def next_cursor_of (store_id : Str) (n index : Nat) : Str :=
  if index + 1 < n then store_id ++ lit ":" ++ to_string (index + 1) else lit "end"

/-- Whether a read ends in an error: `handle_read` returns a `ToolError`, or
`std::stoul` raises and `execute` returns the `ToolError` of the exception. -/
def read_is_error : Option ReadReply → Bool
  | none => true
  | some (.error _) => true
  | _ => false

/-- A content provider with one store of three chunks. -/
def cp_three_chunks : ContentProvider :=
  { content_store_ := [(lit "content_0", [.text (lit "a"), .text (lit "b"), .text (lit "c")])]
    MAX_STORE_ID := 100
    current_id_ := 1 }

/-- The plan after a successful `mark_step` of slot `i`: a non-empty status
and a non-empty note are written to slot `i`, nothing else changes. -/
def marked_plan (plan : Plan) (i : Nat) (step_status step_notes : Str) : Plan :=
  { plan with
    step_statuses :=
      if step_status.isEmpty then plan.step_statuses else plan.step_statuses.set i step_status
    step_notes :=
      if step_notes.isEmpty then plan.step_notes else plan.step_notes.set i step_notes }

/-- The arguments `mark_step` rejects for a plan: an index outside the steps,
or a non-empty status that is not one of the four. -/
def mark_step_rejected (plan : Plan) (step_index : Int) (step_status : Str) : Prop :=
  step_index < 0 ∨ (plan.steps.length : Int) ≤ step_index
    ∨ (step_status ≠ [] ∧ step_status ∉ valid_statuses)

/-- The create command for the plan `p1` with two steps. -/
def create_p1 : PlanningArgs :=
  { PlanningArgs.default with
    command := lit "create", plan_id := lit "p1", title := lit "Trip"
    steps := [lit "book", lit "pack"] }

/-- The plan table after `create_p1`. -/
def table_p1 : PlanningTool :=
  { plans := [(lit "p1",
      { plan_id := lit "p1", title := lit "Trip", steps := [lit "book", lit "pack"],
        step_statuses := [lit "not_started", lit "not_started"], step_notes := [[], []] })]
    _current_plan_id := lit "p1" }

/-- The bytes of `café au lait` in ISO 8859-1 (Latin-1): `é` is the single byte
`0xE9`, followed by a space. -/
def latin1_text : Str := [99, 97, 102, 0xE9, 32, 97, 117, 32, 108, 97, 105, 116]

/-- `Memory::clear`: an empty window is left alone; otherwise the window is
emptied (when `retrieval_enabled`, after its messages are handed to the fact
pipeline, which the model leaves out). No statement of `clear` assigns
`num_tokens_messages`. -/
def Memory.clear (mem : Memory) : Memory :=
  if mem.messages.isEmpty then mem else { mem with messages := [] }

/-- One call on a `Memory`: `add_message` (with the value of `current_request`
at that time) or `clear`. -/
inductive MemoryCall where
  | add_message (current_request : Str) (message : Message)
  | clear

/-- A sequence of `add_message` and `clear` calls; `none` when a call has
undefined behaviour. -/
def Memory.call_all (tok : Tokenizer) (mem : Memory) : List MemoryCall → Option Memory
  | [] => some mem
  | .add_message req m :: rest =>
      match Memory.add_message tok { mem with current_request := req } m with
      | none => none
      | some r => Memory.call_all tok r.memory rest
  | .clear :: rest => Memory.call_all tok mem.clear rest

/-- A configuration with room for one message and twenty tokens. -/
def cfg_tight : MemoryConfig :=
  { max_messages := 1, max_tokens_message := 4096, max_tokens_messages := 20,
    max_tokens_context := 100000, retrieval_limit := 5 }

/-- The call `mark_step` for step 0 of plan `p1` with a note and no
`step_status` key: `step_status` takes its default. -/
def note_p1 : PlanningArgs :=
  { PlanningArgs.default with
    command := lit "mark_step", plan_id := lit "p1", step_index := 0
    step_notes := lit "paid" }

/-- The call `mark_step` that completes step 0 of plan `p1`. -/
def complete_p1 : PlanningArgs :=
  { PlanningArgs.default with
    command := lit "mark_step", plan_id := lit "p1", step_index := 0
    step_status := lit "completed" }

/-- One element of the `content` array of an MCP `call_tool` response, as far
as the tools look at it: the string values of `type`, `data` and `mimeType`
(`none`: the key is absent or no string); `fields` stands for the other
members (for a text part, `text`). -/
structure McpPart where
  type : Str
  data : Option Str
  mimeType : Option Str
  fields : List (Str × Str)
  deriving DecidableEq, Repr

/-- One element of the content a tool surfaces: the response element as it
came, or the object `{"type":"image_url","image_url":{"url":url}}`. -/
inductive SurfacedPart where
  | passed (p : McpPart)
  | image_url (url : Str)
  deriving DecidableEq, Repr

/-- The value of `type` of a surfaced element. -/
def SurfacedPart.type : SurfacedPart → Str
  | .passed p => p.type
  | .image_url _ => lit "image_url"

/-- A `call_tool` response: the `content` array (`none`: the key is absent)
and `isError` (absent reads as `false`). -/
structure McpResponse where
  content : Option (List McpPart)
  isError : Bool
  deriving DecidableEq, Repr

/-- The `ToolResult` of an MCP-backed tool: `ToolResult(content)`,
`ToolError(content)` or `ToolError(e.what())`. -/
inductive McpToolResult where
  | output (content : List SurfacedPart)
  | error (content : List SurfacedPart)
  | error_text (what : Str)
  deriving DecidableEq, Repr

/-- The content parts a result carries to the agent. -/
def McpToolResult.parts : McpToolResult → List SurfacedPart
  | .output content => content
  | .error content => content
  | .error_text _ => []

/-- The tail of every MCP `execute`: `ToolError(result.value("content",
json::array()))` when `isError`, else `ToolResult(...)` of the same value. -/
def surface (content : Option (List SurfacedPart)) (is_error : Bool) : McpToolResult :=
  if is_error then .error (content.getD []) else .output (content.getD [])

/-- `BaseMCPTool::execute`, the `execute` of every tool that `add_mcp_tools`
registers (`std::make_shared<BaseMCPTool>(...)`), of `PythonExecute` and of
`Filesystem` after its command check. `response = none`: `call_tool` raises
(`what` is the text of the exception). The `content` of the response goes into
the result as it is. -/
def BaseMCPTool.execute (what : Str) (response : Option McpResponse) : McpToolResult :=
  match response with
  | none => .error_text what
  | some result => surface (result.content.map (fun ps => ps.map SurfacedPart.passed))
      result.isError

/-- The loop over `result["content"]` in `Puppeteer::execute` and
`Playwright::execute`: an element of type `image` is replaced by the
`image_url` object with the data URL, `mimeType` defaulting to `image/png`;
`none`: `data` is no string and `get<std::string>()` raises. -/
def rewrite_images : List McpPart → Option (List SurfacedPart)
  | [] => some []
  | p :: rest =>
      if p.type = lit "image" then
        match p.data with
        | none => none
        | some data =>
            (rewrite_images rest).map (fun r =>
              .image_url (lit "data:" ++ p.mimeType.getD (lit "image/png") ++ lit ";base64," ++ data)
                :: r)
      else (rewrite_images rest).map (fun r => .passed p :: r)

/-- `Puppeteer::execute` and `Playwright::execute` after the command check.
`type_error` is the text of the JSON exception. A response without `content`
surfaces the `null` that `result["content"]` inserted; it has no parts, like
the empty array. -/
def Puppeteer.execute (what type_error : Str) (response : Option McpResponse) : McpToolResult :=
  match response with
  | none => .error_text what
  | some result =>
      match result.content with
      | none => surface none result.isError
      | some ps =>
          match rewrite_images ps with
          | none => .error_text type_error
          | some content => surface (some content) result.isError

/-- A response with one text part and one PNG image. -/
def screenshot_response : McpResponse :=
  { content := some
      [{ type := lit "text", data := none, mimeType := none, fields := [(lit "text", lit "done")] },
       { type := lit "image", data := some (lit "iVBORw0KGgo="), mimeType := some (lit "image/png"),
         fields := [] }]
    isError := false }

/-- `m[key] = value` on a `std::unordered_map`, kept as an association list
with one entry per key. -/
def umap_set {K V : Type} [DecidableEq K] (key : K) (value : V) : List (K × V) → List (K × V)
  | [] => [(key, value)]
  | (k, v) :: rest =>
      if k = key then (key, value) :: rest else (k, v) :: umap_set key value rest

/-- `m.find(key)` on a `std::unordered_map`; `m.count(key)` is `isSome` of it. -/
def umap_find {K V : Type} [DecidableEq K] (key : K) : List (K × V) → Option V
  | [] => none
  | (k, v) :: rest => if k = key then some v else umap_find key rest

/-- The three maps of a `BPETokenizer`. -/
structure BPETokenizer where
  encoder : List (Str × Nat)
  decoder : List (Nat × Str)
  merge_ranks : List ((Str × Str) × Nat)
  deriving DecidableEq, Repr

/-- The inner loop of `build_merge_ranks` for one vocabulary entry, over the
split points `i = 1, ..., token.length() - 1`. -/
def split_points (encoder : List (Str × Nat)) (token : Str) (id : Nat)
    (ranks : List ((Str × Str) × Nat)) : List ((Str × Str) × Nat) :=
  (List.range (token.length - 1)).foldl (fun ranks k =>
    let first := token.take (k + 1)
    let second := token.drop (k + 1)
    if (umap_find first encoder).isSome ∧ (umap_find second encoder).isSome then
      umap_set (first, second) id ranks
    else ranks) ranks

/-- `build_merge_ranks`: the loop over the entries of `encoder` (in the order
of the association list; every pair is assigned once, by the entry of its
concatenation, so the order does not show in the map). -/
def build_merge_ranks (encoder : List (Str × Nat)) : List ((Str × Str) × Nat) :=
  encoder.foldl (fun ranks e =>
    if e.1.length ≤ 1 then ranks else split_points encoder e.1 e.2 ranks) []

/-- The constructor of `BPETokenizer` on the lines of the vocabulary file that
parse as a token and an id: `encoder[token] = rank; decoder[rank] = token;`
line by line, then `build_merge_ranks()`. -/
def BPETokenizer.of_lines (lines : List (Str × Nat)) : BPETokenizer :=
  let maps := lines.foldl (fun (m : List (Str × Nat) × List (Nat × Str)) l =>
    (umap_set l.1 l.2 m.1, umap_set l.2 l.1 m.2)) ([], [])
  { encoder := maps.1, decoder := maps.2, merge_ranks := build_merge_ranks maps.1 }

/-- A merge candidate of `encode`: the token pair and its position. -/
abbrev MergePair := (Str × Str) × Nat

/-- The rank `MergeComparator` reads for a candidate:
`ranks.count(a.first) ? ranks.at(a.first) : numeric_limits<size_t>::max()`. -/
def merge_rank (ranks : List ((Str × Str) × Nat)) (c : MergePair) : Nat :=
  (umap_find c.1 ranks).getD (2 ^ 64 - 1)

/-- The `for` loop of `encode` that pushes the candidates: for every position
`i` (counted from `i0`) whose pair of adjacent tokens is in `merge_ranks`. -/
def merge_candidates (ranks : List ((Str × Str) × Nat)) : List Str → Nat → List MergePair
  | a :: b :: rest, i =>
      if (umap_find (a, b) ranks).isSome then
        ((a, b), i) :: merge_candidates ranks (b :: rest) (i + 1)
      else merge_candidates ranks (b :: rest) (i + 1)
  | _, _ => []

/-- `merge_candidates.top()`: a candidate of the smallest rank. The comparator
looks at the rank only, so among several candidates of the smallest rank the
order inside the heap decides; `tie` stands for that choice (it sees all
pushes and picks one of the candidates of the smallest rank by its number). -/
def top_merge (ranks : List ((Str × Str) × Nat)) (tie : List MergePair → Nat)
    (cs : List MergePair) : Option MergePair :=
  let best := cs.filter (fun c => cs.all (fun d => decide (merge_rank ranks c ≤ merge_rank ranks d)))
  best.get? (tie cs % best.length)

/-- `tokens[pos] = merged_token; tokens.erase(tokens.begin() + pos + 1);`. -/
def merge_at (tokens : List Str) (pos : Nat) (merged_token : Str) : List Str :=
  tokens.take pos ++ merged_token :: tokens.drop (pos + 2)

/-- The `while (tokens.size() > 1)` loop of `encode`, for at most `fuel`
merges; `none` when the loop has not exited by then. -/
def BPETokenizer.merge_loop (t : BPETokenizer) (tie : List MergePair → Nat) :
    Nat → List Str → Option (List Str)
  | fuel, tokens =>
      if tokens.length > 1 then
        match top_merge t.merge_ranks tie (merge_candidates t.merge_ranks tokens 0) with
        | none => some tokens
        | some top =>
            match fuel with
            | 0 => none
            | fuel + 1 =>
                BPETokenizer.merge_loop t tie fuel (merge_at tokens top.2 (top.1.1 ++ top.1.2))
      else some tokens

/-- `BPETokenizer::encode`: single-byte tokens, the merge loop, then the ids
of the tokens found in `encoder` (the others are skipped). -/
def BPETokenizer.encode (t : BPETokenizer) (tie : List MergePair → Nat) (text : Str) :
    Option (List Nat) :=
  if text.isEmpty then some []
  else
    (t.merge_loop tie text.length (text.map (fun c => [c]))).map
      (fun tokens => tokens.filterMap (fun token => umap_find token t.encoder))

/-- `BPETokenizer::decode`: the concatenation of the tokens of the ids found
in `decoder` (the others are skipped). -/
def BPETokenizer.decode (t : BPETokenizer) (tokens : List Nat) : Str :=
  (tokens.filterMap (fun id => umap_find id t.decoder)).flatten

/-- A vocabulary with the 256 single bytes (ids 0 to 255) and the tokens
`ab`, `abc`, `aa`, `bc`. -/
def demo_vocab : List (Str × Nat) :=
  (List.range 256).map (fun b => ([b], b))
    ++ [(lit "ab", 256), (lit "abc", 257), (lit "aa", 258), (lit "bc", 259)]

/-- Whether `s` begins with `pat` (the comparison `std::string::find` makes at
one position). -/
def starts_with : Str → Str → Bool
  | [], _ => true
  | _ :: _, [] => false
  | p :: ps, c :: cs => decide (p = c) && starts_with ps cs

/-- The search of `std::string::find` through `s`, whose first byte has the
index `i`: the first position at which `pat` begins. -/
def find_at (pat : Str) : Str → Nat → Option Nat
  | [], i => if starts_with pat [] then some i else none
  | c :: cs, i => if starts_with pat (c :: cs) then some i else find_at pat cs (i + 1)

/-- `s.find(pat, pos)`; `none` is `std::string::npos`. -/
def str_find (s pat : Str) (pos : Nat) : Option Nat :=
  if pos > s.length then none else find_at pat (s.drop pos) pos

/-- The lambda `trim` of `ToolParser::parse`: `start` is the first byte that
is no space, `end` lies behind the last byte that is no space, and the result
is empty when `start >= end`. -/
def trim (str : Str) : Str :=
  let start := (str.takeWhile is_space).length
  let stop := str.length - (str.reverse.takeWhile is_space).length
  if start ≥ stop then [] else (str.take stop).drop start

/-- An element of `tool_calls` as `parse` builds it: `type` and the parsed
`function`. The `id`, `call_` followed by the clock reading, is left out. -/
structure ParsedCall (J : Type) where
  type : Str
  function : J
  deriving DecidableEq, Repr

/-- What `parse` ends with: the returned object `{content, tool_calls}`, or
the `std::runtime_error` with its text. -/
inductive ParseResult (J : Type) where
  | returned (content : Str) (tool_calls : List (ParsedCall J))
  | raised (what : Str)
  deriving DecidableEq, Repr

/-- The `while (pos_start != std::string::npos)` loop of `ToolParser::parse`
for at most `fuel` iterations (`none`: not exited by then). `json_parse` is
`json::parse` (`none`: it raises `json::exception`). `pos_end` is computed at
the head of the iteration, from the same `new_content` and `pos_start` as in
the source. -/
def ToolParser.parse_loop {J : Type} (json_parse : Str → Option J) (tool_start tool_end : Str) :
    Nat → Str → Option Nat → List (ParsedCall J) → Option (ParseResult J)
  | _, new_content, none, tool_calls => some (.returned new_content tool_calls)
  | 0, _, some _, _ => none
  | fuel + 1, new_content, some pos_start, tool_calls =>
      let pos_end := (str_find new_content tool_end (pos_start + tool_start.length)).getD
        new_content.length
      let tool_content := substr new_content (pos_start + tool_start.length)
        (pos_end - pos_start - tool_start.length)
      let pushed : Option (List (ParsedCall J)) :=
        if tool_content.isEmpty then some tool_calls
        else (json_parse tool_content).map
          (fun f => tool_calls ++ [{ type := lit "function", function := f }])
      match pushed with
      | none => some (.raised (lit "Invalid tool call: " ++ tool_content))
      | some tool_calls' =>
          let lhs := trim (new_content.take pos_start)
          let rhs := trim (new_content.drop (min (pos_end + tool_end.length) new_content.length))
          let new_content' := lhs ++ rhs
          ToolParser.parse_loop json_parse tool_start tool_end fuel new_content'
            (str_find new_content' tool_start pos_start) tool_calls'

/-- `ToolParser::parse`. Every iteration removes at least the bytes of one
`tool_start`, so `content.size() + 1` iterations are enough fuel when
`tool_start` is not empty. -/
def ToolParser.parse {J : Type} (json_parse : Str → Option J) (tool_start tool_end : Str)
    (content : Str) : Option (ParseResult J) :=
  ToolParser.parse_loop json_parse tool_start tool_end (content.length + 1) content
    (str_find content tool_start 0) []

/-- A stand-in for `json::parse` on the texts of the examples: it accepts the
texts of the form `{...}` and gives the text itself. It agrees with
`json::parse` on the bodies of the examples: `{"name":"a"}`, `{"name":"b"}`
and `{"name":"c"}` are accepted, `oops` and `{"name":"b"}</tool_call>` are
rejected. -/
def braces_parse (s : Str) : Option Str :=
  if s.head? = some 123 ∧ s.getLast? = some 125 then some s else none

/-- The entries for a list of block bodies: an empty body gives no entry,
every other body the entry with its parsed text; `none` from the first body
on that `json_parse` rejects, with that body. -/
def parse_bodies {J : Type} (json_parse : Str → Option J) :
    List Str → List (ParsedCall J) → Sum Str (List (ParsedCall J))
  | [], tool_calls => .inr tool_calls
  | body :: rest, tool_calls =>
      if body.isEmpty then parse_bodies json_parse rest tool_calls
      else
        match json_parse body with
        | none => .inl body
        | some f =>
            parse_bodies json_parse rest (tool_calls ++ [{ type := lit "function", function := f }])

/-- The finish of `parse` for the entries of the bodies. -/
def parse_outcome {J : Type} (content : Str) : Sum Str (List (ParsedCall J)) → ParseResult J
  | .inl body => .raised (lit "Invalid tool call: " ++ body)
  | .inr tool_calls => .returned content tool_calls

/-- `str` without the spaces in front of its first byte that is no space. -/
def lstrip (str : Str) : Str := str.dropWhile is_space

/-- `str` without the spaces behind its last byte that is no space. -/
def rstrip (str : Str) : Str := (str.reverse.dropWhile is_space).reverse

/-- The blocks of a content behind its first `tool_start`, read from left to
right as `parse` finds them. `open_end body`: no `tool_end` follows, the block
runs to the end of the content. `closed_end body last`: the block is closed by
`tool_end` and `last` is the text behind it, in which no further block
begins. `closed_next body gap rest`: the block is closed, `gap` is the text up
to the next `tool_start`, and `rest` are the blocks from there on. -/
inductive Blocks where
  | open_end (body : Str)
  | closed_end (body last : Str)
  | closed_next (body gap : Str) (rest : Blocks)
  deriving DecidableEq, Repr

/-- The text of the blocks, behind the first `tool_start`. -/
def Blocks.text (tool_start tool_end : Str) : Blocks → Str
  | .open_end body => body
  | .closed_end body last => body ++ (tool_end ++ last)
  | .closed_next body gap rest =>
      body ++ (tool_end ++ (gap ++ (tool_start ++ rest.text tool_start tool_end)))

/-- The number of blocks. -/
def Blocks.size : Blocks → Nat
  | .open_end _ => 1
  | .closed_end _ _ => 1
  | .closed_next _ _ rest => rest.size + 1

/-- The blocks with the trailing spaces of the content removed. -/
def Blocks.rstrip : Blocks → Blocks
  | .open_end body => .open_end (Humanus.rstrip body)
  | .closed_end body last => .closed_end body (Humanus.rstrip last)
  | .closed_next body gap rest => .closed_next body gap rest.rstrip

/-- The bodies of the blocks. -/
def Blocks.bodies : Blocks → List Str
  | .open_end body => [body]
  | .closed_end body _ => [body]
  | .closed_next body _ rest => body :: rest.bodies

/-- The bodies as `parse` reads them: behind the first block the content has
been trimmed, so the body of a block without `tool_end` that is not the first
block has lost its trailing spaces. -/
def Blocks.found_bodies : Blocks → List Str
  | .closed_next body _ rest => body :: rest.rstrip.bodies
  | blocks => blocks.bodies

/-- The texts outside the blocks, behind the first block: the gaps and the
text behind the last block. -/
def Blocks.texts : Blocks → List Str
  | .open_end _ => []
  | .closed_end _ last => [last]
  | .closed_next _ gap rest => gap :: rest.texts

/-- Trimming the content does not reach into the last `tool_start`: when the
last block has no `tool_end`, `tool_start` ends with a byte that is no space
or the body of that block holds such a byte. Otherwise trimming cuts that
`tool_start`, and what stands behind the block in front of it is text behind
the last block (`closed_end`). -/
def Blocks.ends_tight (tool_start : Str) : Blocks → Prop
  | .open_end body =>
      tool_start.getLast?.map is_space = some false ∨ ∃ c ∈ body, is_space c = false
  | .closed_end _ _ => True
  | .closed_next _ _ rest => rest.ends_tight tool_start

/-- The blocks are the blocks of the text, read from left to right: in a
closed block `tool_end` occurs first at the end of the body, in a block
without `tool_end` it does not occur, in a gap `tool_start` occurs first at
its end, and in the trimmed text behind the last block it does not occur.
Behind a closed block the last `tool_start` is not cut by trimming
(`ends_tight`). -/
def Blocks.well_formed (tool_start tool_end : Str) : Blocks → Prop
  | .open_end body => find_at tool_end body 0 = none
  | .closed_end body last =>
      find_at tool_end (body ++ tool_end) 0 = some body.length
        ∧ find_at tool_start (trim last) 0 = none
  | .closed_next body gap rest =>
      find_at tool_end (body ++ tool_end) 0 = some body.length
        ∧ find_at tool_start (gap ++ tool_start) 0 = some gap.length
        ∧ rest.ends_tight tool_start
        ∧ rest.well_formed tool_start tool_end

/-- The search for the next block starts at the position of the block just
removed, in a content whose text in front has been trimmed. `reached front`
says that no block is skipped by this: at every block that is followed by
another one, trimming shortens the text `front` in front of it by no more
bytes than the gap behind it has without its leading spaces. The text in
front of the next block is then the trimmed `front` and that gap. -/
def Blocks.reached : Str → Blocks → Prop
  | _, .open_end _ => True
  | _, .closed_end _ _ => True
  | front, .closed_next _ gap rest =>
      front.length - (trim front).length ≤ (lstrip gap).length
        ∧ rest.reached (trim front ++ lstrip gap)

instance Blocks.decidable_ends_tight (tool_start : Str) :
    (blocks : Blocks) → Decidable (blocks.ends_tight tool_start)
  | .open_end body =>
      inferInstanceAs (Decidable (tool_start.getLast?.map is_space = some false
        ∨ ∃ c ∈ body, is_space c = false))
  | .closed_end _ _ => inferInstanceAs (Decidable True)
  | .closed_next _ _ rest => Blocks.decidable_ends_tight tool_start rest

instance Blocks.decidable_well_formed (tool_start tool_end : Str) :
    (blocks : Blocks) → Decidable (blocks.well_formed tool_start tool_end)
  | .open_end body => inferInstanceAs (Decidable (find_at tool_end body 0 = none))
  | .closed_end body last =>
      inferInstanceAs (Decidable (find_at tool_end (body ++ tool_end) 0 = some body.length
        ∧ find_at tool_start (trim last) 0 = none))
  | .closed_next body gap rest =>
      have := Blocks.decidable_well_formed tool_start tool_end rest
      inferInstanceAs (Decidable (find_at tool_end (body ++ tool_end) 0 = some body.length
        ∧ find_at tool_start (gap ++ tool_start) 0 = some gap.length
        ∧ rest.ends_tight tool_start
        ∧ rest.well_formed tool_start tool_end))

instance Blocks.decidable_reached : (front : Str) → (blocks : Blocks) →
    Decidable (blocks.reached front)
  | _, .open_end _ => inferInstanceAs (Decidable True)
  | _, .closed_end _ _ => inferInstanceAs (Decidable True)
  | front, .closed_next _ gap rest =>
      have := Blocks.decidable_reached (trim front ++ lstrip gap) rest
      inferInstanceAs (Decidable (front.length - (trim front).length ≤ (lstrip gap).length
        ∧ rest.reached (trim front ++ lstrip gap)))

/-- The blocks of `text`, the text behind a `tool_start`, read from left to
right: the body runs to the first `tool_end` (to the end of the text when
there is none), the gap behind it to the next `tool_start`, and so on. A last
`tool_start` that trimming the end of the content cuts opens no block
(`ends_tight`). The first argument bounds the number of blocks. -/
def blocks_of (tool_start tool_end : Str) : Nat → Str → Blocks
  | 0, text => .open_end text
  | fuel + 1, text =>
      match find_at tool_end text 0 with
      | none => .open_end text
      | some e =>
          match find_at tool_start (text.drop (e + tool_end.length)) 0 with
          | none => .closed_end (text.take e) (text.drop (e + tool_end.length))
          | some q =>
              if (blocks_of tool_start tool_end fuel
                  ((text.drop (e + tool_end.length)).drop (q + tool_start.length))).ends_tight
                    tool_start then
                .closed_next (text.take e) ((text.drop (e + tool_end.length)).take q)
                  (blocks_of tool_start tool_end fuel
                    ((text.drop (e + tool_end.length)).drop (q + tool_start.length)))
              else .closed_end (text.take e) (text.drop (e + tool_end.length))

/-- The calls of `BaseMemory` that the flow adds to those of the agent:
`get_messages(query)` (`none`: it raises) and `clear()` (the new state and
whether the call raised; `none` is undefined behaviour). -/
structure FlowMemoryOps (M : Type) extends MemoryOps M where
  query : M → Str → Option (List Message)
  clear : M → Option (M × Bool)

/-- `struct BaseMemory`: the deque of messages and `current_request`. -/
structure BaseMemory where
  messages : List Message
  current_request : Str
  deriving DecidableEq, Repr

/-- The member functions of `BaseMemory` itself: `add_message` is
`push_back`, `get_messages` copies the deque, `clear` empties it. -/
def BaseMemory.ops : FlowMemoryOps BaseMemory :=
  { add_message := fun m message => some ({ m with messages := m.messages ++ [message] }, false)
    get_messages := fun m => m.messages
    set_current_request := fun m request => { m with current_request := request }
    query := fun m _ => some m.messages
    clear := fun m => some ({ m with messages := [] }, false) }

/-- `Memory` behind the calls of the flow. `clear` hands a non-empty window to
the fact pipeline first when `retrieval_enabled`; when that raises the window
is not emptied. -/
def Memory.flow_ops (tok : Tokenizer) (retrieval_enabled : Bool)
    (pipeline_raises : List Message → Bool) (retrieve : Str → Option (List MemoryItem)) :
    FlowMemoryOps Memory :=
  { add_message := (Memory.ops tok retrieval_enabled pipeline_raises).add_message
    get_messages := (Memory.ops tok retrieval_enabled pipeline_raises).get_messages
    set_current_request := (Memory.ops tok retrieval_enabled pipeline_raises).set_current_request
    query := fun mem q => Memory.get_messages tok mem retrieval_enabled retrieve q
    clear := fun mem =>
      if mem.messages.isEmpty then some (mem, false)
      else if retrieval_enabled && pipeline_raises mem.messages then some (mem, true)
      else some (mem.clear, false) }

/-- What `llm->ask_tool` and the reading of its reply deliver to
`_create_initial_plan`: an exception (the request fails, the `tool_calls` are
malformed, or the parsed arguments are no object, so that `args["plan_id"]`
raises), no tool call whose arguments parse, or the arguments of the first
tool call whose arguments parse, as `PlanningTool::execute` reads them
(`none`: a member has the wrong JSON type). -/
inductive PlanReply where
  | raises
  | no_call
  | call (args : Option PlanningArgs)
  deriving DecidableEq, Repr

/-- The collaborators of a flow. `run k` is the virtual `run` of the agent
object `k`; `ask n` is the reply to the `n`-th `llm->ask` of the flow (`none`:
it raises); `ask_tool` is the reply to the plan request; `plan_id n` is the
`n`-th plan id drawn from the clock; `rendered` is the plan text that
`_format_plan` writes behind the header of a planning-tool result (the model of
the planning tool leaves it out) and `dump` is `json::dump(2)` of a string. -/
structure FlowEnv (M : Type) where
  tok : Tokenizer
  ops : FlowMemoryOps M
  run : Nat → ToolCallAgent M → Str → Res (ToolCallAgent M) Str
  ask : Nat → List Message → Option Str
  ask_tool : Str → PlanReply
  plan_id : Nat → Str
  rendered : PlanningTool → Str → Str
  dump : Str → Str

/-- `struct PlanningFlow`. The map `agents` holds shared pointers: `pool` are
the agent objects and the map gives the position of an object in it, so that
two keys can name one object. The last three fields are ghost fields: the
number of `llm->ask` calls, the number of plan ids drawn, and for every
`executor->run` of `_execute_step` the step index with the object that ran. -/
structure PlanningFlow (M : Type) where
  agents : List (Str × Nat)
  pool : List (ToolCallAgent M)
  primary_agent_key : Str
  planning_tool : PlanningTool
  active_plan_id : Str
  current_step_index : Int
  llm_calls : Nat
  plan_ids : Nat
  step_runs : List (Int × Nat)

/-- What `execute` returns: the text `result`, `Failed to create plan for:
<input>`, or `Execution failed: <what>` from its `catch` (the text of the
exception is not modelled). -/
inductive FlowReturn where
  | result (text : Str)
  | failed_to_create_plan
  | execution_failed
  deriving DecidableEq, Repr

/-- A byte of `[A-Z_]`. -/
def is_tag_char (c : Nat) : Bool := (65 ≤ c && c ≤ 90) || c = 95

/-- The first match of the regular expression `\[([A-Z_]+)\]` in a step text,
as `std::regex_search` finds it: at the leftmost `[` that is followed by a
non-empty run of `[A-Z_]` and then `]`; the result is the run (`match[1]`). -/
def find_tag : Str → Option Str
  | [] => none
  | c :: rest =>
      if c = 91 ∧ (rest.takeWhile is_tag_char) ≠ []
          ∧ (rest.dropWhile is_tag_char).head? = some 93 then
        some (rest.takeWhile is_tag_char)
      else find_tag rest

/-- The loop of `_get_current_step_info` over the steps from index `i` on,
with the statuses from index `i` on: the first step whose status is
`not_started` or `in_progress` (a missing status counts as `not_started`). -/
def find_active_step : List Str → List Str → Nat → Option (Nat × Str)
  | [], _, _ => none
  | step :: steps, statuses, i =>
      if statuses.head?.getD (lit "not_started") = lit "not_started"
          ∨ statuses.head?.getD (lit "not_started") = lit "in_progress" then
        some (i, step)
      else find_active_step steps statuses.tail (i + 1)

/-- `get_executor`: the position of the agent registered under `step_type`
when that is not empty and a key of `agents`, else of `primary_agent()`
(`none`: `agents.at(primary_agent_key)` raises). -/
def PlanningFlow.get_executor {M : Type} (f : PlanningFlow M) (step_type : Str) : Option Nat :=
  if step_type.isEmpty = false ∧ (map_find step_type f.agents).isSome then
    map_find step_type f.agents
  else map_find f.primary_agent_key f.agents

/-- The arguments of a `mark_step` call of the flow. -/
def mark_args (plan_id : Str) (step_index : Int) (step_status : Str) : PlanningArgs :=
  { PlanningArgs.default with
    command := lit "mark_step", plan_id := plan_id, step_index := step_index
    step_status := step_status }

/-- `_get_current_step_info`: sets `current_step_index` and returns the value
of `step_info["type"]` (`none`: `step_info` is the empty object). The type is
the whole step text, replaced by the first bracketed tag when the step has
one. The step found is marked `in_progress` through the planning tool.
The result `none` is undefined behaviour inside the planning tool. -/
def PlanningFlow._get_current_step_info {M : Type} (f : PlanningFlow M) :
    Option (PlanningFlow M × Option Str) :=
  if f.active_plan_id.isEmpty then some ({ f with current_step_index := -1 }, none)
  else
    match map_find f.active_plan_id f.planning_tool.plans with
    | none => some ({ f with current_step_index := -1 }, none)
    | some plan_data =>
        match find_active_step plan_data.steps plan_data.step_statuses 0 with
        | none => some ({ f with current_step_index := -1 }, none)
        | some (i, step) =>
            match f.planning_tool.execute
                (some (mark_args f.active_plan_id i (lit "in_progress"))) with
            | none => none
            | some (t, _) =>
                some ({ f with planning_tool := t, current_step_index := i },
                  some ((find_tag step).getD step))

/-- `_get_plan_text`: the text of the result of the `get` command. -/
def PlanningFlow._get_plan_text {M : Type} (env : FlowEnv M) (f : PlanningFlow M) :
    Option Str :=
  (f.planning_tool.execute
    (some { PlanningArgs.default with command := lit "get", plan_id := f.active_plan_id })).map
    (fun r => r.2.to_string ++ env.rendered f.planning_tool f.active_plan_id)

/-- The prompt `_execute_step` builds. `step_info` never has the key `text`,
so the step is named `Step <index>`. -/
def step_prompt (plan_status : Str) (current_step_index : Int) : Str :=
  lit "\nCURRENT PLAN STATUS:\n" ++ plan_status ++ lit "\n\nYOUR CURRENT TASK:\n"
    ++ lit "You are now working on step " ++ to_string_int current_step_index ++ lit ": \""
    ++ (lit "Step " ++ to_string_int current_step_index) ++ lit "\"\n"
    ++ lit "Please execute this step using the appropriate tools. When you're done, provide a summary of what you accomplished and call `terminate` to trigger the next step."

/-- `_mark_step_completed`. -/
def PlanningFlow._mark_step_completed {M : Type} (f : PlanningFlow M) :
    Option (PlanningFlow M) :=
  if f.current_step_index < 0 then some f
  else
    (f.planning_tool.execute
      (some (mark_args f.active_plan_id f.current_step_index (lit "completed")))).map
      (fun r => { f with planning_tool := r.1 })

/-- `_execute_step` for the agent object `k`: the run is recorded in
`step_runs`; the step is marked completed when `run` returns and the agent is
not in state `ERR`; an exception of `run` is caught and the step stays as it
is (the text of the exception, which ends the returned string, is left
out). -/
def PlanningFlow._execute_step {M : Type} (env : FlowEnv M) (f : PlanningFlow M) (k : Nat) :
    Res (PlanningFlow M) Str :=
  match PlanningFlow._get_plan_text env f, f.pool.get? k with
  | some plan_text, some executor =>
      let f1 := { f with step_runs := f.step_runs ++ [(f.current_step_index, k)] }
      match env.run k executor (step_prompt (env.dump plan_text) f.current_step_index) with
      | .undefined => .undefined
      | .raised executor' =>
          .ok { f1 with pool := f1.pool.set k executor' }
            (lit "Error executing step " ++ to_string_int f.current_step_index ++ lit ": ")
      | .ok executor' step_result =>
          let f2 := { f1 with pool := f1.pool.set k executor' }
          if executor'.state ≠ .ERR then
            match f2._mark_step_completed with
            | none => .undefined
            | some f3 => .ok f3 step_result
          else .ok f2 step_result
  | _, _ => .undefined

/-- The system prompt of `_summarize_plan`. -/
def summary_system_prompt : Str :=
  lit "You are a planning assistant. Your task is to summarize the current plan."

/-- The next-step prompt of `_summarize_plan`. -/
def summary_next_step_prompt (plan_text : Str) : Str :=
  lit "Above is the nearest finished step in the plan. Here is the current plan status:\n\n"
    ++ plan_text ++ lit "\n\n"
    ++ lit "Please provide a summary of what was accomplished and any thoughts for next steps (when the plan is not fully finished)."

/-- `_summarize_plan`: the reply of `llm->ask`; when that raises, the result of
a run of the primary agent; when that raises too, `Error generating
summary.`. -/
def PlanningFlow._summarize_plan {M : Type} (env : FlowEnv M) (f : PlanningFlow M)
    (messages : List Message) : Res (PlanningFlow M) Str :=
  match PlanningFlow._get_plan_text env f with
  | none => .undefined
  | some plan_text =>
      let f1 := { f with llm_calls := f.llm_calls + 1 }
      match env.ask f.llm_calls messages with
      | some response => .ok f1 response
      | none =>
          match map_find f.primary_agent_key f.agents with
          | none => .ok f1 (lit "Error generating summary.")
          | some p =>
              match f1.pool.get? p with
              | none => .undefined
              | some agent =>
                  match env.run p agent
                      (summary_system_prompt ++ summary_next_step_prompt plan_text) with
                  | .undefined => .undefined
                  | .raised agent' =>
                      .ok { f1 with pool := f1.pool.set p agent' }
                        (lit "Error generating summary.")
                  | .ok agent' summary => .ok { f1 with pool := f1.pool.set p agent' } summary

/-- `BaseAgent::reset` without the memory: `current_step = 0; state = IDLE`
(the token counters of the LLM are not modelled). -/
def ToolCallAgent.reset_state {M : Type} (a : ToolCallAgent M) : ToolCallAgent M :=
  ({ a with current_step := 0 } : ToolCallAgent M).set_state .IDLE

/-- `BaseAgent::reset(reset_memory)`. -/
def ToolCallAgent.reset {M : Type} (ops : FlowMemoryOps M) (a : ToolCallAgent M)
    (reset_memory : Bool) : Option (ToolCallAgent M × Bool) :=
  if reset_memory then
    (ops.clear a.reset_state.memory).map (fun r => ({ a.reset_state with memory := r.1 }, r.2))
  else some (a.reset_state, false)

/-- The statements `executor->reset(false); executor->update_memory("assistant",
prefix_sum); if (!input.empty()) executor->update_memory("user", "Continue to
accomplish the task: " + input);` of `execute` on the agent object `k`. -/
def PlanningFlow.refactor_memory {M : Type} (env : FlowEnv M) (f : PlanningFlow M) (k : Nat)
    (prefix_sum input : Str) : Res (PlanningFlow M) Unit :=
  match f.pool.get? k with
  | none => .undefined
  | some executor =>
      match executor.reset_state.add_message env.ops.toMemoryOps
          (Message.assistant_message env.tok (.str prefix_sum) []) with
      | none => .undefined
      | some (a1, true) => .raised { f with pool := f.pool.set k a1 }
      | some (a1, false) =>
          if input.isEmpty = false then
            match a1.add_message env.ops.toMemoryOps
                (Message.user_message env.tok
                  (.str (lit "Continue to accomplish the task: " ++ input))) with
            | none => .undefined
            | some (a2, true) => .raised { f with pool := f.pool.set k a2 }
            | some (a2, false) => .ok { f with pool := f.pool.set k a2 } ()
          else .ok { f with pool := f.pool.set k a1 } ()

/-- The first part of the body of the `while (true)` loop of `execute`, up to
`_summarize_plan`: `none` as value is a `break`; otherwise the agent object
that ran the step, the heading `step_info.value("type", ...)` for `result`,
and the summary `prefix_sum`. -/
def PlanningFlow.run_step {M : Type} (env : FlowEnv M) (f : PlanningFlow M) :
    Res (PlanningFlow M) (Option (Nat × Str × Str)) :=
  match f._get_current_step_info with
  | none => .undefined
  | some (f1, step_info) =>
      if f1.current_step_index < 0 then .ok f1 none
      else
        match f1.get_executor (step_info.getD []) with
        | none => .raised f1
        | some k =>
            match f1._execute_step env k with
            | .undefined => .undefined
            | .raised f2 => .raised f2
            | .ok f2 step_result =>
                match f2.pool.get? k with
                | none => .undefined
                | some executor =>
                    if executor.state = .FINISHED ∨ executor.state = .ERR then .ok f2 none
                    else
                      match env.ops.query executor.memory step_result with
                      | none => .raised f2
                      | some messages =>
                          match f2._summarize_plan env messages with
                          | .undefined => .undefined
                          | .raised f3 => .raised f3
                          | .ok f3 prefix_sum =>
                              .ok f3 (some (k,
                                step_info.getD
                                  (lit "Step " ++ to_string_int f1.current_step_index),
                                prefix_sum))

/-- One pass through the body of the `while (true)` loop of `execute`: the
step, then the statements on the memory of the executor, then the new
`result`. `none` as value is a `break`. -/
def PlanningFlow.iteration {M : Type} (env : FlowEnv M) (input : Str) (f : PlanningFlow M)
    (result : Str) : Res (PlanningFlow M) (Option Str) :=
  match f.run_step env with
  | .undefined => .undefined
  | .raised f3 => .raised f3
  | .ok f3 none => .ok f3 none
  | .ok f3 (some (k, heading, prefix_sum)) =>
      match f3.refactor_memory env k prefix_sum input with
      | .undefined => .undefined
      | .raised f4 => .raised f4
      | .ok f4 _ =>
          .ok f4 (some (result ++ lit "##" ++ heading ++ lit ":\n" ++ prefix_sum ++ lit "\n\n"))

/-- The `while (true)` loop of `execute` for at most `fuel` passes
(`undefined` also when it has not exited by then). -/
def PlanningFlow.execute_loop {M : Type} (env : FlowEnv M) (input : Str) :
    Nat → PlanningFlow M → Str → Res (PlanningFlow M) Str
  | 0, _, _ => .undefined
  | fuel + 1, f, result =>
      match f.iteration env input result with
      | .undefined => .undefined
      | .raised f1 => .raised f1
      | .ok f1 none => .ok f1 result
      | .ok f1 (some result1) => PlanningFlow.execute_loop env input fuel f1 result1

/-- The loop of `PlanningFlow::reset` over the entries of `agents`. -/
def reset_agents {M : Type} (ops : FlowMemoryOps M) :
    List (Str × Nat) → List (ToolCallAgent M) → Res (List (ToolCallAgent M)) Unit
  | [], pool => .ok pool ()
  | (_, k) :: rest, pool =>
      match pool.get? k with
      | none => .undefined
      | some agent =>
          match agent.reset ops true with
          | none => .undefined
          | some (agent', true) => .raised (pool.set k agent')
          | some (agent', false) => reset_agents ops rest (pool.set k agent')

/-- `PlanningFlow::reset(true)`. -/
def PlanningFlow.reset {M : Type} (env : FlowEnv M) (f : PlanningFlow M) :
    Res (PlanningFlow M) Unit :=
  let f1 := { f with
    active_plan_id := env.plan_id f.plan_ids, plan_ids := f.plan_ids + 1
    current_step_index := -1 }
  match reset_agents env.ops f1.agents f1.pool with
  | .undefined => .undefined
  | .raised pool => .raised { f1 with pool := pool }
  | .ok pool _ => .ok { f1 with pool := pool } ()

/-- The title of the default plan: the request, cut to the bytes that
`validate_utf8` accepts of its first 50 and followed by `...` when it is
longer than 50 bytes. -/
def default_title (request : Str) : Str :=
  if request.length > 50 then
    request.take (validate_utf8 (request.take 50)) ++ lit "..."
  else request

/-- `_create_initial_plan`: the first tool call of the reply is executed with
`plan_id` set to the active id, whatever its command; without a tool call the
default plan with three steps is created. -/
def PlanningFlow._create_initial_plan {M : Type} (env : FlowEnv M) (f : PlanningFlow M)
    (request : Str) : Res (PlanningFlow M) Unit :=
  match env.ask_tool request with
  | .raises => .raised f
  | .call args =>
      match f.planning_tool.execute
          (args.map (fun a => { a with plan_id := f.active_plan_id })) with
      | none => .undefined
      | some (t, _) => .ok { f with planning_tool := t } ()
  | .no_call =>
      match f.planning_tool.execute
          (some { PlanningArgs.default with
            command := lit "create", plan_id := f.active_plan_id
            title := default_title request
            steps := [lit "Analyze request", lit "Execute task", lit "Verify results"] }) with
      | none => .undefined
      | some (t, _) => .ok { f with planning_tool := t } ()

/-- `PlanningFlow::execute`, with `fuel` passes for its loop. `none`:
undefined behaviour, or the loop has not exited. -/
def PlanningFlow.execute {M : Type} (env : FlowEnv M) (fuel : Nat) (f : PlanningFlow M)
    (input : Str) : Option (PlanningFlow M × FlowReturn) :=
  if (map_find f.primary_agent_key f.agents).isNone then some (f, .execution_failed)
  else
    let created : Res (PlanningFlow M) Bool :=
      if input.isEmpty = false then
        match f._create_initial_plan env input with
        | .undefined => .undefined
        | .raised f1 => .raised f1
        | .ok f1 _ => .ok f1 (map_find f1.active_plan_id f1.planning_tool.plans).isSome
      else .ok f true
    match created with
    | .undefined => none
    | .raised f1 => some (f1, .execution_failed)
    | .ok f1 false => some (f1, .failed_to_create_plan)
    | .ok f1 true =>
        match PlanningFlow.execute_loop env input fuel f1 [] with
        | .undefined => none
        | .raised f2 => some (f2, .execution_failed)
        | .ok f2 result =>
            match f2.reset env with
            | .undefined => none
            | .raised f3 => some (f3, .execution_failed)
            | .ok f3 _ => some (f3, .result result)

/-- A flow environment over `Memory` without long-term memory: every agent
runs as a tool-call agent whose LLM answers with the `terminate` call, the
flow's LLM answers `summary`, and the plan request is answered by `reply`. -/
def flow_env (reply : PlanReply) : FlowEnv Memory :=
  { tok := byte_tokenizer
    ops := Memory.flow_ops byte_tokenizer false (fun _ => false) (fun _ => none)
    run := fun _ a prompt => a.run (demo_env [terminate_call]) fifo_ops prompt
    ask := fun _ _ => some (lit "summary")
    ask_tool := fun _ => reply
    plan_id := fun n => lit "plan_" ++ to_string (n + 1)
    rendered := fun _ _ => []
    dump := fun s => s }

/-- A flow right after construction with the agent objects `pool`, registered
under the keys of `agents`, and the primary key `default`. -/
def demo_flow (agents : List (Str × Nat)) (pool : List (ToolCallAgent Memory)) :
    PlanningFlow Memory :=
  { agents := agents, pool := pool, primary_agent_key := lit "default"
    planning_tool := PlanningTool.init, active_plan_id := lit "plan_0"
    current_step_index := -1, llm_calls := 0, plan_ids := 0, step_runs := [] }

/-- A flow with one agent whose planning tool holds the plan `p1` (steps
`book`, `pack`) as the active plan. -/
def flow_p1 : PlanningFlow Memory :=
  { demo_flow [(lit "default", 0)] [demo_agent 16] with
    planning_tool := table_p1, active_plan_id := lit "p1" }

theorem sum_tokens_nil : sum_tokens [] = 0 := rfl

theorem sum_tokens_cons (m : Message) (ms : List Message) :
    sum_tokens (m :: ms) = m.num_tokens + sum_tokens ms := by
  simp [sum_tokens]

theorem sum_tokens_append (xs ys : List Message) :
    sum_tokens (xs ++ ys) = sum_tokens xs + sum_tokens ys := by
  simp [sum_tokens]

theorem to_size_t_le (i : Int) (h : 0 ≤ i) : (to_size_t i : Int) ≤ i := by
  unfold to_size_t
  norm_num
  omega

/-- With a counter that equals the token sum of the window and a non-negative
token limit, the eviction loop returns, keeps the counter equal to the sum,
and leaves a window within both limits. -/
theorem evict_loop_spec (max_messages max_tokens_messages : Int)
    (hT : 0 ≤ max_tokens_messages) (ms : List Message) :
    ∀ (n : Int) (out : List Message), n = (sum_tokens ms : Int) →
      ∃ ms' out', evict_loop max_messages max_tokens_messages ms n out
          = some (ms', (sum_tokens ms' : Int), out')
        ∧ ms'.length ≤ to_size_t max_messages
        ∧ (sum_tokens ms' : Int) ≤ max_tokens_messages := by
  induction ms with
  | nil =>
    intro n out hn
    subst hn
    refine ⟨[], out, ?_, ?_, ?_⟩
    · simp [evict_loop, sum_tokens_nil]; omega
    · simp
    · simpa [sum_tokens_nil] using hT
  | cons m ms ih =>
    intro n out hn
    by_cases hc : (m :: ms).length > to_size_t max_messages ∨ n > max_tokens_messages
    · obtain ⟨ms', out', h1, h2, h3⟩ := ih (n - m.num_tokens) (out ++ [m]) (by
        rw [hn, sum_tokens_cons]; push_cast; ring)
      refine ⟨ms', out', ?_, h2, h3⟩
      rw [evict_loop, if_pos hc]; exact h1
    · refine ⟨m :: ms, out, ?_, ?_, ?_⟩
      · rw [evict_loop, if_neg hc, hn]
      · push_neg at hc; exact hc.1
      · push_neg at hc; rw [← hn]; exact hc.2

/-- State invariant of `add_message` sequences: the counter equals the token
sum of the window and the window is `window_ok`. -/
theorem add_message_preserves (tok : Tokenizer) (mem : Memory) (message : Message)
    (hM : 0 ≤ mem.config.max_messages) (hT : 0 ≤ mem.config.max_tokens_messages)
    (hn : mem.num_tokens_messages = (sum_tokens mem.messages : Int))
    (hw : window_ok tok mem.config mem.messages) :
    ∃ r, Memory.add_message tok mem message = some r
      ∧ r.memory.config = mem.config
      ∧ r.memory.num_tokens_messages = (sum_tokens r.memory.messages : Int)
      ∧ window_ok tok mem.config r.memory.messages := by
  unfold Memory.add_message
  by_cases hrej : (message.num_tokens : Int) > mem.config.max_tokens_message
  · rw [if_pos hrej]
    exact ⟨_, rfl, rfl, hn, hw⟩
  · rw [if_neg hrej]
    obtain ⟨ms', out', h1, h2, h3⟩ := evict_loop_spec mem.config.max_messages
      mem.config.max_tokens_messages hT (mem.messages ++ [message])
      (mem.num_tokens_messages + message.num_tokens) []
      (by rw [hn, sum_tokens_append, sum_tokens_cons, sum_tokens_nil]; push_cast; ring)
    rw [h1]
    have hlen : (ms'.length : Int) ≤ mem.config.max_messages :=
      le_trans (by exact_mod_cast h2) (to_size_t_le _ hM)
    refine ⟨_, rfl, rfl, ?_, ?_⟩
    · cases ms' with
      | nil => simp [fix_head]
      | cons m ms =>
        simp only [fix_head]
        split_ifs
        · simp only [sum_tokens_cons]; push_cast; ring
        · simp only [sum_tokens_cons]; push_cast; ring
        · rfl
    · cases ms' with
      | nil => left; exact ⟨hlen, h3⟩
      | cons m ms =>
        simp only [fix_head]
        split_ifs
        · right; exact ⟨mem.current_request, m :: ms, rfl, hlen, h3⟩
        · left
          refine ⟨?_, ?_⟩
          · show (ms.length : Int) ≤ _
            simp only [List.length_cons] at hlen; push_cast at hlen; omega
          · show (sum_tokens ms : Int) ≤ _
            rw [sum_tokens_cons] at h3; push_cast at h3; omega
        · left; exact ⟨hlen, h3⟩

theorem add_all_invariant (tok : Tokenizer) (calls : List (Str × Message)) :
    ∀ mem : Memory, 0 ≤ mem.config.max_messages → 0 ≤ mem.config.max_tokens_messages →
      mem.num_tokens_messages = (sum_tokens mem.messages : Int) →
      window_ok tok mem.config mem.messages →
      ∃ mem', Memory.add_all tok mem calls = some mem'
        ∧ mem'.config = mem.config
        ∧ mem'.num_tokens_messages = (sum_tokens mem'.messages : Int)
        ∧ window_ok tok mem.config mem'.messages := by
  induction calls with
  | nil => intro mem _ _ hn hw; exact ⟨mem, rfl, rfl, hn, hw⟩
  | cons c rest ih =>
    intro mem hM hT hn hw
    obtain ⟨req, m⟩ := c
    obtain ⟨r, hr, hc, hn', hw'⟩ :=
      add_message_preserves tok { mem with current_request := req } m hM hT hn hw
    simp only [Memory.add_all, hr]
    have hc' : r.memory.config = mem.config := hc
    obtain ⟨mem', h1, h2, h3, h4⟩ := ih r.memory (hc' ▸ hM) (hc' ▸ hT) hn' (hc' ▸ hw')
    exact ⟨mem', h1, h2.trans hc', h3, hc' ▸ h4⟩

/-- For every Memory with `max_messages ≥ 1` and `max_tokens_messages ≥ 0` and
every sequence of `add_message` calls that starts from the empty window with
the counter at zero, every call returns, and after each call the window is
within both limits or it is such a window with the synthesized "Current
request" user message pushed in front of it: the limits are exceeded by at
most that one message. -/
theorem add_message_window_bounds (tok : Tokenizer) (cfg : MemoryConfig)
    (hM : 1 ≤ cfg.max_messages) (hT : 0 ≤ cfg.max_tokens_messages)
    (req0 : Str) (calls : List (Str × Message)) :
    ∃ mem, Memory.add_all tok (Memory.fresh cfg req0) calls = some mem
      ∧ window_ok tok cfg mem.messages := by
  obtain ⟨mem', h1, _, _, h4⟩ := add_all_invariant tok calls (Memory.fresh cfg req0)
    (by simp only [Memory.fresh]; omega) hT (by simp [Memory.fresh, sum_tokens_nil])
    (Or.inl ⟨by simp only [Memory.fresh, List.length_nil]; push_cast; omega,
      by simpa [Memory.fresh, sum_tokens_nil] using hT⟩)
  exact ⟨mem', h1, h4⟩

theorem add_message_window_bounds_witness :
    (1 : Int) ≤ (cfg_max 2).max_messages ∧ (0 : Int) ≤ (cfg_max 2).max_tokens_messages ∧
    ∃ mem, Memory.add_all byte_tokenizer (Memory.fresh (cfg_max 2) []) calls_user_tool_tool
        = some mem
      ∧ window_ok byte_tokenizer (cfg_max 2) mem.messages :=
  ⟨by decide, by decide,
    add_message_window_bounds byte_tokenizer (cfg_max 2) (by decide) (by decide) []
      calls_user_tool_tool⟩

theorem evict_loop_stay (max_messages max_tokens_messages : Int) (ms : List Message) (n : Int)
    (out : List Message) (h1 : ms.length ≤ to_size_t max_messages)
    (h2 : n ≤ max_tokens_messages) :
    evict_loop max_messages max_tokens_messages ms n out = some (ms, n, out) := by
  cases ms with
  | nil => rw [evict_loop, if_neg (by omega)]
  | cons m ms => rw [evict_loop, if_neg (by omega)]

theorem evict_loop_pop (max_messages max_tokens_messages : Int) (m : Message)
    (ms : List Message) (n : Int) (out : List Message)
    (h : (m :: ms).length > to_size_t max_messages) :
    evict_loop max_messages max_tokens_messages (m :: ms) n out
      = evict_loop max_messages max_tokens_messages ms (n - m.num_tokens) (out ++ [m]) := by
  rw [evict_loop, if_pos (Or.inl h)]

/-- C1 (code at the failing input). With `max_messages = 1`, for every value
the constructor leaves in the counter that has room for the message, one
`add_message` of an assistant message to the empty window is accepted and
leaves two messages in the window, the synthesized "Current request" message
and the assistant message: more than `max_messages`. When
`max_tokens_messages` is below the tokens of these two messages, the token sum
of the window exceeds `max_tokens_messages` as well. -/
theorem add_message_exceeds_limits (tok : Tokenizer) (cfg : MemoryConfig) (req : Str)
    (counter : Int) (m : Message)
    (hM : cfg.max_messages = 1)
    (hrole : m.role = lit "assistant")
    (hfit : (m.num_tokens : Int) ≤ cfg.max_tokens_message)
    (hroom : counter + m.num_tokens ≤ cfg.max_tokens_messages) :
    ∃ r, Memory.add_message tok (Memory.constructed cfg req counter) m = some r
      ∧ r.accepted = true
      ∧ r.memory.messages = [synthesized_message tok req, m]
      ∧ ¬ ((r.memory.messages.length : Int) ≤ cfg.max_messages)
      ∧ (cfg.max_tokens_messages < m.num_tokens + (synthesized_message tok req).num_tokens →
          ¬ ((sum_tokens r.memory.messages : Int) ≤ cfg.max_tokens_messages)) := by
  have hsz : to_size_t cfg.max_messages = 1 := by rw [hM]; rfl
  have hev : evict_loop cfg.max_messages cfg.max_tokens_messages [m]
      (counter + m.num_tokens) [] = some ([m], counter + m.num_tokens, []) :=
    evict_loop_stay _ _ _ _ _ (by rw [hsz]; simp) hroom
  have hadd : Memory.add_message tok (Memory.constructed cfg req counter) m
      = some { memory := { Memory.constructed cfg req counter with
                 messages := [synthesized_message tok req, m]
                 num_tokens_messages :=
                   counter + m.num_tokens + (synthesized_message tok req).num_tokens }
               accepted := true, messages_to_memory := [] } := by
    unfold Memory.add_message
    rw [if_neg (by simp only [Memory.constructed]; omega)]
    simp only [Memory.constructed, List.nil_append, hev, fix_head, hrole, if_true]
  refine ⟨_, hadd, rfl, rfl, ?_, ?_⟩
  · simp [hM]
  · intro h
    simp only [sum_tokens_cons, sum_tokens_nil]
    push_cast
    omega

/-- The empty window with the counter at zero and `max_tokens_messages = 16`, the
tokens of the assistant message `a`. -/
theorem add_message_exceeds_limits_witness :
    cfg_one.max_messages = 1
    ∧ (Message.assistant_message byte_tokenizer (.str (lit "a")) []).role = lit "assistant"
    ∧ ((Message.assistant_message byte_tokenizer (.str (lit "a")) []).num_tokens : Int)
        ≤ cfg_one.max_tokens_message
    ∧ (0 : Int) + (Message.assistant_message byte_tokenizer (.str (lit "a")) []).num_tokens
        ≤ cfg_one.max_tokens_messages
    ∧ ∃ r, Memory.add_message byte_tokenizer (Memory.constructed cfg_one [] 0)
          (Message.assistant_message byte_tokenizer (.str (lit "a")) []) = some r
      ∧ r.accepted = true
      ∧ r.memory.messages = [synthesized_message byte_tokenizer [],
          Message.assistant_message byte_tokenizer (.str (lit "a")) []]
      ∧ ¬ ((r.memory.messages.length : Int) ≤ cfg_one.max_messages)
      ∧ ¬ ((sum_tokens r.memory.messages : Int) ≤ cfg_one.max_tokens_messages) :=
  ⟨by decide, by decide, by decide, by decide,
    match add_message_exceeds_limits byte_tokenizer cfg_one [] 0
      (Message.assistant_message byte_tokenizer (.str (lit "a")) [])
      (by decide) (by decide) (by decide) (by decide) with
    | ⟨r, h1, h2, h3, h4, h5⟩ => ⟨r, h1, h2, h3, h4, h5 (by decide)⟩⟩

/-- C2 (code at the failing input). With `max_messages = 2`, after
`add_message` of a user message and two tool messages the window is the single
second tool message: its head has role `tool`. -/
theorem add_message_head_tool :
    (Memory.add_all byte_tokenizer (Memory.fresh (cfg_max 2) []) calls_user_tool_tool).map
        (fun mem => mem.messages.map (fun m => (m.role, m.content)))
      = some [(lit "tool", Json.str (lit "t2"))] := by
  decide

/-! ## Content provider: write and chunking -/

theorem map_find_map_set {V : Type} (key : Str) (value : V) (m : List (Str × V)) :
    map_find key (map_set key value m) = some value := by
  induction m with
  | nil => simp [map_set, map_find]
  | cons e rest ih =>
    obtain ⟨k, v⟩ := e
    simp only [map_set]
    split_ifs with h1 h2
    · simp [map_find]
    · simp [map_find]
    · simp [map_find, h1, ih]

/-- When the chunk loop has exited, the chunks are consecutive pieces of the
text: concatenated they give the text from the starting offset on. -/
theorem split_run_flatten (text : Str) (max_chunk_size : Int) (fuel : Nat) :
    ∀ offset, (split_run text max_chunk_size fuel offset).2 = true →
      (split_run text max_chunk_size fuel offset).1.flatten = text.drop offset := by
  induction fuel with
  | zero =>
    intro offset h
    simp only [split_run, decide_eq_true_eq] at h
    simp [split_run, List.drop_eq_nil_of_le h]
  | succ fuel ih =>
    intro offset h
    by_cases hlt : offset < text.length
    · simp only [split_run, if_pos hlt] at h ⊢
      rw [List.flatten_cons, ih _ h, substr, ← List.drop_drop, List.take_append_drop]
    · simp only [split_run, if_neg hlt]
      simp [List.drop_eq_nil_of_le (Nat.le_of_not_lt hlt)]

/-- A returned chunk list re-joins to the text. -/
theorem split_text_into_chunks_flatten (fuel : Nat) (text : Str) (max_chunk_size : Int)
    (chunks : List Str)
    (h : split_text_into_chunks fuel text max_chunk_size = some chunks) :
    chunks.flatten = text := by
  unfold split_text_into_chunks at h
  by_cases he : text.isEmpty = true
  · rw [if_pos he] at h
    have : chunks = [] := by simpa using h.symm
    subst this
    simpa using (List.isEmpty_iff.mp he).symm
  · rw [if_neg he] at h
    by_cases hd : (split_run text max_chunk_size fuel 0).2 = true
    · simp only [hd, if_true, Option.some.injEq] at h
      rw [← h, split_run_flatten text max_chunk_size fuel 0 hd, List.drop_zero]
    · simp [hd] at h

theorem joined_text_map_text (chunks : List Str) :
    joined_text (chunks.map ContentPart.text) = chunks.flatten := by
  induction chunks with
  | nil => rfl
  | cons c cs ih =>
    simp only [joined_text, List.map_cons, List.flatMap_cons, List.flatten_cons] at ih ⊢
    rw [ih]; rfl

/-- The item loop on text parts only: nothing is processed yet, every part is
appended to `text_content` followed by a blank line. -/
theorem process_items_text (fuel : Nat) (max_chunk_size : Int) (parts : List Str) :
    ∀ (processed : List ContentPart) (text_content : Str),
      process_items fuel max_chunk_size (parts.map WriteItem.text) processed text_content
        = some (.ok (processed, text_content ++ parts.flatMap (fun p => p ++ lit "\n\n"))) := by
  induction parts with
  | nil => intro processed text_content; simp [process_items]
  | cons p ps ih =>
    intro processed text_content
    simp only [List.map_cons, process_items, ih, List.flatMap_cons, List.append_assoc]

/-- C3 (amended). For every list of N ≥ 1 text parts and every `max_chunk_size`
for which the write returns: a store is written under the id
`content_<current_id_>`, its chunks are all text chunks, and reading them from
index 0 to the last and concatenating their text yields every part followed by
a blank line (`part1 \n\n part2 \n\n ... partN \n\n`), nothing else added, lost
or reordered. -/
theorem handle_write_text_roundtrip (fuel : Nat) (cp : ContentProvider) (parts : List Str)
    (hN : parts ≠ []) (max_chunk_size : Int) (cp' : ContentProvider) (res : ToolResult)
    (h : cp.handle_write fuel (some (parts.map WriteItem.text)) max_chunk_size
      = some (cp', res)) :
    ∃ chunks, map_find (lit "content_" ++ to_string cp.current_id_) cp'.content_store_
        = some chunks
      ∧ res = ToolResult.ok
          (.str (write_result_dump (lit "content_" ++ to_string cp.current_id_) chunks.length))
      ∧ (∀ c ∈ chunks, ∃ t, c = ContentPart.text t)
      ∧ joined_text chunks = parts.flatMap (fun p => p ++ lit "\n\n") := by
  have hne : (parts.flatMap (fun p => p ++ lit "\n\n")).isEmpty = false := by
    cases parts with
    | nil => exact absurd rfl hN
    | cons p ps =>
      cases p <;> simp [List.flatMap_cons, lit, utf8_char]
  simp only [ContentProvider.handle_write, process_items_text, List.nil_append, hne] at h
  cases hs : split_text_into_chunks fuel (parts.flatMap (fun p => p ++ lit "\n\n"))
      max_chunk_size with
  | none => simp [hs] at h
  | some chunks =>
    simp only [hs, Bool.false_eq_true, not_false_eq_true, if_true, Option.map_some',
      List.nil_append, Option.some.injEq, Prod.mk.injEq] at h
    obtain ⟨h1, h2⟩ := h
    refine ⟨chunks.map ContentPart.text, ?_, ?_, ?_, ?_⟩
    · rw [← h1]; exact map_find_map_set _ _ _
    · rw [← h2]
    · intro c hc
      obtain ⟨t, _, ht⟩ := List.mem_map.mp hc
      exact ⟨t, ht.symm⟩
    · rw [joined_text_map_text]
      exact split_text_into_chunks_flatten fuel _ max_chunk_size chunks hs

theorem handle_write_text_roundtrip_witness :
    [lit "a", lit "b"] ≠ []
    ∧ ContentProvider.init.handle_write 10 (some ([lit "a", lit "b"].map WriteItem.text)) 4000
        = some (cp_after_write_ab, ToolResult.ok (.str (write_result_dump (lit "content_0") 1)))
    ∧ ∃ chunks, map_find (lit "content_" ++ to_string ContentProvider.init.current_id_)
          cp_after_write_ab.content_store_ = some chunks
        ∧ ToolResult.ok (.str (write_result_dump (lit "content_0") 1)) = ToolResult.ok
            (.str (write_result_dump (lit "content_" ++ to_string ContentProvider.init.current_id_)
              chunks.length))
        ∧ (∀ c ∈ chunks, ∃ t, c = ContentPart.text t)
        ∧ joined_text chunks = [lit "a", lit "b"].flatMap (fun p => p ++ lit "\n\n") :=
  ⟨by decide, by decide,
    handle_write_text_roundtrip 10 ContentProvider.init [lit "a", lit "b"] (by decide) 4000
      cp_after_write_ab (ToolResult.ok (.str (write_result_dump (lit "content_0") 1)))
      (by decide)⟩

/-- C3 (as stated) fails: writing the single text part `"a"` stores one chunk
with text `"a\n\n"`, which is not the part itself (the parts joined by a blank
line): a blank line is added after the last part. -/
theorem handle_write_adds_trailing_blank_line :
    ∃ cp' res chunks,
      ContentProvider.init.handle_write 10 (some [WriteItem.text (lit "a")]) 4000
        = some (cp', res)
      ∧ map_find (lit "content_0") cp'.content_store_ = some chunks
      ∧ joined_text chunks = lit "a\n\n"
      ∧ joined_text chunks ≠ join_blank_line [lit "a"] :=
  ⟨_, _, _, rfl, rfl, by decide, by decide⟩

/-- C4 (code at the failing input). `split_text_into_chunks("ab cd", 2)` returns
the chunks `"ab "` and `"cd"`: the first chunk has 3 bytes, more than
`max_chunk_size = 2`. -/
theorem split_chunk_exceeds_max_chunk_size :
    split_text_into_chunks 10 (lit "ab cd") 2 = some [lit "ab ", lit "cd"]
      ∧ (lit "ab ").length = 3 := by
  decide

/-! ## UTF-8: `validate_utf8` and chunk boundaries -/


theorem validate_utf8_loop_succ (text : Str) (len k i : Nat) :
    validate_utf8_loop text len (k + 1) i =
      if i ≤ 4 ∧ i ≤ len then
        (if cuts_at (text.getD (len - i) 0) i = true then len - i
         else validate_utf8_loop text len k (i + 1))
      else len := by
  simp only [validate_utf8_loop, cuts_at]
  by_cases h0 : i ≤ 4 ∧ i ≤ len
  · simp only [if_pos h0]
    by_cases h1 : text.getD (len - i) 0 &&& 0xE0 = 0xC0
    · simp only [if_pos h1, decide_eq_true_eq]
    · simp only [if_neg h1]
      by_cases h2 : text.getD (len - i) 0 &&& 0xF0 = 0xE0
      · simp only [if_pos h2, decide_eq_true_eq]
      · simp only [if_neg h2]
        by_cases h3 : text.getD (len - i) 0 &&& 0xF8 = 0xF0
        · simp only [if_pos h3, decide_eq_true_eq]
        · simp only [if_neg h3, Bool.false_eq_true, if_false]
  · simp only [if_neg h0]

theorem validate_utf8_loop_no_cut (text : Str) (len : Nat) :
    ∀ k i, (∀ j, i ≤ j → j ≤ 4 → j ≤ len → cuts_at (text.getD (len - j) 0) j = false) →
      validate_utf8_loop text len k i = len := by
  intro k
  induction k with
  | zero => intro i _; rfl
  | succ k ih =>
    intro i h
    rw [validate_utf8_loop_succ]
    split_ifs with h1 h2
    · rw [h i le_rfl h1.1 h1.2] at h2; exact absurd h2 (by simp)
    · exact ih (i + 1) (fun j hj => h j (by omega))
    · rfl

theorem validate_utf8_loop_cut (text : Str) (len m : Nat) (hm4 : m ≤ 4) (hml : m ≤ len)
    (hcut : cuts_at (text.getD (len - m) 0) m = true) :
    ∀ k i, i ≤ m → m < k + i →
      (∀ j, i ≤ j → j < m → cuts_at (text.getD (len - j) 0) j = false) →
      validate_utf8_loop text len k i = len - m := by
  intro k
  induction k with
  | zero => intro i h1 h2; omega
  | succ k ih =>
    intro i h1 h2 h
    rw [validate_utf8_loop_succ, if_pos ⟨by omega, by omega⟩]
    by_cases him : i = m
    · subst him; rw [if_pos hcut]
    · rw [h i le_rfl (by omega)]
      simp only [Bool.false_eq_true, if_false]
      exact ih (i + 1) (by omega) (by omega) (fun j hj => h j (by omega))

set_option maxRecDepth 100000 in
theorem cuts_at_low : ∀ c, c < 0xC0 → ∀ i, cuts_at c i = false := by
  have h : ∀ c, c < 0xC0 → (c &&& 0xE0 ≠ 0xC0 ∧ c &&& 0xF0 ≠ 0xE0 ∧ c &&& 0xF8 ≠ 0xF0) := by
    decide
  intro c hc i
  obtain ⟨h1, h2, h3⟩ := h c hc
  simp [cuts_at, h1, h2, h3]

set_option maxRecDepth 100000 in
theorem cuts_at_lead2 : ∀ c, 0xC0 ≤ c → c ≤ 0xDF → ∀ i, cuts_at c i = decide (i < 2) := by
  have h : ∀ c, c < 0xE0 → 0xC0 ≤ c → c &&& 0xE0 = 0xC0 := by decide
  intro c h1 h2 i
  simp [cuts_at, h c (by omega) h1]

set_option maxRecDepth 100000 in
theorem cuts_at_lead3 : ∀ c, 0xE0 ≤ c → c ≤ 0xEF → ∀ i, cuts_at c i = decide (i < 3) := by
  have h : ∀ c, c < 0xF0 → 0xE0 ≤ c → (c &&& 0xE0 ≠ 0xC0 ∧ c &&& 0xF0 = 0xE0) := by decide
  intro c h1 h2 i
  obtain ⟨h3, h4⟩ := h c (by omega) h1
  simp [cuts_at, h3, h4]

set_option maxRecDepth 100000 in
theorem cuts_at_lead4 : ∀ c, 0xF0 ≤ c → c ≤ 0xF7 → ∀ i, cuts_at c i = decide (i < 4) := by
  have h : ∀ c, c < 0xF8 → 0xF0 ≤ c →
      (c &&& 0xE0 ≠ 0xC0 ∧ c &&& 0xF0 ≠ 0xE0 ∧ c &&& 0xF8 = 0xF0) := by decide
  intro c h1 h2 i
  obtain ⟨h3, h4, h5⟩ := h c (by omega) h1
  simp [cuts_at, h3, h4, h5]

/-- The shapes of a well-formed encoding: the lead byte fixes the length and
every further byte is a continuation byte. -/
theorem utf8_char_ok_cases (c : Str) (h : utf8_char_ok c = true) :
    (∃ b0, c = [b0] ∧ b0 < 0x80)
    ∨ (∃ b0 b1, c = [b0, b1] ∧ 0xC2 ≤ b0 ∧ b0 ≤ 0xDF ∧ is_cont b1 = true)
    ∨ (∃ b0 b1 b2, c = [b0, b1, b2] ∧ 0xE0 ≤ b0 ∧ b0 ≤ 0xEF ∧ is_cont b1 = true
        ∧ is_cont b2 = true)
    ∨ (∃ b0 b1 b2 b3, c = [b0, b1, b2, b3] ∧ 0xF0 ≤ b0 ∧ b0 ≤ 0xF4 ∧ is_cont b1 = true
        ∧ is_cont b2 = true ∧ is_cont b3 = true) := by
  match c, h with
  | [b0], h => left; exact ⟨b0, rfl, by simpa [utf8_char_ok] using h⟩
  | [b0, b1], h =>
    right; left
    simp only [utf8_char_ok, Bool.and_eq_true, decide_eq_true_eq] at h
    exact ⟨b0, b1, rfl, h.1.1, h.1.2, h.2⟩
  | [b0, b1, b2], h =>
    right; right; left
    simp only [utf8_char_ok, is_cont, Bool.or_eq_true, Bool.and_eq_true, decide_eq_true_eq] at h
    refine ⟨b0, b1, b2, rfl, ?_, ?_, ?_, ?_⟩ <;>
      first
      | omega
      | (simp only [is_cont, Bool.and_eq_true, decide_eq_true_eq]; omega)
  | [b0, b1, b2, b3], h =>
    right; right; right
    simp only [utf8_char_ok, is_cont, Bool.or_eq_true, Bool.and_eq_true, decide_eq_true_eq] at h
    refine ⟨b0, b1, b2, b3, rfl, ?_, ?_, ?_, ?_, ?_⟩ <;>
      first
      | omega
      | (simp only [is_cont, Bool.and_eq_true, decide_eq_true_eq]; omega)

theorem utf8_char_ok_two_false (b0 b1 : Nat) (h : 0xE0 ≤ b0) : utf8_char_ok [b0, b1] = false := by
  have : decide (b0 ≤ 0xDF) = false := by simp; omega
  simp [utf8_char_ok, this]

theorem utf8_char_ok_three_false (b0 b1 b2 : Nat) (h : 0xF0 ≤ b0) :
    utf8_char_ok [b0, b1, b2] = false := by
  have h1 : decide (b0 = 0xE0) = false := by simp; omega
  have h2 : decide (b0 ≤ 0xEC) = false := by simp; omega
  have h3 : decide (b0 ≤ 0xEF) = false := by simp; omega
  have h4 : decide (b0 = 0xED) = false := by simp; omega
  simp [utf8_char_ok, h1, h2, h3, h4]

theorem valid_utf8_cons (b0 : Nat) (rest : Str) :
    valid_utf8 (b0 :: rest) =
      if b0 < 0x80 then valid_utf8 rest
      else match rest with
        | [] => false
        | b1 :: rest1 =>
            if utf8_char_ok [b0, b1] then valid_utf8 rest1
            else match rest1 with
              | [] => false
              | b2 :: rest2 =>
                  if utf8_char_ok [b0, b1, b2] then valid_utf8 rest2
                  else match rest2 with
                    | [] => false
                    | b3 :: rest3 => utf8_char_ok [b0, b1, b2, b3] && valid_utf8 rest3 := by
  conv_lhs => rw [valid_utf8.eq_def]
  rfl

theorem valid_utf8_char_append (c s : Str) (h : utf8_char_ok c = true) :
    valid_utf8 (c ++ s) = valid_utf8 s := by
  rcases utf8_char_ok_cases c h with ⟨b0, rfl, h0⟩ | ⟨b0, b1, rfl, h0, h1, h2⟩ |
    ⟨b0, b1, b2, rfl, h0, h1, h2, h3⟩ | ⟨b0, b1, b2, b3, rfl, h0, h1, h2, h3, h4⟩
  · show valid_utf8 (b0 :: s) = _
    rw [valid_utf8_cons, if_pos h0]
  · have h5 : ¬ b0 < 0x80 := by omega
    show valid_utf8 (b0 :: b1 :: s) = _
    rw [valid_utf8_cons, if_neg h5]
    simp only [h, if_true]
  · have h5 : ¬ b0 < 0x80 := by omega
    show valid_utf8 (b0 :: b1 :: b2 :: s) = _
    rw [valid_utf8_cons, if_neg h5]
    simp only [utf8_char_ok_two_false b0 b1 h0, h, Bool.false_eq_true, if_false, if_true]
  · have h5 : ¬ b0 < 0x80 := by omega
    show valid_utf8 (b0 :: b1 :: b2 :: b3 :: s) = _
    rw [valid_utf8_cons, if_neg h5]
    simp only [utf8_char_ok_two_false b0 b1 (by omega), utf8_char_ok_three_false b0 b1 b2 h0, h,
      Bool.false_eq_true, if_false, Bool.true_and]

theorem valid_utf8_cases (s : Str) (h : valid_utf8 s = true) :
    s = [] ∨ ∃ c s', s = c ++ s' ∧ utf8_char_ok c = true ∧ valid_utf8 s' = true := by
  match s, h with
  | [], _ => left; rfl
  | b0 :: rest, h =>
    right
    rw [valid_utf8_cons] at h
    by_cases h0 : b0 < 0x80
    · rw [if_pos h0] at h
      exact ⟨[b0], rest, rfl, by simpa [utf8_char_ok] using h0, h⟩
    · rw [if_neg h0] at h
      match rest, h with
      | b1 :: rest1, h =>
        by_cases h1 : utf8_char_ok [b0, b1] = true
        · simp only [h1, if_true] at h
          exact ⟨[b0, b1], rest1, rfl, h1, h⟩
        · simp only [h1, Bool.false_eq_true, if_false] at h
          match rest1, h with
          | b2 :: rest2, h =>
            by_cases h2 : utf8_char_ok [b0, b1, b2] = true
            · simp only [h2, if_true] at h
              exact ⟨[b0, b1, b2], rest2, rfl, h2, h⟩
            · simp only [h2, Bool.false_eq_true, if_false] at h
              match rest2, h with
              | b3 :: rest3, h =>
                simp only [Bool.and_eq_true] at h
                exact ⟨[b0, b1, b2, b3], rest3, rfl, h.1, h.2⟩

theorem utf8_char_ok_length_pos (c : Str) (hc : utf8_char_ok c = true) : 0 < c.length := by
  rcases utf8_char_ok_cases c hc with ⟨_, rfl, _⟩ | ⟨_, _, rfl, _⟩ |
    ⟨_, _, _, rfl, _⟩ | ⟨_, _, _, _, rfl, _⟩ <;> simp

/-- Induction over the code points of a valid UTF-8 string. -/
theorem valid_utf8_induction {P : Str → Prop} (h0 : P [])
    (hstep : ∀ c s, utf8_char_ok c = true → valid_utf8 s = true → P s → P (c ++ s)) :
    ∀ s, valid_utf8 s = true → P s := by
  intro s
  generalize hn : s.length = n
  induction n using Nat.strong_induction_on generalizing s with
  | _ n ih =>
    intro hs
    rcases valid_utf8_cases s hs with rfl | ⟨c, s', rfl, hc, hs'⟩
    · exact h0
    · have hlen := utf8_char_ok_length_pos c hc
      exact hstep c s' hc hs' (ih s'.length (by rw [← hn, List.length_append]; omega) s' rfl hs')

theorem valid_utf8_append (a b : Str) (ha : valid_utf8 a = true) (hb : valid_utf8 b = true) :
    valid_utf8 (a ++ b) = true := by
  revert ha
  refine @valid_utf8_induction (fun a => valid_utf8 (a ++ b) = true) ?_ ?_ a
  · simpa using hb
  · intro c s hc _ ih
    rw [List.append_assoc, valid_utf8_char_append c _ hc]; exact ih

theorem is_cont_lt (b : Nat) (h : is_cont b = true) : 0x80 ≤ b ∧ b < 0xC0 := by
  simp only [is_cont, Bool.and_eq_true, decide_eq_true_eq] at h
  omega

/-- In a valid UTF-8 string no byte makes the `validate_utf8` loop return: a
lead byte at index `j` has its whole sequence inside the string. -/
theorem valid_utf8_no_cut : ∀ q, valid_utf8 q = true →
    ∀ j, j < q.length → cuts_at (q.getD j 0) (q.length - j) = false := by
  refine valid_utf8_induction ?_ ?_
  · intro j hj; simp at hj
  · intro c s hc _ ih j hj
    have hright : c.length ≤ j →
        cuts_at ((c ++ s).getD j 0) ((c ++ s).length - j) = false := by
      intro hcj
      rw [List.getD_append_right _ _ _ _ hcj]
      have h1 : (c ++ s).length - j = s.length - (j - c.length) := by
        rw [List.length_append]; omega
      rw [h1]
      exact ih _ (by rw [List.length_append] at hj; omega)
    rcases utf8_char_ok_cases c hc with ⟨b0, rfl, h0⟩ | ⟨b0, b1, rfl, h0, h1, h2⟩ |
      ⟨b0, b1, b2, rfl, h0, h1, h2, h3⟩ | ⟨b0, b1, b2, b3, rfl, h0, h1, h2, h3, h4⟩
    · rcases j with _ | j
      · exact cuts_at_low _ (by simpa using (by omega : b0 < 0xC0)) _
      · exact hright (by simp)
    · rcases j with _ | _ | j
      · simp only [List.cons_append, List.nil_append, List.getD_cons_zero, List.length_cons]
        rw [cuts_at_lead2 b0 (by omega) h1]; simp
      · have := is_cont_lt b1 h2
        exact cuts_at_low _ (by simpa using this.2) _
      · exact hright (by simp)
    · rcases j with _ | _ | _ | j
      · simp only [List.cons_append, List.nil_append, List.getD_cons_zero, List.length_cons]
        rw [cuts_at_lead3 b0 h0 h1]; simp
      · have := is_cont_lt b1 h2
        exact cuts_at_low _ (by simpa using this.2) _
      · have := is_cont_lt b2 h3
        exact cuts_at_low _ (by simpa using this.2) _
      · exact hright (by simp)
    · rcases j with _ | _ | _ | _ | j
      · simp only [List.cons_append, List.nil_append, List.getD_cons_zero, List.length_cons]
        rw [cuts_at_lead4 b0 h0 (by omega)]; simp
      · have := is_cont_lt b1 h2
        exact cuts_at_low _ (by simpa using this.2) _
      · have := is_cont_lt b2 h3
        exact cuts_at_low _ (by simpa using this.2) _
      · have := is_cont_lt b3 h4
        exact cuts_at_low _ (by simpa using this.2) _
      · exact hright (by simp)

/-- On a valid UTF-8 string `validate_utf8` returns the full length. -/
theorem validate_utf8_of_valid (q : Str) (h : valid_utf8 q = true) :
    validate_utf8 q = q.length := by
  unfold validate_utf8
  split_ifs with h0
  · exact h0.symm
  · apply validate_utf8_loop_no_cut
    intro j h1 _ h3
    have := valid_utf8_no_cut q h (q.length - j) (by omega)
    rwa [show q.length - (q.length - j) = j by omega] at this

theorem validate_utf8_cut (text : Str) (m : Nat) (hm : 1 ≤ m) (hm4 : m ≤ 3)
    (hml : m ≤ text.length)
    (hcut : cuts_at (text.getD (text.length - m) 0) m = true)
    (hno : ∀ j, 1 ≤ j → j < m → cuts_at (text.getD (text.length - j) 0) j = false) :
    validate_utf8 text = text.length - m := by
  unfold validate_utf8
  rw [if_neg (by omega)]
  exact validate_utf8_loop_cut text text.length m (by omega) hml hcut 4 1 hm (by omega) hno

/-- A string that ends in the first byte of a multi-byte sequence is cut
before that byte. -/
theorem validate_utf8_partial1 (q : Str) (b0 : Nat) (h0 : 0xC0 ≤ b0) (h1 : b0 ≤ 0xF7) :
    validate_utf8 (q ++ [b0]) = q.length := by
  have hlen : (q ++ [b0]).length = q.length + 1 := by simp
  rw [validate_utf8_cut (q ++ [b0]) 1 le_rfl (by omega) (by omega), hlen]
  · omega
  · rw [hlen, show q.length + 1 - 1 = q.length by omega,
      List.getD_append_right _ _ _ _ le_rfl]
    simp only [Nat.sub_self, List.getD_cons_zero]
    by_cases h2 : b0 ≤ 0xDF
    · rw [cuts_at_lead2 b0 h0 h2]; simp
    · by_cases h3 : b0 ≤ 0xEF
      · rw [cuts_at_lead3 b0 (by omega) h3]; simp
      · rw [cuts_at_lead4 b0 (by omega) h1]; simp
  · intro j h2 h3; omega

/-- A string that ends in the first two bytes of a 3- or 4-byte sequence is cut
before them. -/
theorem validate_utf8_partial2 (q : Str) (b0 b1 : Nat) (h0 : 0xE0 ≤ b0) (h1 : b0 ≤ 0xF7)
    (hb1 : b1 < 0xC0) :
    validate_utf8 (q ++ [b0, b1]) = q.length := by
  have hlen : (q ++ [b0, b1]).length = q.length + 2 := by simp
  rw [validate_utf8_cut (q ++ [b0, b1]) 2 (by omega) (by omega) (by omega), hlen]
  · omega
  · rw [hlen, show q.length + 2 - 2 = q.length by omega,
      List.getD_append_right _ _ _ _ le_rfl]
    simp only [Nat.sub_self, List.getD_cons_zero]
    by_cases h3 : b0 ≤ 0xEF
    · rw [cuts_at_lead3 b0 (by omega) h3]; simp
    · rw [cuts_at_lead4 b0 (by omega) h1]; simp
  · intro j h2 h3
    have hj : j = 1 := by omega
    subst hj
    rw [hlen, show q.length + 2 - 1 = q.length + 1 by omega,
      List.getD_append_right _ _ _ _ (by omega)]
    simp only [Nat.add_sub_cancel_left, List.getD_cons_succ, List.getD_cons_zero]
    exact cuts_at_low _ hb1 _

/-- A string that ends in the first three bytes of a 4-byte sequence is cut
before them. -/
theorem validate_utf8_partial3 (q : Str) (b0 b1 b2 : Nat) (h0 : 0xF0 ≤ b0) (h1 : b0 ≤ 0xF7)
    (hb1 : b1 < 0xC0) (hb2 : b2 < 0xC0) :
    validate_utf8 (q ++ [b0, b1, b2]) = q.length := by
  have hlen : (q ++ [b0, b1, b2]).length = q.length + 3 := by simp
  rw [validate_utf8_cut (q ++ [b0, b1, b2]) 3 (by omega) (by omega) (by omega), hlen]
  · omega
  · rw [hlen, show q.length + 3 - 3 = q.length by omega,
      List.getD_append_right _ _ _ _ le_rfl]
    simp only [Nat.sub_self, List.getD_cons_zero]
    rw [cuts_at_lead4 b0 (by omega) h1]; simp
  · intro j h2 h3
    rw [hlen]
    rcases (by omega : j = 1 ∨ j = 2) with rfl | rfl
    · rw [show q.length + 3 - 1 = q.length + 2 by omega,
        List.getD_append_right _ _ _ _ (by omega)]
      simp only [Nat.add_sub_cancel_left, List.getD_cons_succ, List.getD_cons_zero]
      exact cuts_at_low _ hb2 _
    · rw [show q.length + 3 - 2 = q.length + 1 by omega,
        List.getD_append_right _ _ _ _ (by omega)]
      simp only [Nat.add_sub_cancel_left, List.getD_cons_succ, List.getD_cons_zero]
      exact cuts_at_low _ hb1 _

/-- Cutting a valid UTF-8 string after `raw` bytes: `validate_utf8` of the cut
piece (also behind any valid string `q`) is a code point boundary `n ≤ raw`. -/
theorem validate_utf8_take : ∀ rem, valid_utf8 rem = true → ∀ raw,
    ∃ n, n ≤ raw ∧ n ≤ rem.length ∧ valid_utf8 (rem.take n) = true
      ∧ valid_utf8 (rem.drop n) = true
      ∧ ∀ q, valid_utf8 q = true → validate_utf8 (q ++ rem.take raw) = q.length + n := by
  refine valid_utf8_induction ?_ ?_
  · intro raw
    refine ⟨0, by omega, by simp, by simp [valid_utf8], by simp [valid_utf8], ?_⟩
    intro q hq
    simpa using validate_utf8_of_valid q hq
  · intro c s hc hs ih raw
    by_cases hraw : c.length ≤ raw
    · obtain ⟨n, h1, h2, h3, h4, h5⟩ := ih (raw - c.length)
      refine ⟨c.length + n, by omega, by rw [List.length_append]; omega, ?_, ?_, ?_⟩
      · rw [List.take_append_eq_append_take, List.take_of_length_le (by omega),
          show c.length + n - c.length = n by omega]
        exact valid_utf8_append _ _ (by simpa using (valid_utf8_char_append c [] hc)) h3
      · rw [List.drop_append_eq_append_drop, List.drop_of_length_le (by omega),
          show c.length + n - c.length = n by omega]
        simpa using h4
      · intro q hq
        rw [List.take_append_eq_append_take, List.take_of_length_le hraw, ← List.append_assoc,
          h5 (q ++ c) (valid_utf8_append _ _ hq
            (by simpa using (valid_utf8_char_append c [] hc))), List.length_append]
        omega
    · have hcs : valid_utf8 (c ++ s) = true := by rw [valid_utf8_char_append c s hc]; exact hs
      refine ⟨0, by omega, by omega, by simp [valid_utf8], by simpa using hcs, ?_⟩
      intro q hq
      have htake : (c ++ s).take raw = c.take raw := by
        rw [List.take_append_eq_append_take, show raw - c.length = 0 by omega]; simp
      rw [htake]
      rcases utf8_char_ok_cases c hc with ⟨b0, rfl, h0⟩ | ⟨b0, b1, rfl, h0, h1, h2⟩ |
        ⟨b0, b1, b2, rfl, h0, h1, h2, h3⟩ | ⟨b0, b1, b2, b3, rfl, h0, h1, h2, h3, h4⟩
      · have : raw = 0 := by simp at hraw; omega
        subst this
        simpa using validate_utf8_of_valid q hq
      · have : raw = 0 ∨ raw = 1 := by simp at hraw; omega
        rcases this with rfl | rfl
        · simpa using validate_utf8_of_valid q hq
        · simpa using validate_utf8_partial1 q b0 (by omega) (by omega)
      · have : raw = 0 ∨ raw = 1 ∨ raw = 2 := by simp at hraw; omega
        rcases this with rfl | rfl | rfl
        · simpa using validate_utf8_of_valid q hq
        · simpa using validate_utf8_partial1 q b0 (by omega) (by omega)
        · simpa using validate_utf8_partial2 q b0 b1 h0 (by omega) (is_cont_lt b1 h2).2
      · have : raw = 0 ∨ raw = 1 ∨ raw = 2 ∨ raw = 3 := by simp at hraw; omega
        rcases this with rfl | rfl | rfl | rfl
        · simpa using validate_utf8_of_valid q hq
        · simpa using validate_utf8_partial1 q b0 (by omega) (by omega)
        · simpa using validate_utf8_partial2 q b0 b1 (by omega) (by omega) (is_cont_lt b1 h2).2
        · simpa using validate_utf8_partial3 q b0 b1 b2 h0 (by omega) (is_cont_lt b1 h2).2
            (is_cont_lt b2 h3).2

/-- The position right after an ASCII byte of a valid UTF-8 string is a code
point boundary. -/
theorem valid_utf8_after_ascii : ∀ s, valid_utf8 s = true →
    ∀ i, i < s.length → s.getD i 0 < 0x80 →
      valid_utf8 (s.take (i + 1)) = true ∧ valid_utf8 (s.drop (i + 1)) = true := by
  refine valid_utf8_induction ?_ ?_
  · intro i hi; simp at hi
  · intro c s hc hs ih i hi hb
    have hcv : valid_utf8 c = true := by simpa using (valid_utf8_char_append c [] hc)
    have hright : c.length ≤ i → valid_utf8 ((c ++ s).take (i + 1)) = true
        ∧ valid_utf8 ((c ++ s).drop (i + 1)) = true := by
      intro hci
      rw [List.getD_append_right _ _ _ _ hci] at hb
      obtain ⟨h1, h2⟩ := ih (i - c.length) (by rw [List.length_append] at hi; omega) hb
      rw [List.take_append_eq_append_take, List.take_of_length_le (by omega),
        List.drop_append_eq_append_drop, List.drop_of_length_le (by omega),
        show i + 1 - c.length = i - c.length + 1 by omega]
      exact ⟨valid_utf8_append _ _ hcv h1, by simpa using h2⟩
    rcases utf8_char_ok_cases c hc with ⟨b0, rfl, h0⟩ | ⟨b0, b1, rfl, h0, h1, h2⟩ |
      ⟨b0, b1, b2, rfl, h0, h1, h2, h3⟩ | ⟨b0, b1, b2, b3, rfl, h0, h1, h2, h3, h4⟩
    · rcases i with _ | i
      · exact ⟨by simpa using hcv, by simpa using hs⟩
      · exact hright (by simp)
    · have := is_cont_lt b1 h2
      rcases i with _ | _ | i
      · simp at hb; omega
      · simp at hb; omega
      · exact hright (by simp)
    · have := is_cont_lt b1 h2
      have := is_cont_lt b2 h3
      rcases i with _ | _ | _ | i
      · simp at hb; omega
      · simp at hb; omega
      · simp at hb; omega
      · exact hright (by simp)
    · have := is_cont_lt b1 h2
      have := is_cont_lt b2 h3
      have := is_cont_lt b3 h4
      rcases i with _ | _ | _ | _ | i
      · simp at hb; omega
      · simp at hb; omega
      · simp at hb; omega
      · simp at hb; omega
      · exact hright (by simp)

theorem is_break_char_lt (c : Nat) (h : is_break_char c = true) : c < 0x80 := by
  simp only [is_break_char, Bool.or_eq_true, decide_eq_true_eq] at h
  omega

/-- The backward search stops at or below its start, and when it stops above
`min_pos` it stops on a break character. -/
theorem find_break_spec (text : Str) (min_pos : Nat) :
    ∀ b, find_break text min_pos b ≤ b ∧
      (find_break text min_pos b > min_pos →
        is_break_char (text.getD (find_break text min_pos b) 0) = true) := by
  intro b
  induction b with
  | zero => simp [find_break]
  | succ b ih =>
    rw [find_break]
    split_ifs with h
    · exact ⟨by omega, ih.2⟩
    · refine ⟨le_rfl, fun hgt => ?_⟩
      by_contra hne
      exact h ⟨hgt, by simpa using hne⟩

/-- One iteration of the chunk loop at a code point boundary of a valid UTF-8
text: the chunk is valid UTF-8, it lies inside the text, and the next offset
is a code point boundary again. -/
theorem chunk_size_at_boundary (text : Str) (max_chunk_size : Int) (offset : Nat)
    (hv : valid_utf8 (text.drop offset) = true) :
    offset + chunk_size_at text max_chunk_size offset ≤ max offset text.length
      ∧ valid_utf8 (substr text offset (chunk_size_at text max_chunk_size offset)) = true
      ∧ valid_utf8 (text.drop (offset + chunk_size_at text max_chunk_size offset)) = true := by
  obtain ⟨n, h1, h2, h3, h4, h5⟩ := validate_utf8_take (text.drop offset) hv
    (min (to_size_t max_chunk_size) (text.length - offset))
  have hn : validate_utf8 ((text.drop offset).take
      (min (to_size_t max_chunk_size) (text.length - offset))) = n := by
    simpa [valid_utf8] using h5 [] rfl
  rw [List.length_drop] at h2
  simp only [chunk_size_at, hn, substr]
  split_ifs with hc hb
  · -- a natural break point was found
    obtain ⟨hle, hbrk⟩ := find_break_spec text (offset + n / 2) (offset + n)
    have hascii := is_break_char_lt _ (hbrk hb)
    set b := find_break text (offset + n / 2) (offset + n) with hbdef
    have hbo : offset ≤ b := by omega
    have hidx : (text.drop offset).getD (b - offset) 0 = text.getD b 0 := by
      simp only [List.getD_eq_getElem?_getD, List.getElem?_drop]
      rw [show offset + (b - offset) = b by omega]
    obtain ⟨h6, h7⟩ := valid_utf8_after_ascii (text.drop offset) hv (b - offset)
      (by rw [List.length_drop]; omega) (by rw [hidx]; exact hascii)
    rw [List.drop_drop] at h7
    rw [show b + 1 - offset = b - offset + 1 by omega]
    refine ⟨by omega, h6, ?_⟩
    rw [show offset + (b - offset + 1) = offset + (b - offset + 1) from rfl]
    simpa [Nat.add_comm] using h7
  · refine ⟨by omega, h3, ?_⟩
    rw [List.drop_drop] at h4
    simpa [Nat.add_comm] using h4
  · refine ⟨by omega, h3, ?_⟩
    rw [List.drop_drop] at h4
    simpa [Nat.add_comm] using h4

/-- All chunks pushed by the loop from a code point boundary are valid UTF-8,
they are consecutive pieces of the text, and the loop stands at a code point
boundary again. -/
theorem split_run_valid (text : Str) (max_chunk_size : Int) (fuel : Nat) :
    ∀ offset, valid_utf8 (text.drop offset) = true →
      (∀ c ∈ (split_run text max_chunk_size fuel offset).1, valid_utf8 c = true)
      ∧ (text.drop offset).take (split_run text max_chunk_size fuel offset).1.flatten.length
          = (split_run text max_chunk_size fuel offset).1.flatten
      ∧ valid_utf8 (text.drop
          (offset + (split_run text max_chunk_size fuel offset).1.flatten.length)) = true := by
  induction fuel with
  | zero => intro offset hv; simpa [split_run] using hv
  | succ fuel ih =>
    intro offset hv
    by_cases hlt : offset < text.length
    · obtain ⟨h1, h2, h3⟩ := chunk_size_at_boundary text max_chunk_size offset hv
      obtain ⟨i1, i2, i3⟩ := ih _ h3
      simp only [split_run, if_pos hlt]
      have hmax : max offset text.length = text.length := by omega
      rw [hmax] at h1
      have hlen : (substr text offset (chunk_size_at text max_chunk_size offset)).length
          = chunk_size_at text max_chunk_size offset := by
        simp only [substr, List.length_take, List.length_drop]; omega
      refine ⟨?_, ?_, ?_⟩
      · intro c hc
        rcases List.mem_cons.mp hc with rfl | hc
        · exact h2
        · exact i1 c hc
      · have key : (text.drop offset).drop (chunk_size_at text max_chunk_size offset)
            = text.drop (offset + chunk_size_at text max_chunk_size offset) := by
          rw [List.drop_drop]
        rw [List.flatten_cons, List.length_append, hlen, List.take_add, key, i2]
        rfl
      · rw [List.flatten_cons, List.length_append, hlen, ← Nat.add_assoc]
        exact i3
    · simp only [split_run, if_neg hlt]
      simpa using hv


/-- C5. For every valid UTF-8 text and every `max_chunk_size`: every chunk the
loop of `split_text_into_chunks` pushes, within any number of iterations, is
valid UTF-8; the chunks are consecutive pieces of the text from byte 0 on, and
the text behind them is valid UTF-8 again, so every chunk starts and ends on a
code point boundary of the input and none ends inside a multi-byte code point.
In particular every chunk of a returned chunk list is valid UTF-8. -/
theorem split_chunks_valid_utf8 (text : Str) (max_chunk_size : Int)
    (hv : valid_utf8 text = true) (fuel : Nat) :
    (∀ c ∈ (split_run text max_chunk_size fuel 0).1, valid_utf8 c = true)
    ∧ text.take (split_run text max_chunk_size fuel 0).1.flatten.length
        = (split_run text max_chunk_size fuel 0).1.flatten
    ∧ valid_utf8 (text.drop (split_run text max_chunk_size fuel 0).1.flatten.length) = true
    ∧ ∀ chunks, split_text_into_chunks fuel text max_chunk_size = some chunks →
        ∀ c ∈ chunks, valid_utf8 c = true := by
  obtain ⟨h1, h2, h3⟩ := split_run_valid text max_chunk_size fuel 0 (by simpa using hv)
  refine ⟨h1, by simpa using h2, by simpa using h3, ?_⟩
  intro chunks hc c hmem
  unfold split_text_into_chunks at hc
  by_cases he : text.isEmpty = true
  · rw [if_pos he] at hc
    simp only [Option.some.injEq] at hc; subst hc; simp at hmem
  · rw [if_neg he] at hc
    by_cases hd : (split_run text max_chunk_size fuel 0).2 = true
    · simp only [hd, if_true, Option.some.injEq] at hc; subst hc; exact h1 c hmem
    · simp [hd] at hc

theorem split_chunks_valid_utf8_witness :
    valid_utf8 (lit "héllo wörld, 你好 😀 ok") = true
    ∧ split_text_into_chunks 10 (lit "héllo wörld, 你好 😀 ok") 5
        = some [lit "héll", lit "o wö", lit "rld, ", lit "你", lit "好 ", lit "😀 ", lit "ok"]
    ∧ ((∀ c ∈ (split_run (lit "héllo wörld, 你好 😀 ok") 5 10 0).1, valid_utf8 c = true)
      ∧ (lit "héllo wörld, 你好 😀 ok").take
          (split_run (lit "héllo wörld, 你好 😀 ok") 5 10 0).1.flatten.length
          = (split_run (lit "héllo wörld, 你好 😀 ok") 5 10 0).1.flatten
      ∧ valid_utf8 ((lit "héllo wörld, 你好 😀 ok").drop
          (split_run (lit "héllo wörld, 你好 😀 ok") 5 10 0).1.flatten.length) = true
      ∧ ∀ chunks, split_text_into_chunks 10 (lit "héllo wörld, 你好 😀 ok") 5 = some chunks →
          ∀ c ∈ chunks, valid_utf8 c = true) :=
  ⟨by decide, by decide,
    split_chunks_valid_utf8 (lit "héllo wörld, 你好 😀 ok") 5 (by decide) 10⟩

/-! ## Planning tool -/


theorem map_find_mem {V : Type} (key : Str) (v : V) (m : List (Str × V))
    (h : map_find key m = some v) : (key, v) ∈ m := by
  induction m with
  | nil => simp [map_find] at h
  | cons e rest ih =>
    obtain ⟨k, w⟩ := e
    simp only [map_find] at h
    split_ifs at h with hk
    · simp only [Option.some.injEq] at h
      subst hk; subst h; exact List.mem_cons_self _ _
    · exact List.mem_cons_of_mem _ (ih h)

theorem map_set_forall {V : Type} (P : V → Prop) (key : Str) (value : V) (m : List (Str × V))
    (hm : ∀ e ∈ m, P e.2) (hv : P value) : ∀ e ∈ map_set key value m, P e.2 := by
  induction m with
  | nil => intro e he; simp only [map_set, List.mem_singleton] at he; subst he; exact hv
  | cons e0 rest ih =>
    obtain ⟨k, w⟩ := e0
    intro e he
    simp only [map_set] at he
    split_ifs at he with h1 h2
    · rcases List.mem_cons.mp he with rfl | h
      · exact hv
      · exact hm e (List.mem_cons_of_mem _ h)
    · rcases List.mem_cons.mp he with rfl | h
      · exact hv
      · exact hm e h
    · rcases List.mem_cons.mp he with rfl | h
      · exact hm _ (List.mem_cons_self _ _)
      · exact ih (fun e he => hm e (List.mem_cons_of_mem _ he)) e h

theorem map_erase_forall {V : Type} (P : V → Prop) (key : Str) (m : List (Str × V))
    (hm : ∀ e ∈ m, P e.2) : ∀ e ∈ map_erase key m, P e.2 := by
  induction m with
  | nil => intro e he; simp [map_erase] at he
  | cons e0 rest ih =>
    obtain ⟨k, w⟩ := e0
    intro e he
    simp only [map_erase] at he
    split_ifs at he with h1
    · exact hm e (List.mem_cons_of_mem _ he)
    · rcases List.mem_cons.mp he with rfl | h
      · exact hm _ (List.mem_cons_self _ _)
      · exact ih (fun e he => hm e (List.mem_cons_of_mem _ he)) e h

theorem plan_result_of_ok (header : Str) (plan : Plan) (h : plan_ok plan) :
    plan_result header plan = some (ToolResult.ok (.str header)) := by
  obtain ⟨h1, h2, _⟩ := h
  simp [plan_result, format_plan_defined, h1, ← h2]

/-- The slot loop of `update`: with old arrays of equal length and valid old
statuses it returns one status and one note per new step, every status valid. -/
theorem update_slots_spec (old_steps old_statuses old_notes : List Str)
    (h1 : old_steps.length = old_statuses.length) (h2 : old_steps.length = old_notes.length)
    (h3 : ∀ s ∈ old_statuses, s ∈ valid_statuses) (steps : List Str) :
    ∀ i, ∃ sts nts, update_slots old_steps old_statuses old_notes steps i = some (sts, nts)
      ∧ sts.length = steps.length ∧ nts.length = steps.length
      ∧ ∀ s ∈ sts, s ∈ valid_statuses := by
  induction steps with
  | nil => intro i; exact ⟨[], [], rfl, rfl, rfl, by simp⟩
  | cons s rest ih =>
    intro i
    obtain ⟨sts, nts, e, l1, l2, v⟩ := ih (i + 1)
    simp only [update_slots, e]
    split_ifs with hc
    · have hi1 : i < old_statuses.length := by omega
      have hi2 : i < old_notes.length := by omega
      rw [List.get?_eq_get hi1, List.get?_eq_get hi2]
      refine ⟨_, _, rfl, by simp [l1], by simp [l2], ?_⟩
      intro x hx
      rcases List.mem_cons.mp hx with rfl | hx
      · exact h3 _ (List.get_mem _ _ _)
      · exact v x hx
    · refine ⟨_, _, rfl, by simp [l1], by simp [l2], ?_⟩
      intro x hx
      rcases List.mem_cons.mp hx with rfl | hx
      · decide
      · exact v x hx

theorem plan_ok_mk (plan_id title : Str) (steps sts nts : List Str)
    (h1 : sts.length = steps.length) (h2 : nts.length = steps.length)
    (h3 : ∀ s ∈ sts, s ∈ valid_statuses) : plan_ok ⟨plan_id, title, steps, sts, nts⟩ :=
  ⟨h1.symm, h2.symm, h3⟩

theorem create_plan_preserves (t : PlanningTool) (plan_id title : Str) (steps : List Str)
    (h : ∀ e ∈ t.plans, plan_ok e.2) :
    ∃ t' r, t._create_plan plan_id title steps = some (t', r) ∧ ∀ e ∈ t'.plans, plan_ok e.2 := by
  unfold PlanningTool._create_plan
  by_cases h1 : plan_id.isEmpty = true
  · rw [if_pos h1]; exact ⟨_, _, rfl, h⟩
  rw [if_neg h1]
  by_cases h2 : (map_find plan_id t.plans).isSome = true
  · rw [if_pos h2]; exact ⟨_, _, rfl, h⟩
  rw [if_neg h2]
  by_cases h3 : title.isEmpty = true
  · rw [if_pos h3]; exact ⟨_, _, rfl, h⟩
  rw [if_neg h3]
  by_cases h4 : steps.isEmpty = true
  · rw [if_pos h4]; exact ⟨_, _, rfl, h⟩
  rw [if_neg h4]
  have hok := plan_ok_mk plan_id title steps (List.replicate steps.length (lit "not_started"))
    (List.replicate steps.length []) (by simp) (by simp)
    (by intro s hs; rw [List.eq_of_mem_replicate hs]; decide)
  simp only [plan_result_of_ok _ _ hok, Option.map_some']
  exact ⟨_, _, rfl, map_set_forall plan_ok _ _ _ h hok⟩

theorem update_plan_preserves (t : PlanningTool) (plan_id title : Str) (steps : List Str)
    (h : ∀ e ∈ t.plans, plan_ok e.2) :
    ∃ t' r, t._update_plan plan_id title steps = some (t', r) ∧ ∀ e ∈ t'.plans, plan_ok e.2 := by
  unfold PlanningTool._update_plan
  by_cases h1 : plan_id.isEmpty = true
  · rw [if_pos h1]; exact ⟨_, _, rfl, h⟩
  rw [if_neg h1]
  cases hf : map_find plan_id t.plans with
  | none => exact ⟨_, _, rfl, h⟩
  | some old =>
    have hold : plan_ok old := h _ (map_find_mem _ _ _ hf)
    simp only []
    have hp1 : ∀ p : Plan, p = (if ¬ title.isEmpty = true then { old with title := title } else old)
        → p.steps = old.steps ∧ p.step_statuses = old.step_statuses
          ∧ p.step_notes = old.step_notes := by
      intro p hp
      by_cases ht : title.isEmpty = true
      · rw [if_neg (by simpa using ht)] at hp; subst hp; exact ⟨rfl, rfl, rfl⟩
      · rw [if_pos ht] at hp; subst hp; exact ⟨rfl, rfl, rfl⟩
    generalize hpe : (if ¬ title.isEmpty = true then { old with title := title } else old) = plan1
    obtain ⟨q1, q2, q3⟩ := hp1 plan1 hpe.symm
    have hok1 : plan_ok plan1 := by
      obtain ⟨a, b, c⟩ := hold
      exact ⟨by rw [q1, q2]; exact a, by rw [q1, q3]; exact b, by rw [q2]; exact c⟩
    by_cases hs : steps.isEmpty = true
    · rw [if_neg (by simpa using hs)]
      simp only [plan_result_of_ok _ _ hok1, Option.map_some']
      exact ⟨_, _, rfl, map_set_forall plan_ok _ _ _ h hok1⟩
    · rw [if_pos hs]
      obtain ⟨sts, nts, e, l1, l2, v⟩ := update_slots_spec old.steps old.step_statuses
        old.step_notes hold.1 hold.2.1 hold.2.2 steps 0
      have hok := plan_ok_mk plan1.plan_id plan1.title steps sts nts l1 l2 v
      simp only [e, Option.map_some', plan_result_of_ok _ _ hok]
      exact ⟨_, _, rfl, map_set_forall plan_ok _ _ _ h hok⟩

theorem mark_step_preserves (t : PlanningTool) (plan_id : Str) (step_index : Int)
    (step_status step_notes : Str) (h : ∀ e ∈ t.plans, plan_ok e.2) :
    ∃ t' r, t._mark_step plan_id step_index step_status step_notes = some (t', r)
      ∧ ∀ e ∈ t'.plans, plan_ok e.2 := by
  unfold PlanningTool._mark_step
  by_cases h1 : plan_id.isEmpty = true ∧ t._current_plan_id.isEmpty = true
  · rw [if_pos h1]; exact ⟨_, _, rfl, h⟩
  rw [if_neg h1]
  simp only []
  generalize (if plan_id.isEmpty = true then t._current_plan_id else plan_id) = pid
  cases hf : map_find pid t.plans with
  | none => exact ⟨_, _, rfl, h⟩
  | some plan =>
    obtain ⟨p1, p2, p3⟩ := h _ (map_find_mem _ _ _ hf)
    simp only []
    by_cases hidx : step_index < 0 ∨ step_index.toNat ≥ plan.steps.length
    · rw [if_pos hidx]; exact ⟨_, _, rfl, h⟩
    rw [if_neg hidx]
    by_cases hst : ¬ step_status.isEmpty = true ∧ step_status ∉ valid_statuses
    · rw [if_pos hst]; exact ⟨_, _, rfl, h⟩
    rw [if_neg hst]
    have hi : step_index.toNat < plan.steps.length := by
      push_neg at hidx; exact hidx.2
    have e1 : ∃ sts, (if ¬ step_status.isEmpty = true then
          json_array_set plan.step_statuses step_index.toNat step_status
        else some plan.step_statuses) = some sts ∧ sts.length = plan.steps.length
        ∧ ∀ s ∈ sts, s ∈ valid_statuses := by
      by_cases hse : step_status.isEmpty = true
      · rw [if_neg (by simpa using hse)]
        exact ⟨_, rfl, p1.symm, p3⟩
      · rw [if_pos hse]
        refine ⟨plan.step_statuses.set step_index.toNat step_status, ?_, ?_, ?_⟩
        · simp [json_array_set, ← p1, hi]
        · simp [← p1]
        · intro s hs
          rcases List.mem_or_eq_of_mem_set hs with hs | rfl
          · exact p3 s hs
          · by_contra hn
            exact hst ⟨hse, hn⟩
    have e2 : ∃ nts, (if ¬ step_notes.isEmpty = true then
          json_array_set plan.step_notes step_index.toNat step_notes
        else some plan.step_notes) = some nts ∧ nts.length = plan.steps.length := by
      by_cases hne : step_notes.isEmpty = true
      · rw [if_neg (by simpa using hne)]
        exact ⟨_, rfl, p2.symm⟩
      · rw [if_pos hne]
        exact ⟨plan.step_notes.set step_index.toNat step_notes,
          by simp [json_array_set, ← p2, hi], by simp [← p2]⟩
    obtain ⟨sts, es, ls, vs⟩ := e1
    obtain ⟨nts, en, ln⟩ := e2
    have hok := plan_ok_mk plan.plan_id plan.title plan.steps sts nts ls ln vs
    simp only [es, en, plan_result_of_ok _ _ hok, Option.map_some']
    exact ⟨_, _, rfl, map_set_forall plan_ok _ _ _ h hok⟩

theorem get_plan_preserves (t : PlanningTool) (plan_id : Str)
    (h : ∀ e ∈ t.plans, plan_ok e.2) :
    ∃ t' r, t._get_plan plan_id = some (t', r) ∧ ∀ e ∈ t'.plans, plan_ok e.2 := by
  unfold PlanningTool._get_plan
  by_cases h1 : plan_id.isEmpty = true ∧ t._current_plan_id.isEmpty = true
  · rw [if_pos h1]; exact ⟨_, _, rfl, h⟩
  rw [if_neg h1]
  simp only []
  generalize (if plan_id.isEmpty = true then t._current_plan_id else plan_id) = pid
  cases hf : map_find pid t.plans with
  | none => exact ⟨_, _, rfl, h⟩
  | some plan =>
    simp only [plan_result_of_ok _ _ (h _ (map_find_mem _ _ _ hf)), Option.map_some']
    exact ⟨_, _, rfl, h⟩

theorem set_active_plan_preserves (t : PlanningTool) (plan_id : Str)
    (h : ∀ e ∈ t.plans, plan_ok e.2) :
    ∃ t' r, t._set_active_plan plan_id = some (t', r) ∧ ∀ e ∈ t'.plans, plan_ok e.2 := by
  unfold PlanningTool._set_active_plan
  by_cases h1 : plan_id.isEmpty = true
  · rw [if_pos h1]; exact ⟨_, _, rfl, h⟩
  rw [if_neg h1]
  cases hf : map_find plan_id t.plans with
  | none => exact ⟨_, _, rfl, h⟩
  | some plan =>
    simp only [plan_result_of_ok _ _ (h _ (map_find_mem _ _ _ hf)), Option.map_some']
    exact ⟨_, _, rfl, h⟩

theorem delete_plan_preserves (t : PlanningTool) (plan_id : Str)
    (h : ∀ e ∈ t.plans, plan_ok e.2) :
    ∃ t' r, t._delete_plan plan_id = some (t', r) ∧ ∀ e ∈ t'.plans, plan_ok e.2 := by
  unfold PlanningTool._delete_plan
  by_cases h1 : plan_id.isEmpty = true
  · rw [if_pos h1]; exact ⟨_, _, rfl, h⟩
  rw [if_neg h1]
  by_cases h2 : (map_find plan_id t.plans).isNone = true
  · rw [if_pos h2]; exact ⟨_, _, rfl, h⟩
  rw [if_neg h2]
  exact ⟨_, _, rfl, map_erase_forall plan_ok _ _ h⟩

theorem list_plans_preserves (t : PlanningTool) (h : ∀ e ∈ t.plans, plan_ok e.2) :
    ∃ t' r, t._list_plans = some (t', r) ∧ ∀ e ∈ t'.plans, plan_ok e.2 := by
  unfold PlanningTool._list_plans
  by_cases h1 : t.plans.isEmpty = true
  · rw [if_pos h1]; exact ⟨_, _, rfl, h⟩
  · rw [if_neg h1]; exact ⟨_, _, rfl, h⟩

theorem execute_preserves (t : PlanningTool) (args : Option PlanningArgs)
    (h : ∀ e ∈ t.plans, plan_ok e.2) :
    ∃ t' r, t.execute args = some (t', r) ∧ ∀ e ∈ t'.plans, plan_ok e.2 := by
  cases args with
  | none => exact ⟨_, _, rfl, h⟩
  | some a =>
    simp only [PlanningTool.execute]
    split_ifs
    · exact create_plan_preserves t _ _ _ h
    · exact update_plan_preserves t _ _ _ h
    · exact list_plans_preserves t h
    · exact get_plan_preserves t _ h
    · exact set_active_plan_preserves t _ h
    · exact mark_step_preserves t _ _ _ _ h
    · exact delete_plan_preserves t _ h
    · exact ⟨_, _, rfl, h⟩

theorem execute_all_preserves (cmds : List (Option PlanningArgs)) :
    ∀ t : PlanningTool, (∀ e ∈ t.plans, plan_ok e.2) →
      ∃ t', t.execute_all cmds = some t' ∧ ∀ e ∈ t'.plans, plan_ok e.2 := by
  induction cmds with
  | nil => intro t h; exact ⟨t, rfl, h⟩
  | cons a rest ih =>
    intro t h
    obtain ⟨t1, r, e, h1⟩ := execute_preserves t a h
    simp only [PlanningTool.execute_all, e]
    exact ih t1 h1

/-- C6. For every sequence of planning-tool commands with arbitrary arguments
(also ill-typed ones), starting from an empty plan table: every command
returns, and every plan stored in the table afterwards has `steps`,
`step_statuses` and `step_notes` of equal length and only the statuses
`not_started`, `in_progress`, `completed`, `blocked`. -/
theorem planning_plans_well_formed (cmds : List (Option PlanningArgs)) :
    ∃ t, PlanningTool.init.execute_all cmds = some t
      ∧ ∀ e ∈ t.plans,
          e.2.steps.length = e.2.step_statuses.length
          ∧ e.2.steps.length = e.2.step_notes.length
          ∧ ∀ s ∈ e.2.step_statuses,
              s = lit "not_started" ∨ s = lit "in_progress" ∨ s = lit "completed"
                ∨ s = lit "blocked" := by
  obtain ⟨t, e, h⟩ := execute_all_preserves cmds PlanningTool.init
    (by intro e he; simp [PlanningTool.init] at he)
  refine ⟨t, e, fun x hx => ?_⟩
  obtain ⟨h1, h2, h3⟩ := h x hx
  refine ⟨h1, h2, fun s hs => ?_⟩
  have := h3 s hs
  simpa [valid_statuses] using this

/-! ## Stuck detection -/


theorem lcs_spec_nil_right : ∀ s, lcs_spec s [] = 0
  | [] => rfl
  | _ :: _ => rfl

theorem lcs_spec_cons_cons (a b : Nat) (as bs : Str) :
    lcs_spec (a :: as) (b :: bs) =
      if a = b then lcs_spec as bs + 1
      else max (lcs_spec as (b :: bs)) (lcs_spec (a :: as) bs) := rfl

/-- The row of the table that belongs to the reversed prefix `rx` of `s1`, from
the column of the reversed prefix `ry` of `s2` on, with `bs` the rest of `s2`. -/
theorem lcs_row_aux_spec (c : Nat) (rx : Str) (bs : Str) :
    ∀ (ry : Str) (ps : List Nat),
      ps.length = bs.length →
      (∀ k, k < bs.length → ps.getD k 0 = lcs_spec rx ((bs.take (k + 1)).reverse ++ ry)) →
      ∀ k, k < bs.length →
        (lcs_row_aux c bs (lcs_spec rx ry :: ps) (lcs_spec (c :: rx) ry)).getD k 0
          = lcs_spec (c :: rx) ((bs.take (k + 1)).reverse ++ ry)
      := by
  induction bs with
  | nil => intro ry ps _ _ k hk; simp at hk
  | cons b bs ih =>
    intro ry ps hlen hps k hk
    cases ps with
    | nil => simp at hlen
    | cons p1 ps =>
      have hp1 : p1 = lcs_spec rx (b :: ry) := by simpa using hps 0 (by simp)
      have hv : (if c = b then lcs_spec rx ry + 1 else max p1 (lcs_spec (c :: rx) ry))
          = lcs_spec (c :: rx) (b :: ry) := by
        rw [lcs_spec_cons_cons, hp1]
      simp only [lcs_row_aux, hv]
      cases k with
      | zero => simp
      | succ k =>
        simp only [List.getD_cons_succ, List.take_succ_cons, List.reverse_cons,
          List.append_assoc, List.singleton_append]
        rw [hp1]
        have := ih (b :: ry) ps (by simpa using hlen)
          (fun j hj => by
            have := hps (j + 1) (by simp; omega)
            simpa using this)
          k (by simpa using hk)
        simpa using this

theorem lcs_row_aux_length (c : Nat) (bs : Str) :
    ∀ (prev : List Nat) (left : Nat), prev.length = bs.length + 1 →
      (lcs_row_aux c bs prev left).length = bs.length := by
  induction bs with
  | nil => intro prev left _; cases prev <;> simp [lcs_row_aux]
  | cons b bs ih =>
    intro prev left h
    match prev, h with
    | p0 :: p1 :: ps, h =>
      simp only [lcs_row_aux, List.length_cons]
      rw [ih (p1 :: ps) _ (by simpa using h)]

/-- A row of the table, as a property: entry `k` is the LCS length of the
reversed prefix `rx` of `s1` and the reversed prefix of length `k` of `s2`. -/
theorem lcs_table_spec (s2 : Str) (s1 : Str) :
    ∀ (rx : Str) (row : List Nat), row.length = s2.length + 1 →
      (∀ k, k ≤ s2.length → row.getD k 0 = lcs_spec rx (s2.take k).reverse) →
      (s1.foldl (fun row c => lcs_row c s2 row) row).length = s2.length + 1
      ∧ ∀ k, k ≤ s2.length →
          (s1.foldl (fun row c => lcs_row c s2 row) row).getD k 0
            = lcs_spec (s1.reverse ++ rx) (s2.take k).reverse := by
  induction s1 with
  | nil => intro rx row h1 h2; exact ⟨h1, by simpa using h2⟩
  | cons c s1 ih =>
    intro rx row h1 h2
    simp only [List.foldl_cons, List.reverse_cons, List.append_assoc, List.singleton_append]
    cases row with
    | nil => simp at h1
    | cons p0 ps =>
      have hp0 : p0 = lcs_spec rx [] := by simpa using h2 0 (by omega)
      have hlen : ps.length = s2.length := by simpa using h1
      apply ih (c :: rx) (lcs_row c s2 (p0 :: ps))
      · simp only [lcs_row, List.length_cons]
        rw [lcs_row_aux_length c s2 _ _ (by simpa using hlen)]
      · intro k hk
        cases k with
        | zero => simp [lcs_row, lcs_spec_nil_right]
        | succ k =>
          simp only [lcs_row, List.getD_cons_succ]
          have h0 : (0 : Nat) = lcs_spec (c :: rx) [] := (lcs_spec_nil_right _).symm
          have := lcs_row_aux_spec c rx s2 [] ps hlen
            (fun j hj => by
              have := h2 (j + 1) (by omega)
              simpa using this)
            k (by omega)
          rw [hp0]
          conv_lhs => rw [h0]
          simpa using this

/-- The table of `get_lcs_length` computes the textbook recursion on the
reversed strings. -/
theorem get_lcs_length_eq_rev (s1 s2 : Str) :
    get_lcs_length s1 s2 = lcs_spec s1.reverse s2.reverse := by
  obtain ⟨h1, h2⟩ := lcs_table_spec s2 s1 [] (List.replicate (s2.length + 1) 0) (by simp)
    (fun k hk => by
      rw [List.getD_eq_getElem?_getD, List.getElem?_replicate]
      simp [show k < s2.length + 1 by omega, lcs_spec])
  have h3 := h2 s2.length le_rfl
  simp only [List.append_nil, List.take_length] at h3
  rw [← h3]
  unfold get_lcs_length lcs_table
  generalize (s1.foldl (fun row c => lcs_row c s2 row) (List.replicate (s2.length + 1) 0)) = row
    at h1 ⊢
  rw [List.getD_eq_getElem?_getD, List.getLastD_eq_getLast?, List.getLast?_eq_getElem?, h1]
  simp

/-- No common subsequence is longer than `lcs_spec`. -/
theorem lcs_spec_upper : ∀ (u v w : Str), List.Sublist w u → List.Sublist w v → w.length ≤ lcs_spec u v := by
  intro u
  induction u with
  | nil => intro v w hu _; simp [List.sublist_nil.mp hu]
  | cons a us ihu =>
    intro v
    induction v with
    | nil => intro w _ hv; simp [List.sublist_nil.mp hv]
    | cons b vs ihv =>
      intro w hu hv
      rw [lcs_spec_cons_cons]
      by_cases hab : a = b
      · rw [if_pos hab]
        cases w with
        | nil => simp
        | cons x w' =>
          have h1 : List.Sublist w' us := by
            rcases List.sublist_cons_iff.mp hu with h | ⟨r, hr, h⟩
            · exact (List.sublist_cons_self x w').trans h
            · simp only [List.cons.injEq] at hr; rw [hr.2]; exact h
          have h2 : List.Sublist w' vs := by
            rcases List.sublist_cons_iff.mp hv with h | ⟨r, hr, h⟩
            · exact (List.sublist_cons_self x w').trans h
            · simp only [List.cons.injEq] at hr; rw [hr.2]; exact h
          have := ihu vs w' h1 h2
          simp only [List.length_cons]; omega
      · rw [if_neg hab]
        rcases List.sublist_cons_iff.mp hu with h | ⟨r, hr, h⟩
        · exact le_trans (ihu (b :: vs) w h hv) (le_max_left _ _)
        · rcases List.sublist_cons_iff.mp hv with h' | ⟨r', hr', h'⟩
          · exact le_trans (ihv w hu h') (le_max_right _ _)
          · rw [hr] at hr'
            simp only [List.cons.injEq] at hr'
            exact absurd hr'.1 hab

/-- Some common subsequence has the length `lcs_spec`. -/
theorem lcs_spec_attained : ∀ (u v : Str), ∃ w, List.Sublist w u ∧ List.Sublist w v ∧ w.length = lcs_spec u v := by
  intro u
  induction u with
  | nil => intro v; exact ⟨[], List.Sublist.refl _, List.nil_sublist _, rfl⟩
  | cons a us ihu =>
    intro v
    induction v with
    | nil => exact ⟨[], List.nil_sublist _, List.Sublist.refl _, rfl⟩
    | cons b vs ihv =>
      rw [lcs_spec_cons_cons]
      by_cases hab : a = b
      · rw [if_pos hab]
        obtain ⟨w, h1, h2, h3⟩ := ihu vs
        exact ⟨a :: w, h1.cons₂ a, by rw [← hab]; exact h2.cons₂ a, by simp [h3]⟩
      · rw [if_neg hab]
        by_cases hm : lcs_spec (a :: us) vs ≤ lcs_spec us (b :: vs)
        · obtain ⟨w, h1, h2, h3⟩ := ihu (b :: vs)
          exact ⟨w, h1.cons a, h2, by rw [h3, max_eq_left hm]⟩
        · obtain ⟨w, h1, h2, h3⟩ := ihv
          exact ⟨w, h1, h2.cons b, by rw [h3, max_eq_right (by omega)]⟩

/-- The value of `lcs_spec` is the maximum length of a common subsequence. -/
theorem lcs_spec_is_max (u v : Str) :
    (∃ w, List.Sublist w u ∧ List.Sublist w v ∧ w.length = lcs_spec u v)
    ∧ ∀ w, List.Sublist w u → List.Sublist w v → w.length ≤ lcs_spec u v :=
  ⟨lcs_spec_attained u v, fun w => lcs_spec_upper u v w⟩

theorem lcs_spec_reverse (u v : Str) : lcs_spec u.reverse v.reverse = lcs_spec u v := by
  apply le_antisymm
  · obtain ⟨w, h1, h2, h3⟩ := lcs_spec_attained u.reverse v.reverse
    rw [← h3, ← List.length_reverse]
    exact lcs_spec_upper u v w.reverse (by simpa using h1.reverse) (by simpa using h2.reverse)
  · obtain ⟨w, h1, h2, h3⟩ := lcs_spec_attained u v
    rw [← h3, ← List.length_reverse]
    exact lcs_spec_upper _ _ w.reverse h1.reverse h2.reverse

/-- `get_lcs_length` returns the length of a longest common subsequence. -/
theorem get_lcs_length_eq (s1 s2 : Str) : get_lcs_length s1 s2 = lcs_spec s1 s2 := by
  rw [get_lcs_length_eq_rev, lcs_spec_reverse]

theorem similar_to_last_iff (last : Str) (m : Message)
    (hm : m.role = lit "assistant" → m.content.empty = true ∨ ∃ s, m.content = .str s) :
    similar_to_last last m = true ↔
      (m.role = lit "assistant" ∧ m.content.empty = false) ∧
        ∃ s, m.content.get_string = some s ∧ get_lcs_length s last > 3 * last.length / 5 := by
  unfold similar_to_last
  by_cases hr : m.role = lit "assistant"
  · rcases hm hr with hc | ⟨s, hc⟩
    · cases hmc : m.content with
      | null => simp [hr, hmc, Json.get_string]
      | str t => rw [hmc] at hc; simp [Json.empty] at hc
      | parts ps => simp [hr, hmc, Json.get_string]
    · simp only [hr, hc, decide_True, Bool.true_and, Bool.and_eq_true, decide_eq_true_eq,
        Json.empty, Json.get_string, true_and, Option.some.injEq, exists_eq_left']
      rw [get_lcs_length_eq]
      constructor
      · rintro ⟨_, h⟩; omega
      · intro h
        refine ⟨?_, by omega⟩
        rintro rfl
        simp [lcs_spec] at h
  · simp [hr]

/-- The backward scan with its early `break` decides whether the number of
similar earlier messages reaches the threshold. -/
theorem stuck_scan_spec (last : Str) (duplicate_threshold : Int) (l : List Message)
    (hl : ∀ m ∈ l, m.role = lit "assistant" →
      m.content.empty = true ∨ ∃ s, m.content = .str s) :
    ∀ count : Int, count < duplicate_threshold →
      ∃ c, stuck_scan last (3 * last.length / 5) duplicate_threshold l count = some c
        ∧ (c ≥ duplicate_threshold ↔
            count + (l.countP (similar_to_last last) : Nat) ≥ duplicate_threshold) := by
  induction l with
  | nil => intro count _; exact ⟨count, rfl, by simp⟩
  | cons m rest ih =>
    intro count hcount
    have hm := hl m (List.mem_cons_self _ _)
    have hrest : ∀ x ∈ rest, x.role = lit "assistant" →
        x.content.empty = true ∨ ∃ s, x.content = .str s :=
      fun x hx => hl x (List.mem_cons_of_mem _ hx)
    have hsim := similar_to_last_iff last m hm
    rw [List.countP_cons]
    unfold stuck_scan
    by_cases h1 : m.role = lit "assistant" ∧ m.content.empty = false
    · rw [if_pos h1]
      rcases hm h1.1 with hc | ⟨s, hc⟩
      · rw [hc] at h1; simp at h1
      · simp only [hc, Json.get_string]
        by_cases h2 : get_lcs_length s last > 3 * last.length / 5
        · have hs : similar_to_last last m = true :=
            hsim.mpr ⟨h1, s, by simp [hc, Json.get_string], h2⟩
          rw [if_pos h2, hs]
          by_cases h3 : count + 1 ≥ duplicate_threshold
          · rw [if_pos h3]
            refine ⟨count + 1, rfl, ?_⟩
            simp only [if_true]
            constructor
            · intro _; push_cast; omega
            · intro _; exact h3
          · rw [if_neg h3]
            obtain ⟨c, e, hc'⟩ := ih hrest (count + 1) (by omega)
            refine ⟨c, e, ?_⟩
            rw [hc']; simp only [if_true]; push_cast
            constructor <;> intro h <;> omega
        · have hs : similar_to_last last m = false := by
            rw [Bool.eq_false_iff]
            intro h
            obtain ⟨_, s', hs', hgt⟩ := hsim.mp h
            simp only [hc, Json.get_string, Option.some.injEq] at hs'
            subst hs'
            exact h2 hgt
          rw [if_neg h2, hs]
          obtain ⟨c, e, hc'⟩ := ih hrest count hcount
          exact ⟨c, e, by simpa using hc'⟩
    · have hs : similar_to_last last m = false := by
        rw [Bool.eq_false_iff]
        intro h
        exact h1 (hsim.mp h).1
      rw [if_neg h1, hs]
      obtain ⟨c, e, hc'⟩ := ih hrest count hcount
      exact ⟨c, e, by simpa using hc'⟩

theorem to_size_t_of_int (i : Int) (h0 : 0 ≤ i) (h1 : i < 2 ^ 31) : (to_size_t i : Int) = i := by
  unfold to_size_t
  norm_num at h1 ⊢
  omega

/-- C7 (amended). For every message list whose assistant messages carry string
or empty content, and every `duplicate_threshold ≥ 1`: `is_stuck`
returns, and it returns true if and only if the last message is an assistant
message with non-empty string content and at least `duplicate_threshold`
earlier assistant messages with non-empty string content have a longest common
subsequence with the last message that is strictly longer than 60% of the last
message's byte length. -/
theorem is_stuck_iff_spec (messages : List Message) (duplicate_threshold : Int)
    (hT : 1 ≤ duplicate_threshold) (hI : duplicate_threshold < 2 ^ 31)
    (hC : ∀ m ∈ messages, m.role = lit "assistant" →
      m.content.empty = true ∨ ∃ s, m.content = .str s) :
    is_stuck messages duplicate_threshold = some (is_stuck_spec messages duplicate_threshold) := by
  have hsz := to_size_t_of_int duplicate_threshold (by omega) hI
  unfold is_stuck is_stuck_spec
  by_cases hlen : messages.length < to_size_t duplicate_threshold
  · rw [if_pos hlen]
    have hcnt : ∀ last, ¬ duplicate_threshold
        ≤ ((messages.dropLast.countP (similar_to_last last) : Nat) : Int) := by
      intro last
      have h1 := List.countP_le_length (similar_to_last last) (l := messages.dropLast)
      have h2 : messages.dropLast.length ≤ messages.length := by simp
      omega
    cases messages.getLast? with
    | none => rfl
    | some last_message =>
      cases hc : last_message.content with
      | null => simp [hc]
      | str s => simp [hc, hcnt s]
      | parts ps => simp [hc]
  · rw [if_neg hlen]
    cases hg : messages.getLast? with
    | none =>
      have : messages = [] := List.getLast?_eq_none_iff.mp hg
      subst this
      simp only [List.length_nil] at hlen
      omega
    | some last_message =>
      have hmem : last_message ∈ messages := List.mem_of_getLast?_eq_some hg
      simp only []
      by_cases h1 : last_message.content.empty = true ∨ last_message.role ≠ lit "assistant"
      · rw [if_pos h1]
        rcases h1 with h1 | h1
        · cases hc : last_message.content with
          | null => simp [hc]
          | str s => rw [hc] at h1; simp [Json.empty] at h1
          | parts ps => simp [hc]
        · simp [h1]
      · rw [if_neg h1]
        push_neg at h1
        obtain ⟨h2, h3⟩ := h1
        rcases hC last_message hmem h3 with hc | ⟨s, hc⟩
        · exact absurd hc h2
        · simp only [hc, Json.get_string, h3, decide_True, Bool.true_and]
          obtain ⟨c, e, hc'⟩ := stuck_scan_spec s duplicate_threshold messages.dropLast.reverse
            (fun m hm => hC m (List.mem_of_mem_dropLast (List.mem_reverse.mp hm))) 0 (by omega)
          rw [e]
          simp only [Option.map_some', Option.some.injEq]
          rw [List.countP_reverse, zero_add] at hc'
          by_cases hs : s = []
          · subst hs
            have hz : messages.dropLast.countP (similar_to_last []) = 0 := by
              rw [List.countP_eq_zero]
              intro m _
              unfold similar_to_last
              cases hmc : m.content with
              | null => simp [hmc]
              | str t => simp [hmc, lcs_spec_nil_right]
              | parts ps => simp [hmc]
            rw [hz] at hc'
            have : ¬ c ≥ duplicate_threshold := by rw [hc']; push_cast; omega
            simp [this]
          · have hd : decide (s ≠ []) = true := by simpa using hs
            rw [hd, Bool.true_and]
            by_cases hge : c ≥ duplicate_threshold
            · have := hc'.mp hge
              simp [hge, this]
            · have : ¬ duplicate_threshold
                  ≤ ((messages.dropLast.countP (similar_to_last s) : Nat) : Int) :=
                fun h => hge (hc'.mpr h)
              simp [hge, this]


theorem is_stuck_iff_spec_witness :
    (1 : Int) ≤ 2 ∧ is_stuck stuck_messages 2 = some (is_stuck_spec stuck_messages 2)
      ∧ is_stuck_spec stuck_messages 2 = true
      ∧ is_stuck (stuck_messages.take 3) 2 = some false :=
  ⟨by decide,
    is_stuck_iff_spec stuck_messages 2 (by decide) (by decide) (by
      intro m hm _
      simp only [stuck_messages, List.mem_cons, List.mem_singleton, List.not_mem_nil,
        or_false] at hm
      rcases hm with rfl | rfl | rfl | rfl <;> exact Or.inr ⟨_, rfl⟩),
    by decide, by decide⟩

/-- C7 (as stated) fails: with an earlier assistant message whose content is an
array of parts, `is_stuck` raises (`none`) when the scan reaches it, although
the last message is an assistant message with non-empty string content and two
earlier assistant messages have a longest common subsequence with it that is
longer than 60% of its length. -/
theorem is_stuck_raises_on_parts :
    is_stuck messages_with_parts 2 = none ∧ is_stuck_spec messages_with_parts 2 = true := by
  decide

/-! ## Agent state machine -/


theorem getLastD_append_eq (xs ys : List AgentState) (s : AgentState) :
    (xs ++ ys).getLastD s = ys.getLastD (xs.getLastD s) := by
  simp only [List.getLastD_eq_getLast?, List.getLast?_append]
  cases ys.getLast? <;> simp

theorem transitions_ok_append (allowed : AgentState → AgentState → Bool) (xs ys : List AgentState) :
    ∀ s, transitions_ok allowed s (xs ++ ys)
      = (transitions_ok allowed s xs && transitions_ok allowed (xs.getLastD s) ys) := by
  induction xs with
  | nil => intro s; simp [transitions_ok]
  | cons x xs ih =>
    intro s
    show (allowed s x && transitions_ok allowed x (xs ++ ys)) = _
    rw [ih x]
    simp only [transitions_ok, Bool.and_assoc, List.getLastD_cons]

theorem state_history_refl {M : Type} (allowed : AgentState → AgentState → Bool)
    (a a' : ToolCallAgent M) (h1 : a'.state = a.state) (h2 : a'.state_log = a.state_log) :
    state_history_ok allowed a a' :=
  ⟨[], by simp [h2], rfl, by simp [h1]⟩

theorem state_history_trans {M : Type} (allowed : AgentState → AgentState → Bool)
    (a b c : ToolCallAgent M) (h1 : state_history_ok allowed a b)
    (h2 : state_history_ok allowed b c) : state_history_ok allowed a c := by
  obtain ⟨n1, l1, t1, s1⟩ := h1
  obtain ⟨n2, l2, t2, s2⟩ := h2
  refine ⟨n1 ++ n2, by rw [l2, l1, List.append_assoc], ?_, ?_⟩
  · rw [transitions_ok_append, t1, ← s1, t2]; rfl
  · rw [s2, s1, getLastD_append_eq]

theorem state_history_set_state {M : Type} (allowed : AgentState → AgentState → Bool)
    (a : ToolCallAgent M) (s : AgentState) (h : allowed a.state s = true) :
    state_history_ok allowed a (a.set_state s) :=
  ⟨[s], rfl, by simp [transitions_ok, h], rfl⟩

/-- `execute_tool` in state Running: the only state change is
Running→Finished. -/
theorem execute_tool_history {M : Type} (env : Env) (a : ToolCallAgent M) (tool_call : ToolCall)
    (h : a.state = .RUNNING) :
    state_history_ok run_transition a (a.execute_tool env tool_call).1
      ∧ ((a.execute_tool env tool_call).1.state = .RUNNING
        ∨ (a.execute_tool env tool_call).1.state = .FINISHED) := by
  unfold ToolCallAgent.execute_tool
  by_cases h1 : tool_call.empty = true ∨ tool_call.function.empty = true
      ∨ tool_call.function.name.isEmpty = true
  · rw [if_pos h1]; exact ⟨state_history_refl _ _ _ rfl rfl, Or.inl h⟩
  rw [if_neg h1]
  dsimp only
  by_cases h2 : (map_find tool_call.function.name a.available_tools.tools_map).isNone = true
  · rw [if_pos h2]; exact ⟨state_history_refl _ _ _ rfl rfl, Or.inl h⟩
  rw [if_neg h2]
  split_ifs with h3 h4
  · exact ⟨state_history_refl _ _ _ rfl rfl, Or.inl h⟩
  · refine ⟨?_, Or.inr rfl⟩
    exact state_history_trans _ _ { a with executed := a.executed ++ [tool_call] } _
      (state_history_refl _ _ _ rfl rfl)
      (state_history_set_state _ _ _ (by
        show run_transition a.state .FINISHED = true
        rw [h]; rfl))
  · exact ⟨state_history_refl _ _ _ rfl rfl, Or.inl h⟩

theorem add_message_state {M : Type} (ops : MemoryOps M) (a a' : ToolCallAgent M)
    (message : Message) (raised : Bool) (h : a.add_message ops message = some (a', raised)) :
    a'.state = a.state ∧ a'.state_log = a.state_log ∧ a'.executed = a.executed
      ∧ a'.llm_calls = a.llm_calls ∧ a'.current_step = a.current_step
      ∧ a'.max_steps = a.max_steps ∧ a'.passed = a.passed ++ [message]
      ∧ a'.tool_calls = a.tool_calls := by
  unfold ToolCallAgent.add_message at h
  cases hm : ops.add_message a.memory message with
  | none => simp [hm] at h
  | some r =>
    simp only [hm, Option.map_some', Option.some.injEq, Prod.mk.injEq] at h
    obtain ⟨h1, _⟩ := h
    subst h1
    exact ⟨rfl, rfl, rfl, rfl, rfl, rfl, rfl, rfl⟩

theorem spill_state {M : Type} (a a' : ToolCallAgent M) (content : Json) (r : ToolResult)
    (h : a.spill content = some (a', r)) :
    a'.state = a.state ∧ a'.state_log = a.state_log ∧ a'.executed = a.executed
      ∧ a'.passed = a.passed ∧ a'.memory = a.memory := by
  unfold ToolCallAgent.spill at h
  cases hw : a.content_provider.handle_write (write_fuel (write_content content))
      (write_content content) 4000 with
  | none => simp [hw] at h
  | some w =>
    simp only [hw, Option.map_some', Option.some.injEq, Prod.mk.injEq] at h
    obtain ⟨h1, _⟩ := h
    subst h1
    exact ⟨rfl, rfl, rfl, rfl, rfl⟩

theorem precheck_state {M : Type} (a : ToolCallAgent M) (result : ToolResult) :
    (a.precheck result).all (fun a' => a'.state = a.state ∧ a'.state_log = a.state_log
      ∧ a'.executed = a.executed ∧ a'.passed = a.passed ∧ a'.memory = a.memory) := by
  unfold ToolCallAgent.precheck
  split_ifs
  · cases hi : is_single_image result.output with
    | none => exact ⟨rfl, rfl, rfl, rfl, rfl⟩
    | some b =>
      cases b with
      | true => exact ⟨rfl, rfl, rfl, rfl, rfl⟩
      | false =>
        simp only []
        cases hs : a.spill result.output with
        | none => trivial
        | some w =>
          obtain ⟨a1, written⟩ := w
          exact spill_state a a1 _ _ hs
  · exact ⟨rfl, rfl, rfl, rfl, rfl⟩

theorem state_history_same {M : Type} (allowed : AgentState → AgentState → Bool)
    (a b c : ToolCallAgent M) (h : state_history_ok allowed a b)
    (h1 : c.state = b.state) (h2 : c.state_log = b.state_log) :
    state_history_ok allowed a c :=
  state_history_trans allowed a b c h (state_history_refl allowed b c h1 h2)

theorem dispatch_history {M : Type} (env : Env) (a : ToolCallAgent M) (tool_call : ToolCall)
    (h : a.state = .RUNNING ∨ a.state = .FINISHED) :
    state_history_ok run_transition a (a.dispatch env tool_call).1
      ∧ ((a.dispatch env tool_call).1.state = .RUNNING
        ∨ (a.dispatch env tool_call).1.state = .FINISHED) := by
  unfold ToolCallAgent.dispatch
  by_cases hs : a.state = .RUNNING
  · rw [if_pos hs]; exact execute_tool_history env a tool_call hs
  · rw [if_neg hs]; exact ⟨state_history_refl _ _ _ rfl rfl, h⟩

theorem limit_message_state {M : Type} (env : Env) (a a' : ToolCallAgent M)
    (tool_msg tool_msg' : Message) (tool_call : ToolCall)
    (h : a.limit_message env tool_msg tool_call = some (a', tool_msg')) :
    a'.state = a.state ∧ a'.state_log = a.state_log ∧ a'.executed = a.executed
      ∧ a'.passed = a.passed ∧ a'.memory = a.memory := by
  unfold ToolCallAgent.limit_message at h
  by_cases ht : tool_msg.num_tokens > 4096
  · rw [if_pos ht] at h
    cases hsp : a.spill tool_msg.content with
    | none => simp [hsp] at h
    | some w =>
      simp only [hsp, Option.map_some', Option.some.injEq, Prod.mk.injEq] at h
      rw [← h.1]
      exact spill_state a w.1 _ w.2 hsp
  · rw [if_neg ht] at h
    simp only [Option.some.injEq, Prod.mk.injEq] at h
    rw [← h.1]; exact ⟨rfl, rfl, rfl, rfl, rfl⟩

/-- One iteration of the loop of `act`, entered in state Running or Finished:
the state changes at most by Running→Finished and ends Running or Finished. -/
theorem act_step_history {M : Type} (env : Env) (ops : MemoryOps M) (a : ToolCallAgent M)
    (tool_call : ToolCall) (h : a.state = .RUNNING ∨ a.state = .FINISHED) :
    (a.act_step env ops tool_call).all (fun a' =>
      state_history_ok run_transition a a'
        ∧ (a'.state = .RUNNING ∨ a'.state = .FINISHED)) := by
  obtain ⟨H1, H2⟩ := dispatch_history env a tool_call h
  have hpre := precheck_state (a.dispatch env tool_call).1 (a.dispatch env tool_call).2
  unfold ToolCallAgent.act_step
  cases hp : (a.dispatch env tool_call).1.precheck (a.dispatch env tool_call).2 with
  | undefined => trivial
  | raised a1 =>
    rw [hp] at hpre
    obtain ⟨e1, e2, _⟩ := hpre
    exact ⟨state_history_same _ _ _ _ H1 e1 e2, by rw [e1]; exact H2⟩
  | ok a1 result =>
    rw [hp] at hpre
    obtain ⟨e1, e2, _⟩ := hpre
    dsimp only
    cases hl : a1.limit_message env (tool_result_message env result tool_call) tool_call with
    | none => trivial
    | some p =>
      obtain ⟨a2, tool_msg⟩ := p
      obtain ⟨e3, e4, _⟩ := limit_message_state env a1 a2 _ _ _ hl
      dsimp only
      cases hadd : a2.add_message ops tool_msg with
      | none => trivial
      | some q =>
        obtain ⟨a3, raised⟩ := q
        obtain ⟨q1, q2, _⟩ := add_message_state ops a2 a3 tool_msg raised hadd
        have hfin : state_history_ok run_transition a a3
            ∧ (a3.state = .RUNNING ∨ a3.state = .FINISHED) :=
          ⟨state_history_same _ _ _ _ H1 (by rw [q1, e3, e1]) (by rw [q2, e4, e2]),
            by rw [q1, e3, e1]; exact H2⟩
        cases raised with
        | true => exact hfin
        | false => exact hfin

theorem act_loop_history {M : Type} (env : Env) (ops : MemoryOps M) (calls : List ToolCall) :
    ∀ (a : ToolCallAgent M) (result_str : Str), (a.state = .RUNNING ∨ a.state = .FINISHED) →
      (ToolCallAgent.act_loop env ops calls a result_str).all (fun a' =>
        state_history_ok run_transition a a'
          ∧ (a'.state = .RUNNING ∨ a'.state = .FINISHED)) := by
  induction calls with
  | nil => intro a _ h; exact ⟨state_history_refl _ _ _ rfl rfl, h⟩
  | cons c rest ih =>
    intro a result_str h
    have hs := act_step_history env ops a c h
    unfold ToolCallAgent.act_loop
    cases hc : a.act_step env ops c with
    | undefined => trivial
    | raised a1 => rw [hc] at hs; exact hs
    | ok a1 obs =>
      rw [hc] at hs
      obtain ⟨s1, s2⟩ := hs
      have := ih a1 (result_str ++ (obs ++ lit "\n\n")) s2
      dsimp only
      cases hl : ToolCallAgent.act_loop env ops rest a1 (result_str ++ (obs ++ lit "\n\n")) with
      | undefined => trivial
      | raised a2 =>
        rw [hl] at this
        exact ⟨state_history_trans _ _ _ _ s1 this.1, this.2⟩
      | ok a2 s =>
        rw [hl] at this
        exact ⟨state_history_trans _ _ _ _ s1 this.1, this.2⟩

theorem act_history {M : Type} (env : Env) (ops : MemoryOps M) (a : ToolCallAgent M)
    (h : a.state = .RUNNING ∨ a.state = .FINISHED) :
    (a.act env ops).all (fun a' =>
      state_history_ok run_transition a a'
        ∧ (a'.state = .RUNNING ∨ a'.state = .FINISHED)) := by
  unfold ToolCallAgent.act
  split_ifs
  · exact ⟨state_history_refl _ _ _ rfl rfl, h⟩
  · exact ⟨state_history_refl _ _ _ rfl rfl, h⟩
  · exact act_loop_history env ops a.tool_calls a [] h

theorem think_add_state {M : Type} (ops : MemoryOps M) (a : ToolCallAgent M)
    (message : Message) (value : Bool) :
    (a.think_add ops message value).all (fun a' =>
      a'.state = a.state ∧ a'.state_log = a.state_log ∧ a'.executed = a.executed
        ∧ a'.current_step = a.current_step ∧ a'.max_steps = a.max_steps) := by
  unfold ToolCallAgent.think_add
  cases hadd : a.add_message ops message with
  | none => trivial
  | some q =>
    obtain ⟨a1, raised⟩ := q
    obtain ⟨q1, q2, q3, _, q5, q6, _⟩ := add_message_state ops a a1 message raised hadd
    cases raised <;> exact ⟨q1, q2, q3, q5, q6⟩

/-- `think` assigns nothing to `state` and executes no tool. -/
theorem think_state {M : Type} (env : Env) (ops : MemoryOps M) (a : ToolCallAgent M) :
    (a.think env ops).all (fun a' =>
      a'.state = a.state ∧ a'.state_log = a.state_log ∧ a'.executed = a.executed
        ∧ a'.current_step = a.current_step ∧ a'.max_steps = a.max_steps) := by
  unfold ToolCallAgent.think
  split_ifs
  · exact ⟨rfl, rfl, rfl, rfl, rfl⟩
  · cases hl : env.llm a.llm_calls with
    | raises => exact ⟨rfl, rfl, rfl, rfl, rfl⟩
    | message content tool_calls =>
      dsimp only
      split_ifs
      · exact ⟨rfl, rfl, rfl, rfl, rfl⟩
      · exact ⟨rfl, rfl, rfl, rfl, rfl⟩
      · exact think_add_state ops _ _ _
      · exact ⟨rfl, rfl, rfl, rfl, rfl⟩
      · exact think_add_state ops _ _ _
      · exact think_add_state ops _ _ _

theorem step_history {M : Type} (env : Env) (ops : MemoryOps M) (a : ToolCallAgent M)
    (h : a.state = .RUNNING) :
    (a.step env ops).all (fun a' =>
      state_history_ok run_transition a a'
        ∧ (a'.state = .RUNNING ∨ a'.state = .FINISHED)) := by
  have ht := think_state env ops a
  unfold ToolCallAgent.step
  cases hth : a.think env ops with
  | undefined => trivial
  | raised a1 =>
    rw [hth] at ht
    exact ⟨state_history_refl _ _ _ ht.1 ht.2.1, by rw [ht.1]; exact Or.inl h⟩
  | ok a1 should_act =>
    rw [hth] at ht
    have h1 : state_history_ok run_transition a a1 := state_history_refl _ _ _ ht.1 ht.2.1
    have h2 : a1.state = .RUNNING := by rw [ht.1]; exact h
    dsimp only
    split_ifs
    · exact ⟨h1, Or.inl h2⟩
    · have := act_history env ops a1 (Or.inl h2)
      cases hact : a1.act env ops with
      | undefined => trivial
      | raised a2 => rw [hact] at this; exact ⟨state_history_trans _ _ _ _ h1 this.1, this.2⟩
      | ok a2 s => rw [hact] at this; exact ⟨state_history_trans _ _ _ _ h1 this.1, this.2⟩

theorem check_stuck_state {M : Type} (env : Env) (ops : MemoryOps M) (a : ToolCallAgent M) :
    (a.check_stuck env ops).all (fun a' =>
      a'.state = a.state ∧ a'.state_log = a.state_log ∧ a'.current_step = a.current_step
        ∧ a'.max_steps = a.max_steps) := by
  unfold ToolCallAgent.check_stuck
  cases hs : is_stuck (ops.get_messages a.memory) a.duplicate_threshold with
  | none =>
    dsimp only
    split_ifs
    · trivial
    · exact ⟨rfl, rfl, rfl, rfl⟩
  | some b =>
    cases b with
    | false => exact ⟨rfl, rfl, rfl, rfl⟩
    | true =>
      dsimp only
      cases hadd : a.add_message ops (Message.user_message env.tok (.str stuck_prompt)) with
      | none => trivial
      | some q =>
        obtain ⟨a1, raised⟩ := q
        obtain ⟨q1, q2, _, _, q5, q6, _⟩ := add_message_state ops a a1 _ raised hadd
        cases raised <;> exact ⟨q1, q2, q5, q6⟩

/-- The loop of `run`, entered in state Running or Finished: every state change
is one of `run_transition`, and the loop ends in Running, Finished or Error. -/
theorem run_loop_history {M : Type} (env : Env) (ops : MemoryOps M) (n : Nat) :
    ∀ (a : ToolCallAgent M) (results : List Str),
      (a.state = .RUNNING ∨ a.state = .FINISHED) →
      (ToolCallAgent.run_loop env ops n a results).all (fun a' =>
        state_history_ok run_transition a a'
          ∧ (a'.state = .RUNNING ∨ a'.state = .FINISHED ∨ a'.state = .ERR)) := by
  induction n with
  | zero =>
    intro a results h
    unfold ToolCallAgent.run_loop
    split_ifs
    · trivial
    · exact ⟨state_history_refl _ _ _ rfl rfl, by tauto⟩
  | succ n ih =>
    intro a results h
    unfold ToolCallAgent.run_loop
    by_cases hc : a.current_step < a.max_steps ∧ a.state = .RUNNING
    · rw [if_pos hc]
      dsimp only
      have hs := step_history env ops { a with current_step := a.current_step + 1 } hc.2
      have h0 : state_history_ok run_transition a { a with current_step := a.current_step + 1 } :=
        state_history_refl _ _ _ rfl rfl
      cases hst : ToolCallAgent.step env ops { a with current_step := a.current_step + 1 } with
      | undefined => trivial
      | raised a2 =>
        rw [hst] at hs
        obtain ⟨s1, s2⟩ := hs
        refine ⟨state_history_trans _ _ _ _ (state_history_trans _ _ _ _ h0 s1)
          (state_history_set_state _ _ _ ?_), Or.inr (Or.inr rfl)⟩
        rcases s2 with s2 | s2 <;> rw [s2] <;> rfl
      | ok a2 step_result =>
        rw [hst] at hs
        obtain ⟨s1, s2⟩ := hs
        have hk := check_stuck_state env ops a2
        dsimp only
        cases hck : a2.check_stuck env ops with
        | undefined => trivial
        | raised a3 =>
          rw [hck] at hk
          exact ⟨state_history_same _ _ _ _ (state_history_trans _ _ _ _ h0 s1) hk.1 hk.2.1,
            by rw [hk.1]; tauto⟩
        | ok a3 u =>
          rw [hck] at hk
          have h3 : state_history_ok run_transition a a3 :=
            state_history_same _ _ _ _ (state_history_trans _ _ _ _ h0 s1) hk.1 hk.2.1
          have := ih a3 (results ++ [lit "Step " ++ to_string_int a3.current_step ++ lit ": " ++
            step_result]) (by rw [hk.1]; exact s2)
          dsimp only
          cases hl : ToolCallAgent.run_loop env ops n a3 (results ++
              [lit "Step " ++ to_string_int a3.current_step ++ lit ": " ++ step_result]) with
          | undefined => trivial
          | raised a4 => rw [hl] at this; exact ⟨state_history_trans _ _ _ _ h3 this.1, this.2⟩
          | ok a4 r => rw [hl] at this; exact ⟨state_history_trans _ _ _ _ h3 this.1, this.2⟩
    · rw [if_neg hc]
      exact ⟨state_history_refl _ _ _ rfl rfl, by tauto⟩

/-- C8 (amended). In every execution of `run`, with any LLM replies, tool
results and memory behaviour, that ends by return or by an exception: each
change of the agent state is one of Idle→Running, Running→Finished,
Running→Error, Finished→Error, Finished→Idle; when `run` is called in a state
other than Idle the state is not changed, no LLM call is made and no tool is
executed; and when `run` is called in a state other than Finished and returns,
the state at return is not Finished. -/
theorem run_state_transitions {M : Type} (env : Env) (ops : MemoryOps M) (a : ToolCallAgent M)
    (request : Str) :
    (a.run env ops request).all (fun a' =>
        state_history_ok run_transition a a'
        ∧ (a.state ≠ .IDLE → a'.state_log = a.state_log ∧ a'.state = a.state
            ∧ a'.llm_calls = a.llm_calls ∧ a'.executed = a.executed
            ∧ a'.current_step = a.current_step))
      ∧ ∀ a' result, a.run env ops request = .ok a' result → a.state ≠ .FINISHED →
          a'.state ≠ .FINISHED := by
  unfold ToolCallAgent.run
  dsimp only
  by_cases hi : a.state ≠ .IDLE
  · rw [if_pos hi]
    refine ⟨⟨state_history_refl _ _ _ rfl rfl, fun _ => ⟨rfl, rfl, rfl, rfl, rfl⟩⟩, ?_⟩
    intro a' result h hf
    simp only [Res.ok.injEq] at h
    rw [← h.1]; exact hf
  · rw [if_neg hi]
    have hidle : a.state = .IDLE := by simpa using hi
    generalize hr1 : (if request.isEmpty = false then
        ToolCallAgent.add_message ops { a with memory := ops.set_current_request a.memory request }
          (Message.user_message env.tok (.str request))
      else some ({ a with memory := ops.set_current_request a.memory request }, false)) = r1
    cases r1 with
    | none => exact ⟨trivial, fun a' result h => by simp at h⟩
    | some p =>
      obtain ⟨a1, raised⟩ := p
      have e1 : a1.state = a.state ∧ a1.state_log = a.state_log := by
        by_cases hreq : request.isEmpty = false
        · rw [if_pos hreq] at hr1
          obtain ⟨q1, q2, _⟩ := add_message_state ops _ a1 _ raised hr1
          exact ⟨q1, q2⟩
        · rw [if_neg hreq] at hr1
          simp only [Option.some.injEq, Prod.mk.injEq] at hr1
          rw [← hr1.1]; exact ⟨rfl, rfl⟩
      cases raised with
      | true =>
        exact ⟨⟨state_history_refl _ _ _ e1.1 e1.2, fun h => absurd hidle h⟩,
          fun a' result h => by simp at h⟩
      | false =>
        dsimp only
        have h1 : state_history_ok run_transition a (a1.set_state .RUNNING) :=
          state_history_trans _ _ _ _ (state_history_refl _ _ _ e1.1 e1.2)
            (state_history_set_state _ _ _ (by rw [e1.1, hidle]; rfl))
        have hloop := run_loop_history env ops
          ((a1.set_state .RUNNING).max_steps - (a1.set_state .RUNNING).current_step).toNat
          (a1.set_state .RUNNING) [] (Or.inl rfl)
        cases hl : ToolCallAgent.run_loop env ops
            ((a1.set_state .RUNNING).max_steps - (a1.set_state .RUNNING).current_step).toNat
            (a1.set_state .RUNNING) [] with
        | undefined => exact ⟨trivial, fun a' result h => by simp at h⟩
        | raised a3 =>
          rw [hl] at hloop
          exact ⟨⟨state_history_trans _ _ _ _ h1 hloop.1, fun h => absurd hidle h⟩,
            fun a' result h => by simp at h⟩
        | ok a3 results =>
          rw [hl] at hloop
          obtain ⟨l1, l2⟩ := hloop
          dsimp only
          by_cases hf : a3.state ≠ .FINISHED
          · simp only [if_pos hf]
            refine ⟨⟨state_history_trans _ _ _ _ h1 l1, fun h => absurd hidle h⟩, ?_⟩
            intro a' result h _
            simp only [Res.ok.injEq] at h
            rw [← h.1]; exact hf
          · simp only [if_neg hf]
            have hf' : a3.state = .FINISHED := by simpa using hf
            refine ⟨⟨state_history_trans _ _ _ _ (state_history_trans _ _ _ _ h1 l1)
              (state_history_set_state _ _ _ (by rw [hf']; rfl)), fun h => absurd hidle h⟩, ?_⟩
            intro a' result h _
            simp only [Res.ok.injEq] at h
            rw [← h.1]
            simp [ToolCallAgent.set_state]


/-- A run that ends by `terminate`: Idle→Running→Finished→Idle (an instance of
`run_state_transitions`). -/
theorem run_state_transitions_witness :
    (((demo_agent 10).run (demo_env [terminate_call]) fifo_ops (lit "go")).agent?.map
        (fun a => (a.state_log, a.state, a.executed.length)))
      = some ([.RUNNING, .FINISHED, .IDLE], .IDLE, 1)
    ∧ ((demo_agent 10).run (demo_env [terminate_call]) fifo_ops (lit "go")).all (fun a' =>
        state_history_ok run_transition (demo_agent 10) a'
        ∧ ((demo_agent 10).state ≠ .IDLE → a'.state_log = (demo_agent 10).state_log
            ∧ a'.state = (demo_agent 10).state
            ∧ a'.llm_calls = (demo_agent 10).llm_calls ∧ a'.executed = (demo_agent 10).executed
            ∧ a'.current_step = (demo_agent 10).current_step)) :=
  ⟨by decide,
    (run_state_transitions (demo_env [terminate_call]) fifo_ops (demo_agent 10) (lit "go")).1⟩

/-- C8 (as stated) fails: the LLM calls `terminate`, the state becomes Finished,
and the `add_message` of the tool message raises in the fact pipeline of the
memory; `run` catches the exception and sets the state to Error. The state
changes are Idle→Running→Finished→Error, and Finished→Error is not among the
allowed transitions. -/
theorem run_finished_to_error :
    (((demo_agent 2).run (demo_env [terminate_call]) failing_pipeline_ops (lit "go")).agent?.map
        (fun a => a.state_log)) = some [.RUNNING, .FINISHED, .ERR]
    ∧ transitions_ok allowed_transition .IDLE [.RUNNING, .FINISHED, .ERR] = false := by
  decide

/-! ## The tool messages of `act` -/

/-- What `dispatch` changes: it executes the call exactly when the agent is
Running and the call is executable, and leaves the Running state exactly when
it executes a special tool. -/
theorem dispatch_spec {M : Type} (env : Env) (a : ToolCallAgent M) (c : ToolCall) :
    (a.dispatch env c).1.available_tools = a.available_tools
      ∧ (a.dispatch env c).1.special_tool_names = a.special_tool_names
      ∧ (a.dispatch env c).1.passed = a.passed
      ∧ (a.dispatch env c).1.memory = a.memory
      ∧ (a.dispatch env c).1.executed = a.executed ++
          expected_executed env a.available_tools a.special_tool_names
            (decide (a.state = .RUNNING)) [c]
      ∧ decide ((a.dispatch env c).1.state = .RUNNING)
          = (decide (a.state = .RUNNING)
            && !(executable env a.available_tools c
              && decide (c.function.name ∈ a.special_tool_names))) := by
  unfold ToolCallAgent.dispatch
  by_cases hs : a.state = .RUNNING
  · rw [if_pos hs]
    unfold ToolCallAgent.execute_tool
    by_cases h1 : c.empty = true ∨ c.function.empty = true ∨ c.function.name.isEmpty = true
    · rw [if_pos h1]
      have he : executable env a.available_tools c = false := by
        unfold executable
        rcases h1 with h | h | h <;> simp [h]
      simp [expected_executed, he, hs]
    rw [if_neg h1]
    have h1' : (c.empty || c.function.empty || c.function.name.isEmpty) = false := by
      simp only [not_or, Bool.not_eq_true] at h1
      simp [h1.1, h1.2.1, h1.2.2]
    dsimp only
    by_cases h2 : (map_find c.function.name a.available_tools.tools_map).isNone = true
    · rw [if_pos h2]
      have he : executable env a.available_tools c = false := by
        unfold executable
        rw [Option.isNone_iff_eq_none] at h2
        simp [h2]
      simp [expected_executed, he, hs]
    rw [if_neg h2]
    have h2' : (map_find c.function.name a.available_tools.tools_map).isSome = true := by
      cases hm : map_find c.function.name a.available_tools.tools_map with
      | none => simp [hm] at h2
      | some v => rfl
    cases harg : c.function.arguments with
    | text s =>
      dsimp only
      by_cases hp : env.parse_ok s = true
      · have he : executable env a.available_tools c = true := by
          unfold executable; simp [h1', h2', harg, hp]
        simp only [hp, Bool.not_true, Bool.false_eq_true, if_false]
        by_cases hsp : c.function.name ∈ a.special_tool_names
        · simp [expected_executed, he, hs, hsp, ToolCallAgent.set_state]
        · simp [expected_executed, he, hs, hsp]
      · have he : executable env a.available_tools c = false := by
          unfold executable; simp [harg, hp]
        simp [expected_executed, he, hs, hp]
    | null =>
      have he : executable env a.available_tools c = true := by
        unfold executable; simp [h1', h2', harg]
      dsimp only
      by_cases hsp : c.function.name ∈ a.special_tool_names
      · simp [expected_executed, he, hs, hsp, ToolCallAgent.set_state]
      · simp [expected_executed, he, hs, hsp]
    | value v =>
      have he : executable env a.available_tools c = true := by
        unfold executable; simp [h1', h2', harg]
      dsimp only
      by_cases hsp : c.function.name ∈ a.special_tool_names
      · simp [expected_executed, he, hs, hsp, ToolCallAgent.set_state]
      · simp [expected_executed, he, hs, hsp]
  · rw [if_neg hs]
    simp [expected_executed, hs]


theorem add_message_tools {M : Type} (ops : MemoryOps M) (a a' : ToolCallAgent M)
    (message : Message) (raised : Bool) (h : a.add_message ops message = some (a', raised)) :
    a'.available_tools = a.available_tools ∧ a'.special_tool_names = a.special_tool_names := by
  unfold ToolCallAgent.add_message at h
  cases hm : ops.add_message a.memory message with
  | none => simp [hm] at h
  | some r =>
    simp only [hm, Option.map_some', Option.some.injEq, Prod.mk.injEq] at h
    obtain ⟨h1, _⟩ := h
    subst h1
    exact ⟨rfl, rfl⟩

theorem spill_tools {M : Type} (a a' : ToolCallAgent M) (content : Json) (r : ToolResult)
    (h : a.spill content = some (a', r)) :
    a'.available_tools = a.available_tools ∧ a'.special_tool_names = a.special_tool_names := by
  unfold ToolCallAgent.spill at h
  cases hw : a.content_provider.handle_write (write_fuel (write_content content))
      (write_content content) 4000 with
  | none => simp [hw] at h
  | some w =>
    simp only [hw, Option.map_some', Option.some.injEq, Prod.mk.injEq] at h
    obtain ⟨h1, _⟩ := h
    subst h1
    exact ⟨rfl, rfl⟩

theorem precheck_tools {M : Type} (a : ToolCallAgent M) (result : ToolResult) :
    (a.precheck result).all (fun a' => a'.available_tools = a.available_tools
      ∧ a'.special_tool_names = a.special_tool_names) := by
  unfold ToolCallAgent.precheck
  split_ifs
  · cases hi : is_single_image result.output with
    | none => exact ⟨rfl, rfl⟩
    | some b =>
      cases b with
      | true => exact ⟨rfl, rfl⟩
      | false =>
        simp only []
        cases hs : a.spill result.output with
        | none => trivial
        | some w =>
          obtain ⟨a1, written⟩ := w
          exact spill_tools a a1 _ _ hs
  · exact ⟨rfl, rfl⟩

theorem limit_message_tools {M : Type} (env : Env) (a a' : ToolCallAgent M)
    (tool_msg tool_msg' : Message) (tool_call : ToolCall)
    (h : a.limit_message env tool_msg tool_call = some (a', tool_msg')) :
    a'.available_tools = a.available_tools ∧ a'.special_tool_names = a.special_tool_names := by
  unfold ToolCallAgent.limit_message at h
  by_cases ht : tool_msg.num_tokens > 4096
  · rw [if_pos ht] at h
    cases hsp : a.spill tool_msg.content with
    | none => simp [hsp] at h
    | some w =>
      simp only [hsp, Option.map_some', Option.some.injEq, Prod.mk.injEq] at h
      rw [← h.1]
      exact spill_tools a w.1 _ w.2 hsp
  · rw [if_neg ht] at h
    simp only [Option.some.injEq, Prod.mk.injEq] at h
    rw [← h.1]; exact ⟨rfl, rfl⟩

theorem tool_result_message_keys (env : Env) (result : ToolResult) (c : ToolCall) :
    message_keys (tool_result_message env result c) = call_keys c := rfl

theorem limit_message_keys {M : Type} (env : Env) (a a' : ToolCallAgent M)
    (tool_msg tool_msg' : Message) (c : ToolCall) (hk : message_keys tool_msg = call_keys c)
    (h : a.limit_message env tool_msg c = some (a', tool_msg')) :
    message_keys tool_msg' = call_keys c := by
  unfold ToolCallAgent.limit_message at h
  by_cases ht : tool_msg.num_tokens > 4096
  · rw [if_pos ht] at h
    cases hsp : a.spill tool_msg.content with
    | none => simp [hsp] at h
    | some w =>
      simp only [hsp, Option.map_some', Option.some.injEq, Prod.mk.injEq] at h
      rw [← h.2]; rfl
  · rw [if_neg ht] at h
    simp only [Option.some.injEq, Prod.mk.injEq] at h
    rw [← h.2]; exact hk

theorem act_step_frame {M : Type} (env : Env) (ops : MemoryOps M) (a : ToolCallAgent M)
    (c : ToolCall) :
    match a.act_step env ops c with
    | .ok a' _ => step_frame c (a.dispatch env c).1 a' true
    | .raised a' => ∃ answered, step_frame c (a.dispatch env c).1 a' answered
    | .undefined => True := by
  have hpre := precheck_state (a.dispatch env c).1 (a.dispatch env c).2
  have hpt := precheck_tools (a.dispatch env c).1 (a.dispatch env c).2
  unfold ToolCallAgent.act_step
  cases hp : (a.dispatch env c).1.precheck (a.dispatch env c).2 with
  | undefined => trivial
  | raised a1 =>
    rw [hp] at hpre hpt
    obtain ⟨e1, _, e3, e4, _⟩ := hpre
    exact ⟨false, hpt.1, hpt.2, e1, e3, by simpa using e4⟩
  | ok a1 result =>
    rw [hp] at hpre hpt
    obtain ⟨e1, _, e3, e4, _⟩ := hpre
    dsimp only
    cases hl : a1.limit_message env (tool_result_message env result c) c with
    | none => trivial
    | some p =>
      obtain ⟨a2, tool_msg⟩ := p
      obtain ⟨f1, _, f3, f4, _⟩ := limit_message_state env a1 a2 _ _ _ hl
      have ft := limit_message_tools env a1 a2 _ _ _ hl
      have hk := limit_message_keys env a1 a2 _ _ c (tool_result_message_keys env result c) hl
      dsimp only
      cases hadd : a2.add_message ops tool_msg with
      | none => trivial
      | some q =>
        obtain ⟨a3, raised⟩ := q
        obtain ⟨q1, _, q3, _, _, _, q7, _⟩ := add_message_state ops a2 a3 tool_msg raised hadd
        have qt := add_message_tools ops a2 a3 tool_msg raised hadd
        have hfr : step_frame c (a.dispatch env c).1 a3 true :=
          ⟨by rw [qt.1, ft.1, hpt.1], by rw [qt.2, ft.2, hpt.2], by rw [q1, f1, e1],
            by rw [q3, f3, e3], by simpa using ⟨tool_msg, by rw [q7, f4, e4], hk⟩⟩
        cases raised with
        | true => exact ⟨true, hfr⟩
        | false => exact hfr

theorem expected_executed_cons (env : Env) (tools : ToolCollection) (special : List Str)
    (running : Bool) (c : ToolCall) (rest : List ToolCall) :
    expected_executed env tools special running (c :: rest)
      = expected_executed env tools special running [c]
        ++ expected_executed env tools special
            (running && !(executable env tools c && decide (c.function.name ∈ special))) rest := by
  cases running with
  | false => cases rest <;> simp [expected_executed]
  | true =>
    by_cases he : executable env tools c = true
    · by_cases hsp : c.function.name ∈ special
      · simp [expected_executed, he, hsp]
      · simp [expected_executed, he, hsp]
    · simp [expected_executed, he]

/-- Composition of one iteration with the rest of the loop. -/
theorem act_handled_step {M : Type} (env : Env) (c : ToolCall) (rest : List ToolCall)
    (k j : Nat) (a a1 a2 : ToolCallAgent M)
    (h1 : step_frame c (a.dispatch env c).1 a1 true)
    (h2 : act_handled env rest k j a1 a2) : act_handled env (c :: rest) (k + 1) (j + 1) a a2 := by
  obtain ⟨t1, t2, t3, t4, t5, t6⟩ := dispatch_spec env a c
  obtain ⟨s1, s2, s3, s4, s5⟩ := h1
  simp only [if_true] at s5
  obtain ⟨m, p1, k1⟩ := s5
  obtain ⟨msgs, p2, k2, e2⟩ := h2
  refine ⟨m :: msgs, by rw [p2, p1, t3]; simp, by simp [k1, k2], ?_⟩
  rw [e2, s4, t5, List.take_succ_cons, expected_executed_cons env _ _ _ c (rest.take j),
    s1, s2, t1, t2, s3, t6, List.append_assoc]

/-- The loop of `act` over a batch: on return every call is dispatched and
answered; on an exception a leading part of the batch is, and at most one
dispatched call is not answered. -/
theorem act_loop_handled {M : Type} (env : Env) (ops : MemoryOps M) (calls : List ToolCall) :
    ∀ (a : ToolCallAgent M) (result_str : Str),
      match ToolCallAgent.act_loop env ops calls a result_str with
      | .ok a' _ => act_handled env calls calls.length calls.length a a'
      | .raised a' => ∃ k j, k ≤ j ∧ j ≤ k + 1 ∧ j ≤ calls.length
          ∧ act_handled env calls k j a a'
      | .undefined => True := by
  induction calls with
  | nil =>
    intro a result_str
    exact ⟨[], by simp, by simp, by simp [expected_executed]⟩
  | cons c rest ih =>
    intro a result_str
    have hs := act_step_frame env ops a c
    unfold ToolCallAgent.act_loop
    cases hc : a.act_step env ops c with
    | undefined => trivial
    | raised a1 =>
      rw [hc] at hs
      obtain ⟨answered, s1, s2, s3, s4, s5⟩ := hs
      obtain ⟨t1, t2, t3, t4, t5, t6⟩ := dispatch_spec env a c
      dsimp only
      cases answered with
      | false =>
        simp only [Bool.false_eq_true, if_false] at s5
        exact ⟨0, 1, by omega, by omega, by simp,
          [], by rw [s5, t3]; simp, by simp, by rw [s4, t5]; simp⟩
      | true =>
        simp only [if_true] at s5
        obtain ⟨m, p1, k1⟩ := s5
        exact ⟨1, 1, by omega, by omega, by simp,
          [m], by rw [p1, t3], by simp [k1], by rw [s4, t5]; simp⟩
    | ok a1 obs =>
      rw [hc] at hs
      have := ih a1 (result_str ++ (obs ++ lit "\n\n"))
      dsimp only
      cases hl : ToolCallAgent.act_loop env ops rest a1 (result_str ++ (obs ++ lit "\n\n")) with
      | undefined => trivial
      | raised a2 =>
        rw [hl] at this
        obtain ⟨k, j, h1, h2, h3, hh⟩ := this
        exact ⟨k + 1, j + 1, by omega, by omega, by simp; omega,
          act_handled_step env c rest k j a a1 a2 hs hh⟩
      | ok a2 s =>
        rw [hl] at this
        exact act_handled_step env c rest rest.length rest.length a a1 a2 hs this

/-- One iteration of the loop returns when the memory accepts the message
without an exception and the result of the call is small. -/
theorem act_step_returns {M : Type} (env : Env) (ops : MemoryOps M) (inv : M → Prop)
    (hmem : ∀ m msg, inv m → ∃ m', ops.add_message m msg = some (m', false) ∧ inv m')
    (a : ToolCallAgent M) (c : ToolCall) (h0 : inv a.memory)
    (hsmall : small_result env c (a.dispatch env c).2) :
    ∃ a' obs, a.act_step env ops c = .ok a' obs ∧ inv a'.memory := by
  obtain ⟨t1, t2, t3, t4, t5, t6⟩ := dispatch_spec env a c
  unfold ToolCallAgent.act_step
  have hp : (a.dispatch env c).1.precheck (a.dispatch env c).2
      = .ok (a.dispatch env c).1 (a.dispatch env c).2 := by
    unfold ToolCallAgent.precheck
    rw [if_neg (by have := hsmall.1; omega)]
  rw [hp]
  dsimp only
  have hl : (a.dispatch env c).1.limit_message env
      (tool_result_message env (a.dispatch env c).2 c) c
      = some ((a.dispatch env c).1, tool_result_message env (a.dispatch env c).2 c) := by
    unfold ToolCallAgent.limit_message
    rw [if_neg (by have := hsmall.2; omega)]
  rw [hl]
  dsimp only
  obtain ⟨m', hm, hi⟩ := hmem a.memory (tool_result_message env (a.dispatch env c).2 c) h0
  have hadd : ∃ a3, (a.dispatch env c).1.add_message ops
      (tool_result_message env (a.dispatch env c).2 c) = some (a3, false) ∧ a3.memory = m' := by
    unfold ToolCallAgent.add_message
    rw [t4, hm]
    exact ⟨_, rfl, rfl⟩
  obtain ⟨a3, hadd, hmem3⟩ := hadd
  rw [hadd]
  exact ⟨_, _, rfl, by rw [hmem3]; exact hi⟩

theorem act_loop_returns {M : Type} (env : Env) (ops : MemoryOps M) (inv : M → Prop)
    (hmem : ∀ m msg, inv m → ∃ m', ops.add_message m msg = some (m', false) ∧ inv m')
    (tools : ToolCollection) (calls : List ToolCall)
    (hsmall : ∀ b : ToolCallAgent M, b.available_tools = tools →
      ∀ c ∈ calls, small_result env c (b.dispatch env c).2) :
    ∀ (a : ToolCallAgent M) (result_str : Str), inv a.memory → a.available_tools = tools →
      (ToolCallAgent.act_loop env ops calls a result_str).is_ok = true := by
  induction calls with
  | nil => intro a result_str _ _; rfl
  | cons c rest ih =>
    intro a result_str h0 ht
    obtain ⟨a1, obs, h1, hi⟩ := act_step_returns env ops inv hmem a c h0
      (hsmall a ht c (List.mem_cons_self _ _))
    have hf := act_step_frame env ops a c
    rw [h1] at hf
    unfold ToolCallAgent.act_loop
    rw [h1]
    dsimp only
    exact ih (fun b hb c' hc' => hsmall b hb c' (List.mem_cons_of_mem _ hc')) a1 _ hi
      (by rw [hf.1, (dispatch_spec env a c).1, ht])

/-- C9. Whenever `act` ends, by return or by an exception, it has passed one
tool-role message per answered call to the memory, in the order of the batch,
the i-th with the id of the i-th call as `tool_call_id` and its function name
as `name`, and it has executed exactly the executable calls dispatched while
the agent was Running, in the order of the batch; on return all `n` calls are
answered, on an exception a leading part of the batch is. `act` returns for a
non-empty batch when the memory accepts every message without an exception and
no result is oversized. -/
theorem act_tool_messages {M : Type} (env : Env) (ops : MemoryOps M) (a : ToolCallAgent M)
    (inv : M → Prop) :
    (match a.act env ops with
      | .ok a' _ => act_handled env a.tool_calls a.tool_calls.length a.tool_calls.length a a'
      | .raised a' => ∃ k j, k ≤ j ∧ j ≤ k + 1 ∧ j ≤ a.tool_calls.length
          ∧ act_handled env a.tool_calls k j a a'
      | .undefined => True)
    ∧ (a.tool_calls ≠ [] → inv a.memory →
        (∀ m msg, inv m → ∃ m', ops.add_message m msg = some (m', false) ∧ inv m') →
        (∀ b : ToolCallAgent M, b.available_tools = a.available_tools →
          ∀ c ∈ a.tool_calls, small_result env c (b.dispatch env c).2) →
        (a.act env ops).is_ok = true) := by
  constructor
  · unfold ToolCallAgent.act
    by_cases he : a.tool_calls.isEmpty = true
    · rw [if_pos he]
      have hnil : a.tool_calls = [] := List.isEmpty_iff.mp he
      split_ifs
      · exact ⟨0, 0, by omega, by omega, by omega, [], by simp, by simp,
          by simp [hnil, expected_executed]⟩
      · exact ⟨[], by simp, by simp [hnil], by simp [hnil, expected_executed]⟩
    · rw [if_neg he]
      exact act_loop_handled env ops a.tool_calls a []
  · intro hne h0 hmem hsmall
    unfold ToolCallAgent.act
    have he : ¬ a.tool_calls.isEmpty = true := by
      rw [List.isEmpty_iff]; exact hne
    rw [if_neg he]
    exact act_loop_returns env ops inv hmem a.available_tools a.tool_calls hsmall a [] h0 rfl


/-- The FIFO `Memory` with room for two messages accepts every message without
an exception and keeps its invariant. -/
theorem fifo_ops_total (m : Memory) (msg : Message) (h : memory_inv m) :
    ∃ m', fifo_ops.add_message m msg = some (m', false) ∧ memory_inv m' := by
  obtain ⟨hc, hn, hw⟩ := h
  obtain ⟨r, hr, r1, r2, r3⟩ := add_message_preserves byte_tokenizer m msg
    (by rw [hc]; decide) (by rw [hc]; decide) hn hw
  refine ⟨r.memory, ?_, by rw [r1]; exact hc, r2, by rw [r1]; exact r3⟩
  show (Memory.add_message byte_tokenizer m msg).map _ = _
  rw [hr]
  rfl

/-- The results `dispatch` can deliver. -/
theorem dispatch_result_cases {M : Type} (env : Env) (a : ToolCallAgent M) (c : ToolCall) :
    (a.dispatch env c).2
        = ToolError (lit "Agent is not running, so no more tool calls will be executed.")
      ∨ (a.dispatch env c).2 = ToolError (lit "Invalid command format")
      ∨ (a.dispatch env c).2
          = ToolError (unknown_tool_text c.function.name a.available_tools.tools_map)
      ∨ (a.dispatch env c).2 = ToolError (lit "Error parsing arguments for "
          ++ c.function.name ++ lit ": Invalid JSON format")
      ∨ (a.dispatch env c).2
          = env.run_tool a.executed.length c.function.name c.function.arguments := by
  unfold ToolCallAgent.dispatch ToolCallAgent.execute_tool
  dsimp only
  split_ifs <;> simp

/-- Every result that the dispatch of `zzz` or `terminate` can deliver with
the demo registry is small. -/
theorem demo_results_small (calls : List ToolCall) (b : ToolCallAgent Memory)
    (hb : b.available_tools = demo_tools) (c : ToolCall)
    (hc : c ∈ [zzz_call, terminate_call]) :
    small_result (demo_env calls) c (b.dispatch (demo_env calls) c).2 := by
  simp only [List.mem_cons, List.mem_singleton, List.not_mem_nil, or_false] at hc
  have hcases := dispatch_result_cases (demo_env calls) b c
  rw [hb] at hcases
  rcases hc with rfl | rfl
  · rcases hcases with h | h | h | h | h <;> rw [h]
    · show small_result (demo_env []) zzz_call _; decide
    · show small_result (demo_env []) zzz_call _; decide
    · show small_result (demo_env []) zzz_call _; decide
    · show small_result (demo_env []) zzz_call _; decide
    · show small_result (demo_env []) zzz_call (ToolResult.ok (.str (lit "done"))); decide
  · rcases hcases with h | h | h | h | h <;> rw [h]
    · show small_result (demo_env []) terminate_call _; decide
    · show small_result (demo_env []) terminate_call _; decide
    · show small_result (demo_env []) terminate_call _; decide
    · show small_result (demo_env []) terminate_call _; decide
    · show small_result (demo_env []) terminate_call (ToolResult.ok
        (.str (lit "The interaction has been completed with status: success")))
      decide

/-- A batch of the unregistered `zzz` and `terminate` over the FIFO memory:
`act` returns, two tool messages are passed in the order of the batch, and
`terminate` is executed. -/
theorem act_tool_messages_witness :
    ((agent_before_act [zzz_call, terminate_call]).act
        (demo_env [zzz_call, terminate_call]) fifo_ops).is_ok = true
      ∧ (((agent_before_act [zzz_call, terminate_call]).act
          (demo_env [zzz_call, terminate_call]) fifo_ops).agent?.map
            (fun a => (a.passed.map message_keys, a.executed)))
        = some ([call_keys zzz_call, call_keys terminate_call], [terminate_call]) :=
  ⟨(act_tool_messages (demo_env [zzz_call, terminate_call]) fifo_ops
      (agent_before_act [zzz_call, terminate_call]) memory_inv).2
      (by decide) ⟨rfl, rfl, Or.inl (by decide)⟩ fifo_ops_total
      (demo_results_small [zzz_call, terminate_call]), by decide⟩

/-- C9 as stated fails: with a batch of two tool calls and a memory whose fact
pipeline raises, `act` ends by an exception after it has passed one tool
message. -/
theorem act_raises_after_first_message :
    ((agent_before_act [zzz_call, terminate_call]).act
        (demo_env [zzz_call, terminate_call]) failing_pipeline_ops).is_raised = true
      ∧ (((agent_before_act [zzz_call, terminate_call]).act
          (demo_env [zzz_call, terminate_call]) failing_pipeline_ops).agent?.map
            (fun a => a.passed.map message_keys))
        = some [call_keys zzz_call] := by
  decide

/-! ## Unknown tools -/

/-- The accumulated text is kept and every later key is appended. -/
theorem join_tool_names_foldl (tools_map : List (Str × BaseTool)) :
    ∀ acc : Str,
      (∃ after, tools_map.foldl
          (fun a b => a ++ (if a.isEmpty then [] else lit ", ") ++ b.1) acc = acc ++ after)
        ∧ ∀ kv ∈ tools_map, ∃ before after, tools_map.foldl
          (fun a b => a ++ (if a.isEmpty then [] else lit ", ") ++ b.1) acc
            = before ++ kv.1 ++ after := by
  induction tools_map with
  | nil => intro acc; exact ⟨⟨[], by simp⟩, by simp⟩
  | cons kv rest ih =>
    intro acc
    obtain ⟨⟨w, h1⟩, h2⟩ := ih (acc ++ (if acc.isEmpty then [] else lit ", ") ++ kv.1)
    simp only [List.foldl_cons]
    refine ⟨⟨(if acc.isEmpty then [] else lit ", ") ++ kv.1 ++ w, ?_⟩, ?_⟩
    · rw [h1]; simp [List.append_assoc]
    · intro kv' hkv'
      rcases List.mem_cons.mp hkv' with rfl | hm
      · exact ⟨acc ++ (if acc.isEmpty then [] else lit ", "), w, h1⟩
      · exact h2 kv' hm

/-- The list of names in the unknown-tool text contains every registered name. -/
theorem join_tool_names_lists (tools_map : List (Str × BaseTool)) :
    ∀ kv ∈ tools_map, ∃ before after, join_tool_names tools_map = before ++ kv.1 ++ after :=
  (join_tool_names_foldl tools_map []).2

theorem execute_tool_unknown {M : Type} (env : Env) (a : ToolCallAgent M) (c : ToolCall)
    (hname : c.function.name ≠ [])
    (hunreg : map_find c.function.name a.available_tools.tools_map = none) :
    a.execute_tool env c
      = (a, ToolError (unknown_tool_text c.function.name a.available_tools.tools_map)) := by
  have hne : c.function.name.isEmpty = false := by
    cases hn : c.function.name with
    | nil => exact absurd hn hname
    | cons x xs => rfl
  unfold ToolCallAgent.execute_tool
  rw [if_neg (by simp [ToolCall.empty, Function.empty, hne])]
  dsimp only
  rw [if_pos (by rw [hunreg]; rfl)]


theorem dispatch_unknown {M : Type} (env : Env) (a : ToolCallAgent M) (c : ToolCall)
    (hname : c.function.name ≠ [])
    (hunreg : map_find c.function.name a.available_tools.tools_map = none) :
    (a.dispatch env c).1 = a := by
  unfold ToolCallAgent.dispatch
  split_ifs
  · rw [execute_tool_unknown env a c hname hunreg]
  · rfl

theorem spill_not_array {M : Type} (a : ToolCallAgent M) (content : Json)
    (h : write_content content = none) :
    a.spill content = some (a, ToolError content_required_text) := by
  unfold ToolCallAgent.spill
  rw [h]
  rfl

/-- An error result whose text is longer than 12288 bytes: the pre-check hands
the null `output` to `handle_write`, and the tool message carries the error of
that write instead of the error of the tool. -/
theorem act_step_oversized_error {M : Type} (env : Env) (ops : MemoryOps M)
    (a : ToolCallAgent M) (c : ToolCall) (text : Str)
    (hd : a.dispatch env c = (a, ToolError text))
    (hlong : 12288 < (ToolError text).to_string.length) :
    a.act_step env ops c
      = pass_message ops a (spilled_not_array_message env c)
          (observation_text spilled_not_array c.function.name) := by
  have hp : a.precheck (ToolError text) = .ok a spilled_not_array := by
    unfold ToolCallAgent.precheck
    rw [if_pos hlong]
    show (match is_single_image Json.null with
      | none => Res.raised a
      | some true => Res.ok a (ToolError text)
      | some false =>
          match a.spill Json.null with
          | none => Res.undefined
          | some (a1, written) =>
              Res.ok a1 { written with output := .str (spill_text ++ written.to_string) }) = _
    rw [spill_not_array a .null rfl]
    rfl
  unfold ToolCallAgent.act_step
  rw [hd]
  dsimp only
  rw [hp]
  dsimp only
  have hm : tool_result_message env spilled_not_array c
      = Message.tool_message env.tok (.str content_required_text) c.id c.function.name := rfl
  rw [hm]
  unfold ToolCallAgent.limit_message spilled_not_array_message pass_message
  by_cases ht : (Message.tool_message env.tok (.str content_required_text) c.id
      c.function.name).num_tokens > 4096
  · rw [if_pos ht, if_pos ht]
    have hc : (Message.tool_message env.tok (.str content_required_text) c.id
        c.function.name).content = .str content_required_text := rfl
    rw [hc, spill_not_array a (.str content_required_text) rfl]
    rfl
  · rw [if_neg ht, if_neg ht]
    rfl

/-- A small error result in state Running is passed on as it is. -/
theorem act_step_small_error {M : Type} (env : Env) (ops : MemoryOps M)
    (a : ToolCallAgent M) (c : ToolCall) (text : Str)
    (hd : a.dispatch env c = (a, ToolError text))
    (hsmall : small_result env c (ToolError text)) :
    a.act_step env ops c
      = pass_message ops a (Message.tool_message env.tok (.str text) c.id c.function.name)
          (observation_text (ToolError text) c.function.name) := by
  have hp : a.precheck (ToolError text) = .ok a (ToolError text) := by
    unfold ToolCallAgent.precheck
    rw [if_neg (by have := hsmall.1; omega)]
  unfold ToolCallAgent.act_step
  rw [hd]
  dsimp only
  rw [hp]
  dsimp only
  have hl : a.limit_message env (tool_result_message env (ToolError text) c) c
      = some (a, tool_result_message env (ToolError text) c) := by
    unfold ToolCallAgent.limit_message
    rw [if_neg (by have := hsmall.2; omega)]
  rw [hl]
  rfl

/-- C10. For a tool call whose non-empty function name is not registered,
`execute_tool` returns, without a change of the agent, the error result whose
text is "Unknown tool" with the name between backquotes, followed by a list
that contains every registered name. In state Running, when that result is
not oversized (at most 12288 bytes with the `Error: ` in front and at most 4096
tokens as a tool message), the iteration of `act` for the call passes a tool
message with exactly that text to the memory. Whatever the size and the
state, the iteration changes neither the state nor the executed tools. -/
theorem unknown_tool_error {M : Type} (env : Env) (ops : MemoryOps M) (a : ToolCallAgent M)
    (c : ToolCall) (hname : c.function.name ≠ [])
    (hunreg : map_find c.function.name a.available_tools.tools_map = none) :
    a.execute_tool env c
        = (a, ToolError (unknown_tool_text c.function.name a.available_tools.tools_map))
      ∧ (∃ rest, unknown_tool_text c.function.name a.available_tools.tools_map
          = lit "Unknown tool `" ++ c.function.name ++ lit "`" ++ rest)
      ∧ (∀ kv ∈ a.available_tools.tools_map, ∃ before after,
          unknown_tool_text c.function.name a.available_tools.tools_map
            = lit "Unknown tool `" ++ c.function.name ++ lit "`" ++ before ++ kv.1 ++ after)
      ∧ (a.state = .RUNNING →
          small_result env c
            (ToolError (unknown_tool_text c.function.name a.available_tools.tools_map)) →
          a.act_step env ops c
            = pass_message ops a
                (Message.tool_message env.tok
                  (.str (unknown_tool_text c.function.name a.available_tools.tools_map))
                  c.id c.function.name)
                (observation_text
                  (ToolError (unknown_tool_text c.function.name a.available_tools.tools_map))
                  c.function.name))
      ∧ (a.act_step env ops c).all (fun a' => a'.state = a.state ∧ a'.executed = a.executed) := by
  have hex := execute_tool_unknown env a c hname hunreg
  have hsplit : lit "`. Please use one of the following tools: "
      = lit "`" ++ lit ". Please use one of the following tools: " := by decide
  refine ⟨hex, ⟨lit ". Please use one of the following tools: "
      ++ join_tool_names a.available_tools.tools_map, ?_⟩, ?_, ?_, ?_⟩
  · unfold unknown_tool_text
    rw [hsplit]; simp [List.append_assoc]
  · intro kv hkv
    obtain ⟨before, after, hj⟩ := join_tool_names_lists a.available_tools.tools_map kv hkv
    refine ⟨lit ". Please use one of the following tools: " ++ before, after, ?_⟩
    unfold unknown_tool_text
    rw [hsplit, hj]; simp [List.append_assoc]
  · intro hrun hsmall
    apply act_step_small_error env ops a c _ _ hsmall
    unfold ToolCallAgent.dispatch
    rw [if_pos hrun, hex]
  · have hd := dispatch_unknown env a c hname hunreg
    have hf := act_step_frame env ops a c
    rw [hd] at hf
    cases hr : a.act_step env ops c with
    | undefined => trivial
    | raised a1 =>
      rw [hr] at hf
      obtain ⟨_, _, _, h3, h4, _⟩ := hf
      exact ⟨h3, h4⟩
    | ok a1 obs =>
      rw [hr] at hf
      obtain ⟨_, _, h3, h4, _⟩ := hf
      exact ⟨h3, h4⟩

set_option maxRecDepth 100000 in
/-- The unregistered call `zzz` in state Running with the demo registry:
`execute_tool` returns the unknown-tool error, and the iteration of `act`
passes it to the memory as the tool message. -/
theorem unknown_tool_error_witness :
    (((agent_before_act [zzz_call]).act_step (demo_env [zzz_call]) fifo_ops zzz_call).agent?.map
        (fun a => (a.passed.map (fun m => (m.role, m.content)), a.state, a.executed)))
      = some ([(lit "tool", .str (lit
          "Unknown tool `zzz`. Please use one of the following tools: content_provider, terminate"))],
          .RUNNING, [])
    ∧ (agent_before_act [zzz_call]).execute_tool (demo_env [zzz_call]) zzz_call
        = (agent_before_act [zzz_call],
            ToolError (unknown_tool_text zzz_call.function.name
              (agent_before_act [zzz_call]).available_tools.tools_map))
    ∧ (agent_before_act [zzz_call]).act_step (demo_env [zzz_call]) fifo_ops zzz_call
        = pass_message fifo_ops (agent_before_act [zzz_call])
            (Message.tool_message (demo_env [zzz_call]).tok
              (.str (unknown_tool_text zzz_call.function.name
                (agent_before_act [zzz_call]).available_tools.tools_map))
              zzz_call.id zzz_call.function.name)
            (observation_text
              (ToolError (unknown_tool_text zzz_call.function.name
                (agent_before_act [zzz_call]).available_tools.tools_map))
              zzz_call.function.name) :=
  ⟨by decide, (unknown_tool_error (demo_env [zzz_call]) fifo_ops (agent_before_act [zzz_call])
      zzz_call (by decide) (by decide)).1,
    (unknown_tool_error (demo_env [zzz_call]) fifo_ops (agent_before_act [zzz_call])
      zzz_call (by decide) (by decide)).2.2.2.1 rfl (by decide)⟩

theorem long_name_length : long_name.length = 12289 := by
  unfold long_name
  exact List.length_replicate _ _

theorem long_name_unregistered :
    long_name_call.function.name ≠ []
      ∧ map_find long_name_call.function.name
          (agent_before_act [long_name_call]).available_tools.tools_map = none := by
  have hne : ∀ s : Str, s.length < 100 → long_name ≠ s := by
    intro s hs h
    have := congrArg List.length h
    rw [long_name_length] at this
    omega
  refine ⟨hne [] (by decide), ?_⟩
  show map_find long_name demo_tools.tools_map = none
  unfold demo_tools
  simp only [map_find]
  rw [if_neg (hne _ (by decide)), if_neg (hne _ (by decide))]

theorem long_name_error_oversized :
    12288 < (ToolError (unknown_tool_text long_name_call.function.name
        (agent_before_act [long_name_call]).available_tools.tools_map)).to_string.length := by
  show 12288 < (lit "Error: " ++ (lit "Unknown tool `" ++ long_name
      ++ lit "`. Please use one of the following tools: "
      ++ join_tool_names demo_tools.tools_map)).length
  simp only [List.length_append, long_name_length]
  omega

theorem tool_message_num_tokens (tok : Tokenizer) (content : Json) (id name : Str) :
    (Message.tool_message tok content id name).num_tokens
      = num_tokens_from_message tok (lit "tool") content name id := rfl

theorem num_tokens_gt_name (tok : Tokenizer) (role : Str) (content : Json) (name id : Str)
    (h : name ≠ []) : tok name < num_tokens_from_message tok role content name id := by
  have hne : name.isEmpty = false := by
    cases name with
    | nil => exact absurd rfl h
    | cons x xs => rfl
  unfold num_tokens_from_message
  rw [hne]
  simp only [Bool.false_eq_true, if_false]
  omega

theorem long_name_message :
    spilled_not_array_message (demo_env [long_name_call]) long_name_call
      = Message.tool_message byte_tokenizer
          (.str (spill_text ++ (ToolError content_required_text).to_string))
          long_name_call.id long_name_call.function.name := by
  have key : (Message.tool_message (demo_env [long_name_call]).tok
      (.str content_required_text) long_name_call.id long_name_call.function.name).num_tokens
        > 4096 := by
    have h1 := num_tokens_gt_name (demo_env [long_name_call]).tok (lit "tool")
      (.str content_required_text) long_name_call.function.name long_name_call.id
      long_name_unregistered.1
    have h2 : (demo_env [long_name_call]).tok long_name_call.function.name = 12289 :=
      long_name_length
    rw [tool_message_num_tokens]
    omega
  unfold spilled_not_array_message
  rw [if_pos key]
  rfl

/-- C10 as stated fails: for an unregistered name of 12289 bytes, in state
Running, the error text is oversized, `act` hands the null `output` of the
error result to the content provider, and the tool message it passes to the
memory carries the error of that write, not the unknown-tool text. -/
theorem act_replaces_long_unknown_tool_text :
    long_name_call.function.name ≠ []
      ∧ map_find long_name_call.function.name
          (agent_before_act [long_name_call]).available_tools.tools_map = none
      ∧ (agent_before_act [long_name_call]).state = .RUNNING
      ∧ (((agent_before_act [long_name_call]).act_step (demo_env [long_name_call]) fifo_ops
            long_name_call).agent?.map (fun a => a.passed.map (fun m => m.content)))
          = some [.str (spill_text
              ++ lit "Error: `content` is required and must be an array")] := by
  refine ⟨long_name_unregistered.1, long_name_unregistered.2, rfl, ?_⟩
  have hd : (agent_before_act [long_name_call]).dispatch (demo_env [long_name_call])
      long_name_call = (agent_before_act [long_name_call],
        ToolError (unknown_tool_text long_name_call.function.name
          (agent_before_act [long_name_call]).available_tools.tools_map)) := by
    unfold ToolCallAgent.dispatch
    rw [if_pos (show (agent_before_act [long_name_call]).state = AgentState.RUNNING from rfl)]
    exact execute_tool_unknown _ _ _ long_name_unregistered.1 long_name_unregistered.2
  rw [act_step_oversized_error (demo_env [long_name_call]) fifo_ops
    (agent_before_act [long_name_call]) long_name_call _ hd long_name_error_oversized,
    long_name_message]
  obtain ⟨m', hm, _⟩ := fifo_ops_total (agent_before_act [long_name_call]).memory
    (Message.tool_message byte_tokenizer
      (.str (spill_text ++ (ToolError content_required_text).to_string))
      long_name_call.id long_name_call.function.name)
    ⟨rfl, rfl, Or.inl (by decide)⟩
  unfold pass_message ToolCallAgent.add_message
  rw [hm]
  rfl

/-! ## The fuel of the chunk loop -/

theorem split_run_flag_succ (text : Str) (max_chunk_size : Int) (fuel offset : Nat)
    (h : offset < text.length) :
    (split_run text max_chunk_size (fuel + 1) offset).2
      = (split_run text max_chunk_size fuel
          (offset + chunk_size_at text max_chunk_size offset)).2 := by
  rw [split_run, if_pos h]

/-- A chunk loop that has not exited after as many iterations as are bytes
left stands still at one offset: it exits for no number of iterations. -/
theorem split_run_stalls (text : Str) (max_chunk_size : Int) (fuel : Nat) :
    ∀ offset : Nat, text.length ≤ offset + fuel →
      (split_run text max_chunk_size fuel offset).2 = false →
      ∀ more : Nat, (split_run text max_chunk_size more offset).2 = false := by
  induction fuel with
  | zero =>
    intro offset hlen hflag
    simp [split_run] at hflag
    omega
  | succ fuel ih =>
    intro offset hlen hflag
    by_cases ho : offset < text.length
    · rw [split_run_flag_succ text max_chunk_size fuel offset ho] at hflag
      have hrest : ∀ more : Nat, (split_run text max_chunk_size more
          (offset + chunk_size_at text max_chunk_size offset)).2 = false := by
        by_cases hc : chunk_size_at text max_chunk_size offset = 0
        · rw [hc, Nat.add_zero]
          intro more
          induction more with
          | zero => simp [split_run]; omega
          | succ more ihm =>
            rw [split_run_flag_succ text max_chunk_size more offset ho, hc, Nat.add_zero]
            exact ihm
        · exact ih _ (by omega) hflag
      intro more
      cases more with
      | zero => simp [split_run]; omega
      | succ more =>
        rw [split_run_flag_succ text max_chunk_size more offset ho]
        exact hrest more
    · rw [split_run, if_neg ho] at hflag
      simp at hflag

/-! ## Tool choice `none` -/

set_option maxRecDepth 100000 in
/-- C11 fails on the code: with `tool_choice = "none"`, a reply with the
content `hi` and a `terminate` tool call makes `think` return true without
clearing `tool_calls`, and `act` executes the call: one tool is executed, a
tool-role message is passed to the memory and the agent is Finished. -/
theorem step_executes_tool_under_none :
    ((none_agent.step (talk_env [terminate_call]) fifo_ops).agent?.map
        (fun a => (a.executed, a.state))) = some ([terminate_call], AgentState.FINISHED)
      ∧ ((none_agent.step (talk_env [terminate_call]) fifo_ops).agent?.map
          (fun a => a.passed.map message_keys))
        = some [(lit "assistant", ([] : Str), ([] : Str)),
            (lit "tool", lit "call_1", lit "terminate")] := by
  decide

/-! ## Oversized observations -/

/-- A result without error whose `output` is a plain string longer than 12288
bytes: the pre-check indexes the string with `[0]`, which raises, and the
iteration of `act` ends by that exception before anything is written or passed
on. -/
theorem act_step_raises_on_long_string {M : Type} (env : Env) (ops : MemoryOps M)
    (a : ToolCallAgent M) (c : ToolCall) (s : Str)
    (hout : (a.dispatch env c).2.output = .str s)
    (herr : (a.dispatch env c).2.error.empty = true) (hlong : 12288 < s.length) :
    a.act_step env ops c = .raised (a.dispatch env c).1 := by
  have hts : (a.dispatch env c).2.to_string = s := by
    unfold ToolResult.to_string
    rw [herr, hout]
    rfl
  unfold ToolCallAgent.act_step ToolCallAgent.precheck
  rw [hts, if_pos hlong, hout]
  rfl

theorem long_text_length : long_text.length = 12289 := by
  unfold long_text
  exact List.length_replicate _ _

theorem long_text_oversized : 12288 < long_text.length := by rw [long_text_length]; omega

set_option maxRecDepth 100000 in
theorem file_dispatch_output : (file_agent.dispatch long_text_env read_file_call).2.output = .str long_text := rfl

set_option maxRecDepth 100000 in
theorem file_dispatch_no_error : (file_agent.dispatch long_text_env read_file_call).2.error.empty = true := rfl

theorem file_act_step_raises : file_agent.act_step long_text_env fifo_ops read_file_call
    = .raised (file_agent.dispatch long_text_env read_file_call).1 :=
  act_step_raises_on_long_string long_text_env fifo_ops file_agent read_file_call
    long_text file_dispatch_output file_dispatch_no_error long_text_oversized


theorem act_single_raised {M : Type} (env : Env) (ops : MemoryOps M) (a d : ToolCallAgent M)
    (c : ToolCall) (hc : a.tool_calls = [c]) (hs : a.act_step env ops c = .raised d) :
    a.act env ops = .raised d := by
  unfold ToolCallAgent.act
  rw [hc, if_neg (by simp)]
  unfold ToolCallAgent.act_loop
  rw [hs]

theorem file_act_raises : file_agent.act long_text_env fifo_ops
      = .raised (file_agent.dispatch long_text_env read_file_call).1 :=
  act_single_raised long_text_env fifo_ops file_agent _ read_file_call rfl file_act_step_raises

set_option maxRecDepth 100000 in
theorem file_dispatch_agent : (file_agent.dispatch long_text_env read_file_call).1.content_provider.content_store_ = []
    ∧ (file_agent.dispatch long_text_env read_file_call).1.passed = []
    ∧ (file_agent.dispatch long_text_env read_file_call).1.executed = [read_file_call] :=
  ⟨rfl, rfl, rfl⟩

/-- C12 fails on the code: the file tool returns a plain string of 12289
bytes; `act` ends by an exception, nothing is written to the content provider
and no tool message is passed to the memory. -/
theorem act_raises_on_long_plain_string :
    (file_agent.act long_text_env fifo_ops).is_raised = true
      ∧ ((file_agent.act long_text_env fifo_ops).agent?.map
          (fun a => (a.content_provider.content_store_, a.passed, a.executed)))
        = some ([], [], [read_file_call]) := by
  rw [file_act_raises]
  refine ⟨rfl, ?_⟩
  show some (_, _, _) = _
  rw [file_dispatch_agent.1, file_dispatch_agent.2.1, file_dispatch_agent.2.2]

/-! ## Tool registry -/

theorem map_find_map_set_ne {V : Type} (key other : Str) (value : V) (m : List (Str × V))
    (h : other ≠ key) : map_find other (map_set key value m) = map_find other m := by
  induction m with
  | nil => simp [map_set, map_find, h]
  | cons e rest ih =>
    obtain ⟨k, v⟩ := e
    simp only [map_set]
    split_ifs with h1 h2
    · subst h1; simp [map_find, h]
    · simp [map_find, h]
    · by_cases hk : other = k
      · simp [map_find, hk]
      · simp [map_find, hk, ih]

theorem map_find_map_set_eq {V : Type} (key other : Str) (value : V) (m : List (Str × V)) :
    map_find other (map_set key value m)
      = if other = key then some value else map_find other m := by
  by_cases h : other = key
  · subst h; rw [if_pos rfl, map_find_map_set]
  · rw [if_neg h, map_find_map_set_ne key other value m h]

theorem last_named_append (name : Str) (tools : List BaseTool) (tool : BaseTool) :
    last_named name (tools ++ [tool])
      = if name = tool.name then some tool else last_named name tools := by
  simp [last_named, List.foldl_append]

theorem add_tool_map_is_last (tc : ToolCollection) (tool : BaseTool) (h : map_is_last tc) :
    map_is_last (tc.add_tool tool) := by
  intro name
  show map_find name (map_set tool.name tool tc.tools_map) = last_named name (tc.tools ++ [tool])
  rw [map_find_map_set_eq, last_named_append, h name]

theorem add_tools_spec (added : List BaseTool) :
    ∀ tc : ToolCollection, map_is_last tc →
      (tc.add_tools added).tools = tc.tools ++ added ∧ map_is_last (tc.add_tools added) := by
  induction added with
  | nil => intro tc h; exact ⟨by simp [ToolCollection.add_tools], h⟩
  | cons tool rest ih =>
    intro tc h
    obtain ⟨h1, h2⟩ := ih (tc.add_tool tool) (add_tool_map_is_last tc tool h)
    refine ⟨?_, h2⟩
    show ((tc.add_tool tool).add_tools rest).tools = _
    rw [h1]
    simp [ToolCollection.add_tool]

theorem of_tools_eq_add_tools (tools : List BaseTool) :
    ToolCollection.of_tools tools = (ToolCollection.of_tools []).add_tools tools := by
  have key : ∀ (l : List BaseTool) (tc : ToolCollection),
      tc.add_tools l = (⟨tc.tools ++ l,
        l.foldl (fun m tool => map_set tool.name tool m) tc.tools_map⟩ : ToolCollection) := by
    intro l
    induction l with
    | nil => intro tc; simp [ToolCollection.add_tools]
    | cons t rest ih =>
      intro tc
      show (tc.add_tool t).add_tools rest = _
      rw [ih]
      simp [ToolCollection.add_tool]
  rw [key]
  simp [ToolCollection.of_tools]

theorem last_named_some (name : Str) (tools : List BaseTool) (tool : BaseTool)
    (h : last_named name tools = some tool) : tool ∈ tools ∧ tool.name = name := by
  induction tools using List.reverseRecOn with
  | nil => simp [last_named] at h
  | append_singleton rest t ih =>
    rw [last_named_append] at h
    by_cases hn : name = t.name
    · rw [if_pos hn] at h
      simp only [Option.some.injEq] at h
      subst h
      exact ⟨by simp, hn.symm⟩
    · rw [if_neg hn] at h
      exact ⟨List.mem_append_left _ (ih h).1, (ih h).2⟩

theorem last_named_of_nodup (tools : List BaseTool)
    (hd : (tools.map (fun t => t.name)).Nodup) (tool : BaseTool) (hm : tool ∈ tools) :
    last_named tool.name tools = some tool := by
  induction tools using List.reverseRecOn with
  | nil => simp at hm
  | append_singleton rest t ih =>
    rw [last_named_append]
    rw [List.map_append, List.nodup_append] at hd
    obtain ⟨hd1, _, hd3⟩ := hd
    rcases List.mem_append.mp hm with hm | hm
    · have hne : tool.name ≠ t.name := by
        intro he
        exact hd3 (List.mem_map.mpr ⟨tool, hm, rfl⟩) (by simp [he])
      rw [if_neg hne]
      exact ih hd1 hm
    · simp only [List.mem_singleton] at hm
      subst hm
      rw [if_pos rfl]

/-- C13. A registry built by the list constructor and any sequence of
`add_tool` calls lists every tool given to it, in order (a name given twice is
listed twice), and its map holds for every name the last listed tool of that
name: a later registration replaces the earlier one in the map. Every tool of
the map is a listed tool, and when the listed names are pairwise distinct the
map holds exactly the listed tools. -/
theorem tool_collection_last_wins (initial added : List BaseTool) (name : Str) :
    ((ToolCollection.of_tools initial).add_tools added).tools = initial ++ added
      ∧ map_find name ((ToolCollection.of_tools initial).add_tools added).tools_map
          = last_named name (initial ++ added)
      ∧ (∀ tool, map_find name ((ToolCollection.of_tools initial).add_tools added).tools_map
            = some tool → tool ∈ initial ++ added ∧ tool.name = name)
      ∧ (((initial ++ added).map (fun t => t.name)).Nodup → ∀ tool ∈ initial ++ added,
          map_find tool.name ((ToolCollection.of_tools initial).add_tools added).tools_map
            = some tool) := by
  have hempty : map_is_last (ToolCollection.of_tools []) := fun _ => rfl
  have hinit := add_tools_spec initial (ToolCollection.of_tools []) hempty
  rw [← of_tools_eq_add_tools] at hinit
  obtain ⟨h1, h2⟩ := add_tools_spec added (ToolCollection.of_tools initial) hinit.2
  have ht : (ToolCollection.of_tools initial).tools = initial := rfl
  rw [ht] at h1
  have hmap : ∀ n, map_find n ((ToolCollection.of_tools initial).add_tools added).tools_map
      = last_named n (initial ++ added) := by
    intro n
    rw [h2 n, h1]
  refine ⟨h1, hmap name, ?_, ?_⟩
  · intro tool h
    rw [hmap] at h
    exact last_named_some name _ tool h
  · intro hd tool hm
    rw [hmap]
    exact last_named_of_nodup _ hd tool hm

/-- C13 as stated fails: adding a second tool with a registered name changes
the registry; the name is listed twice and the map holds the later tool. -/
theorem add_tool_replaces_registered_name :
    ((ToolCollection.of_tools [⟨lit "t", lit "first"⟩]).add_tool ⟨lit "t", lit "second"⟩).tools
        = [⟨lit "t", lit "first"⟩, ⟨lit "t", lit "second"⟩]
      ∧ map_find (lit "t")
          ((ToolCollection.of_tools [⟨lit "t", lit "first"⟩]).add_tool
            ⟨lit "t", lit "second"⟩).tools_map = some ⟨lit "t", lit "second"⟩
      ∧ map_find (lit "t") (ToolCollection.of_tools [⟨lit "t", lit "first"⟩]).tools_map
          = some ⟨lit "t", lit "first"⟩ := by
  decide

/-- The registry of `content_provider` and `terminate` with `filesystem`
added: three distinct names, every listed tool is the one the map holds. -/
theorem tool_collection_last_wins_witness :
    ((ToolCollection.of_tools demo_tools.tools).add_tools [⟨lit "filesystem", lit "file access"⟩]).tools
        = demo_tools.tools ++ [⟨lit "filesystem", lit "file access"⟩]
      ∧ ∀ tool ∈ demo_tools.tools ++ [⟨lit "filesystem", lit "file access"⟩],
          map_find tool.name ((ToolCollection.of_tools demo_tools.tools).add_tools
            [⟨lit "filesystem", lit "file access"⟩]).tools_map = some tool :=
  ⟨(tool_collection_last_wins demo_tools.tools [⟨lit "filesystem", lit "file access"⟩] []).1,
    (tool_collection_last_wins demo_tools.tools [⟨lit "filesystem", lit "file access"⟩]
      []).2.2.2 (by decide)⟩

/-! ## Vector store search -/

theorem pq_top_foldl (xs : List (ℚ × Nat)) :
    ∀ x : ℚ × Nat,
      (xs.foldl (fun m y => if pair_lt m y then y else m) x = x
          ∨ xs.foldl (fun m y => if pair_lt m y then y else m) x ∈ xs)
        ∧ x.1 ≤ (xs.foldl (fun m y => if pair_lt m y then y else m) x).1
        ∧ ∀ y ∈ xs, y.1 ≤ (xs.foldl (fun m y => if pair_lt m y then y else m) x).1 := by
  induction xs with
  | nil => intro x; simp
  | cons y rest ih =>
    intro x
    simp only [List.foldl_cons]
    obtain ⟨h1, h2, h3⟩ := ih (if pair_lt x y = true then y else x)
    have hx : x.1 ≤ (if pair_lt x y = true then y else x).1
        ∧ y.1 ≤ (if pair_lt x y = true then y else x).1 := by
      by_cases hl : pair_lt x y = true
      · rw [if_pos hl]
        refine ⟨?_, le_refl _⟩
        unfold pair_lt at hl
        simp only [Bool.or_eq_true, decide_eq_true_eq, Bool.and_eq_true, Bool.not_eq_true',
          decide_eq_false_iff_not, not_lt] at hl
        rcases hl with hl | hl
        · exact le_of_lt hl
        · exact hl.1
      · rw [if_neg hl]
        refine ⟨le_refl _, ?_⟩
        unfold pair_lt at hl
        simp only [Bool.or_eq_true, decide_eq_true_eq, Bool.and_eq_true, Bool.not_eq_true',
          decide_eq_false_iff_not, not_lt, not_or, not_and] at hl
        exact hl.1
    refine ⟨?_, le_trans hx.1 h2, ?_⟩
    · rcases h1 with h1 | h1
      · rw [h1]
        by_cases hl : pair_lt x y = true
        · rw [if_pos hl]; exact Or.inr (List.mem_cons_self _ _)
        · rw [if_neg hl]; exact Or.inl rfl
      · exact Or.inr (List.mem_cons_of_mem _ h1)
    · intro z hz
      rcases List.mem_cons.mp hz with rfl | hz
      · exact le_trans hx.2 h2
      · exact h3 z hz

/-- The top of the queue is one of its elements and no element has a greater
distance. -/
theorem pq_top_spec (q : List (ℚ × Nat)) (t : ℚ × Nat) (h : pq_top q = some t) :
    t ∈ q ∧ ∀ y ∈ q, y.1 ≤ t.1 := by
  cases q with
  | nil => simp [pq_top] at h
  | cons x xs =>
    simp only [pq_top, Option.some.injEq] at h
    obtain ⟨h1, h2, h3⟩ := pq_top_foldl xs x
    rw [h] at h1 h2 h3
    refine ⟨?_, ?_⟩
    · rcases h1 with h1 | h1
      · rw [h1]; exact List.mem_cons_self _ _
      · exact List.mem_cons_of_mem _ h1
    · intro y hy
      rcases List.mem_cons.mp hy with rfl | hy
      · exact h2
      · exact h3 y hy

/-- What the loop of `search` keeps: the items are in non-increasing order of
score, no queued distance exceeds a score already pushed, and every item is a
cached item whose score is the distance queued with its id. -/
theorem search_loop_spec (cache_map : List (Nat × MemoryItem)) (all : List (ℚ × Nat))
    (fuel : Nat) :
    ∀ (q : List (ℚ × Nat)) (acc : List MemoryItem), q.length ≤ fuel →
      (∀ p ∈ q, p ∈ all) →
      acc.Pairwise (fun a b => b.score ≤ a.score) →
      (∀ a ∈ acc, ∀ y ∈ q, y.1 ≤ a.score) →
      (∀ a ∈ acc, ∃ p ∈ all, ∃ item, cache_find p.2 cache_map = some item
        ∧ a = { item with score := p.1 }) →
      (search_loop cache_map fuel q acc).Pairwise (fun a b => b.score ≤ a.score)
        ∧ (search_loop cache_map fuel q acc).length ≤ acc.length + q.length
        ∧ ∀ a ∈ search_loop cache_map fuel q acc, ∃ p ∈ all, ∃ item,
            cache_find p.2 cache_map = some item ∧ a = { item with score := p.1 } := by
  induction fuel with
  | zero =>
    intro q acc hq _ hp _ hm
    exact ⟨hp, by simp [search_loop], hm⟩
  | succ fuel ih =>
    intro q acc hq hall hp hb hm
    cases ht : pq_top q with
    | none =>
      simp only [search_loop, ht]
      exact ⟨hp, by omega, hm⟩
    | some top =>
      obtain ⟨hmem, hmax⟩ := pq_top_spec q top ht
      have hlen : (q.erase top).length = q.length - 1 := List.length_erase_of_mem hmem
      have hpos : 0 < q.length := List.length_pos_of_mem hmem
      have hsub : ∀ p ∈ q.erase top, p ∈ q := fun p hp' => List.mem_of_mem_erase hp'
      have hread : slot_after_pop top (q.erase top) ∈ q
          ∧ ∀ y ∈ q.erase top, y.1 ≤ (slot_after_pop top (q.erase top)).1 := by
        unfold slot_after_pop
        cases hn : pq_top (q.erase top) with
        | none =>
          refine ⟨hmem, ?_⟩
          intro y hy
          exact hmax y (hsub y hy)
        | some next =>
          obtain ⟨h1, h2⟩ := pq_top_spec _ next hn
          exact ⟨hsub next h1, h2⟩
      cases hc : cache_find (slot_after_pop top (q.erase top)).2 cache_map with
      | none =>
        simp only [search_loop, ht, hc]
        obtain ⟨r1, r2, r3⟩ := ih (q.erase top) acc (by omega)
          (fun p hp' => hall p (hsub p hp')) hp
          (fun a ha y hy => hb a ha y (hsub y hy)) hm
        exact ⟨r1, by omega, r3⟩
      | some item =>
        simp only [search_loop, ht, hc]
        obtain ⟨r1, r2, r3⟩ := ih (q.erase top)
          (acc ++ [{ item with score := (slot_after_pop top (q.erase top)).1 }])
          (by omega) (fun p hp' => hall p (hsub p hp'))
          (by
            rw [List.pairwise_append]
            refine ⟨hp, List.pairwise_singleton _ _, ?_⟩
            intro a ha b hb'
            simp only [List.mem_singleton] at hb'
            subst hb'
            exact hb a ha _ hread.1)
          (by
            intro a ha y hy
            rcases List.mem_append.mp ha with ha | ha
            · exact hb a ha y (hsub y hy)
            · simp only [List.mem_singleton] at ha
              subst ha
              exact hread.2 y hy)
          (by
            intro a ha
            rcases List.mem_append.mp ha with ha | ha
            · exact hm a ha
            · simp only [List.mem_singleton] at ha
              exact ⟨_, hall _ hread.1, item, hc, ha⟩)
        refine ⟨r1, ?_, r3⟩
        simp only [List.length_append, List.length_singleton] at r2
        omega

/-- C14 (amended). For every queue the index returns with at most `k` entries,
`search` returns at most `k` items, in non-increasing order of score; each of
them is the cached item of a hit of the queue and carries the distance of that
hit. -/
theorem search_sorted_descending (cache_map : List (Nat × MemoryItem))
    (results : List (ℚ × Nat)) (k : Nat) (hk : results.length ≤ k) :
    (HNSWLibVectorStore.search cache_map results).length ≤ k
      ∧ (HNSWLibVectorStore.search cache_map results).Pairwise (fun a b => b.score ≤ a.score)
      ∧ ∀ a ∈ HNSWLibVectorStore.search cache_map results, ∃ p ∈ results, ∃ item,
          cache_find p.2 cache_map = some item ∧ a = { item with score := p.1 } := by
  obtain ⟨r1, r2, r3⟩ := search_loop_spec cache_map results results.length results []
    (le_refl _) (fun p hp => hp) List.Pairwise.nil (by simp) (by simp)
  refine ⟨?_, r1, r3⟩
  simp only [List.length_nil, Nat.zero_add] at r2
  exact le_trans r2 hk

/-- Three hits for `k = 3`, the farthest of them without a cached item. -/
theorem search_sorted_descending_witness :
    ((HNSWLibVectorStore.search [(7, cached_item 7), (9, cached_item 9)]
        [(1, 7), (3, 8), (2, 9)]).map (fun a => (a.id, a.score))) = [(9, 2), (7, 1), (7, 1)]
      ∧ (HNSWLibVectorStore.search [(7, cached_item 7), (9, cached_item 9)]
        [(1, 7), (3, 8), (2, 9)]).length ≤ 3 :=
  ⟨by decide, (search_sorted_descending [(7, cached_item 7), (9, cached_item 9)]
    [(1, 7), (3, 8), (2, 9)] 3 (by decide)).1⟩

/-- C14 as stated fails: for the hits at the distances 1, 2 and 3, all of
them cached, `search` returns the scores 2, 1, 1, which are not in
non-decreasing order. -/
theorem search_returns_descending :
    (HNSWLibVectorStore.search [(7, cached_item 7), (8, cached_item 8), (9, cached_item 9)]
        [(1, 7), (3, 8), (2, 9)]).map (fun a => (a.id, a.score)) = [(9, 2), (7, 1), (7, 1)]
    ∧ ¬ ((HNSWLibVectorStore.search
          [(7, cached_item 7), (8, cached_item 8), (9, cached_item 9)]
          [(1, 7), (3, 8), (2, 9)]).Pairwise (fun a b => a.score ≤ b.score)) := by
  refine ⟨by decide, by decide⟩

/-! ## The report of `run` -/

theorem dispatch_counters {M : Type} (env : Env) (a : ToolCallAgent M) (c : ToolCall) :
    same_counters a (a.dispatch env c).1 := by
  unfold ToolCallAgent.dispatch ToolCallAgent.execute_tool
  dsimp only
  split_ifs <;> exact ⟨rfl, rfl⟩

theorem spill_counters {M : Type} (a a' : ToolCallAgent M) (content : Json) (r : ToolResult)
    (h : a.spill content = some (a', r)) : same_counters a a' := by
  unfold ToolCallAgent.spill at h
  cases hw : a.content_provider.handle_write (write_fuel (write_content content))
      (write_content content) 4000 with
  | none => simp [hw] at h
  | some w =>
    simp only [hw, Option.map_some', Option.some.injEq, Prod.mk.injEq] at h
    obtain ⟨h1, _⟩ := h
    subst h1
    exact ⟨rfl, rfl⟩

theorem precheck_counters {M : Type} (a : ToolCallAgent M) (result : ToolResult) :
    (a.precheck result).all (fun a' => same_counters a a') := by
  unfold ToolCallAgent.precheck
  split_ifs
  · cases hi : is_single_image result.output with
    | none => exact ⟨rfl, rfl⟩
    | some b =>
      cases b with
      | true => exact ⟨rfl, rfl⟩
      | false =>
        simp only []
        cases hs : a.spill result.output with
        | none => trivial
        | some w =>
          obtain ⟨a1, written⟩ := w
          exact spill_counters a a1 _ _ hs
  · exact ⟨rfl, rfl⟩

theorem limit_message_counters {M : Type} (env : Env) (a a' : ToolCallAgent M)
    (tool_msg tool_msg' : Message) (tool_call : ToolCall)
    (h : a.limit_message env tool_msg tool_call = some (a', tool_msg')) :
    same_counters a a' := by
  unfold ToolCallAgent.limit_message at h
  by_cases ht : tool_msg.num_tokens > 4096
  · rw [if_pos ht] at h
    cases hsp : a.spill tool_msg.content with
    | none => simp [hsp] at h
    | some w =>
      simp only [hsp, Option.map_some', Option.some.injEq, Prod.mk.injEq] at h
      rw [← h.1]
      exact spill_counters a w.1 _ w.2 hsp
  · rw [if_neg ht] at h
    simp only [Option.some.injEq, Prod.mk.injEq] at h
    rw [← h.1]; exact ⟨rfl, rfl⟩

theorem same_counters_trans {M : Type} (a b c : ToolCallAgent M) (h1 : same_counters a b)
    (h2 : same_counters b c) : same_counters a c :=
  ⟨h2.1.trans h1.1, h2.2.trans h1.2⟩

theorem act_step_counters {M : Type} (env : Env) (ops : MemoryOps M) (a : ToolCallAgent M)
    (c : ToolCall) : (a.act_step env ops c).all (fun a' => same_counters a a') := by
  have hd := dispatch_counters env a c
  have hpre := precheck_counters (a.dispatch env c).1 (a.dispatch env c).2
  unfold ToolCallAgent.act_step
  cases hp : (a.dispatch env c).1.precheck (a.dispatch env c).2 with
  | undefined => trivial
  | raised a1 =>
    rw [hp] at hpre
    exact same_counters_trans _ _ _ hd hpre
  | ok a1 result =>
    rw [hp] at hpre
    dsimp only
    cases hl : a1.limit_message env (tool_result_message env result c) c with
    | none => trivial
    | some p =>
      obtain ⟨a2, tool_msg⟩ := p
      have hlim := limit_message_counters env a1 a2 _ _ _ hl
      dsimp only
      cases hadd : a2.add_message ops tool_msg with
      | none => trivial
      | some q =>
        obtain ⟨a3, raised⟩ := q
        obtain ⟨_, _, _, _, q5, q6, _⟩ := add_message_state ops a2 a3 tool_msg raised hadd
        have hfin : same_counters a a3 :=
          same_counters_trans _ _ _ (same_counters_trans _ _ _ (same_counters_trans _ _ _ hd hpre)
            hlim) ⟨q5, q6⟩
        cases raised with
        | true => exact hfin
        | false => exact hfin

theorem act_loop_counters {M : Type} (env : Env) (ops : MemoryOps M) (calls : List ToolCall) :
    ∀ (a : ToolCallAgent M) (result_str : Str),
      (ToolCallAgent.act_loop env ops calls a result_str).all (fun a' => same_counters a a') := by
  induction calls with
  | nil => intro a _; exact ⟨rfl, rfl⟩
  | cons c rest ih =>
    intro a result_str
    have hs := act_step_counters env ops a c
    unfold ToolCallAgent.act_loop
    cases hc : a.act_step env ops c with
    | undefined => trivial
    | raised a1 => rw [hc] at hs; exact hs
    | ok a1 obs =>
      rw [hc] at hs
      have := ih a1 (result_str ++ (obs ++ lit "\n\n"))
      dsimp only
      cases hl : ToolCallAgent.act_loop env ops rest a1 (result_str ++ (obs ++ lit "\n\n")) with
      | undefined => trivial
      | raised a2 => rw [hl] at this; exact same_counters_trans _ _ _ hs this
      | ok a2 s => rw [hl] at this; exact same_counters_trans _ _ _ hs this

theorem act_counters {M : Type} (env : Env) (ops : MemoryOps M) (a : ToolCallAgent M) :
    (a.act env ops).all (fun a' => same_counters a a') := by
  unfold ToolCallAgent.act
  split_ifs
  · exact ⟨rfl, rfl⟩
  · exact ⟨rfl, rfl⟩
  · exact act_loop_counters env ops a.tool_calls a []

theorem step_counters {M : Type} (env : Env) (ops : MemoryOps M) (a : ToolCallAgent M) :
    (a.step env ops).all (fun a' => same_counters a a') := by
  have ht := think_state env ops a
  unfold ToolCallAgent.step
  cases hth : a.think env ops with
  | undefined => trivial
  | raised a1 =>
    rw [hth] at ht
    exact ⟨ht.2.2.2.1, ht.2.2.2.2⟩
  | ok a1 should_act =>
    rw [hth] at ht
    have h1 : same_counters a a1 := ⟨ht.2.2.2.1, ht.2.2.2.2⟩
    dsimp only
    split_ifs
    · exact h1
    · have ha := act_counters env ops a1
      cases hact : a1.act env ops with
      | undefined => trivial
      | raised a2 => rw [hact] at ha; exact same_counters_trans _ _ _ h1 ha
      | ok a2 s => rw [hact] at ha; exact same_counters_trans _ _ _ h1 ha
    · exact h1

/-- The bound `max_steps - current_step` that `run` passes to the loop is
enough: with that many iterations or more the loop gives the same result. -/
theorem run_loop_fuel_enough {M : Type} (env : Env) (ops : MemoryOps M) (n : Nat) :
    ∀ (a : ToolCallAgent M) (results : List Str), (a.max_steps - a.current_step).toNat ≤ n →
      ToolCallAgent.run_loop env ops (n + 1) a results
        = ToolCallAgent.run_loop env ops n a results := by
  induction n with
  | zero =>
    intro a results hn
    have hc : ¬ (a.current_step < a.max_steps ∧ a.state = .RUNNING) := by
      intro h; omega
    simp only [ToolCallAgent.run_loop, if_neg hc]
  | succ n ih =>
    intro a results hn
    by_cases hc : a.current_step < a.max_steps ∧ a.state = .RUNNING
    · rw [ToolCallAgent.run_loop, if_pos hc]
      conv_rhs => rw [ToolCallAgent.run_loop, if_pos hc]
      dsimp only
      have hs := step_counters env ops { a with current_step := a.current_step + 1 }
      cases hst : ToolCallAgent.step env ops { a with current_step := a.current_step + 1 } with
      | undefined => rfl
      | raised a2 => rfl
      | ok a2 step_result =>
        rw [hst] at hs
        dsimp only
        have hk := check_stuck_state env ops a2
        cases hcs : a2.check_stuck env ops with
        | undefined => rfl
        | raised a3 => rfl
        | ok a3 u =>
          rw [hcs] at hk
          dsimp only
          apply ih
          have e1 : a3.current_step = a.current_step + 1 := by
            rw [hk.2.2.1, hs.1]
          have e2 : a3.max_steps = a.max_steps := by
            rw [hk.2.2.2, hs.2]
          rw [e1, e2]
          omega
    · rw [ToolCallAgent.run_loop, if_neg hc]
      conv_rhs => rw [ToolCallAgent.run_loop, if_neg hc]

/-- When the loop of `run` exits normally, the agent is not Running below the
cap, and the loop has added only step lines to `results`. -/
theorem run_loop_exit {M : Type} (env : Env) (ops : MemoryOps M) (n : Nat) :
    ∀ (a a3 : ToolCallAgent M) (results results' : List Str),
      ToolCallAgent.run_loop env ops n a results = .ok a3 results' →
      ¬ (a3.current_step < a3.max_steps ∧ a3.state = .RUNNING)
        ∧ ∃ steps, results' = results ++ steps ∧ ∀ l ∈ steps, is_step_line l := by
  induction n with
  | zero =>
    intro a a3 results results' h
    unfold ToolCallAgent.run_loop at h
    by_cases hc : a.current_step < a.max_steps ∧ a.state = .RUNNING
    · rw [if_pos hc] at h; cases h
    · rw [if_neg hc] at h
      cases h
      exact ⟨hc, [], by simp, by simp⟩
  | succ n ih =>
    intro a a3 results results' h
    unfold ToolCallAgent.run_loop at h
    by_cases hc : a.current_step < a.max_steps ∧ a.state = .RUNNING
    · rw [if_pos hc] at h
      dsimp only at h
      cases hst : ToolCallAgent.step env ops { a with current_step := a.current_step + 1 } with
      | undefined => rw [hst] at h; cases h
      | raised a2 =>
        rw [hst] at h
        cases h
        refine ⟨?_, [], by simp, by simp⟩
        intro hx
        have : (a2.set_state AgentState.ERR).state = AgentState.ERR := rfl
        rw [this] at hx
        exact absurd hx.2 (by decide)
      | ok a2 step_result =>
        rw [hst] at h
        dsimp only at h
        cases hcs : a2.check_stuck env ops with
        | undefined => rw [hcs] at h; cases h
        | raised a4 => rw [hcs] at h; cases h
        | ok a4 u =>
          rw [hcs] at h
          dsimp only at h
          obtain ⟨h1, steps, h2, h3⟩ := ih a4 a3 _ results' h
          refine ⟨h1, (lit "Step " ++ to_string_int a4.current_step ++ lit ": " ++ step_result)
            :: steps, by rw [h2]; simp, ?_⟩
          intro l hl
          rcases List.mem_cons.mp hl with rfl | hl
          · exact ⟨a4.current_step, step_result, rfl⟩
          · exact h3 l hl
    · rw [if_neg hc] at h
      cases h
      exact ⟨hc, [], by simp, by simp⟩

theorem cap_line_ne_state_line (n : Int) (s : AgentState) : cap_line n ≠ state_line s := by
  intro h
  have := congrArg (fun l => l.take 13) h
  revert this
  show List.take 13 (lit "Terminated: Reached max steps (" ++ to_string_int n ++ lit ")")
    ≠ List.take 13 (lit "Terminated: Agent state is " ++ agent_state_map s)
  have e1 : lit "Terminated: Reached max steps (" = lit "Terminated: R" ++ lit "eached max steps (" := by
    decide
  have e2 : lit "Terminated: Agent state is " = lit "Terminated: A" ++ lit "gent state is " := by
    decide
  have l1 : (lit "Terminated: R").length = 13 := by decide
  have l2 : (lit "Terminated: A").length = 13 := by decide
  rw [e1, e2, List.append_assoc, List.append_assoc, List.append_assoc,
    List.take_left' l1, List.take_left' l2]
  decide

theorem cap_line_mem_final_lines {M : Type} (a : ToolCallAgent M) :
    cap_line a.max_steps ∈ final_lines a ↔ a.max_steps ≤ a.current_step := by
  unfold final_lines
  constructor
  · intro h
    rcases List.mem_append.mp h with h | h
    · by_contra hn
      rw [if_neg (by omega)] at h
      simp at h
    · by_cases hs : a.state ≠ .FINISHED
      · rw [if_pos hs] at h
        simp only [List.mem_singleton] at h
        exact absurd h (cap_line_ne_state_line _ _)
      · rw [if_neg hs] at h
        simp at h
  · intro h
    rw [if_pos (by omega)]
    simp

/-- C15. When `run`, called in state Idle, returns a report, the report is the
step lines of the loop followed by the final lines, and the final lines
contain `Terminated: Reached max steps (N)` exactly when the step counter has
reached the cap at the exit of the loop. That is so whenever the loop exits
with the agent still Running; an agent that is Finished or in Error at the
exit gets the line too when its last step was step number `N`. -/
theorem run_report_cap_line {M : Type} (env : Env) (ops : MemoryOps M) (a : ToolCallAgent M)
    (request : Str) (hidle : a.state = .IDLE) :
    match a.run env ops request with
    | .ok a' report =>
        ∃ (a2 a3 : ToolCallAgent M) (steps : List Str),
          a2.state = .RUNNING
          ∧ ToolCallAgent.run_loop env ops (a2.max_steps - a2.current_step).toNat a2 []
              = .ok a3 steps
          ∧ (∀ l ∈ steps, is_step_line l)
          ∧ report = render_report (steps ++ final_lines a3)
          ∧ (cap_line a3.max_steps ∈ final_lines a3 ↔ a3.max_steps ≤ a3.current_step)
          ∧ (a3.state = .RUNNING → a3.max_steps ≤ a3.current_step)
          ∧ a' = (if a3.state ≠ .FINISHED then a3 else a3.set_state .IDLE)
    | _ => True := by
  unfold ToolCallAgent.run
  dsimp only
  rw [if_neg (by rw [hidle]; decide)]
  generalize hr1 : (if request.isEmpty = false then
      ToolCallAgent.add_message ops { a with memory := ops.set_current_request a.memory request }
        (Message.user_message env.tok (.str request))
    else some ({ a with memory := ops.set_current_request a.memory request }, false)) = r1
  cases r1 with
  | none => trivial
  | some p =>
    obtain ⟨a1, raised⟩ := p
    cases raised with
    | true => trivial
    | false =>
      dsimp only
      cases hl : ToolCallAgent.run_loop env ops
          ((a1.set_state .RUNNING).max_steps - (a1.set_state .RUNNING).current_step).toNat
          (a1.set_state .RUNNING) [] with
      | undefined => trivial
      | raised a3 => trivial
      | ok a3 results =>
        dsimp only
        obtain ⟨hexit, steps, hsteps, hlines⟩ := run_loop_exit env ops _ _ _ _ _ hl
        simp only [List.nil_append] at hsteps
        subst hsteps
        refine ⟨a1.set_state .RUNNING, a3, results, rfl, hl, hlines, ?_,
          cap_line_mem_final_lines a3, ?_, rfl⟩
        · unfold render_report final_lines cap_line state_line
          by_cases h1 : a3.current_step ≥ a3.max_steps
          · by_cases h2 : a3.state ≠ .FINISHED
            · simp only [if_pos h1, if_pos h2, List.append_assoc]
            · simp only [if_pos h1, if_neg h2, List.append_nil]
          · by_cases h2 : a3.state ≠ .FINISHED
            · simp only [if_neg h1, if_pos h2, List.nil_append]
            · simp only [if_neg h1, if_neg h2, List.append_nil]
        · intro hrun
          by_contra hn
          exact hexit ⟨by omega, hrun⟩

set_option maxRecDepth 100000 in
/-- A run of at most 30 steps in which the first reply calls `terminate`: the
report has one step line and no cap line. -/
theorem run_report_cap_line_witness :
    (((demo_agent 10).run (demo_env [terminate_call]) fifo_ops (lit "go")).value?
        = some (render_report [lit "Step 1: Observed output of tool `terminate` executed:\nThe interaction has been completed with status: success\n\n"]))
      ∧ (match (demo_agent 10).run (demo_env [terminate_call]) fifo_ops (lit "go") with
        | .ok a' report =>
            ∃ (a2 a3 : ToolCallAgent Memory) (steps : List Str),
              a2.state = .RUNNING
              ∧ ToolCallAgent.run_loop (demo_env [terminate_call]) fifo_ops
                  (a2.max_steps - a2.current_step).toNat a2 [] = .ok a3 steps
              ∧ (∀ l ∈ steps, is_step_line l)
              ∧ report = render_report (steps ++ final_lines a3)
              ∧ (cap_line a3.max_steps ∈ final_lines a3 ↔ a3.max_steps ≤ a3.current_step)
              ∧ (a3.state = .RUNNING → a3.max_steps ≤ a3.current_step)
              ∧ a' = (if a3.state ≠ .FINISHED then a3 else a3.set_state .IDLE)
        | _ => True) :=
  ⟨by decide, run_report_cap_line (demo_env [terminate_call]) fifo_ops (demo_agent 10)
    (lit "go") rfl⟩

set_option maxRecDepth 100000 in
/-- C15 as stated fails: with `max_steps = 1` the first step calls `terminate`;
the loop ends because the agent is Finished, and the report still gets the
line `Terminated: Reached max steps (1)`. -/
theorem finished_run_gets_cap_line :
    ((({ demo_agent 10 with max_steps := 1 } : ToolCallAgent Memory).run
        (demo_env [terminate_call]) fifo_ops (lit "go")).value?
        = some (render_report [lit "Step 1: Observed output of tool `terminate` executed:\nThe interaction has been completed with status: success\n\n",
            lit "Terminated: Reached max steps (1)"]))
      ∧ ((({ demo_agent 10 with max_steps := 1 } : ToolCallAgent Memory).run
        (demo_env [terminate_call]) fifo_ops (lit "go")).agent?.map
          (fun a => (a.state_log, a.executed)))
        = some ([.RUNNING, .FINISHED, .IDLE], [terminate_call]) := by
  decide

/-! ## The window scenario with `max_messages = 3` -/

/-- One `add_message` call that is not rejected, for a given outcome of the
eviction loop. -/
theorem add_message_of_evict (tok : Tokenizer) (cfg : MemoryConfig) (msgs : List Message)
    (req : Str) (counter : Int) (m : Message) (ms out : List Message) (n : Int)
    (hfit : (m.num_tokens : Int) ≤ cfg.max_tokens_message)
    (hev : evict_loop cfg.max_messages cfg.max_tokens_messages
      (msgs ++ [m]) (counter + m.num_tokens) [] = some (ms, n, out)) :
    Memory.add_message tok ⟨cfg, msgs, req, counter⟩ m
      = some ⟨⟨cfg, (fix_head tok req ms n out).1, req, (fix_head tok req ms n out).2.1⟩,
          true, (fix_head tok req ms n out).2.2⟩ := by
  unfold Memory.add_message
  simp only []
  rw [if_neg (by omega), hev]

theorem fix_head_user (tok : Tokenizer) (req : Str) (m : Message) (ms : List Message) (n : Int)
    (out : List Message) (h : m.role = lit "user") :
    fix_head tok req (m :: ms) n out = (m :: ms, n, out) := by
  rw [fix_head, h, if_neg (by decide), if_neg (by decide)]

theorem fix_head_assistant (tok : Tokenizer) (req : Str) (m : Message) (ms : List Message)
    (n : Int) (out : List Message) (h : m.role = lit "assistant") :
    fix_head tok req (m :: ms) n out
      = (synthesized_message tok req :: m :: ms,
          n + (synthesized_message tok req).num_tokens, out) := by
  rw [fix_head, if_pos h]

/-- The run of four calls, the first with a user and the second with an
assistant message, with `max_messages = 3`, from an empty window and any
counter that leaves room for the tokens of the four messages. -/
theorem four_messages_run (tok : Tokenizer) (cfg : MemoryConfig) (req0 req : Str)
    (counter : Int) (u1 a1 u2 a2 : Message)
    (hM : cfg.max_messages = 3)
    (hr1 : u1.role = lit "user") (hr2 : a1.role = lit "assistant")
    (hfit : ∀ m ∈ [u1, a1, u2, a2], (m.num_tokens : Int) ≤ cfg.max_tokens_message)
    (hroom : counter + u1.num_tokens + a1.num_tokens + u2.num_tokens + a2.num_tokens
      ≤ cfg.max_tokens_messages) :
    Memory.add_all_evicted tok (Memory.constructed cfg req0 counter)
        [(req, u1), (req, a1), (req, u2), (req, a2)]
      = some (⟨cfg, [synthesized_message tok req, a1, u2, a2], req,
            counter + u1.num_tokens + a1.num_tokens + u2.num_tokens + a2.num_tokens
              - u1.num_tokens + (synthesized_message tok req).num_tokens⟩, [u1]) := by
  have hsz : to_size_t cfg.max_messages = 3 := by rw [hM]; rfl
  have f1 := hfit u1 (by simp)
  have f2 := hfit a1 (by simp)
  have f3 := hfit u2 (by simp)
  have f4 := hfit a2 (by simp)
  have h1 := add_message_of_evict tok cfg [] req counter u1 _ _ _ f1
    (evict_loop_stay _ _ _ _ _ (by rw [hsz]; simp) (by omega))
  have h2 := add_message_of_evict tok cfg [u1] req (counter + u1.num_tokens) a1 _ _ _ f2
    (evict_loop_stay _ _ _ _ _ (by rw [hsz]; simp) (by omega))
  have h3 := add_message_of_evict tok cfg [u1, a1] req
    (counter + u1.num_tokens + a1.num_tokens) u2 _ _ _ f3
    (evict_loop_stay _ _ _ _ _ (by rw [hsz]; simp) (by omega))
  have h4 := add_message_of_evict tok cfg [u1, a1, u2] req
    (counter + u1.num_tokens + a1.num_tokens + u2.num_tokens) a2 [a1, u2, a2] [u1]
    (counter + u1.num_tokens + a1.num_tokens + u2.num_tokens + a2.num_tokens - u1.num_tokens) f4
    (by
      rw [show [u1, a1, u2] ++ [a2] = u1 :: [a1, u2, a2] from rfl,
        evict_loop_pop _ _ _ _ _ _ (by rw [hsz]; simp)]
      exact evict_loop_stay _ _ _ _ _ (by rw [hsz]; simp) (by omega))
  simp only [List.nil_append, List.cons_append, fix_head_user tok req u1 _ _ _ hr1,
    fix_head_assistant tok req a1 _ _ _ hr2] at h1 h2 h3 h4
  simp only [Memory.add_all_evicted, Memory.constructed, h1, h2, h3, h4, Option.map_some',
    List.nil_append, List.append_nil]

theorem fix_head_tool (tok : Tokenizer) (req : Str) (m : Message) (ms : List Message) (n : Int)
    (out : List Message) (h : m.role = lit "tool") :
    fix_head tok req (m :: ms) n out = (ms, n - m.num_tokens, out ++ [m]) := by
  rw [fix_head, h, if_neg (by decide), if_pos rfl]

/-- The head of role `tool` does not depend on the value the constructor leaves
in the counter: with `max_messages = 2`, from an empty window and any counter with
room for the tokens of the three messages, after a user message and two tool
messages the window is the second tool message alone. -/
theorem head_tool_for_any_counter (tok : Tokenizer) (cfg : MemoryConfig)
    (req0 req : Str) (counter : Int) (u t1 t2 : Message)
    (hM : cfg.max_messages = 2)
    (hr1 : u.role = lit "user") (hr2 : t1.role = lit "tool")
    (hfit : ∀ m ∈ [u, t1, t2], (m.num_tokens : Int) ≤ cfg.max_tokens_message)
    (hroom : counter + u.num_tokens + t1.num_tokens + t2.num_tokens
      ≤ cfg.max_tokens_messages) :
    (Memory.add_all tok (Memory.constructed cfg req0 counter)
        [(req, u), (req, t1), (req, t2)]).map (fun mem => mem.messages) = some [t2] := by
  have hsz : to_size_t cfg.max_messages = 2 := by rw [hM]; rfl
  have f1 := hfit u (by simp)
  have f2 := hfit t1 (by simp)
  have f3 := hfit t2 (by simp)
  have h1 := add_message_of_evict tok cfg [] req counter u _ _ _ f1
    (evict_loop_stay _ _ _ _ _ (by rw [hsz]; simp) (by omega))
  have h2 := add_message_of_evict tok cfg [u] req (counter + u.num_tokens) t1 _ _ _ f2
    (evict_loop_stay _ _ _ _ _ (by rw [hsz]; simp) (by omega))
  have h3 := add_message_of_evict tok cfg [u, t1] req
    (counter + u.num_tokens + t1.num_tokens) t2 [t1, t2] [u]
    (counter + u.num_tokens + t1.num_tokens + t2.num_tokens - u.num_tokens) f3
    (by
      rw [show [u, t1] ++ [t2] = u :: [t1, t2] from rfl,
        evict_loop_pop _ _ _ _ _ _ (by rw [hsz]; simp)]
      exact evict_loop_stay _ _ _ _ _ (by rw [hsz]; simp) (by omega))
  simp only [List.nil_append, List.cons_append, fix_head_user tok req u _ _ _ hr1,
    fix_head_tool tok req t1 _ _ _ hr2] at h1 h2 h3
  simp only [Memory.add_all, Memory.constructed, h1, h2, h3, Option.map_some']

/-- C16 (code at the failing input). With `max_messages = 3`, for every value
the constructor leaves in the counter that has room for the tokens of the four
messages (token limits not binding): after user `u1`, assistant `a1`, user
`u2`, assistant `a2` the window is the synthesized `Current request` message
followed by assistant `a1`, user `u2`, assistant `a2`, four messages with
`max_messages = 3`, and the only message evicted is user `u1`. -/
theorem window_after_four_messages (counter : Int)
    (hroom : counter + (sum_tokens (calls_u1_a1_u2_a2.map Prod.snd) : Int)
      ≤ (cfg_max 3).max_tokens_messages) :
    ∃ mem evicted,
      Memory.add_all_evicted byte_tokenizer (Memory.constructed (cfg_max 3) [] counter)
          calls_u1_a1_u2_a2 = some (mem, evicted)
      ∧ mem.messages = [synthesized_message byte_tokenizer [],
          Message.assistant_message byte_tokenizer (.str (lit "a1")) [],
          Message.user_message byte_tokenizer (.str (lit "u2")),
          Message.assistant_message byte_tokenizer (.str (lit "a2")) []]
      ∧ evicted = [Message.user_message byte_tokenizer (.str (lit "u1"))]
      ∧ ¬ ((mem.messages.length : Int) ≤ (cfg_max 3).max_messages) := by
  have h58 : (sum_tokens (calls_u1_a1_u2_a2.map Prod.snd) : Int) = 58 := by decide
  have hmax : (cfg_max 3).max_tokens_messages = 100000 := rfl
  have hu1 : ((Message.user_message byte_tokenizer (.str (lit "u1"))).num_tokens : Int) = 12 := by
    decide
  have ha1 : ((Message.assistant_message byte_tokenizer (.str (lit "a1")) []).num_tokens : Int)
      = 17 := by decide
  have hu2 : ((Message.user_message byte_tokenizer (.str (lit "u2"))).num_tokens : Int) = 12 := by
    decide
  have ha2 : ((Message.assistant_message byte_tokenizer (.str (lit "a2")) []).num_tokens : Int)
      = 17 := by decide
  rw [h58, hmax] at hroom
  have hrun := four_messages_run byte_tokenizer (cfg_max 3) [] [] counter
    (Message.user_message byte_tokenizer (.str (lit "u1")))
    (Message.assistant_message byte_tokenizer (.str (lit "a1")) [])
    (Message.user_message byte_tokenizer (.str (lit "u2")))
    (Message.assistant_message byte_tokenizer (.str (lit "a2")) [])
    rfl (by decide) (by decide) (by decide) (by rw [hu1, ha1, hu2, ha2, hmax]; omega)
  exact ⟨_, _, hrun, rfl, rfl, by simp [cfg_max]⟩

/-- The counter at zero. -/
theorem window_after_four_messages_witness :
    (0 : Int) + (sum_tokens (calls_u1_a1_u2_a2.map Prod.snd) : Int)
      ≤ (cfg_max 3).max_tokens_messages
    ∧ ∃ mem evicted,
      Memory.add_all_evicted byte_tokenizer (Memory.constructed (cfg_max 3) [] 0)
          calls_u1_a1_u2_a2 = some (mem, evicted)
      ∧ mem.messages = [synthesized_message byte_tokenizer [],
          Message.assistant_message byte_tokenizer (.str (lit "a1")) [],
          Message.user_message byte_tokenizer (.str (lit "u2")),
          Message.assistant_message byte_tokenizer (.str (lit "a2")) []]
      ∧ evicted = [Message.user_message byte_tokenizer (.str (lit "u1"))]
      ∧ ¬ ((mem.messages.length : Int) ≤ (cfg_max 3).max_messages) :=
  ⟨by decide, window_after_four_messages 0 (by decide)⟩

/-! ## Retrieval in `Memory::get_messages` (src/memory/base.h) -/

/-- What the loop of `get_messages` keeps: the messages in front of the
initial deque are memory messages, and once there is one the running count,
the initial count plus their tokens, is within the context limit. -/
theorem memory_loop_spec (tok : Tokenizer) (max_tokens_context : Int)
    (memories : List MemoryItem) :
    ∀ (n base : Int) (acc : List Message), n = base + (sum_tokens acc : Int) →
      (acc ≠ [] → n ≤ max_tokens_context) →
      (∀ m ∈ acc, ∃ item, m = memory_message tok item) →
      (memory_loop tok max_tokens_context memories n acc ≠ [] →
          base + (sum_tokens (memory_loop tok max_tokens_context memories n acc) : Int)
            ≤ max_tokens_context)
        ∧ ∀ m ∈ memory_loop tok max_tokens_context memories n acc,
            ∃ item, m = memory_message tok item := by
  induction memories with
  | nil =>
    intro n base acc hn hb hm
    simp only [memory_loop]
    exact ⟨fun h => by rw [← hn]; exact hb h, hm⟩
  | cons item rest ih =>
    intro n base acc hn hb hm
    unfold memory_loop
    by_cases hc : n + (memory_message tok item).num_tokens > max_tokens_context
    · rw [if_pos hc]
      exact ⟨fun h => by rw [← hn]; exact hb h, hm⟩
    · rw [if_neg hc]
      apply ih
      · rw [hn, sum_tokens_cons]; push_cast; ring
      · intro _; omega
      · intro m hm'
        rcases List.mem_cons.mp hm' with rfl | hm'
        · exact ⟨item, rfl⟩
        · exact hm m hm'

/-- C17. Whenever `get_messages` returns, its result is memory messages
followed by the short-term window verbatim. When a memory message is
prepended, the short-term token count plus the tokens of the prepended
messages is at most `max_tokens_context`; so their tokens sum to at most
`max_tokens_context` minus the short-term count whenever that difference is
not negative, and nothing is prepended when it is negative. With long-term
memory disabled or an empty query the result is the window. -/
theorem get_messages_spec (tok : Tokenizer) (mem : Memory) (retrieval_enabled : Bool)
    (retrieve : Str → Option (List MemoryItem)) (query : Str) :
    match Memory.get_messages tok mem retrieval_enabled retrieve query with
    | some result =>
        ∃ prepended, result = prepended ++ mem.messages
          ∧ (∀ m ∈ prepended, ∃ item, m = memory_message tok item)
          ∧ (prepended ≠ [] →
              mem.num_tokens_messages + (sum_tokens prepended : Int)
                ≤ mem.config.max_tokens_context)
          ∧ (0 ≤ mem.config.max_tokens_context - mem.num_tokens_messages →
              (sum_tokens prepended : Int)
                ≤ mem.config.max_tokens_context - mem.num_tokens_messages)
          ∧ (mem.config.max_tokens_context - mem.num_tokens_messages < 0 → prepended = [])
          ∧ (retrieval_enabled = false ∨ query = [] → prepended = [])
    | none => retrieval_enabled = true ∧ query ≠ [] ∧ retrieve query = none := by
  have hnil : ∃ prepended, mem.messages = prepended ++ mem.messages
      ∧ (∀ m ∈ prepended, ∃ item, m = memory_message tok item)
      ∧ (prepended ≠ [] →
          mem.num_tokens_messages + (sum_tokens prepended : Int)
            ≤ mem.config.max_tokens_context)
      ∧ (0 ≤ mem.config.max_tokens_context - mem.num_tokens_messages →
          (sum_tokens prepended : Int)
            ≤ mem.config.max_tokens_context - mem.num_tokens_messages)
      ∧ (mem.config.max_tokens_context - mem.num_tokens_messages < 0 → prepended = [])
      ∧ (retrieval_enabled = false ∨ query = [] → prepended = []) :=
    ⟨[], by simp, by simp, by simp, by simp [sum_tokens_nil], by simp, by simp⟩
  unfold Memory.get_messages
  by_cases hc : retrieval_enabled = true ∧ query.isEmpty = false
  · rw [if_pos hc]
    have hq : query ≠ [] := by
      intro h; rw [h] at hc; simp at hc
    cases hr : retrieve query with
    | none => exact ⟨hc.1, hq, rfl⟩
    | some memories =>
      dsimp only
      by_cases he : memories.isEmpty = false
      · rw [if_pos he]
        obtain ⟨h1, h2⟩ := memory_loop_spec tok mem.config.max_tokens_context
          (sort_by_updated_at memories) mem.num_tokens_messages mem.num_tokens_messages []
          (by simp [sum_tokens_nil]) (by simp) (by simp)
        refine ⟨_, rfl, h2, h1, ?_, ?_, ?_⟩
        · intro hpos
          by_cases hp : memory_loop tok mem.config.max_tokens_context
              (sort_by_updated_at memories) mem.num_tokens_messages [] = []
          · rw [hp, sum_tokens_nil]; simpa using hpos
          · have := h1 hp; omega
        · intro hneg
          by_contra hp
          have := h1 hp
          omega
        · intro hd
          rcases hd with hd | hd
          · rw [hc.1] at hd; cases hd
          · exact absurd hd hq
      · rw [if_neg he]
        exact hnil
  · rw [if_neg hc]
    exact hnil

/-- C17 as stated fails: the window holds 15 tokens and `max_tokens_context` is
5; `get_messages` prepends nothing, a token sum of 0, which is not at most
5 - 15. -/
theorem get_messages_bound_negative :
    Memory.add_all byte_tokenizer (Memory.fresh cfg_small_context [])
        [([], Message.user_message byte_tokenizer (.str (lit "hello")))]
        = some small_context_memory
      ∧ Memory.get_messages byte_tokenizer small_context_memory true one_memory (lit "tea")
        = some ([] ++ small_context_memory.messages)
      ∧ ¬ ((sum_tokens [] : Int)
          ≤ small_context_memory.config.max_tokens_context
            - small_context_memory.num_tokens_messages) := by
  decide

/-- One retrieved memory is prepended to the window of `roomy_memory`. -/
theorem get_messages_spec_witness :
    Memory.get_messages byte_tokenizer roomy_memory true one_memory (lit "tea")
        = some ([Message.user_message byte_tokenizer (.str (lit "<memory>likes tea</memory>"))]
            ++ roomy_memory.messages)
      ∧ (match Memory.get_messages byte_tokenizer roomy_memory true one_memory (lit "tea") with
        | some result =>
            ∃ prepended, result = prepended ++ roomy_memory.messages
              ∧ (∀ m ∈ prepended, ∃ item, m = memory_message byte_tokenizer item)
              ∧ (prepended ≠ [] →
                  roomy_memory.num_tokens_messages + (sum_tokens prepended : Int)
                    ≤ roomy_memory.config.max_tokens_context)
              ∧ (0 ≤ roomy_memory.config.max_tokens_context - roomy_memory.num_tokens_messages →
                  (sum_tokens prepended : Int)
                    ≤ roomy_memory.config.max_tokens_context - roomy_memory.num_tokens_messages)
              ∧ (roomy_memory.config.max_tokens_context - roomy_memory.num_tokens_messages < 0 →
                  prepended = [])
              ∧ (true = false ∨ lit "tea" = [] → prepended = [])
        | none => true = true ∧ lit "tea" ≠ [] ∧ one_memory (lit "tea") = none) :=
  ⟨by decide, get_messages_spec byte_tokenizer roomy_memory true one_memory (lit "tea")⟩

/-! ## Reading from the content provider (src/tool/content_provider.h) -/

theorem digitChar_toNat (d : Nat) (h : d < 10) : (Nat.digitChar d).toNat = 48 + d := by
  interval_cases d <;> rfl

theorem digits_value_append (xs : Str) (b : Nat) :
    digits_value (xs ++ [b]) = digits_value xs * 10 + (b - 48) := by
  simp [digits_value, List.foldl_append]

/-- The digits `Nat.toDigitsCore` puts in front of its accumulator are decimal
digit characters whose value is the number. -/
theorem toDigitsCore_spec (fuel : Nat) :
    ∀ (n : Nat) (acc : List Char), n < fuel →
      ∃ pre, Nat.toDigitsCore 10 fuel n acc = pre ++ acc ∧ pre ≠ []
        ∧ (∀ c ∈ pre, 48 ≤ c.toNat ∧ c.toNat ≤ 57)
        ∧ digits_value (pre.map (fun c => c.toNat)) = n := by
  induction fuel with
  | zero => intro n acc h; omega
  | succ fuel ih =>
    intro n acc h
    have hd : (Nat.digitChar (n % 10)).toNat = 48 + n % 10 :=
      digitChar_toNat _ (Nat.mod_lt _ (by decide))
    unfold Nat.toDigitsCore
    dsimp only
    by_cases h0 : n / 10 = 0
    · rw [if_pos h0]
      refine ⟨[Nat.digitChar (n % 10)], rfl, by simp, ?_, ?_⟩
      · intro c hc
        simp only [List.mem_singleton] at hc
        rw [hc, hd]
        have := Nat.mod_lt n (show 10 > 0 by decide)
        omega
      · simp only [List.map_cons, List.map_nil, digits_value, List.foldl_cons, List.foldl_nil, hd]
        omega
    · rw [if_neg h0]
      obtain ⟨pre, e, _, hall, hval⟩ := ih (n / 10) (Nat.digitChar (n % 10) :: acc) (by omega)
      refine ⟨pre ++ [Nat.digitChar (n % 10)], by rw [e]; simp, by simp, ?_, ?_⟩
      · intro c hc
        rcases List.mem_append.mp hc with hc | hc
        · exact hall c hc
        · simp only [List.mem_singleton] at hc
          rw [hc, hd]
          have := Nat.mod_lt n (show 10 > 0 by decide)
          omega
      · rw [List.map_append, List.map_singleton, digits_value_append, hval, hd]
        omega

theorem lit_mk_ascii (cs : List Char) (h : ∀ c ∈ cs, c.toNat < 128) :
    lit (String.mk cs) = cs.map (fun c => c.toNat) := by
  unfold lit
  show cs.flatMap (fun c => utf8_char c.toNat) = _
  induction cs with
  | nil => rfl
  | cons c rest ih =>
    have hc : c.toNat < 128 := h c (List.mem_cons_self _ _)
    have hu : utf8_char c.toNat = [c.toNat] := by
      unfold utf8_char
      rw [if_pos (by omega)]
    rw [List.flatMap_cons, hu, List.map_cons, ih (fun c' hc' => h c' (List.mem_cons_of_mem _ hc'))]
    rfl

/-- `std::to_string(n)` is a non-empty run of decimal digits with the value
`n`. -/
theorem to_string_digits (n : Nat) :
    to_string n ≠ [] ∧ (∀ b ∈ to_string n, 48 ≤ b ∧ b ≤ 57)
      ∧ digits_value (to_string n) = n := by
  obtain ⟨pre, e, hne, hall, hval⟩ := toDigitsCore_spec (n + 1) n [] (by omega)
  have hs : to_string n = pre.map (fun c => c.toNat) := by
    unfold to_string
    have : toString n = String.mk pre := by
      show Nat.repr n = _
      unfold Nat.repr Nat.toDigits
      rw [e, List.append_nil]
      rfl
    rw [this]
    exact lit_mk_ascii pre (fun c hc => by have := hall c hc; omega)
  rw [hs]
  refine ⟨by simpa using hne, ?_, hval⟩
  intro b hb
  obtain ⟨c, hc, rfl⟩ := List.mem_map.mp hb
  exact hall c hc

theorem takeWhile_all {α : Type} (p : α → Bool) (xs : List α) (h : ∀ x ∈ xs, p x = true) :
    xs.takeWhile p = xs := by
  induction xs with
  | nil => rfl
  | cons x rest ih =>
    rw [List.takeWhile_cons, h x (List.mem_cons_self _ _)]
    simp only [if_true]
    rw [ih (fun y hy => h y (List.mem_cons_of_mem _ hy))]

/-- `stoul` reads back what `to_string` wrote. -/
theorem stoul_to_string (n : Nat) (h : n < 2 ^ 64) : stoul (to_string n) = some n := by
  obtain ⟨hne, hall, hval⟩ := to_string_digits n
  cases hs : to_string n with
  | nil => exact absurd hs hne
  | cons b rest =>
    rw [hs] at hall hval
    have hb := hall b (List.mem_cons_self _ _)
    have hsp : is_space b = false := by
      unfold is_space
      simp only [Bool.or_eq_false_iff, decide_eq_false_iff_not, Bool.and_eq_false_imp,
        decide_eq_true_eq]
      omega
    have hdig : ∀ x ∈ b :: rest, is_digit x = true := by
      intro x hx
      have := hall x hx
      unfold is_digit
      simp only [Bool.and_eq_true, decide_eq_true_eq]
      omega
    unfold stoul
    have h1 : (b :: rest).dropWhile is_space = b :: rest := by
      rw [List.dropWhile_cons, hsp]; rfl
    have hsign : ¬ (b = 45 ∨ b = 43) := by omega
    have hminus : ¬ b = 45 := by omega
    simp only [h1, List.head?_cons, Option.some.injEq, if_neg hsign, if_neg hminus,
      takeWhile_all is_digit _ hdig, hval, List.isEmpty_cons, Bool.false_eq_true, if_false]
    rw [if_neg (by omega)]

theorem to_string_no_colon (n : Nat) : 58 ∉ to_string n := by
  intro h
  have := (to_string_digits n).2.1 58 h
  omega

theorem generated_id_no_colon (k : Nat) : 58 ∉ lit "content_" ++ to_string k := by
  intro h
  rcases List.mem_append.mp h with h | h
  · revert h; decide
  · exact to_string_no_colon k h

theorem takeWhile_append_stop {α : Type} (p : α → Bool) (xs ys : List α) (y : α)
    (h : ∀ x ∈ xs, p x = true) (hy : p y = false) :
    (xs ++ y :: ys).takeWhile p = xs ∧ (xs ++ y :: ys).dropWhile p = y :: ys := by
  induction xs with
  | nil => simp [List.takeWhile_cons, List.dropWhile_cons, hy]
  | cons x rest ih =>
    have hx := h x (List.mem_cons_self _ _)
    obtain ⟨i1, i2⟩ := ih (fun z hz => h z (List.mem_cons_of_mem _ hz))
    simp [List.takeWhile_cons, List.dropWhile_cons, hx, i1, i2]

/-- The cursor `<store_id>:<index>` splits at its colon into the store id and
the index. -/
theorem cursor_split (store_id : Str) (index : Nat) (h : 58 ∉ store_id) :
    58 ∈ store_id ++ lit ":" ++ to_string index
      ∧ (store_id ++ lit ":" ++ to_string index).takeWhile (fun b => b ≠ 58) = store_id
      ∧ ((store_id ++ lit ":" ++ to_string index).dropWhile (fun b => b ≠ 58)).drop 1
          = to_string index := by
  have hl : lit ":" = [58] := by decide
  have hp : ∀ x ∈ store_id, (fun b : Nat => decide (b ≠ 58)) x = true := by
    intro x hx
    simp only [ne_eq, decide_not, Bool.not_eq_true', decide_eq_false_iff_not]
    intro he
    exact h (he ▸ hx)
  obtain ⟨t1, t2⟩ := takeWhile_append_stop (fun b : Nat => decide (b ≠ 58)) store_id
    (to_string index) 58 hp (by simp)
  rw [hl, List.append_assoc, List.singleton_append]
  exact ⟨by simp, t1, by rw [t2]; rfl⟩

theorem cursor_not_keyword (store_id : Str) (index : Nat) :
    store_id ++ lit ":" ++ to_string index ≠ lit "start"
      ∧ store_id ++ lit ":" ++ to_string index ≠ lit "select_store" := by
  have hm : 58 ∈ store_id ++ lit ":" ++ to_string index := by
    have hl : lit ":" = [58] := by decide
    rw [hl]; simp
  constructor
  · intro h; rw [h] at hm; revert hm; decide
  · intro h; rw [h] at hm; revert hm; decide

/-- A read with the cursor `<store_id>:<index>`: unknown store, index out of
range, or the chunk with its navigation. -/
theorem handle_read_cursor (cp : ContentProvider) (store_id : Str) (index : Nat)
    (hc : 58 ∉ store_id) (hi : index < 2 ^ 64) :
    (map_find store_id cp.content_store_ = none →
        cp.handle_read (some (store_id ++ lit ":" ++ to_string index))
          = some (.error (lit "Store ID `" ++ store_id ++ lit "` not found")))
      ∧ ∀ content, map_find store_id cp.content_store_ = some content →
          (content.length ≤ index →
            cp.handle_read (some (store_id ++ lit ":" ++ to_string index))
              = some (.error (lit "Index out of range")))
          ∧ ∀ h : index < content.length,
              cp.handle_read (some (store_id ++ lit ":" ++ to_string index))
                = some (.item (content.get ⟨index, h⟩)
                    (next_cursor_of store_id content.length index)
                    (content.length - index - 1)) := by
  obtain ⟨s1, s2, s3⟩ := cursor_split store_id index hc
  obtain ⟨k1, k2⟩ := cursor_not_keyword store_id index
  unfold ContentProvider.handle_read
  simp only [if_neg k1, if_neg k2, if_pos s1, s2, s3, stoul_to_string index hi]
  refine ⟨fun hn => by rw [hn], fun content hf => ?_⟩
  rw [hf]
  dsimp only
  refine ⟨fun hge => by rw [if_pos hge], fun h => ?_⟩
  rw [if_neg (by omega), List.get?_eq_get h]
  dsimp only
  unfold next_cursor_of
  by_cases hl : index + 1 < content.length
  · rw [if_pos hl, if_pos hl]
  · rw [if_neg hl, if_neg hl]
    have : content.length - index - 1 = 0 := by omega
    rw [this]

/-- Following `next_cursor` from the chunk `index` on: after `reads` reads the
chunks `index, index + 1, ...` have been returned in order, and `end` is
reached exactly with the read of the last chunk. -/
theorem read_chain_from (cp : ContentProvider) (store_id : Str) (content : List ContentPart)
    (hc : 58 ∉ store_id) (hf : map_find store_id cp.content_store_ = some content)
    (hn : content.length < 2 ^ 64) (reads : Nat) :
    ∀ index, index < content.length →
      read_chain cp reads (store_id ++ lit ":" ++ to_string index)
        = ((content.drop index).take reads, decide (content.length ≤ index + reads)) := by
  induction reads with
  | zero =>
    intro index hi
    simp only [read_chain, List.take_zero, Nat.add_zero]
    rw [decide_eq_false (by omega)]
  | succ reads ih =>
    intro index hi
    have hr := ((handle_read_cursor cp store_id index hc (by omega)).2 content hf).2 hi
    unfold read_chain
    rw [hr]
    dsimp only
    have hdrop : content.drop index = content.get ⟨index, hi⟩ :: content.drop (index + 1) :=
      List.drop_eq_getElem_cons hi
    unfold next_cursor_of
    by_cases hl : index + 1 < content.length
    · rw [if_pos hl]
      have hne : store_id ++ lit ":" ++ to_string (index + 1) ≠ lit "end" := by
        intro h
        have hm : 58 ∈ store_id ++ lit ":" ++ to_string (index + 1) :=
          (cursor_split store_id (index + 1) hc).1
        rw [h] at hm
        revert hm
        decide
      rw [if_neg hne, ih (index + 1) hl, hdrop, List.take_succ_cons]
      have : (content.length ≤ index + 1 + reads) = (content.length ≤ index + (reads + 1)) := by
        rw [Nat.add_assoc, Nat.add_comm 1 reads]
      simp only [this]
    · rw [if_neg hl]
      simp only [if_true]
      have hlast : content.drop (index + 1) = [] := List.drop_eq_nil_of_le (by omega)
      rw [hdrop, hlast, List.take_succ_cons, List.take_nil, decide_eq_true (by omega)]

theorem stoul_to_string_large (n : Nat) (h : 2 ^ 64 ≤ n) : stoul (to_string n) = none := by
  obtain ⟨hne, hall, hval⟩ := to_string_digits n
  cases hs : to_string n with
  | nil => exact absurd hs hne
  | cons b rest =>
    rw [hs] at hall hval
    have hb := hall b (List.mem_cons_self _ _)
    have hsp : is_space b = false := by
      unfold is_space
      simp only [Bool.or_eq_false_iff, decide_eq_false_iff_not, Bool.and_eq_false_imp,
        decide_eq_true_eq]
      omega
    have hdig : ∀ x ∈ b :: rest, is_digit x = true := by
      intro x hx
      have := hall x hx
      unfold is_digit
      simp only [Bool.and_eq_true, decide_eq_true_eq]
      omega
    unfold stoul
    have h1 : (b :: rest).dropWhile is_space = b :: rest := by
      rw [List.dropWhile_cons, hsp]; rfl
    have hsign : ¬ (b = 45 ∨ b = 43) := by omega
    simp only [h1, List.head?_cons, Option.some.injEq, if_neg hsign,
      takeWhile_all is_digit _ hdig, hval, List.isEmpty_cons, Bool.false_eq_true, if_false]
    rw [if_pos (by omega)]

theorem map_set_mem {V : Type} (key : Str) (value : V) (m : List (Str × V)) :
    ∀ e ∈ map_set key value m, e = (key, value) ∨ e ∈ m := by
  induction m with
  | nil => intro e he; simp [map_set] at he; exact Or.inl he
  | cons x rest ih =>
    obtain ⟨k, v⟩ := x
    intro e he
    simp only [map_set] at he
    split_ifs at he with h1 h2
    · rcases List.mem_cons.mp he with he | he
      · exact Or.inl he
      · exact Or.inr (List.mem_cons_of_mem _ he)
    · rcases List.mem_cons.mp he with he | he
      · exact Or.inl he
      · exact Or.inr he
    · rcases List.mem_cons.mp he with he | he
      · exact Or.inr (he ▸ List.mem_cons_self _ _)
      · rcases ih e he with h | h
        · exact Or.inl h
        · exact Or.inr (List.mem_cons_of_mem _ h)

/-- Every store id of a content provider is one that `handle_write` has
generated: the property holds at the start and every write keeps it. -/
theorem handle_write_store_ids (fuel : Nat) (cp cp' : ContentProvider)
    (content : Option (List WriteItem)) (max_chunk_size : Int) (r : ToolResult)
    (h : store_ids_generated cp)
    (hw : cp.handle_write fuel content max_chunk_size = some (cp', r)) :
    store_ids_generated cp' := by
  unfold ContentProvider.handle_write at hw
  cases content with
  | none =>
    simp only [Option.some.injEq, Prod.mk.injEq] at hw
    rw [← hw.1]; exact h
  | some items =>
    dsimp only at hw
    cases hp : process_items fuel max_chunk_size items [] [] with
    | none => rw [hp] at hw; cases hw
    | some res =>
      rw [hp] at hw
      cases res with
      | error e =>
        simp only [Option.some.injEq, Prod.mk.injEq] at hw
        rw [← hw.1]; exact h
      | ok pr =>
        obtain ⟨processed, text_content⟩ := pr
        dsimp only at hw
        generalize (if ¬ text_content.isEmpty = true then
            (split_text_into_chunks fuel text_content max_chunk_size).map
              (fun chunks => processed ++ chunks.map ContentPart.text)
          else some processed) = rest at hw
        cases rest with
        | none => cases hw
        | some processed_content =>
          simp only [Option.some.injEq, Prod.mk.injEq] at hw
          rw [← hw.1]
          intro e he
          rcases map_set_mem _ _ _ e he with he | he
          · exact ⟨cp.current_id_, by rw [he]⟩
          · exact h e he

theorem store_ids_generated_init : store_ids_generated ContentProvider.init := by
  intro e he
  simp [ContentProvider.init] at he

/-- C18. In a content provider whose store ids are the generated ones, for
every store with `n >= 1` chunks: a read with the cursor `<store_id>:i`,
`i < n`, returns chunk `i` with `next_cursor` `<store_id>:(i+1)` when
`i + 1 < n` and `end` when `i = n - 1`, and `remaining_items = n - i - 1`;
following `next_cursor` from `<store_id>:0` returns every chunk once, in
order, and reaches `end` with read number `n` and not before; a read with an
index `>= n` ends in an error, and so does a read whose cursor names an
unknown store id. -/
theorem read_cursor_navigation (cp : ContentProvider) (store_id : Str)
    (content : List ContentPart) (hgen : store_ids_generated cp)
    (hf : map_find store_id cp.content_store_ = some content)
    (hpos : 1 ≤ content.length) (hn : content.length < 2 ^ 64) :
    (∀ (i : Nat) (h : i < content.length),
        cp.handle_read (some (store_id ++ lit ":" ++ to_string i))
          = some (.item (content.get ⟨i, h⟩)
              (if i + 1 < content.length then store_id ++ lit ":" ++ to_string (i + 1)
                else lit "end")
              (content.length - i - 1)))
      ∧ read_chain cp content.length (store_id ++ lit ":" ++ to_string 0) = (content, true)
      ∧ (∀ reads, reads < content.length →
          read_chain cp reads (store_id ++ lit ":" ++ to_string 0) = (content.take reads, false))
      ∧ (∀ i, content.length ≤ i →
          read_is_error (cp.handle_read (some (store_id ++ lit ":" ++ to_string i))) = true)
      ∧ (∀ cursor : Str, 58 ∈ cursor →
          map_find (cursor.takeWhile (fun b => b ≠ 58)) cp.content_store_ = none →
          read_is_error (cp.handle_read (some cursor)) = true) := by
  have hc : 58 ∉ store_id := by
    obtain ⟨k, hk⟩ := hgen _ (map_find_mem _ _ _ hf)
    simp only at hk
    rw [hk]
    exact generated_id_no_colon k
  refine ⟨?_, ?_, ?_, ?_, ?_⟩
  · intro i h
    exact ((handle_read_cursor cp store_id i hc (by omega)).2 content hf).2 h
  · rw [read_chain_from cp store_id content hc hf hn content.length 0 (by omega)]
    simp
  · intro reads hr
    rw [read_chain_from cp store_id content hc hf hn reads 0 (by omega)]
    simp only [List.drop_zero, Nat.zero_add, Prod.mk.injEq, decide_eq_false_iff_not, true_and]
    omega
  · intro i hi
    by_cases hlarge : i < 2 ^ 64
    · rw [((handle_read_cursor cp store_id i hc hlarge).2 content hf).1 hi]
      rfl
    · obtain ⟨s1, s2, s3⟩ := cursor_split store_id i hc
      obtain ⟨k1, k2⟩ := cursor_not_keyword store_id i
      unfold ContentProvider.handle_read
      simp only [if_neg k1, if_neg k2, if_pos s1, s3, stoul_to_string_large i (by omega)]
      rfl
  · intro cursor hm hnone
    have k1 : cursor ≠ lit "start" := by
      intro h; rw [h] at hm; revert hm; decide
    have k2 : cursor ≠ lit "select_store" := by
      intro h; rw [h] at hm; revert hm; decide
    unfold ContentProvider.handle_read
    simp only [if_neg k1, if_neg k2, if_pos hm, hnone]
    cases stoul ((cursor.dropWhile (fun b => b ≠ 58)).drop 1) with
    | none => rfl
    | some index => rfl

/-- The three chunks of `content_0` read by following the cursor, and the
single read at index 1. -/
theorem read_cursor_navigation_witness :
    read_chain cp_three_chunks 3 (lit "content_0:0")
        = ([.text (lit "a"), .text (lit "b"), .text (lit "c")], true)
      ∧ cp_three_chunks.handle_read (some (lit "content_0:1"))
        = some (.item (.text (lit "b")) (lit "content_0:2") 1)
      ∧ read_chain cp_three_chunks [ContentPart.text (lit "a"), .text (lit "b"),
            .text (lit "c")].length (lit "content_0" ++ lit ":" ++ to_string 0)
        = ([.text (lit "a"), .text (lit "b"), .text (lit "c")], true) :=
  ⟨by decide, by decide,
    (read_cursor_navigation cp_three_chunks (lit "content_0")
      [.text (lit "a"), .text (lit "b"), .text (lit "c")]
      (by
        intro e he
        simp only [cp_three_chunks, List.mem_singleton] at he
        exact ⟨0, by rw [he]; decide⟩)
      (by decide) (by decide) (by norm_num)).2.1⟩

/-! ## `mark_step` and `update` of the planning tool -/

theorem isEmpty_eq_true_iff (s : Str) : s.isEmpty = true ↔ s = [] := List.isEmpty_iff

theorem marked_plan_ok (plan : Plan) (i : Nat) (step_status step_notes : Str)
    (h : plan_ok plan) (hs : step_status = [] ∨ step_status ∈ valid_statuses) :
    plan_ok (marked_plan plan i step_status step_notes) := by
  obtain ⟨h1, h2, h3⟩ := h
  unfold marked_plan
  refine ⟨?_, ?_, ?_⟩
  · dsimp only; split_ifs <;> simp [h1]
  · dsimp only; split_ifs <;> simp [h2]
  · dsimp only
    split_ifs with he
    · exact h3
    · intro s hs'
      rcases List.mem_or_eq_of_mem_set hs' with hm | hm
      · exact h3 s hm
      · rw [hm]
        rcases hs with hs | hs
        · rw [hs] at he; simp at he
        · exact hs

/-- All slots but `i`, the steps, the title and the id are the same in the
marked plan. -/
theorem marked_plan_other_slots (plan : Plan) (i : Nat) (step_status step_notes : Str) :
    (marked_plan plan i step_status step_notes).plan_id = plan.plan_id
      ∧ (marked_plan plan i step_status step_notes).title = plan.title
      ∧ (marked_plan plan i step_status step_notes).steps = plan.steps
      ∧ ∀ j, j ≠ i →
          (marked_plan plan i step_status step_notes).step_statuses.get? j
              = plan.step_statuses.get? j
            ∧ (marked_plan plan i step_status step_notes).step_notes.get? j
              = plan.step_notes.get? j := by
  refine ⟨rfl, rfl, rfl, fun j hj => ?_⟩
  unfold marked_plan
  dsimp only
  constructor
  · split_ifs
    · rfl
    · simp [List.getElem?_set, Ne.symm hj]
  · split_ifs
    · rfl
    · simp [List.getElem?_set, Ne.symm hj]

/-- `_mark_step` on an addressed plan that satisfies the plan invariant. -/
theorem mark_step_cases (t : PlanningTool) (plan_id : Str) (step_index : Int)
    (step_status step_notes : Str) (plan : Plan) (hok : plan_ok plan)
    (hactive : ¬ (plan_id.isEmpty = true ∧ t._current_plan_id.isEmpty = true))
    (hf : map_find (if plan_id.isEmpty then t._current_plan_id else plan_id) t.plans
      = some plan) :
    (mark_step_rejected plan step_index step_status →
        ∃ text, t._mark_step plan_id step_index step_status step_notes
          = some (t, ToolError text))
      ∧ (¬ mark_step_rejected plan step_index step_status →
          ∃ text, t._mark_step plan_id step_index step_status step_notes
            = some ((⟨map_set (if plan_id.isEmpty then t._current_plan_id else plan_id)
                        (marked_plan plan step_index.toNat step_status step_notes) t.plans,
                      t._current_plan_id⟩ : PlanningTool),
                    ToolResult.ok (.str text))) := by
  unfold PlanningTool._mark_step mark_step_rejected
  rw [if_neg hactive]
  dsimp only
  rw [hf]
  dsimp only
  constructor
  · intro hbad
    by_cases hidx : step_index < 0 ∨ step_index.toNat ≥ plan.steps.length
    · rw [if_pos hidx]; exact ⟨_, rfl⟩
    · rw [if_neg hidx]
      have hst : ¬ step_status.isEmpty = true ∧ step_status ∉ valid_statuses := by
        rcases hbad with h | h | h
        · exact absurd (Or.inl h) hidx
        · exfalso; apply hidx; right; omega
        · exact ⟨by rw [isEmpty_eq_true_iff]; exact h.1, h.2⟩
      rw [if_pos hst]; exact ⟨_, rfl⟩
  · intro hgood
    simp only [not_or, not_and, not_lt, not_le] at hgood
    obtain ⟨g1, g2, g3⟩ := hgood
    have hidx : ¬ (step_index < 0 ∨ step_index.toNat ≥ plan.steps.length) := by omega
    rw [if_neg hidx]
    have hst : ¬ (¬ step_status.isEmpty = true ∧ step_status ∉ valid_statuses) := by
      intro h
      exact h.2 (not_not.mp (g3 (fun h' => h.1 ((isEmpty_eq_true_iff _).mpr h'))))
    rw [if_neg hst]
    have hi1 : step_index.toNat < plan.step_statuses.length := by
      rw [← hok.1]; omega
    have hi2 : step_index.toNat < plan.step_notes.length := by
      rw [← hok.2.1]; omega
    have hvalid : step_status = [] ∨ step_status ∈ valid_statuses := by
      by_cases he : step_status = []
      · exact Or.inl he
      · exact Or.inr (not_not.mp (g3 he))
    have hmk := marked_plan_ok plan step_index.toNat step_status step_notes hok hvalid
    have hres := plan_result_of_ok (lit "Step " ++ to_string_int step_index
      ++ lit " updated in plan '" ++ (if plan_id.isEmpty then t._current_plan_id else plan_id)
      ++ lit "'.\n\n") _ hmk
    have hs1 : (if ¬ step_status.isEmpty = true then
          json_array_set plan.step_statuses step_index.toNat step_status
        else some plan.step_statuses)
        = some (marked_plan plan step_index.toNat step_status step_notes).step_statuses := by
      unfold json_array_set marked_plan
      by_cases e1 : step_status.isEmpty = true
      · simp [e1]
      · simp [e1, hi1]
    have hs2 : (if ¬ step_notes.isEmpty = true then
          json_array_set plan.step_notes step_index.toNat step_notes
        else some plan.step_notes)
        = some (marked_plan plan step_index.toNat step_status step_notes).step_notes := by
      unfold json_array_set marked_plan
      by_cases e2 : step_notes.isEmpty = true
      · simp [e2]
      · simp [e2, hi2]
    rw [hs1, hs2]
    show ∃ text, Option.map _ (plan_result _
      (marked_plan plan step_index.toNat step_status step_notes)) = _
    rw [hres]
    exact ⟨_, rfl⟩

theorem tool_error_ne_ok (text text' : Str) : ToolError text ≠ ToolResult.ok (.str text') := by
  intro h
  have := congrArg ToolResult.error h
  simp [ToolError, ToolResult.ok] at this

/-- C19. In every state the planning tool can reach, `mark_step` on an
addressed existing plan returns; it returns an error exactly when `step_index`
is negative or not below the number of steps, or the non-empty `step_status`
is not one of the four statuses. With an error the tool is unchanged. On
success the active plan id and all other plans are unchanged, and in the
addressed plan only slot `step_index` of `step_statuses` (for a non-empty
status) and of `step_notes` (for a non-empty note) changes. -/
theorem mark_step_spec (cmds : List (Option PlanningArgs)) (t : PlanningTool)
    (hreach : PlanningTool.init.execute_all cmds = some t)
    (plan_id : Str) (step_index : Int) (step_status step_notes : Str) (plan : Plan)
    (hactive : ¬ (plan_id.isEmpty = true ∧ t._current_plan_id.isEmpty = true))
    (hf : map_find (if plan_id.isEmpty then t._current_plan_id else plan_id) t.plans
      = some plan) :
    ∃ t' r, t._mark_step plan_id step_index step_status step_notes = some (t', r)
      ∧ ((∃ text, r = ToolError text) ↔ mark_step_rejected plan step_index step_status)
      ∧ (mark_step_rejected plan step_index step_status → t' = t)
      ∧ (¬ mark_step_rejected plan step_index step_status →
          (∃ text, r = ToolResult.ok (.str text))
            ∧ t'._current_plan_id = t._current_plan_id
            ∧ t'.plans = map_set (if plan_id.isEmpty then t._current_plan_id else plan_id)
                (marked_plan plan step_index.toNat step_status step_notes) t.plans
            ∧ (∀ other, other ≠ (if plan_id.isEmpty then t._current_plan_id else plan_id) →
                map_find other t'.plans = map_find other t.plans)
            ∧ (marked_plan plan step_index.toNat step_status step_notes).steps = plan.steps
            ∧ ∀ j, j ≠ step_index.toNat →
                (marked_plan plan step_index.toNat step_status step_notes).step_statuses.get? j
                    = plan.step_statuses.get? j
                  ∧ (marked_plan plan step_index.toNat step_status step_notes).step_notes.get? j
                    = plan.step_notes.get? j) := by
  obtain ⟨t0, e0, hall⟩ := execute_all_preserves cmds PlanningTool.init
    (by intro e he; simp [PlanningTool.init] at he)
  rw [hreach] at e0
  cases e0
  have hok : plan_ok plan := hall _ (map_find_mem _ _ _ hf)
  obtain ⟨hbad, hgood⟩ := mark_step_cases t plan_id step_index step_status step_notes plan hok
    hactive hf
  by_cases hr : mark_step_rejected plan step_index step_status
  · obtain ⟨text, e⟩ := hbad hr
    exact ⟨t, _, e, ⟨fun _ => hr, fun _ => ⟨text, rfl⟩⟩, fun _ => rfl, fun h => absurd hr h⟩
  · obtain ⟨text, e⟩ := hgood hr
    refine ⟨_, _, e, ⟨?_, fun h => absurd h hr⟩, fun h => absurd h hr, fun _ => ?_⟩
    · rintro ⟨text', h'⟩
      exact absurd h'.symm (tool_error_ne_ok text' text)
    · obtain ⟨_, _, m3, m4⟩ := marked_plan_other_slots plan step_index.toNat step_status
        step_notes
      exact ⟨⟨text, rfl⟩, rfl, rfl,
        fun other ho => map_find_map_set_ne _ other _ _ ho, m3, m4⟩

/-- Marking step 1 of `p1` as completed, and the rejected index 2. -/
theorem mark_step_spec_witness :
    ((table_p1._mark_step (lit "p1") 1 (lit "completed") []).map (fun p => p.1.plans))
        = some [(lit "p1",
            { plan_id := lit "p1", title := lit "Trip", steps := [lit "book", lit "pack"],
              step_statuses := [lit "not_started", lit "completed"], step_notes := [[], []] })]
      ∧ ∃ t' r, table_p1._mark_step (lit "p1") 2 (lit "completed") [] = some (t', r)
          ∧ ((∃ text, r = ToolError text)
            ↔ mark_step_rejected
                { plan_id := lit "p1", title := lit "Trip", steps := [lit "book", lit "pack"],
                  step_statuses := [lit "not_started", lit "not_started"],
                  step_notes := [[], []] } 2 (lit "completed")) :=
  ⟨by decide,
    let ⟨t', r, h1, h2, _⟩ := mark_step_spec [some create_p1] table_p1 (by decide) (lit "p1") 2
      (lit "completed") []
      { plan_id := lit "p1", title := lit "Trip", steps := [lit "book", lit "pack"],
        step_statuses := [lit "not_started", lit "not_started"], step_notes := [[], []] }
      (by decide) (by decide)
    ⟨t', r, h1, h2⟩⟩

/-- The slots `update` builds, position by position: the old status and note
where the old step at that position is the new step, `not_started` and the
empty note elsewhere. -/
theorem update_slots_get (old_steps old_statuses old_notes : List Str) (steps : List Str) :
    ∀ (i0 : Nat) (sts nts : List Str),
      update_slots old_steps old_statuses old_notes steps i0 = some (sts, nts) →
      sts.length = steps.length ∧ nts.length = steps.length
        ∧ ∀ (j : Nat) (h : j < steps.length),
            (i0 + j < old_steps.length ∧ old_steps.getD (i0 + j) [] = steps.get ⟨j, h⟩ →
              sts.get? j = old_statuses.get? (i0 + j) ∧ nts.get? j = old_notes.get? (i0 + j))
            ∧ (¬ (i0 + j < old_steps.length
                  ∧ old_steps.getD (i0 + j) [] = steps.get ⟨j, h⟩) →
              sts.get? j = some (lit "not_started") ∧ nts.get? j = some []) := by
  induction steps with
  | nil =>
    intro i0 sts nts h
    simp only [update_slots, Option.some.injEq, Prod.mk.injEq] at h
    obtain ⟨rfl, rfl⟩ := h
    exact ⟨rfl, rfl, fun j hj => absurd hj (by simp)⟩
  | cons s rest ih =>
    intro i0 sts nts h
    unfold update_slots at h
    by_cases hc : i0 < old_steps.length ∧ old_steps.getD i0 [] = s
    · rw [if_pos hc] at h
      simp only [List.get?_eq_getElem?] at h
      cases h1 : old_statuses[i0]? with
      | none => simp [h1] at h
      | some st =>
        cases h2 : old_notes[i0]? with
        | none => simp [h1, h2] at h
        | some nt =>
          cases h3 : update_slots old_steps old_statuses old_notes rest (i0 + 1) with
          | none => simp [h1, h2, h3] at h
          | some r =>
            obtain ⟨sts', nts'⟩ := r
            simp only [h1, h2, h3, Option.some.injEq, Prod.mk.injEq] at h
            obtain ⟨rfl, rfl⟩ := h
            obtain ⟨l1, l2, hall⟩ := ih (i0 + 1) sts' nts' h3
            refine ⟨by simp [l1], by simp [l2], ?_⟩
            intro j hj
            cases j with
            | zero =>
              refine ⟨fun _ => ?_, fun hn => absurd hc ?_⟩
              · simp [h1, h2]
              · simpa using hn
            | succ j =>
              have hj' : j < rest.length := by simpa using hj
              have := hall j hj'
              have e : i0 + 1 + j = i0 + (j + 1) := by omega
              rw [e] at this
              simpa using this
    · rw [if_neg hc] at h
      cases h3 : update_slots old_steps old_statuses old_notes rest (i0 + 1) with
      | none => simp [h3] at h
      | some r =>
        obtain ⟨sts', nts'⟩ := r
        simp only [h3, Option.map_some', Option.some.injEq, Prod.mk.injEq] at h
        obtain ⟨rfl, rfl⟩ := h
        obtain ⟨l1, l2, hall⟩ := ih (i0 + 1) sts' nts' h3
        refine ⟨by simp [l1], by simp [l2], ?_⟩
        intro j hj
        cases j with
        | zero =>
          refine ⟨fun hy => absurd ?_ hc, fun _ => by simp⟩
          simpa using hy
        | succ j =>
          have hj' : j < rest.length := by simpa using hj
          have := hall j hj'
          have e : i0 + 1 + j = i0 + (j + 1) := by omega
          rw [e] at this
          simpa using this

/-- C20. In every state the planning tool can reach, `update` of an existing
plan returns successfully and replaces only that plan. With a non-empty new
step list the plan gets the new steps and, at every position `i` of the new
list, the old status and notes of slot `i` when `i` is within the old list and
the old step at `i` equals the new one, and the status `not_started` with
empty notes otherwise. With an empty step list the steps, statuses and notes
are unchanged. The title changes only when a non-empty title is given. -/
theorem update_plan_spec (cmds : List (Option PlanningArgs)) (t : PlanningTool)
    (hreach : PlanningTool.init.execute_all cmds = some t)
    (plan_id title : Str) (steps : List Str) (old : Plan)
    (hid : plan_id ≠ []) (hf : map_find plan_id t.plans = some old) :
    ∃ (new : Plan) (text : Str),
      t._update_plan plan_id title steps
          = some ((⟨map_set plan_id new t.plans, t._current_plan_id⟩ : PlanningTool),
              ToolResult.ok (.str text))
        ∧ new.plan_id = old.plan_id
        ∧ new.title = (if title = [] then old.title else title)
        ∧ (steps = [] →
            new.steps = old.steps ∧ new.step_statuses = old.step_statuses
              ∧ new.step_notes = old.step_notes)
        ∧ (steps ≠ [] →
            new.steps = steps ∧ new.step_statuses.length = steps.length
              ∧ new.step_notes.length = steps.length
              ∧ ∀ (i : Nat) (h : i < steps.length),
                  (i < old.steps.length ∧ old.steps.getD i [] = steps.get ⟨i, h⟩ →
                    new.step_statuses.get? i = old.step_statuses.get? i
                      ∧ new.step_notes.get? i = old.step_notes.get? i)
                  ∧ (¬ (i < old.steps.length ∧ old.steps.getD i [] = steps.get ⟨i, h⟩) →
                    new.step_statuses.get? i = some (lit "not_started")
                      ∧ new.step_notes.get? i = some [])) := by
  obtain ⟨t0, e0, hall⟩ := execute_all_preserves cmds PlanningTool.init
    (by intro e he; simp [PlanningTool.init] at he)
  rw [hreach] at e0
  cases e0
  have hold : plan_ok old := hall _ (map_find_mem _ _ _ hf)
  have hne : ¬ plan_id.isEmpty = true := by
    rw [List.isEmpty_iff]; exact hid
  unfold PlanningTool._update_plan
  rw [if_neg hne, hf]
  dsimp only
  have htitle : ∀ p : Plan,
      p = (if ¬ title.isEmpty = true then { old with title := title } else old) →
      p.plan_id = old.plan_id ∧ p.title = (if title = [] then old.title else title)
        ∧ p.steps = old.steps ∧ p.step_statuses = old.step_statuses
        ∧ p.step_notes = old.step_notes := by
    intro p hp
    by_cases ht : title.isEmpty = true
    · rw [if_neg (by simp [ht])] at hp
      rw [hp, if_pos (List.isEmpty_iff.mp ht)]
      exact ⟨rfl, rfl, rfl, rfl, rfl⟩
    · rw [if_pos ht] at hp
      rw [hp, if_neg (fun h => ht (List.isEmpty_iff.mpr h))]
      exact ⟨rfl, rfl, rfl, rfl, rfl⟩
  generalize hp1 : (if ¬ title.isEmpty = true then { old with title := title } else old) = plan1
  obtain ⟨p1, p2, p3, p4, p5⟩ := htitle plan1 hp1.symm
  by_cases hs : steps.isEmpty = true
  · have hsn : steps = [] := List.isEmpty_iff.mp hs
    rw [if_neg (by simp [hs])]
    dsimp only
    have hok1 : plan_ok plan1 := by
      obtain ⟨h1, h2, h3⟩ := hold
      exact ⟨by rw [p3, p4]; exact h1, by rw [p3, p5]; exact h2, by rw [p4]; exact h3⟩
    rw [plan_result_of_ok _ _ hok1]
    exact ⟨plan1, _, rfl, p1, p2, fun _ => ⟨p3, p4, p5⟩, fun h => absurd hsn h⟩
  · have hsn : steps ≠ [] := fun h => hs (List.isEmpty_iff.mpr h)
    rw [if_pos hs]
    obtain ⟨sts, nts, e, l1, l2, v⟩ := update_slots_spec old.steps old.step_statuses
      old.step_notes hold.1 hold.2.1 hold.2.2 steps 0
    obtain ⟨_, _, hget⟩ := update_slots_get old.steps old.step_statuses old.step_notes steps 0
      sts nts e
    rw [e]
    dsimp only [Option.map_some']
    have hok2 : plan_ok ⟨plan1.plan_id, plan1.title, steps, sts, nts⟩ :=
      plan_ok_mk _ _ _ _ _ l1 l2 v
    show ∃ new text, Option.map _ (plan_result _ ⟨plan1.plan_id, plan1.title, steps, sts, nts⟩)
      = _ ∧ _
    rw [plan_result_of_ok _ _ hok2]
    refine ⟨⟨plan1.plan_id, plan1.title, steps, sts, nts⟩, _, rfl, p1, p2,
      fun h => absurd h hsn, fun _ => ⟨rfl, l1, l2, fun i h => ?_⟩⟩
    have := hget i h
    simp only [Nat.zero_add] at this
    exact this

/-- An update of `p1` that keeps the first step and replaces the second, after
the first step was completed: slot 0 keeps its status, slot 1 is reset. -/
theorem update_plan_spec_witness :
    (((⟨[(lit "p1",
          { plan_id := lit "p1", title := lit "Trip", steps := [lit "book", lit "pack"],
            step_statuses := [lit "completed", lit "in_progress"],
            step_notes := [lit "done", []] })], lit "p1"⟩ : PlanningTool)._update_plan
        (lit "p1") [] [lit "book", lit "fly", lit "rest"]).map (fun p => p.1.plans))
      = some [(lit "p1",
          { plan_id := lit "p1", title := lit "Trip",
            steps := [lit "book", lit "fly", lit "rest"],
            step_statuses := [lit "completed", lit "not_started", lit "not_started"],
            step_notes := [lit "done", [], []] })]
    ∧ ∃ (new : Plan) (text : Str),
        table_p1._update_plan (lit "p1") [] [lit "book", lit "fly"]
            = some ((⟨map_set (lit "p1") new table_p1.plans,
                table_p1._current_plan_id⟩ : PlanningTool), ToolResult.ok (.str text))
          ∧ new.plan_id = lit "p1" :=
  ⟨by decide,
    let ⟨new, text, h1, h2, _⟩ := update_plan_spec [some create_p1] table_p1 (by decide)
      (lit "p1") [] [lit "book", lit "fly"]
      { plan_id := lit "p1", title := lit "Trip", steps := [lit "book", lit "pack"],
        step_statuses := [lit "not_started", lit "not_started"], step_notes := [[], []] }
      (by decide) (by decide)
    ⟨new, text, h1, h2⟩⟩

/-! ## The prefix check of `validate_utf8` -/

theorem validate_utf8_loop_le (text : Str) (len : Nat) :
    ∀ k i, validate_utf8_loop text len k i ≤ len := by
  intro k
  induction k with
  | zero => intro i; simp [validate_utf8_loop]
  | succ k ih =>
    intro i
    simp only [validate_utf8_loop]
    split_ifs <;> first | exact ih _ | omega

/-- The result of `validate_utf8` is a length inside the text. -/
theorem validate_utf8_le_length (text : Str) : validate_utf8 text ≤ text.length := by
  unfold validate_utf8
  split_ifs
  · omega
  · exact validate_utf8_loop_le text text.length 4 1

/-- C26. `validate_utf8` inspects only the last four bytes of the text: on the
Latin-1 bytes of `café au lait` it returns the full length 12, and the text is
not valid UTF-8 (the byte `0xE9` is followed by a space). -/
theorem validate_utf8_accepts_invalid_text :
    validate_utf8 latin1_text = latin1_text.length ∧ valid_utf8 latin1_text = false := by
  decide

/-! ## The value of `get_lcs_length` -/

/-- C27. For all byte strings: some common subsequence of `s1` and `s2` has
the length `get_lcs_length s1 s2`, no common subsequence is longer, the value
is symmetric in its arguments and at most the minimum of the two lengths. -/
theorem get_lcs_length_spec (s1 s2 : Str) :
    (∃ w, List.Sublist w s1 ∧ List.Sublist w s2 ∧ w.length = get_lcs_length s1 s2)
    ∧ (∀ w, List.Sublist w s1 → List.Sublist w s2 → w.length ≤ get_lcs_length s1 s2)
    ∧ get_lcs_length s1 s2 = get_lcs_length s2 s1
    ∧ get_lcs_length s1 s2 ≤ min s1.length s2.length := by
  rw [get_lcs_length_eq, get_lcs_length_eq]
  refine ⟨lcs_spec_attained s1 s2, fun w => lcs_spec_upper s1 s2 w, ?_, ?_⟩
  · apply le_antisymm
    · obtain ⟨w, h1, h2, h3⟩ := lcs_spec_attained s1 s2
      rw [← h3]; exact lcs_spec_upper s2 s1 w h2 h1
    · obtain ⟨w, h1, h2, h3⟩ := lcs_spec_attained s2 s1
      rw [← h3]; exact lcs_spec_upper s1 s2 w h2 h1
  · obtain ⟨w, h1, h2, h3⟩ := lcs_spec_attained s1 s2
    rw [← h3]
    exact le_min h1.length_le h2.length_le

/-! ## The token counter across `clear` -/

/-- C28. `clear` empties the window and leaves the counter: after
`add_message(user "hello")` and `clear` on a fresh memory the window is empty
and the counter is 15. With room for one message and twenty tokens, the calls
`add_message(user "u")`, `add_message(assistant "a")`, `clear` leave an empty
window with the counter 105, and the next `add_message(user "u")` evicts from
the empty window. -/
theorem clear_keeps_token_counter :
    (Memory.call_all byte_tokenizer (Memory.fresh (cfg_max 16) [])
        [.add_message [] (Message.user_message byte_tokenizer (.str (lit "hello"))),
         .clear]).map (fun m => (m.messages, m.num_tokens_messages)) = some ([], 15)
    ∧ (Memory.call_all byte_tokenizer (Memory.fresh cfg_tight [])
        [.add_message [] (Message.user_message byte_tokenizer (.str (lit "u"))),
         .add_message [] (Message.assistant_message byte_tokenizer (.str (lit "a")) []),
         .clear]).map (fun m => (m.messages, m.num_tokens_messages)) = some ([], 105)
    ∧ Memory.call_all byte_tokenizer (Memory.fresh cfg_tight [])
        [.add_message [] (Message.user_message byte_tokenizer (.str (lit "u"))),
         .add_message [] (Message.assistant_message byte_tokenizer (.str (lit "a")) []),
         .clear,
         .add_message [] (Message.user_message byte_tokenizer (.str (lit "u")))] = none := by
  refine ⟨by decide, by decide, by decide⟩

/-! ## `mark_step` without a status -/

/-- C30. On the plan `p1` whose step 0 is `completed`, the call `mark_step`
with `step_index` 0, the note `paid` and no `step_status` key sets the status of
step 0 back to `not_started`; `_mark_step` called with the empty status leaves
the status `completed`. -/
theorem mark_step_note_resets_status :
    (PlanningTool.init.execute_all [some create_p1, some complete_p1]).map
        (fun t => t.plans.map (fun p => (p.2.step_statuses, p.2.step_notes)))
      = some [([lit "completed", lit "not_started"], [[], []])]
    ∧ (PlanningTool.init.execute_all [some create_p1, some complete_p1, some note_p1]).map
        (fun t => t.plans.map (fun p => (p.2.step_statuses, p.2.step_notes)))
      = some [([lit "not_started", lit "not_started"], [lit "paid", []])]
    ∧ ((PlanningTool.init.execute_all [some create_p1, some complete_p1]).bind
        (fun t => t._mark_step (lit "p1") 0 [] (lit "paid"))).map
        (fun r => r.1.plans.map (fun p => (p.2.step_statuses, p.2.step_notes)))
      = some [([lit "completed", lit "not_started"], [lit "paid", []])] := by
  refine ⟨by decide, by decide, by decide⟩


/-! ## A chunk loop that makes no progress -/

/-- C29. The text `é` (the two bytes `0xC3 0xA9`) is valid UTF-8, and with
`max_chunk_size` 1 the chunk cut at offset 0 has size 0 (the one-byte window
`0xC3` is a cut-off lead byte): the offset stays 0 and the loop of
`split_text_into_chunks` exits after no number of iterations. -/
theorem split_loop_stalls_on_two_byte_char :
    valid_utf8 (lit "é") = true
    ∧ chunk_size_at (lit "é") 1 0 = 0
    ∧ ∀ fuel : Nat, split_text_into_chunks fuel (lit "é") 1 = none := by
  refine ⟨by decide, by decide, fun fuel => ?_⟩
  have h := split_run_stalls (lit "é") 1 2 0 (by decide) (by decide) fuel
  unfold split_text_into_chunks
  rw [if_neg (by decide)]
  simp only [h]
  rfl

/-! ## Image parts of MCP responses -/

/-- The rewriting loop of the browser tools leaves no part of type `image` and
passes every other part through. -/
theorem rewrite_images_spec (ps : List McpPart) :
    ∀ out, rewrite_images ps = some out →
      (∀ q ∈ out, q.type ≠ lit "image")
      ∧ out.length = ps.length
      ∧ ∀ p ∈ ps, p.type ≠ lit "image" → SurfacedPart.passed p ∈ out := by
  induction ps with
  | nil =>
    intro out h
    simp only [rewrite_images, Option.some.injEq] at h
    subst h
    simp
  | cons p rest ih =>
    intro out h
    simp only [rewrite_images] at h
    by_cases ht : p.type = lit "image"
    · rw [if_pos ht] at h
      cases hd : p.data with
      | none => rw [hd] at h; simp at h
      | some data =>
        rw [hd] at h
        cases hr : rewrite_images rest with
        | none => rw [hr] at h; simp at h
        | some r =>
          rw [hr] at h
          simp only [Option.map_some', Option.some.injEq] at h
          subst h
          obtain ⟨h1, h2, h3⟩ := ih r hr
          refine ⟨?_, by simp [h2], ?_⟩
          · intro q hq
            rcases List.mem_cons.mp hq with rfl | hq
            · simp only [SurfacedPart.type]; decide
            · exact h1 q hq
          · intro p' hp' hne
            rcases List.mem_cons.mp hp' with rfl | hp'
            · exact absurd ht hne
            · exact List.mem_cons_of_mem _ (h3 p' hp' hne)
    · rw [if_neg ht] at h
      cases hr : rewrite_images rest with
      | none => rw [hr] at h; simp at h
      | some r =>
        rw [hr] at h
        simp only [Option.map_some', Option.some.injEq] at h
        subst h
        obtain ⟨h1, h2, h3⟩ := ih r hr
        refine ⟨?_, by simp [h2], ?_⟩
        · intro q hq
          rcases List.mem_cons.mp hq with rfl | hq
          · exact ht
          · exact h1 q hq
        · intro p' hp' hne
          rcases List.mem_cons.mp hp' with rfl | hp'
          · exact List.mem_cons_self _ _
          · exact List.mem_cons_of_mem _ (h3 p' hp' hne)

/-- C24. For the response `screenshot_response` (a text part and a PNG image)
`BaseMCPTool::execute` surfaces both parts as they came, so the second part
still has the type `image`; `Puppeteer::execute` rewrites it to the
`image_url` part with the data URL. -/
theorem base_mcp_tool_keeps_image_part :
    (BaseMCPTool.execute [] (some screenshot_response)).parts.map SurfacedPart.type
      = [lit "text", lit "image"]
    ∧ (Puppeteer.execute [] [] (some screenshot_response)).parts
      = [.passed { type := lit "text", data := none, mimeType := none,
                   fields := [(lit "text", lit "done")] },
         .image_url (lit "data:image/png;base64,iVBORw0KGgo=")] := by
  refine ⟨by decide, by decide⟩

/-! ## BPE tokenizer (src/tokenizer/bpe.h) -/

theorem umap_find_set_eq {K V : Type} [DecidableEq K] (key : K) (value : V)
    (m : List (K × V)) : umap_find key (umap_set key value m) = some value := by
  induction m with
  | nil => simp [umap_set, umap_find]
  | cons e rest ih =>
    obtain ⟨k, v⟩ := e
    by_cases h : k = key
    · simp [umap_set, umap_find, h]
    · simp [umap_set, umap_find, h, ih]

theorem umap_find_set_ne {K V : Type} [DecidableEq K] (key other : K) (value : V)
    (m : List (K × V)) (h : key ≠ other) :
    umap_find other (umap_set key value m) = umap_find other m := by
  induction m with
  | nil => simp [umap_set, umap_find, h]
  | cons e rest ih =>
    obtain ⟨k, v⟩ := e
    by_cases hk : k = key
    · subst hk; simp [umap_set, umap_find, h]
    · by_cases ho : k = other
      · subst ho; simp [umap_set, umap_find, hk]
      · simp [umap_set, umap_find, hk, ho, ih]

theorem umap_find_set_isSome {K V : Type} [DecidableEq K] (key other : K) (value : V)
    (m : List (K × V)) (h : (umap_find other m).isSome = true) :
    (umap_find other (umap_set key value m)).isSome = true := by
  by_cases hk : key = other
  · subst hk; rw [umap_find_set_eq]; rfl
  · rw [umap_find_set_ne key other value m hk]; exact h

theorem umap_find_mem {K V : Type} [DecidableEq K] (m : List (K × V)) (e : K × V)
    (h : e ∈ m) : (umap_find e.1 m).isSome = true := by
  induction m with
  | nil => simp at h
  | cons x rest ih =>
    obtain ⟨k, v⟩ := x
    by_cases hk : k = e.1
    · simp [umap_find, hk]
    · rcases List.mem_cons.mp h with rfl | h
      · exact absurd rfl hk
      · simp [umap_find, hk, ih h]

/-- The two maps the constructor fills, from given maps on. -/
theorem of_lines_maps (lines : List (Str × Nat)) :
    ∀ (enc : List (Str × Nat)) (dec : List (Nat × Str)),
      (lines.map Prod.snd).Nodup →
      (∀ id, (umap_find id dec).isSome = true → id ∉ lines.map Prod.snd) →
      (∀ token id, umap_find token enc = some id → umap_find id dec = some token) →
      (∀ token id, umap_find token
          (lines.foldl (fun (m : List (Str × Nat) × List (Nat × Str)) l =>
            (umap_set l.1 l.2 m.1, umap_set l.2 l.1 m.2)) (enc, dec)).1 = some id →
        umap_find id
          (lines.foldl (fun (m : List (Str × Nat) × List (Nat × Str)) l =>
            (umap_set l.1 l.2 m.1, umap_set l.2 l.1 m.2)) (enc, dec)).2 = some token)
      ∧ (∀ token, ((umap_find token enc).isSome = true ∨ token ∈ lines.map Prod.fst) →
        (umap_find token
          (lines.foldl (fun (m : List (Str × Nat) × List (Nat × Str)) l =>
            (umap_set l.1 l.2 m.1, umap_set l.2 l.1 m.2)) (enc, dec)).1).isSome = true) := by
  induction lines with
  | nil =>
    intro enc dec _ _ hinv
    refine ⟨by simpa using hinv, ?_⟩
    intro token h
    simpa using h
  | cons l rest ih =>
    intro enc dec hnd hfresh hinv
    simp only [List.map_cons, List.nodup_cons] at hnd
    simp only [List.foldl_cons]
    obtain ⟨h1, h2⟩ := ih (umap_set l.1 l.2 enc) (umap_set l.2 l.1 dec) hnd.2
      (by
        intro id hid hmem
        by_cases hl : l.2 = id
        · subst hl; exact hnd.1 hmem
        · rw [umap_find_set_ne l.2 id l.1 dec hl] at hid
          exact hfresh id hid (by simp [hmem]))
      (by
        intro token id hfind
        by_cases ht : l.1 = token
        · subst ht
          rw [umap_find_set_eq] at hfind
          simp only [Option.some.injEq] at hfind
          subst hfind
          exact umap_find_set_eq _ _ _
        · rw [umap_find_set_ne l.1 token l.2 enc ht] at hfind
          have hdec := hinv token id hfind
          have hne : l.2 ≠ id := by
            intro hl
            refine hfresh id (by rw [hdec]; rfl) ?_
            simp [hl]
          rw [umap_find_set_ne l.2 id l.1 dec hne]
          exact hdec)
    refine ⟨h1, ?_⟩
    intro token h
    apply h2
    rcases h with h | h
    · exact Or.inl (umap_find_set_isSome _ _ _ _ h)
    · simp only [List.map_cons, List.mem_cons] at h
      rcases h with h | h
      · left; rw [h, umap_find_set_eq]; rfl
      · exact Or.inr h

/-- Every pair that `build_merge_ranks` enters concatenates to a token of the
vocabulary. -/
theorem split_points_keys (encoder : List (Str × Nat)) (token : Str) (id : Nat)
    (htoken : (umap_find token encoder).isSome = true) (n : Nat) :
    ∀ ranks : List ((Str × Str) × Nat),
      (∀ f s, (umap_find (f, s) ranks).isSome = true →
        (umap_find (f ++ s) encoder).isSome = true) →
      ∀ f s, (umap_find (f, s) ((List.range n).foldl (fun ranks k =>
          if (umap_find (token.take (k + 1)) encoder).isSome
              ∧ (umap_find (token.drop (k + 1)) encoder).isSome then
            umap_set (token.take (k + 1), token.drop (k + 1)) id ranks
          else ranks) ranks)).isSome = true →
        (umap_find (f ++ s) encoder).isSome = true := by
  induction n with
  | zero => intro ranks h f s; simpa using h f s
  | succ n ih =>
    intro ranks h f s
    rw [List.range_succ, List.foldl_append]
    simp only [List.foldl_cons, List.foldl_nil]
    intro hfind
    split_ifs at hfind with hc
    · by_cases hk : (token.take (n + 1), token.drop (n + 1)) = (f, s)
      · simp only [Prod.mk.injEq] at hk
        rw [← hk.1, ← hk.2, List.take_append_drop]
        exact htoken
      · rw [umap_find_set_ne _ _ _ _ hk] at hfind
        exact ih ranks h f s hfind
    · exact ih ranks h f s hfind

theorem build_merge_ranks_keys (encoder : List (Str × Nat)) (f s : Str)
    (h : (umap_find (f, s) (build_merge_ranks encoder)).isSome = true) :
    (umap_find (f ++ s) encoder).isSome = true := by
  have key : ∀ (es : List (Str × Nat)), (∀ e ∈ es, e ∈ encoder) →
      ∀ ranks : List ((Str × Str) × Nat),
      (∀ f s, (umap_find (f, s) ranks).isSome = true →
        (umap_find (f ++ s) encoder).isSome = true) →
      ∀ f s, (umap_find (f, s) (es.foldl (fun ranks e =>
          if e.1.length ≤ 1 then ranks else split_points encoder e.1 e.2 ranks) ranks)).isSome
            = true →
        (umap_find (f ++ s) encoder).isSome = true := by
    intro es
    induction es with
    | nil => intro _ ranks h f s; simpa using h f s
    | cons e rest ih =>
      intro hes ranks h f s
      simp only [List.foldl_cons]
      refine ih (fun x hx => hes x (List.mem_cons_of_mem _ hx)) _ ?_ f s
      intro f' s' hfind
      split_ifs at hfind with hc
      · exact h f' s' hfind
      · exact split_points_keys encoder e.1 e.2
          (umap_find_mem encoder e (hes e (List.mem_cons_self _ _))) _ ranks h f' s' hfind
  exact key encoder (fun e he => he) [] (by intro f s h; simp [umap_find] at h) f s h

/-- Every candidate is a pair of adjacent tokens at its position, and a key of
`merge_ranks`. -/
theorem merge_candidates_mem (ranks : List ((Str × Str) × Nat)) (tokens : List Str) :
    ∀ (i0 : Nat) (c : MergePair), c ∈ merge_candidates ranks tokens i0 →
      (umap_find c.1 ranks).isSome = true
      ∧ ∃ pre post, tokens = pre ++ c.1.1 :: c.1.2 :: post ∧ c.2 = i0 + pre.length := by
  induction tokens with
  | nil => intro i0 c h; simp [merge_candidates] at h
  | cons a rest ih =>
    intro i0 c h
    cases rest with
    | nil => simp [merge_candidates] at h
    | cons b rest =>
      simp only [merge_candidates] at h
      have hrest : c ∈ merge_candidates ranks (b :: rest) (i0 + 1) →
          (umap_find c.1 ranks).isSome = true
          ∧ ∃ pre post, a :: b :: rest = pre ++ c.1.1 :: c.1.2 :: post
              ∧ c.2 = i0 + pre.length := by
        intro hc
        obtain ⟨h1, pre, post, h2, h3⟩ := ih (i0 + 1) c hc
        exact ⟨h1, a :: pre, post, by rw [h2]; rfl, by rw [h3, List.length_cons]; omega⟩
      split_ifs at h with hk
      · rcases List.mem_cons.mp h with rfl | h
        · exact ⟨hk, [], rest, rfl, by simp⟩
        · exact hrest h
      · exact hrest h

theorem top_merge_mem (ranks : List ((Str × Str) × Nat)) (tie : List MergePair → Nat)
    (cs : List MergePair) (c : MergePair) (h : top_merge ranks tie cs = some c) : c ∈ cs := by
  unfold top_merge at h
  exact (List.mem_filter.mp (List.get?_mem h)).1

/-- The queue has a top whenever a candidate was pushed. -/
theorem top_merge_isSome (ranks : List ((Str × Str) × Nat)) (tie : List MergePair → Nat)
    (cs : List MergePair) (h : cs ≠ []) : (top_merge ranks tie cs).isSome = true := by
  have hmin : ∀ l : List MergePair, l ≠ [] →
      ∃ c ∈ l, ∀ d ∈ l, merge_rank ranks c ≤ merge_rank ranks d := by
    intro l
    induction l with
    | nil => intro h; exact absurd rfl h
    | cons x rest ih =>
      intro _
      by_cases hr : rest = []
      · subst hr
        exact ⟨x, List.mem_cons_self _ _, by intro d hd; simp at hd; rw [hd]⟩
      · obtain ⟨c, hc, hle⟩ := ih hr
        by_cases hx : merge_rank ranks x ≤ merge_rank ranks c
        · refine ⟨x, List.mem_cons_self _ _, ?_⟩
          intro d hd
          rcases List.mem_cons.mp hd with rfl | hd
          · exact le_rfl
          · exact le_trans hx (hle d hd)
        · refine ⟨c, List.mem_cons_of_mem _ hc, ?_⟩
          intro d hd
          rcases List.mem_cons.mp hd with rfl | hd
          · omega
          · exact hle d hd
  obtain ⟨c, hc, hle⟩ := hmin cs h
  unfold top_merge
  have hbest : c ∈ cs.filter (fun c =>
      cs.all (fun d => decide (merge_rank ranks c ≤ merge_rank ranks d))) := by
    rw [List.mem_filter]
    refine ⟨hc, ?_⟩
    rw [List.all_eq_true]
    intro d hd
    exact decide_eq_true (hle d hd)
  have hpos := List.length_pos_of_mem hbest
  simp only []
  rw [List.get?_eq_get (Nat.mod_lt _ hpos)]
  rfl

theorem merge_at_spec (pre post : List Str) (a b : Str) :
    merge_at (pre ++ a :: b :: post) pre.length (a ++ b) = pre ++ (a ++ b) :: post := by
  unfold merge_at
  rw [List.take_left, show pre.length + 2 = pre.length + (2 : Nat) from rfl,
    ← List.drop_drop, List.drop_left]
  rfl

/-- The merge loop exits within `tokens.size() - 1` merges; it keeps the
concatenation of the tokens, and every token stays in the vocabulary. -/
theorem merge_loop_spec (lines : List (Str × Nat)) (tie : List MergePair → Nat) (fuel : Nat) :
    ∀ tokens : List Str, tokens.length ≤ fuel + 1 →
      (∀ token ∈ tokens, (umap_find token (BPETokenizer.of_lines lines).encoder).isSome = true) →
      ∃ out, (BPETokenizer.of_lines lines).merge_loop tie fuel tokens = some out
        ∧ out.flatten = tokens.flatten
        ∧ ∀ token ∈ out, (umap_find token (BPETokenizer.of_lines lines).encoder).isSome = true := by
  induction fuel with
  | zero =>
    intro tokens hlen hall
    refine ⟨tokens, ?_, rfl, hall⟩
    unfold BPETokenizer.merge_loop
    rw [if_neg (by omega)]
  | succ fuel ih =>
    intro tokens hlen hall
    unfold BPETokenizer.merge_loop
    by_cases hgt : tokens.length > 1
    · rw [if_pos hgt]
      cases htop : top_merge (BPETokenizer.of_lines lines).merge_ranks tie
          (merge_candidates (BPETokenizer.of_lines lines).merge_ranks tokens 0) with
      | none => exact ⟨tokens, rfl, rfl, hall⟩
      | some top =>
        obtain ⟨hkey, pre, post, htok, hpos⟩ := merge_candidates_mem _ tokens 0 top
          (top_merge_mem _ _ _ _ htop)
        simp only [Nat.zero_add] at hpos
        have hm : merge_at tokens top.2 (top.1.1 ++ top.1.2)
            = pre ++ (top.1.1 ++ top.1.2) :: post := by
          rw [htok, hpos]; exact merge_at_spec pre post _ _
        simp only [hm]
        have hin : (umap_find (top.1.1 ++ top.1.2)
            (BPETokenizer.of_lines lines).encoder).isSome = true :=
          build_merge_ranks_keys _ _ _ hkey
        obtain ⟨out, h1, h2, h3⟩ := ih (pre ++ (top.1.1 ++ top.1.2) :: post)
          (by
            rw [htok] at hlen
            simp only [List.length_append, List.length_cons] at hlen ⊢
            omega)
          (by
            intro token hmem
            rcases List.mem_append.mp hmem with hmem | hmem
            · exact hall token (by rw [htok]; simp [hmem])
            · rcases List.mem_cons.mp hmem with rfl | hmem
              · exact hin
              · exact hall token (by rw [htok]; simp [hmem]))
        refine ⟨out, h1, ?_, h3⟩
        rw [h2, htok]
        simp
    · rw [if_neg hgt]
      exact ⟨tokens, rfl, rfl, hall⟩

/-- Decoding the ids of tokens of the vocabulary gives their concatenation. -/
theorem decode_ids (t : BPETokenizer)
    (hinv : ∀ token id, umap_find token t.encoder = some id →
      umap_find id t.decoder = some token) (tokens : List Str)
    (hall : ∀ token ∈ tokens, (umap_find token t.encoder).isSome = true) :
    t.decode (tokens.filterMap (fun token => umap_find token t.encoder)) = tokens.flatten := by
  unfold BPETokenizer.decode
  induction tokens with
  | nil => rfl
  | cons token rest ih =>
    obtain ⟨id, hid⟩ := Option.isSome_iff_exists.mp (hall token (List.mem_cons_self _ _))
    simp only [List.filterMap_cons, hid, hinv token id hid, List.flatten_cons]
    rw [ih (fun x hx => hall x (List.mem_cons_of_mem _ hx))]

/-- C25. For every vocabulary file whose ids are pairwise distinct and that
holds every single byte as a token, and for every byte string `text`:
`encode` returns (whatever candidate the heap puts on top among equal ranks),
and `decode` of the ids gives `text` back. -/
theorem decode_encode_roundtrip (lines : List (Str × Nat)) (tie : List MergePair → Nat)
    (text : Str)
    (hids : (lines.map Prod.snd).Nodup)
    (hbytes : ∀ b, b < 256 → [b] ∈ lines.map Prod.fst)
    (htext : ∀ b ∈ text, b < 256) :
    ∃ ids, (BPETokenizer.of_lines lines).encode tie text = some ids
      ∧ (BPETokenizer.of_lines lines).decode ids = text := by
  obtain ⟨hinv, hmem⟩ := of_lines_maps lines [] [] hids
    (by intro id h; simp [umap_find] at h)
    (by intro token id h; simp [umap_find] at h)
  unfold BPETokenizer.encode
  by_cases he : text.isEmpty = true
  · rw [if_pos he]
    refine ⟨[], rfl, ?_⟩
    rw [List.isEmpty_iff] at he
    subst he
    rfl
  · rw [if_neg he]
    obtain ⟨out, h1, h2, h3⟩ := merge_loop_spec lines tie text.length
      (text.map (fun c => [c])) (by simp)
      (by
        intro token hmem'
        obtain ⟨b, hb, rfl⟩ := List.mem_map.mp hmem'
        exact hmem [b] (Or.inr (hbytes b (htext b hb))))
    rw [h1]
    refine ⟨_, rfl, ?_⟩
    rw [decode_ids (BPETokenizer.of_lines lines) hinv out h3, h2]
    have hflat : ∀ l : Str, (l.map (fun c => [c])).flatten = l := by
      intro l
      induction l with
      | nil => rfl
      | cons b rest ih => simp [ih]
    exact hflat text

/-- The vocabulary `demo_vocab` and the text `abcaaab é`. -/
theorem decode_encode_roundtrip_witness :
    (demo_vocab.map Prod.snd).Nodup
    ∧ (∀ b, b < 256 → [b] ∈ demo_vocab.map Prod.fst)
    ∧ (∀ b ∈ lit "abcaaab é", b < 256)
    ∧ ∃ ids, (BPETokenizer.of_lines demo_vocab).encode (fun _ => 0) (lit "abcaaab é") = some ids
      ∧ (BPETokenizer.of_lines demo_vocab).decode ids = lit "abcaaab é" :=
  have hids : (demo_vocab.map Prod.snd).Nodup := by
    unfold demo_vocab
    rw [List.map_append, List.map_map,
      show (Prod.snd ∘ fun b : Nat => (([b] : Str), b)) = id from rfl, List.map_id,
      List.nodup_append]
    refine ⟨List.nodup_range 256, by decide, ?_⟩
    intro a ha hb
    rw [List.mem_range] at ha
    simp at hb
    omega
  have hbytes : ∀ b, b < 256 → [b] ∈ demo_vocab.map Prod.fst := by
    intro b hb
    unfold demo_vocab
    rw [List.map_append, List.mem_append]
    left
    rw [List.map_map]
    exact List.mem_map.mpr ⟨b, List.mem_range.mpr hb, rfl⟩
  have htext : ∀ b ∈ lit "abcaaab é", b < 256 := by decide
  ⟨hids, hbytes, htext, decode_encode_roundtrip demo_vocab (fun _ => 0) (lit "abcaaab é") hids hbytes htext⟩

/-! ## The tool-call parser (src/include/config.h) -/

theorem starts_with_append (pat rest : Str) : starts_with pat (pat ++ rest) = true := by
  induction pat with
  | nil => simp [starts_with]
  | cons p ps ih => simp [starts_with, ih]

theorem starts_with_long (pat : Str) : ∀ (t rest : Str), pat.length ≤ t.length →
    starts_with pat (t ++ rest) = starts_with pat t := by
  induction pat with
  | nil => intro t rest _; simp [starts_with]
  | cons p ps ih =>
    intro t rest h
    cases t with
    | nil => simp at h
    | cons c cs =>
      rw [List.cons_append, starts_with, starts_with, ih cs rest (by simpa using h)]

theorem starts_with_extend (pat : Str) : ∀ (t rest : Str), starts_with pat t = true →
    starts_with pat (t ++ rest) = true := by
  induction pat with
  | nil => intro t rest _; simp [starts_with]
  | cons p ps ih =>
    intro t rest h
    cases t with
    | nil => simp [starts_with] at h
    | cons c cs =>
      rw [List.cons_append, starts_with]
      rw [starts_with] at h
      simp only [Bool.and_eq_true] at h ⊢
      exact ⟨h.1, ih cs rest h.2⟩

theorem starts_with_take (pat : Str) : ∀ (t : Str) (n : Nat), starts_with pat (t.take n) = true →
    starts_with pat t = true := by
  induction pat with
  | nil => intro t n _; simp [starts_with]
  | cons p ps ih =>
    intro t n h
    cases t with
    | nil => simp [starts_with] at h
    | cons c cs =>
      cases n with
      | zero => simp [starts_with] at h
      | succ n =>
        simp only [List.take_succ_cons, starts_with, Bool.and_eq_true] at h ⊢
        exact ⟨h.1, ih cs n h.2⟩

theorem find_at_of_starts (pat s : Str) (i : Nat) (h : starts_with pat s = true) :
    find_at pat s i = some i := by
  cases s with
  | nil => simp [find_at, h]
  | cons c cs => simp [find_at, h]

theorem find_at_shift (pat : Str) : ∀ (s : Str) (i : Nat),
    find_at pat s i = (find_at pat s 0).map (fun k => k + i) := by
  intro s
  induction s with
  | nil => intro i; simp only [find_at]; split_ifs <;> simp
  | cons c cs ih =>
    intro i
    simp only [find_at]
    split_ifs
    · simp
    · rw [ih (i + 1), ih (0 + 1), Option.map_map]
      congr 1
      funext k
      simp only [Function.comp]
      omega

/-- The first occurrence of `pat` in `pre ++ pat`, when it is the one at the
end, stays the first one when text follows. -/
theorem find_at_extend (pat rest : Str) : ∀ (pre : Str) (i : Nat),
    find_at pat (pre ++ pat) i = some (i + pre.length) →
    find_at pat (pre ++ (pat ++ rest)) i = some (i + pre.length) := by
  intro pre
  induction pre with
  | nil =>
    intro i _
    simpa using find_at_of_starts pat (pat ++ rest) i (starts_with_append pat rest)
  | cons c cs ih =>
    intro i h
    rw [List.cons_append, find_at, List.length_cons] at h
    rw [List.cons_append, find_at, List.length_cons]
    by_cases hs : starts_with pat (c :: (cs ++ pat)) = true
    · rw [if_pos hs] at h
      simp only [Option.some.injEq] at h
      omega
    · rw [if_neg hs] at h
      have hs' : ¬ starts_with pat (c :: (cs ++ (pat ++ rest))) = true := by
        have := starts_with_long pat (c :: (cs ++ pat)) rest (by simp; omega)
        rw [List.cons_append, List.append_assoc] at this
        rw [this]; exact hs
      rw [if_neg hs']
      have := ih (i + 1) (by rw [h]; congr 1; omega)
      rw [this]; congr 1; omega

/-- When the first occurrence of `pat` in `pre ++ pat` is the one at the end,
`pat` does not occur in `pre`. -/
theorem find_at_none_before (pat : Str) (hpat : pat ≠ []) : ∀ (pre : Str) (i : Nat),
    find_at pat (pre ++ pat) i = some (i + pre.length) → find_at pat pre i = none := by
  intro pre
  induction pre with
  | nil =>
    intro i _
    cases pat with
    | nil => exact absurd rfl hpat
    | cons p ps => simp [find_at, starts_with]
  | cons c cs ih =>
    intro i h
    rw [List.cons_append, find_at, List.length_cons] at h
    rw [find_at]
    by_cases hs : starts_with pat (c :: (cs ++ pat)) = true
    · rw [if_pos hs] at h
      simp only [Option.some.injEq] at h
      omega
    · rw [if_neg hs] at h
      have hs' : ¬ starts_with pat (c :: cs) = true := by
        intro h'
        exact hs (starts_with_extend pat (c :: cs) pat h')
      rw [if_neg hs']
      exact ih (i + 1) (by rw [h]; congr 1; omega)

theorem str_find_append (a s pat : Str) :
    str_find (a ++ s) pat a.length = (find_at pat s 0).map (fun k => k + a.length) := by
  unfold str_find
  rw [if_neg (by simp), List.drop_left]
  exact find_at_shift pat s a.length

theorem trim_spaces (w : Str) (hw : ∀ c ∈ w, is_space c = true) : trim w = [] := by
  unfold trim
  rw [takeWhile_all is_space w hw,
    takeWhile_all is_space w.reverse (fun c hc => hw c (List.mem_reverse.mp hc))]
  simp

theorem trim_length_le (s : Str) : (trim s).length ≤ s.length := by
  unfold trim
  simp only []
  split_ifs
  · simp
  · simp only [List.length_drop, List.length_take]
    omega

/-- One iteration of the loop on a content whose block at `pos_start` is
`tool_start body tool_end`. -/
theorem parse_loop_block {J : Type} (json_parse : Str → Option J) (tool_start tool_end : Str)
    (fuel : Nat) (pre body rest : Str) (tool_calls : List (ParsedCall J))
    (hbody : find_at tool_end (body ++ tool_end) 0 = some body.length) :
    ToolParser.parse_loop json_parse tool_start tool_end (fuel + 1)
        (pre ++ (tool_start ++ (body ++ (tool_end ++ rest)))) (some pre.length) tool_calls
      = match (if body.isEmpty then some tool_calls
          else (json_parse body).map
            (fun f => tool_calls ++ [{ type := lit "function", function := f }])) with
        | none => some (.raised (lit "Invalid tool call: " ++ body))
        | some tool_calls' =>
            ToolParser.parse_loop json_parse tool_start tool_end fuel (trim pre ++ trim rest)
              (str_find (trim pre ++ trim rest) tool_start pre.length) tool_calls' := by
  have hpe : str_find (pre ++ (tool_start ++ (body ++ (tool_end ++ rest)))) tool_end
      (pre.length + tool_start.length) = some (pre.length + tool_start.length + body.length) := by
    have := str_find_append (pre ++ tool_start) (body ++ (tool_end ++ rest)) tool_end
    rw [List.append_assoc, List.length_append] at this
    rw [this, find_at_extend tool_end rest body 0 (by simpa using hbody)]
    simp only [Option.map_some', Option.some.injEq]
    omega
  have hcontent : substr (pre ++ (tool_start ++ (body ++ (tool_end ++ rest))))
      (pre.length + tool_start.length)
      (pre.length + tool_start.length + body.length - pre.length - tool_start.length) = body := by
    unfold substr
    rw [← List.append_assoc pre, ← List.length_append, List.drop_left,
      show (pre ++ tool_start).length + body.length - pre.length - tool_start.length
        = body.length by simp only [List.length_append]; omega,
      List.take_left]
  have hlhs : (pre ++ (tool_start ++ (body ++ (tool_end ++ rest)))).take pre.length = pre :=
    List.take_left _ _
  have hrhs : (pre ++ (tool_start ++ (body ++ (tool_end ++ rest)))).drop
      (min (pre.length + tool_start.length + body.length + tool_end.length)
        (pre ++ (tool_start ++ (body ++ (tool_end ++ rest)))).length) = rest := by
    have e : pre ++ (tool_start ++ (body ++ (tool_end ++ rest)))
        = (pre ++ tool_start ++ body ++ tool_end) ++ rest := by
      simp only [List.append_assoc]
    rw [show min (pre.length + tool_start.length + body.length + tool_end.length)
        (pre ++ (tool_start ++ (body ++ (tool_end ++ rest)))).length
          = (pre ++ tool_start ++ body ++ tool_end).length by
      simp only [List.length_append]; omega]
    rw [e, List.drop_left]
  rw [ToolParser.parse_loop]
  simp only [hpe, Option.getD_some, hcontent, hlhs, hrhs]

theorem find_at_none_iff (pat : Str) : ∀ (s : Str) (i : Nat),
    find_at pat s i = none ↔ ∀ k, k ≤ s.length → starts_with pat (s.drop k) = false := by
  intro s
  induction s with
  | nil =>
    intro i
    simp only [find_at, List.length_nil, Nat.le_zero, List.drop_nil]
    constructor
    · intro h k _
      by_cases hs : starts_with pat [] = true
      · rw [if_pos hs] at h; simp at h
      · simpa using hs
    · intro h
      rw [if_neg (by rw [h 0 rfl]; simp)]
  | cons c cs ih =>
    intro i
    rw [find_at]
    constructor
    · intro h k hk
      by_cases hs : starts_with pat (c :: cs) = true
      · rw [if_pos hs] at h; simp at h
      · rw [if_neg hs] at h
        cases k with
        | zero => simpa using hs
        | succ k =>
          rw [List.drop_succ_cons]
          exact (ih (i + 1)).mp h k (by simpa using hk)
    · intro h
      have h0 := h 0 (Nat.zero_le _)
      rw [List.drop_zero] at h0
      rw [if_neg (by rw [h0]; simp)]
      refine (ih (i + 1)).mpr ?_
      intro k hk
      have := h (k + 1) (by simpa using hk)
      rwa [List.drop_succ_cons] at this

/-- A text in which `pat` does not occur has no occurrence after trimming. -/
theorem find_at_none_trim (pat s : Str) (h : find_at pat s 0 = none) :
    find_at pat (trim s) 0 = none := by
  rw [find_at_none_iff] at h ⊢
  intro k hk
  unfold trim at hk ⊢
  simp only [] at hk ⊢
  split_ifs at hk ⊢ with hc
  · have := h s.length le_rfl
    rw [List.drop_length] at this
    simpa using this
  · simp only [List.length_drop, List.length_take] at hk
    rw [List.drop_drop, List.drop_take]
    by_contra hne
    have hs := starts_with_take pat _ _ (by simpa using hne)
    have := h ((s.takeWhile is_space).length + k) (by omega)
    rw [this] at hs
    exact absurd hs (by simp)

theorem str_find_zero (s pat : Str) : str_find s pat 0 = find_at pat s 0 := by
  unfold str_find
  rw [if_neg (by omega), List.drop_zero]

theorem str_find_past (s pat : Str) (pos : Nat) (hpat : pat ≠ []) (h : s.length ≤ pos) :
    str_find s pat pos = none := by
  unfold str_find
  split_ifs
  · rfl
  · rw [List.drop_eq_nil_of_le h]
    cases pat with
    | nil => exact absurd rfl hpat
    | cons p ps => simp [find_at, starts_with]

theorem starts_with_length (pat : Str) : ∀ s : Str, starts_with pat s = true →
    pat.length ≤ s.length := by
  induction pat with
  | nil => intro s _; simp
  | cons p ps ih =>
    intro s h
    cases s with
    | nil => simp [starts_with] at h
    | cons c cs =>
      rw [starts_with] at h
      simp only [Bool.and_eq_true] at h
      simpa using ih cs h.2

/-- A position that `find` returns lies at or behind the start of the search,
and the pattern fits into the text there. -/
theorem find_at_bounds (pat : Str) : ∀ (s : Str) (i j : Nat), find_at pat s i = some j →
    i ≤ j ∧ j + pat.length ≤ i + s.length := by
  intro s
  induction s with
  | nil =>
    intro i j h
    rw [find_at] at h
    split_ifs at h with hs
    simp only [Option.some.injEq] at h
    have := starts_with_length pat [] hs
    rw [List.length_nil] at this ⊢
    omega
  | cons c cs ih =>
    intro i j h
    rw [find_at] at h
    split_ifs at h with hs
    · simp only [Option.some.injEq] at h
      have := starts_with_length pat _ hs
      omega
    · obtain ⟨h1, h2⟩ := ih (i + 1) j h
      simp only [List.length_cons]
      omega

theorem str_find_bounds (s pat : Str) (pos j : Nat) (h : str_find s pat pos = some j) :
    pos ≤ j ∧ j + pat.length ≤ s.length := by
  unfold str_find at h
  split_ifs at h with hp
  obtain ⟨h1, h2⟩ := find_at_bounds pat _ pos j h
  rw [List.length_drop] at h2
  omega

/-- The loop of `parse` exits: every iteration shortens `new_content`. -/
theorem parse_loop_exits {J : Type} (json_parse : Str → Option J) (tool_start tool_end : Str)
    (hne : tool_start ≠ []) (fuel : Nat) :
    ∀ (new_content : Str) (pos : Option Nat) (tool_calls : List (ParsedCall J)),
      new_content.length < fuel →
      (∀ p, pos = some p → p + tool_start.length ≤ new_content.length) →
      (ToolParser.parse_loop json_parse tool_start tool_end fuel new_content pos
        tool_calls).isSome = true := by
  have hpos := List.length_pos.mpr hne
  induction fuel with
  | zero => intro new_content pos tool_calls h; omega
  | succ fuel ih =>
    intro new_content pos tool_calls hlen hfit
    cases pos with
    | none => rw [ToolParser.parse_loop]; rfl
    | some p =>
      have hp := hfit p rfl
      rw [ToolParser.parse_loop]
      simp only []
      split
      · rfl
      · apply ih
        · have h1 := trim_length_le (new_content.take p)
          have h2 := trim_length_le (new_content.drop
            (min ((str_find new_content tool_end (p + tool_start.length)).getD
              new_content.length + tool_end.length) new_content.length))
          have h3 : p + tool_start.length
              ≤ (str_find new_content tool_end (p + tool_start.length)).getD
                new_content.length := by
            cases hf : str_find new_content tool_end (p + tool_start.length) with
            | none => simpa using hp
            | some e => simpa using (str_find_bounds _ _ _ _ hf).1
          simp only [List.length_append, List.length_take, List.length_drop] at h1 h2 ⊢
          omega
        · intro p' hp'
          exact (str_find_bounds _ _ _ _ hp').2

/-- `parse` returns or raises for every content when `tool_start` is not
empty. -/
theorem parse_total {J : Type} (json_parse : Str → Option J) (tool_start tool_end : Str)
    (hne : tool_start ≠ []) (content : Str) :
    (ToolParser.parse json_parse tool_start tool_end content).isSome = true := by
  unfold ToolParser.parse
  apply parse_loop_exits json_parse tool_start tool_end hne
  · omega
  · intro p hp
    exact (str_find_bounds _ _ _ _ hp).2

theorem dropWhile_append_of_all {α : Type} (p : α → Bool) (xs ys : List α)
    (h : ∀ x ∈ xs, p x = true) : (xs ++ ys).dropWhile p = ys.dropWhile p := by
  induction xs with
  | nil => rfl
  | cons x rest ih =>
    rw [List.cons_append, List.dropWhile_cons, h x (List.mem_cons_self _ _)]
    simp only [if_true]
    exact ih (fun y hy => h y (List.mem_cons_of_mem _ hy))

theorem dropWhile_append_of_exists {α : Type} (p : α → Bool) (xs ys : List α)
    (h : ∃ x ∈ xs, p x = false) : (xs ++ ys).dropWhile p = xs.dropWhile p ++ ys := by
  induction xs with
  | nil => obtain ⟨x, hx, _⟩ := h; simp at hx
  | cons x rest ih =>
    rw [List.cons_append, List.dropWhile_cons, List.dropWhile_cons]
    by_cases hx : p x = true
    · rw [if_pos hx, if_pos hx]
      apply ih
      obtain ⟨y, hy, hp⟩ := h
      rcases List.mem_cons.mp hy with rfl | hy
      · rw [hx] at hp; simp at hp
      · exact ⟨y, hy, hp⟩
    · rw [if_neg hx, if_neg hx, List.cons_append]

theorem dropWhile_head {α : Type} (p : α → Bool) (xs : List α) :
    ∀ a rest, xs.dropWhile p = a :: rest → p a = false := by
  induction xs with
  | nil => intro a rest h; simp at h
  | cons x xs ih =>
    intro a rest h
    rw [List.dropWhile_cons] at h
    by_cases hx : p x = true
    · rw [if_pos hx] at h; exact ih a rest h
    · rw [if_neg hx] at h
      simp only [List.cons.injEq] at h
      rw [← h.1]; simpa using hx

theorem dropWhile_of_head {α : Type} (p : α → Bool) (a : α) (rest : List α) (h : p a = false) :
    (a :: rest).dropWhile p = a :: rest := by
  rw [List.dropWhile_cons, if_neg (by rw [h]; simp)]

/-- The text is its leading spaces followed by `lstrip`. -/
theorem lstrip_suffix (s : Str) : ∃ w, s = w ++ lstrip s ∧ ∀ c ∈ w, is_space c = true :=
  ⟨s.takeWhile is_space, (List.takeWhile_append_dropWhile is_space s).symm,
    fun _ hc => List.mem_takeWhile_imp hc⟩

/-- The text is `rstrip` followed by its trailing spaces. -/
theorem rstrip_prefix (s : Str) : ∃ w, s = rstrip s ++ w ∧ ∀ c ∈ w, is_space c = true := by
  refine ⟨(s.reverse.takeWhile is_space).reverse, ?_, ?_⟩
  · unfold rstrip
    rw [← List.reverse_append, List.takeWhile_append_dropWhile, List.reverse_reverse]
  · intro c hc
    exact List.mem_takeWhile_imp (List.mem_reverse.mp hc)

theorem lstrip_length_le (s : Str) : (lstrip s).length ≤ s.length := by
  obtain ⟨w, h, _⟩ := lstrip_suffix s
  have := congrArg List.length h
  rw [List.length_append] at this
  omega

theorem lstrip_head (s : Str) (a : Nat) (rest : Str) (h : lstrip s = a :: rest) :
    is_space a = false :=
  dropWhile_head is_space s a rest h

theorem lstrip_of_head (a : Nat) (rest : Str) (h : is_space a = false) :
    lstrip (a :: rest) = a :: rest :=
  dropWhile_of_head is_space a rest h

theorem lstrip_nil : lstrip [] = [] := rfl

theorem rstrip_nil : rstrip [] = [] := rfl

theorem lstrip_idem (s : Str) : lstrip (lstrip s) = lstrip s := by
  cases h : lstrip s with
  | nil => rfl
  | cons a rest => exact lstrip_of_head a rest (lstrip_head s a rest h)

/-- In front of a text that begins with a byte that is no space, `lstrip`
removes leading spaces of what stands in front only. -/
theorem lstrip_append (g : Str) (a : Nat) (rest : Str) (h : is_space a = false) :
    lstrip (g ++ a :: rest) = lstrip g ++ a :: rest := by
  unfold lstrip
  by_cases hg : ∃ x ∈ g, is_space x = false
  · exact dropWhile_append_of_exists is_space g _ hg
  · have hall : ∀ x ∈ g, is_space x = true := by
      intro x hx
      by_contra hne
      exact hg ⟨x, hx, by simpa using hne⟩
    rw [dropWhile_append_of_all is_space g _ hall, dropWhile_of_head is_space a rest h,
      List.dropWhile_eq_nil_iff.mpr hall, List.nil_append]

/-- Behind any text, `rstrip` of a text that holds a byte that is no space
removes trailing spaces of that text only. -/
theorem rstrip_append_of_exists (a l : Str) (h : ∃ x ∈ l, is_space x = false) :
    rstrip (a ++ l) = a ++ rstrip l := by
  unfold rstrip
  rw [List.reverse_append, dropWhile_append_of_exists is_space l.reverse a.reverse
    (by obtain ⟨x, hx, hp⟩ := h; exact ⟨x, List.mem_reverse.mpr hx, hp⟩),
    List.reverse_append, List.reverse_reverse]

theorem rstrip_of_all (l : Str) (h : ∀ x ∈ l, is_space x = true) : rstrip l = [] := by
  unfold rstrip
  rw [List.dropWhile_eq_nil_iff.mpr (fun x hx => h x (List.mem_reverse.mp hx))]
  rfl

theorem rstrip_of_last (a : Str) (z : Nat) (h : is_space z = false) :
    rstrip (a ++ [z]) = a ++ [z] := by
  unfold rstrip
  rw [List.reverse_append, List.reverse_singleton, List.singleton_append,
    dropWhile_of_head is_space z _ h, List.reverse_cons, List.reverse_reverse]

/-- Behind a text that ends with a byte that is no space, `rstrip` removes
trailing spaces of what follows only. -/
theorem rstrip_append_of_last (a : Str) (z : Nat) (l : Str) (h : is_space z = false) :
    rstrip ((a ++ [z]) ++ l) = (a ++ [z]) ++ rstrip l := by
  by_cases hl : ∃ x ∈ l, is_space x = false
  · exact rstrip_append_of_exists _ l hl
  · have hall : ∀ x ∈ l, is_space x = true := by
      intro x hx
      by_contra hne
      exact hl ⟨x, hx, by simpa using hne⟩
    rw [rstrip_of_all l hall, List.append_nil]
    unfold rstrip
    rw [List.reverse_append, dropWhile_append_of_all is_space l.reverse _
      (fun x hx => hall x (List.mem_reverse.mp hx)), List.reverse_append,
      List.reverse_singleton, List.singleton_append, dropWhile_of_head is_space z _ h,
      List.reverse_cons, List.reverse_reverse]

theorem rstrip_idem (s : Str) : rstrip (rstrip s) = rstrip s := by
  rcases List.eq_nil_or_concat (rstrip s) with h | ⟨a, z, h⟩
  · rw [h]; rfl
  · rw [List.concat_eq_append] at h
    rw [h]
    apply rstrip_of_last
    have : (s.reverse.dropWhile is_space) = z :: a.reverse := by
      have := congrArg List.reverse h
      unfold rstrip at this
      rw [List.reverse_reverse] at this
      rw [this]; simp
    exact dropWhile_head is_space _ z _ this

/-- Trimming removes the spaces around a text that begins and ends with a byte
that is no space. -/
theorem trim_tight (w core w' : Str) (a : Nat) (rest m : Str) (z : Nat)
    (hw : ∀ c ∈ w, is_space c = true) (hw' : ∀ c ∈ w', is_space c = true)
    (h1 : core = a :: rest) (ha : is_space a = false)
    (h2 : core = m ++ [z]) (hz : is_space z = false) :
    trim (w ++ core ++ w') = core := by
  unfold trim
  have t1 : (w ++ core ++ w').takeWhile is_space = w := by
    rw [List.append_assoc, h1, List.cons_append]
    exact (takeWhile_append_stop is_space w _ a hw ha).1
  have t2 : (w ++ core ++ w').reverse.takeWhile is_space = w'.reverse := by
    have e : (w ++ core ++ w').reverse = w'.reverse ++ z :: (m.reverse ++ w.reverse) := by
      rw [h2]; simp
    rw [e]
    exact (takeWhile_append_stop is_space w'.reverse _ z
      (fun c hc => hw' c (List.mem_reverse.mp hc)) hz).1
  have hpos : 0 < core.length := by rw [h1]; simp
  rw [t1, t2]
  simp only [List.length_append, List.length_reverse]
  rw [if_neg (by omega)]
  have e2 : w.length + core.length + w'.length - w'.length = (w ++ core).length := by
    simp only [List.length_append]; omega
  rw [e2, List.take_left, List.drop_left]

/-- `trim` removes the leading and the trailing spaces. -/
theorem trim_eq (s : Str) : trim s = rstrip (lstrip s) := by
  obtain ⟨w, hs, hw⟩ := lstrip_suffix s
  have hw' : w = s.takeWhile is_space := by
    have h1 := List.takeWhile_append_dropWhile is_space s
    have : w ++ lstrip s = s.takeWhile is_space ++ lstrip s := by rw [← hs]; exact h1.symm
    exact List.append_cancel_right this
  cases hr : lstrip s with
  | nil =>
    rw [hr, List.append_nil] at hs
    rw [rstrip_nil, hs]
    exact trim_spaces w hw
  | cons a r =>
    have ha := lstrip_head s a r hr
    obtain ⟨w2, hr2, hw2⟩ := rstrip_prefix (a :: r)
    have hne : rstrip (a :: r) ≠ [] := by
      intro he
      rw [he, List.nil_append] at hr2
      have := hw2 a (by rw [← hr2]; exact List.mem_cons_self _ _)
      rw [ha] at this; simp at this
    obtain ⟨m, z, hz⟩ : ∃ m z, rstrip (a :: r) = m ++ [z] := by
      rcases List.eq_nil_or_concat (rstrip (a :: r)) with h | ⟨m, z, h⟩
      · exact absurd h hne
      · exact ⟨m, z, by rw [h, List.concat_eq_append]⟩
    have hzs : is_space z = false := by
      have : ((a :: r).reverse.dropWhile is_space) = z :: m.reverse := by
        have := congrArg List.reverse hz
        unfold rstrip at this
        rw [List.reverse_reverse] at this
        rw [this]; simp
      exact dropWhile_head is_space _ z _ this
    obtain ⟨rest', hrest'⟩ : ∃ rest', rstrip (a :: r) = a :: rest' := by
      cases hm : m with
      | nil =>
        rw [hm, List.nil_append] at hz
        rw [hz, List.singleton_append] at hr2
        simp only [List.cons.injEq] at hr2
        exact ⟨[], by rw [hz, hr2.1]⟩
      | cons m0 m' =>
        rw [hm] at hz
        rw [hz, List.cons_append, List.cons_append] at hr2
        simp only [List.cons.injEq] at hr2
        exact ⟨m' ++ [z], by rw [hz, hr2.1]; rfl⟩
    have hs' : s = w ++ rstrip (a :: r) ++ w2 := by
      rw [hs, hr, List.append_assoc, ← hr2]
    rw [hs']
    exact trim_tight w _ w2 a rest' m z hw hw2 hrest' ha hz hzs


/-- `rstrip` keeps the first byte of a text that begins with a byte that is no
space. -/
theorem rstrip_head (a : Nat) (r : Str) (ha : is_space a = false) :
    ∃ rest, rstrip (a :: r) = a :: rest := by
  obtain ⟨w2, hr2, hw2⟩ := rstrip_prefix (a :: r)
  cases h : rstrip (a :: r) with
  | nil =>
    rw [h, List.nil_append] at hr2
    have := hw2 a (by rw [← hr2]; exact List.mem_cons_self _ _)
    rw [ha] at this; simp at this
  | cons x rest =>
    rw [h, List.cons_append] at hr2
    simp only [List.cons.injEq] at hr2
    exact ⟨rest, by rw [hr2.1]⟩

theorem lstrip_of_all (l : Str) (h : ∀ x ∈ l, is_space x = true) : lstrip l = [] :=
  List.dropWhile_eq_nil_iff.mpr h

/-- The text behind a removed block: in front of a text that begins with a
byte that is no space, trimming removes the leading spaces of the gap and the
trailing spaces of the text. -/
theorem trim_rest (g : Str) (a : Nat) (rest : Str) (ha : is_space a = false) :
    trim (g ++ a :: rest) = lstrip g ++ rstrip (a :: rest) := by
  rw [trim_eq, lstrip_append g a rest ha]
  exact rstrip_append_of_exists _ _ ⟨a, List.mem_cons_self _ _, ha⟩

theorem trim_idem_rstrip (p : Str) : rstrip (trim p) = trim p := by
  rw [trim_eq, rstrip_idem]

/-- The text in front of the next block: trimming the trimmed text in front
followed by the gap without its leading spaces gives both texts trimmed. -/
theorem trim_join (p g : Str) : trim (trim p ++ lstrip g) = trim p ++ trim g := by
  rw [trim_eq (trim p ++ lstrip g), trim_eq g]
  cases hP : trim p with
  | nil => rw [List.nil_append, List.nil_append, lstrip_idem]
  | cons a P =>
    have ha : is_space a = false := by
      obtain ⟨w, hw, _⟩ := rstrip_prefix (lstrip p)
      rw [← trim_eq, hP, List.cons_append] at hw
      exact lstrip_head p a _ hw
    rw [List.cons_append, lstrip_of_head a _ ha, ← List.cons_append]
    cases hG : lstrip g with
    | nil => rw [List.append_nil, rstrip_nil, List.append_nil, ← hP, trim_idem_rstrip]
    | cons b G =>
      exact rstrip_append_of_exists _ _ ⟨b, List.mem_cons_self _ _, lstrip_head g b G hG⟩

theorem lstrip_rstrip (l : Str) : lstrip (rstrip l) = rstrip (lstrip l) := by
  obtain ⟨w, hl, hw⟩ := lstrip_suffix l
  cases hr : lstrip l with
  | nil =>
    rw [hr, List.append_nil] at hl
    rw [rstrip_nil, hl, rstrip_of_all w hw, lstrip_nil]
  | cons a r =>
    have ha := lstrip_head l a r hr
    rw [hr] at hl
    obtain ⟨rest, hrest⟩ := rstrip_head a r ha
    have h1 : rstrip l = w ++ rstrip (a :: r) := by
      rw [hl]
      exact rstrip_append_of_exists w _ ⟨a, List.mem_cons_self _ _, ha⟩
    rw [h1, hrest, lstrip_append w a rest ha, lstrip_of_all w hw, List.nil_append]

theorem trim_rstrip (l : Str) : trim (rstrip l) = trim l := by
  rw [trim_eq, trim_eq, lstrip_rstrip, rstrip_idem]

theorem find_at_none_prefix (pat a b : Str) (h : find_at pat (a ++ b) 0 = none) :
    find_at pat a 0 = none := by
  rw [find_at_none_iff] at h ⊢
  intro k hk
  have := h k (by rw [List.length_append]; omega)
  rw [List.drop_append_of_le_length hk] at this
  by_contra hne
  have hs := starts_with_extend pat (a.drop k) b (by simpa using hne)
  rw [this] at hs
  exact absurd hs (by simp)

theorem find_at_none_drop (pat s : Str) (k : Nat) (i : Nat) (h : find_at pat s 0 = none) :
    find_at pat (s.drop k) i = none := by
  rw [find_at_none_iff] at h ⊢
  intro j hj
  rw [List.length_drop] at hj
  rw [List.drop_drop]
  by_cases hk : k ≤ s.length
  · exact h _ (by omega)
  · have : s.drop (k + j) = s.drop s.length := by
      rw [List.drop_length, List.drop_eq_nil_of_le (by omega)]
    rw [this]
    exact h _ le_rfl

theorem find_at_none_rstrip (pat s : Str) (h : find_at pat s 0 = none) :
    find_at pat (rstrip s) 0 = none := by
  obtain ⟨w, hs, _⟩ := rstrip_prefix s
  rw [hs] at h
  exact find_at_none_prefix pat _ w h

/-- When the first occurrence of `pat` in `u ++ v ++ pat` is the one at the
end, so it is in `v ++ pat`. -/
theorem find_at_suffix (pat v : Str) : ∀ (u : Str) (i j : Nat),
    find_at pat (u ++ (v ++ pat)) i = some (i + (u ++ v).length) →
    find_at pat (v ++ pat) j = some (j + v.length) := by
  intro u
  induction u with
  | nil =>
    intro i j h
    rw [List.nil_append, List.nil_append, find_at_shift] at h
    rw [find_at_shift]
    cases h0 : find_at pat (v ++ pat) 0 with
    | none => rw [h0] at h; simp at h
    | some k =>
      rw [h0] at h
      simp only [Option.map_some', Option.some.injEq] at h ⊢
      omega
  | cons c cs ih =>
    intro i j h
    rw [List.cons_append, find_at] at h
    by_cases hs : starts_with pat (c :: (cs ++ (v ++ pat))) = true
    · rw [if_pos hs] at h
      simp only [Option.some.injEq, List.cons_append, List.length_cons] at h
      omega
    · rw [if_neg hs] at h
      exact ih (i + 1) j (by
        rw [h]
        simp only [List.cons_append, List.length_cons, List.length_append]
        congr 1
        omega)

/-- The search for the next block. After a block is removed the content is
the trimmed text in front, the gap without its leading spaces, and the next
block; the search starts at the old position. When trimming has shortened the
text in front by no more than the length of that gap, the search finds the
next block. -/
theorem str_find_next (ts front g tail : Str)
    (hg : find_at ts (g ++ ts) 0 = some g.length)
    (hd : front.length - (trim front).length ≤ (lstrip g).length) :
    str_find (trim front ++ (lstrip g ++ (ts ++ tail))) ts front.length
      = some (trim front ++ lstrip g).length := by
  have hle := trim_length_le front
  obtain ⟨w, hw, _⟩ := lstrip_suffix g
  have hdrop : (trim front ++ (lstrip g ++ (ts ++ tail))).drop front.length
      = (lstrip g).drop (front.length - (trim front).length) ++ (ts ++ tail) := by
    rw [show front.length = (trim front).length + (front.length - (trim front).length) by omega,
      ← List.drop_drop, List.drop_left, List.drop_append_of_le_length (by omega)]
    simp
  unfold str_find
  rw [if_neg (by simp only [List.length_append]; omega), hdrop]
  have hsplit : g = (w ++ (lstrip g).take (front.length - (trim front).length))
      ++ (lstrip g).drop (front.length - (trim front).length) := by
    rw [List.append_assoc, List.take_append_drop]
    exact hw
  have h1 : find_at ts ((lstrip g).drop (front.length - (trim front).length) ++ ts)
      front.length
      = some (front.length
          + ((lstrip g).drop (front.length - (trim front).length)).length) := by
    apply find_at_suffix ts _ (w ++ (lstrip g).take (front.length - (trim front).length)) 0
    rw [← List.append_assoc, ← hsplit, hg]
    simp
  rw [find_at_extend ts tail _ _ h1]
  simp only [List.length_append, List.length_drop]
  congr 1
  omega

/-- The search behind the last block finds nothing when `pat` does not occur
in the text behind it. -/
theorem str_find_none_after (pat l t : Str) (pos : Nat) (hpos : l.length ≤ pos)
    (h : find_at pat t 0 = none) : str_find (l ++ t) pat pos = none := by
  unfold str_find
  split_ifs
  · rfl
  · rw [show pos = l.length + (pos - l.length) by omega, ← List.drop_drop, List.drop_left]
    exact find_at_none_drop pat t _ _ h

theorem blocks_rstrip_idem : ∀ blocks : Blocks, blocks.rstrip.rstrip = blocks.rstrip
  | .open_end body => by simp only [Blocks.rstrip, Humanus.rstrip_idem]
  | .closed_end body last => by simp only [Blocks.rstrip, Humanus.rstrip_idem]
  | .closed_next body gap rest => by simp only [Blocks.rstrip, blocks_rstrip_idem rest]

theorem blocks_found_bodies_rstrip (blocks : Blocks) :
    blocks.rstrip.found_bodies = blocks.rstrip.bodies := by
  cases blocks with
  | open_end body => rfl
  | closed_end body last => rfl
  | closed_next body gap rest =>
    simp only [Blocks.rstrip, Blocks.found_bodies, Blocks.bodies, blocks_rstrip_idem]

theorem blocks_size_rstrip : ∀ blocks : Blocks, blocks.rstrip.size = blocks.size
  | .open_end _ => rfl
  | .closed_end _ _ => rfl
  | .closed_next _ _ rest => by simp only [Blocks.rstrip, Blocks.size, blocks_size_rstrip rest]

theorem blocks_size_pos : ∀ blocks : Blocks, 0 < blocks.size
  | .open_end _ => by simp [Blocks.size]
  | .closed_end _ _ => by simp [Blocks.size]
  | .closed_next _ _ rest => by simp [Blocks.size]

theorem blocks_texts_rstrip : ∀ blocks : Blocks,
    blocks.rstrip.texts.map trim = blocks.texts.map trim
  | .open_end _ => rfl
  | .closed_end _ last => by simp only [Blocks.rstrip, Blocks.texts, List.map, trim_rstrip]
  | .closed_next _ gap rest => by
      simp only [Blocks.rstrip, Blocks.texts, List.map_cons, blocks_texts_rstrip rest]

theorem blocks_reached_rstrip : ∀ (blocks : Blocks) (front : Str),
    blocks.reached front → blocks.rstrip.reached front
  | .open_end _, _, _ => trivial
  | .closed_end _ _, _, _ => trivial
  | .closed_next _ _ rest, _, h =>
      ⟨h.1, blocks_reached_rstrip rest _ h.2⟩

theorem blocks_ends_tight_rstrip (tool_start : Str) : ∀ blocks : Blocks,
    blocks.ends_tight tool_start → blocks.rstrip.ends_tight tool_start
  | .open_end body, h => by
      rcases h with h | ⟨c, hc, hs⟩
      · exact Or.inl h
      · right
        obtain ⟨w, hb, hw⟩ := rstrip_prefix body
        refine ⟨c, ?_, hs⟩
        rw [hb] at hc
        rcases List.mem_append.mp hc with hc | hc
        · exact hc
        · rw [hw c hc] at hs; simp at hs
  | .closed_end _ _, _ => trivial
  | .closed_next _ _ rest, h => blocks_ends_tight_rstrip tool_start rest h

theorem blocks_well_formed_rstrip (tool_start tool_end : Str) : ∀ blocks : Blocks,
    blocks.well_formed tool_start tool_end → blocks.rstrip.well_formed tool_start tool_end
  | .open_end body, h => find_at_none_rstrip tool_end body h
  | .closed_end _ last, h => ⟨h.1, by rw [trim_rstrip]; exact h.2⟩
  | .closed_next _ _ rest, h =>
      ⟨h.1, h.2.1, blocks_ends_tight_rstrip tool_start rest h.2.2.1,
        blocks_well_formed_rstrip tool_start tool_end rest h.2.2.2⟩

/-- Trailing spaces are removed behind the last block only: `rstrip` of the
text from a `tool_start` on is the text of the blocks with the end
stripped. -/
theorem blocks_rstrip_text (tool_start tool_end te' : Str) (z : Nat)
    (hte : tool_end = te' ++ [z]) (hz : is_space z = false) :
    ∀ (blocks : Blocks) (x : Str), blocks.ends_tight tool_start →
      Humanus.rstrip (x ++ (tool_start ++ blocks.text tool_start tool_end))
        = x ++ (tool_start ++ blocks.rstrip.text tool_start tool_end)
  | .open_end body, x, h => by
      simp only [Blocks.text, Blocks.rstrip]
      rcases h with h | h
      · obtain ⟨y, ts', hts', hy⟩ : ∃ y ts', tool_start = ts' ++ [y] ∧ is_space y = false := by
          rcases List.eq_nil_or_concat tool_start with h0 | ⟨ts', y, h0⟩
          · rw [h0] at h; simp at h
          · rw [List.concat_eq_append] at h0
            refine ⟨y, ts', h0, ?_⟩
            rw [h0] at h
            simpa using h
        have := rstrip_append_of_last (x ++ ts') y body hy
        rw [hts']
        simpa only [List.append_assoc] using this
      · have := rstrip_append_of_exists (x ++ tool_start) body h
        simpa only [List.append_assoc] using this
  | .closed_end body last, x, _ => by
      simp only [Blocks.text, Blocks.rstrip]
      have := rstrip_append_of_last (x ++ (tool_start ++ (body ++ te'))) z last hz
      rw [hte]
      simpa only [List.append_assoc] using this
  | .closed_next body gap rest, x, h => by
      simp only [Blocks.text, Blocks.rstrip]
      have := blocks_rstrip_text tool_start tool_end te' z hte hz rest
        (x ++ (tool_start ++ (body ++ (tool_end ++ gap)))) h
      simpa only [List.append_assoc] using this

theorem blocks_size_le_text (tool_start tool_end : Str) (hne : tool_start ≠ []) :
    ∀ blocks : Blocks, blocks.size ≤ (tool_start ++ blocks.text tool_start tool_end).length
  | .open_end body => by
      have := List.length_pos.mpr hne
      simp only [Blocks.size, Blocks.text, List.length_append]; omega
  | .closed_end body last => by
      have := List.length_pos.mpr hne
      simp only [Blocks.size, Blocks.text, List.length_append]; omega
  | .closed_next body gap rest => by
      have := List.length_pos.mpr hne
      have ih := blocks_size_le_text tool_start tool_end hne rest
      simp only [Blocks.size, Blocks.text, List.length_append] at ih ⊢; omega

/-- One iteration of the loop on a content whose block at `pos_start` has no
`tool_end` behind it: the block runs to the end of the content, and the loop
exits. -/
theorem parse_loop_open {J : Type} (json_parse : Str → Option J) (tool_start tool_end : Str)
    (hne : tool_start ≠ []) (fuel : Nat) (pre body : Str) (tool_calls : List (ParsedCall J))
    (hbody : find_at tool_end body 0 = none) :
    ToolParser.parse_loop json_parse tool_start tool_end (fuel + 1)
        (pre ++ (tool_start ++ body)) (some pre.length) tool_calls
      = match (if body.isEmpty then some tool_calls
          else (json_parse body).map
            (fun f => tool_calls ++ [{ type := lit "function", function := f }])) with
        | none => some (.raised (lit "Invalid tool call: " ++ body))
        | some tool_calls' => some (.returned (trim pre) tool_calls') := by
  have hpe : str_find (pre ++ (tool_start ++ body)) tool_end
      (pre.length + tool_start.length) = none := by
    have := str_find_append (pre ++ tool_start) body tool_end
    rw [List.append_assoc, List.length_append] at this
    rw [this, hbody]
    rfl
  have hcontent : substr (pre ++ (tool_start ++ body)) (pre.length + tool_start.length)
      ((pre ++ (tool_start ++ body)).length - pre.length - tool_start.length) = body := by
    unfold substr
    rw [← List.append_assoc pre, ← List.length_append, List.drop_left]
    apply List.take_of_length_le
    simp only [List.length_append]; omega
  have hlhs : (pre ++ (tool_start ++ body)).take pre.length = pre := List.take_left _ _
  have hrhs : (pre ++ (tool_start ++ body)).drop
      (min ((pre ++ (tool_start ++ body)).length + tool_end.length)
        (pre ++ (tool_start ++ body)).length) = [] := by
    apply List.drop_eq_nil_of_le
    omega
  have htrim : trim ([] : Str) = [] := rfl
  rw [ToolParser.parse_loop]
  simp only [hpe, Option.getD_none, hcontent, hlhs, hrhs, htrim, List.append_nil]
  rw [str_find_past (trim pre) tool_start pre.length hne (trim_length_le pre)]
  by_cases hb : body.isEmpty = true
  · simp [hb, ToolParser.parse_loop]
  · cases hj : json_parse body with
    | none => simp [hb]
    | some f => simp [hb, ToolParser.parse_loop]


/-- The loop on the blocks of a content, from the first block on, when no
block is skipped. -/
theorem parse_loop_chain {J : Type} (json_parse : Str → Option J) (tool_start tool_end : Str)
    (a : Nat) (ts' te' : Str) (z : Nat) (hts : tool_start = a :: ts')
    (hte : tool_end = te' ++ [z]) (ha : is_space a = false) (hz : is_space z = false) :
    ∀ (fuel : Nat) (blocks : Blocks) (front : Str) (tool_calls : List (ParsedCall J)),
      blocks.size ≤ fuel → blocks.well_formed tool_start tool_end → blocks.reached front →
      ToolParser.parse_loop json_parse tool_start tool_end fuel
          (front ++ (tool_start ++ blocks.text tool_start tool_end)) (some front.length)
          tool_calls
        = some (parse_outcome ((front :: blocks.texts).map trim).flatten
            (parse_bodies json_parse blocks.found_bodies tool_calls)) := by
  have hne : tool_start ≠ [] := by rw [hts]; simp
  intro fuel
  induction fuel with
  | zero =>
    intro blocks front tool_calls hfuel
    have := blocks_size_pos blocks
    omega
  | succ fuel ih =>
    intro blocks front tool_calls hfuel hwf hreach
    cases blocks with
    | open_end body =>
      simp only [Blocks.text, Blocks.texts, Blocks.found_bodies, Blocks.bodies, List.map_cons,
        List.map_nil, List.flatten_cons, List.flatten_nil, List.append_nil, parse_bodies]
      rw [parse_loop_open json_parse tool_start tool_end hne fuel front body tool_calls hwf]
      by_cases hb : body.isEmpty = true
      · simp [hb, parse_outcome]
      · cases hj : json_parse body with
        | none => simp [hb, parse_outcome]
        | some f => simp [hb, parse_outcome]
    | closed_end body last =>
      simp only [Blocks.text, Blocks.texts, Blocks.found_bodies, Blocks.bodies, List.map_cons,
        List.map_nil, List.flatten_cons, List.flatten_nil, List.append_nil, parse_bodies]
      rw [parse_loop_block json_parse tool_start tool_end fuel front body last tool_calls hwf.1,
        str_find_none_after tool_start (trim front) (trim last) front.length
          (trim_length_le front) hwf.2]
      by_cases hb : body.isEmpty = true
      · simp [hb, ToolParser.parse_loop, parse_outcome]
      · cases hj : json_parse body with
        | none => simp [hb, parse_outcome]
        | some f => simp [hb, ToolParser.parse_loop, parse_outcome]
    | closed_next body gap rest =>
      obtain ⟨hbody, hgap, htight, hrest⟩ := hwf
      obtain ⟨hd, hreach'⟩ := hreach
      simp only [Blocks.text, Blocks.texts, Blocks.found_bodies, List.map_cons,
        List.flatten_cons, parse_bodies]
      rw [parse_loop_block json_parse tool_start tool_end fuel front body _ tool_calls hbody]
      have htrim : trim (gap ++ (tool_start ++ rest.text tool_start tool_end))
          = lstrip gap ++ (tool_start ++ rest.rstrip.text tool_start tool_end) := by
        have h0 : tool_start ++ rest.text tool_start tool_end
            = a :: (ts' ++ rest.text tool_start tool_end) :=
          congrArg (fun t => t ++ rest.text tool_start tool_end) hts
        have h1 := trim_rest gap a (ts' ++ rest.text tool_start tool_end) ha
        have h2 := blocks_rstrip_text tool_start tool_end te' z hte hz rest [] htight
        rw [List.nil_append, List.nil_append] at h2
        rw [h0, h1, ← h0, h2]
      rw [htrim, str_find_next tool_start front gap _ hgap hd]
      have hstep := fun calls' => ih rest.rstrip (trim front ++ lstrip gap) calls'
        (by rw [blocks_size_rstrip]; simp only [Blocks.size] at hfuel; omega)
        (blocks_well_formed_rstrip tool_start tool_end rest hrest)
        (blocks_reached_rstrip rest _ hreach')
      simp only [List.map_cons, List.flatten_cons, trim_join, blocks_texts_rstrip,
        blocks_found_bodies_rstrip, List.append_assoc] at hstep
      by_cases hb : body.isEmpty = true
      · simp only [hb, if_true, hstep]
      · cases hj : json_parse body with
        | none => simp [hb, parse_outcome]
        | some f => simp only [hb, hstep]; simp

theorem starts_with_eq (pat : Str) : ∀ s : Str, starts_with pat s = true →
    s = pat ++ s.drop pat.length := by
  induction pat with
  | nil => intro s _; simp
  | cons p ps ih =>
    intro s h
    cases s with
    | nil => simp [starts_with] at h
    | cons c cs =>
      rw [starts_with] at h
      simp only [Bool.and_eq_true, decide_eq_true_eq] at h
      rw [List.length_cons, List.drop_succ_cons, List.cons_append, ← ih cs h.2, h.1]

/-- The first occurrence of `pat` splits the text: `pat` stands at the
position found, does not begin before it, and is the first occurrence in the
text up to its end. -/
theorem find_at_split (pat : Str) : ∀ (s : Str) (p : Nat), find_at pat s 0 = some p →
    s = s.take p ++ (pat ++ s.drop (p + pat.length))
      ∧ p ≤ s.length
      ∧ find_at pat (s.take p ++ pat) 0 = some p
      ∧ ∀ k, k < p → starts_with pat (s.drop k) = false := by
  intro s
  induction s with
  | nil =>
    intro p h
    rw [find_at] at h
    split_ifs at h with hs
    simp only [Option.some.injEq] at h
    subst h
    cases pat with
    | nil => simp [find_at, starts_with]
    | cons a ps => simp [starts_with] at hs
  | cons c cs ih =>
    intro p h
    rw [find_at] at h
    by_cases hs : starts_with pat (c :: cs) = true
    · rw [if_pos hs] at h
      simp only [Option.some.injEq] at h
      subst h
      refine ⟨?_, Nat.zero_le _, ?_, ?_⟩
      · simpa using starts_with_eq pat _ hs
      · simpa using find_at_of_starts pat (pat ++ []) 0 (starts_with_append pat [])
      · intro k hk; omega
    · rw [if_neg hs, find_at_shift] at h
      cases h0 : find_at pat cs 0 with
      | none => rw [h0] at h; simp at h
      | some p' =>
        rw [h0] at h
        simp only [Option.map_some', Option.some.injEq] at h
        subst h
        obtain ⟨e1, e2, e3, e4⟩ := ih p' h0
        refine ⟨?_, by simp only [List.length_cons]; omega, ?_, ?_⟩
        · rw [List.take_succ_cons, List.cons_append, show p' + 1 + pat.length
            = (p' + pat.length) + 1 by omega, List.drop_succ_cons, ← e1]
        · rw [List.take_succ_cons, List.cons_append, find_at]
          have hlong : starts_with pat (c :: (cs.take p' ++ pat))
              = starts_with pat (c :: cs) := by
            have := starts_with_long pat (c :: (cs.take p' ++ pat))
              (cs.drop (p' + pat.length)) (by simp only [List.length_cons, List.length_append]; omega)
            rw [List.cons_append, List.append_assoc, ← e1] at this
            exact this.symm
          rw [if_neg (by rw [hlong]; exact hs), find_at_shift, e3]
          rfl
        · intro k hk
          cases k with
          | zero => simpa using hs
          | succ k =>
            rw [List.drop_succ_cons]
            exact e4 k (by omega)


theorem rstrip_append_ws (x w : Str) (hw : ∀ c ∈ w, is_space c = true) :
    rstrip (x ++ w) = rstrip x := by
  unfold rstrip
  rw [List.reverse_append, dropWhile_append_of_all is_space w.reverse _
    (fun c hc => hw c (List.mem_reverse.mp hc))]

/-- A last `tool_start` that ends with a space and is followed by spaces only
is cut by trimming: `pat` does not occur in the trimmed text. -/
theorem find_at_none_trim_cut (pat gap ob : Str) (hne : pat ≠ [])
    (hgap : find_at pat (gap ++ pat) 0 = some gap.length)
    (hlast : ¬ pat.getLast?.map is_space = some false)
    (hob : ∀ c ∈ ob, is_space c = true) :
    find_at pat (trim (gap ++ (pat ++ ob))) 0 = none := by
  obtain ⟨t, y, hpat, hy⟩ : ∃ t y, pat = t ++ [y] ∧ is_space y = true := by
    rcases List.eq_nil_or_concat pat with h | ⟨t, y, h⟩
    · exact absurd h hne
    · rw [List.concat_eq_append] at h
      refine ⟨t, y, h, ?_⟩
      rw [h] at hlast
      by_contra hc
      exact hlast (by simpa using hc)
  have hbefore := (find_at_split pat _ _ hgap).2.2.2
  have hnone : find_at pat (gap ++ t) 0 = none := by
    rw [find_at_none_iff]
    intro k hk
    by_contra hc
    have hs : starts_with pat ((gap ++ t).drop k) = true := by simpa using hc
    have hlen := starts_with_length pat _ hs
    rw [List.length_drop, List.length_append] at hlen
    have hpl : pat.length = t.length + 1 := by rw [hpat]; simp
    have hk' : k < gap.length := by omega
    have := hbefore k hk'
    have hext := starts_with_extend pat _ [y] hs
    rw [← List.drop_append_of_le_length hk, List.append_assoc, ← hpat] at hext
    rw [this] at hext
    exact absurd hext (by simp)
  have hr : rstrip (gap ++ (pat ++ ob)) = rstrip (gap ++ t) := by
    have e : gap ++ (pat ++ ob) = (gap ++ t) ++ (y :: ob) := by rw [hpat]; simp
    rw [e]
    apply rstrip_append_ws
    intro c hc
    rcases List.mem_cons.mp hc with rfl | hc
    · exact hy
    · exact hob c hc
  rw [trim_eq, ← lstrip_rstrip, hr]
  obtain ⟨w, hw, _⟩ := lstrip_suffix (rstrip (gap ++ t))
  have hd : lstrip (rstrip (gap ++ t)) = (rstrip (gap ++ t)).drop w.length := by
    conv_rhs => rw [hw]
    rw [List.drop_left]
  rw [hd]
  exact find_at_none_drop pat _ _ _ (find_at_none_rstrip pat _ hnone)

theorem blocks_of_tight_or_open (tool_start tool_end : Str) : ∀ (fuel : Nat) (text : Str),
    (blocks_of tool_start tool_end fuel text).ends_tight tool_start
      ∨ blocks_of tool_start tool_end fuel text = .open_end text := by
  intro fuel
  cases fuel with
  | zero => intro text; right; rfl
  | succ fuel =>
    intro text
    rw [blocks_of]
    cases he : find_at tool_end text 0 with
    | none => right; rfl
    | some e =>
      left
      simp only []
      cases hq : find_at tool_start (text.drop (e + tool_end.length)) 0 with
      | none => simp only [Blocks.ends_tight]
      | some q =>
        simp only []
        split_ifs with ht
        · simpa only [Blocks.ends_tight] using ht
        · simp only [Blocks.ends_tight]

/-- The blocks read off a text are the blocks of that text. -/
theorem blocks_of_spec (tool_start tool_end : Str) (hne : tool_start ≠ []) :
    ∀ (fuel : Nat) (text : Str), text.length < fuel →
      (blocks_of tool_start tool_end fuel text).text tool_start tool_end = text
        ∧ (blocks_of tool_start tool_end fuel text).well_formed tool_start tool_end := by
  have hpos := List.length_pos.mpr hne
  intro fuel
  induction fuel with
  | zero => intro text h; omega
  | succ fuel ih =>
    intro text hfuel
    rw [blocks_of]
    cases he : find_at tool_end text 0 with
    | none => exact ⟨rfl, he⟩
    | some e =>
      obtain ⟨e1, e2, e3, _⟩ := find_at_split tool_end text e he
      have hbody : find_at tool_end (text.take e ++ tool_end) 0 = some (text.take e).length := by
        rw [e3, List.length_take, Nat.min_eq_left e2]
      simp only []
      cases hq : find_at tool_start (text.drop (e + tool_end.length)) 0 with
      | none =>
        exact ⟨by simp only [Blocks.text]; exact e1.symm,
          hbody, find_at_none_trim tool_start _ hq⟩
      | some q =>
        obtain ⟨q1, q2, q3, _⟩ := find_at_split tool_start _ q hq
        have hgap : find_at tool_start
            ((text.drop (e + tool_end.length)).take q ++ tool_start) 0
            = some ((text.drop (e + tool_end.length)).take q).length := by
          rw [q3, List.length_take, Nat.min_eq_left q2]
        obtain ⟨i1, i2⟩ := ih ((text.drop (e + tool_end.length)).drop (q + tool_start.length))
          (by
            have hb := (find_at_bounds tool_start _ 0 q hq).2
            have hl := List.length_drop (e + tool_end.length) text
            rw [List.length_drop]
            omega)
        simp only []
        split_ifs with ht
        · refine ⟨?_, hbody, hgap, ht, i2⟩
          simp only [Blocks.text, i1]
          rw [← q1]
          exact e1.symm
        · refine ⟨by simp only [Blocks.text]; exact e1.symm, hbody, ?_⟩
          rcases blocks_of_tight_or_open tool_start tool_end fuel
            ((text.drop (e + tool_end.length)).drop (q + tool_start.length)) with h | h
          · exact absurd h ht
          · rw [h] at ht
            simp only [Blocks.ends_tight, not_or, not_exists, not_and] at ht
            rw [q1]
            exact find_at_none_trim_cut tool_start _ _ hne hgap ht.1
              (fun c hc => by simpa using ht.2 c hc)

/-- Every content in which `tool_start` occurs is a text `pre` followed by
`tool_start` and the text of well-formed blocks. -/
theorem blocks_cover (tool_start tool_end content : Str) (hne : tool_start ≠ [])
    (h : str_find content tool_start 0 ≠ none) :
    ∃ pre blocks, content = pre ++ (tool_start ++ Blocks.text tool_start tool_end blocks)
      ∧ find_at tool_start (pre ++ tool_start) 0 = some pre.length
      ∧ blocks.well_formed tool_start tool_end := by
  rw [str_find_zero] at h
  cases hp : find_at tool_start content 0 with
  | none => exact absurd hp h
  | some p =>
    obtain ⟨e1, e2, e3, _⟩ := find_at_split tool_start content p hp
    obtain ⟨i1, i2⟩ := blocks_of_spec tool_start tool_end hne
      ((content.drop (p + tool_start.length)).length + 1)
      (content.drop (p + tool_start.length)) (Nat.lt_succ_self _)
    refine ⟨content.take p, _, ?_, ?_, i2⟩
    · rw [i1]; exact e1
    · rw [e3, List.length_take, Nat.min_eq_left e2]

/-- C23 (amended). For delimiters of which `tool_start` begins and `tool_end`
ends with a byte that is no space, and for every content in which
`tool_start` occurs, read from left to right as the text `pre`, a block, a
gap, a block, ..., where a block is `tool_start body tool_end` and a
`tool_start` with no `tool_end` behind it opens a last block that runs to the
end of the content (`blocks.well_formed`): when the search skips no block
(`blocks.reached pre`), `parse` returns one entry of type `function` per block
with a non-empty body, in order, with the parsed body as its function, and as
content the texts outside the blocks, each one trimmed, joined, when
`json::parse` accepts every non-empty body; otherwise it raises
`Invalid tool call: ` with the first body that is rejected. `tool_start`
occurs in none of the trimmed texts outside the blocks. A content without
`tool_start` is returned as it is, with no entries; every other content is
`pre` followed by well-formed blocks; and for every content `parse` returns or
raises. -/
theorem parse_fenced_blocks {J : Type} (json_parse : Str → Option J) (tool_start tool_end : Str)
    (pre : Str) (blocks : Blocks)
    (hts : tool_start.head?.map is_space = some false)
    (hte : tool_end.getLast?.map is_space = some false)
    (hpre : find_at tool_start (pre ++ tool_start) 0 = some pre.length)
    (hblocks : blocks.well_formed tool_start tool_end)
    (hreached : blocks.reached pre) :
    ToolParser.parse json_parse tool_start tool_end
        (pre ++ (tool_start ++ blocks.text tool_start tool_end))
      = some (parse_outcome ((pre :: blocks.texts).map trim).flatten
          (parse_bodies json_parse blocks.found_bodies []))
    ∧ (∀ t ∈ pre :: blocks.texts, str_find (trim t) tool_start 0 = none)
    ∧ (∀ content, str_find content tool_start 0 = none →
        ToolParser.parse json_parse tool_start tool_end content = some (.returned content []))
    ∧ (∀ content, str_find content tool_start 0 ≠ none →
        ∃ pre' blocks', content = pre' ++ (tool_start ++ Blocks.text tool_start tool_end blocks')
          ∧ find_at tool_start (pre' ++ tool_start) 0 = some pre'.length
          ∧ blocks'.well_formed tool_start tool_end)
    ∧ ∀ content, (ToolParser.parse json_parse tool_start tool_end content).isSome = true := by
  obtain ⟨a, ts', hts', ha⟩ : ∃ a ts', tool_start = a :: ts' ∧ is_space a = false := by
    cases tool_start with
    | nil => simp at hts
    | cons a ts' => exact ⟨a, ts', rfl, by simpa using hts⟩
  obtain ⟨z, te', hte', hz⟩ : ∃ z te', tool_end = te' ++ [z] ∧ is_space z = false := by
    rcases List.eq_nil_or_concat tool_end with h | ⟨te', z, h⟩
    · rw [h] at hte; simp at hte
    · rw [List.concat_eq_append] at h
      refine ⟨z, te', h, ?_⟩
      rw [h] at hte
      simpa using hte
  have hne : tool_start ≠ [] := by rw [hts']; simp
  have hnone : find_at tool_start pre 0 = none :=
    find_at_none_before tool_start hne pre 0 (by simpa using hpre)
  refine ⟨?_, ?_, ?_, fun content h => blocks_cover tool_start tool_end content hne h,
    parse_total json_parse tool_start tool_end hne⟩
  · unfold ToolParser.parse
    have hfirst : str_find (pre ++ (tool_start ++ blocks.text tool_start tool_end)) tool_start 0
        = some pre.length := by
      rw [str_find_zero]
      simpa using find_at_extend tool_start _ pre 0 (by simpa using hpre)
    rw [hfirst]
    refine parse_loop_chain json_parse tool_start tool_end a ts' te' z hts' hte' ha hz _ blocks
      pre [] ?_ hblocks hreached
    have := blocks_size_le_text tool_start tool_end hne blocks
    simp only [List.length_append] at this ⊢
    omega
  · have htexts : ∀ (blocks : Blocks), blocks.well_formed tool_start tool_end →
        ∀ t ∈ blocks.texts, find_at tool_start (trim t) 0 = none := by
      intro blocks
      induction blocks with
      | open_end body => intro _ t ht; simp [Blocks.texts] at ht
      | closed_end body last =>
        intro h t ht
        simp only [Blocks.texts, List.mem_singleton] at ht
        rw [ht]; exact h.2
      | closed_next body gap rest ih =>
        intro h t ht
        simp only [Blocks.texts, List.mem_cons] at ht
        rcases ht with rfl | ht
        · exact find_at_none_trim tool_start t
            (find_at_none_before tool_start hne t 0 (by simpa using h.2.1))
        · exact ih h.2.2.2 t ht
    intro t ht
    rw [str_find_zero]
    rcases List.mem_cons.mp ht with rfl | ht
    · exact find_at_none_trim tool_start t hnone
    · exact htexts blocks hblocks t ht
  · intro content h
    unfold ToolParser.parse
    rw [h, ToolParser.parse_loop]


set_option maxRecDepth 100000 in
/-- A reply with text around three calls, the last of them without
`tool_end`. -/
theorem parse_fenced_blocks_witness :
    ToolParser.parse braces_parse (lit "<tool_call>") (lit "</tool_call>")
        (lit " A<tool_call>\x7b\"name\":\"a\"\x7d</tool_call>B <tool_call>\x7b\"name\":\"b\"\x7d</tool_call>C<tool_call>\x7b\"name\":\"c\"\x7d\n")
      = some (.returned (lit "ABC")
          [{ type := lit "function", function := lit "\x7b\"name\":\"a\"\x7d" },
           { type := lit "function", function := lit "\x7b\"name\":\"b\"\x7d" },
           { type := lit "function", function := lit "\x7b\"name\":\"c\"\x7d" }])
    ∧ ∀ t ∈ [lit " A", lit "B ", lit "C"], str_find (trim t) (lit "<tool_call>") 0 = none :=
  have h := parse_fenced_blocks braces_parse (lit "<tool_call>") (lit "</tool_call>")
    (lit " A")
    (.closed_next (lit "\x7b\"name\":\"a\"\x7d") (lit "B ")
      (.closed_next (lit "\x7b\"name\":\"b\"\x7d") (lit "C")
        (.open_end (lit "\x7b\"name\":\"c\"\x7d\n"))))
    (by decide) (by decide) (by decide) (by decide) (by decide)
  ⟨h.1.trans (by decide), h.2.1⟩

set_option maxRecDepth 100000 in
/-- C23 as stated fails. (1) A block whose body is no JSON makes `parse`
raise, so no block is extracted. (2) With a line break in front of the first
block the second block is not found: it stays in the returned content and only
the first call is extracted. (3) With a `tool_start` that begins with a line
break, trimming removes that line break in front of the second block, which is
not found. (4) With a `tool_end` that ends with a line break, trimming removes
it behind the second block, whose body then runs to the end of the content and
is rejected. (5) Joining the texts around a removed block forms a `tool_start`,
which stays in the returned content. (6) A `tool_start` with no `tool_end`
behind it gives an entry, for the text up to the end of the content. -/
theorem parse_raises_or_misses_block :
    ToolParser.parse braces_parse (lit "<tool_call>") (lit "</tool_call>")
        (lit "<tool_call>\x7b\"name\":\"a\"\x7d</tool_call><tool_call>oops</tool_call>")
      = some (.raised (lit "Invalid tool call: oops"))
    ∧ ToolParser.parse braces_parse (lit "<tool_call>") (lit "</tool_call>")
        (lit "I will look.\n<tool_call>\x7b\"name\":\"a\"\x7d</tool_call>\n<tool_call>\x7b\"name\":\"b\"\x7d</tool_call>")
      = some (.returned (lit "I will look.<tool_call>\x7b\"name\":\"b\"\x7d</tool_call>")
          [{ type := lit "function", function := lit "\x7b\"name\":\"a\"\x7d" }])
    ∧ ToolParser.parse braces_parse (lit "\n<tool_call>") (lit "</tool_call>")
        (lit "A\n<tool_call>\x7b\"name\":\"a\"\x7d</tool_call>\n<tool_call>\x7b\"name\":\"b\"\x7d</tool_call>")
      = some (.returned (lit "A<tool_call>\x7b\"name\":\"b\"\x7d</tool_call>")
          [{ type := lit "function", function := lit "\x7b\"name\":\"a\"\x7d" }])
    ∧ ToolParser.parse braces_parse (lit "<tool_call>") (lit "</tool_call>\n")
        (lit "<tool_call>\x7b\"name\":\"a\"\x7d</tool_call>\n<tool_call>\x7b\"name\":\"b\"\x7d</tool_call>\n")
      = some (.raised (lit "Invalid tool call: \x7b\"name\":\"b\"\x7d</tool_call>"))
    ∧ ToolParser.parse braces_parse (lit "<tool_call>") (lit "</tool_call>")
        (lit "See <<tool_call>\x7b\"name\":\"a\"\x7d</tool_call>tool_call> above.")
      = some (.returned (lit "See <tool_call> above.")
          [{ type := lit "function", function := lit "\x7b\"name\":\"a\"\x7d" }])
    ∧ ToolParser.parse braces_parse (lit "<tool_call>") (lit "</tool_call>")
        (lit "A<tool_call>\x7b\"name\":\"a\"\x7d")
      = some (.returned (lit "A")
          [{ type := lit "function", function := lit "\x7b\"name\":\"a\"\x7d" }]) := by
  refine ⟨by decide, by decide, by decide, by decide, by decide, by decide⟩

/-! ## Planning flow (src/flow/planning.h, src/flow/planning.cpp) -/

theorem pool_get_set {α : Type} (pool : List α) (k : Nat) (a b : α) (h : pool.get? k = some a) :
    (pool.set k b).get? k = some b := by
  have hk : k < pool.length := by
    rcases Nat.lt_or_ge k pool.length with h' | h'
    · exact h'
    · rw [List.get?_eq_none.mpr h'] at h; simp at h
  simp [List.getElem?_set, hk]

/-- C22 (amended). Whenever a pass of the loop of `execute` with a non-empty
input goes on to the next step, the memory of the executor is the memory the
step left (after the run and the summary), to which `add_message` was applied
twice: with the summary as assistant message, then with the user message
`Continue to accomplish the task: <input>`. `reset(false)` sets the state to
Idle and the step counter to 0 and leaves the memory, so the messages of the
step are not removed. Every pass that goes on has run a step first. -/
theorem refactor_keeps_step_messages {M : Type} (env : FlowEnv M) (f : PlanningFlow M)
    (input result : Str) (hin : input ≠ []) :
    (match f.run_step env, f.iteration env input result with
      | .ok f3 (some (k, _, prefix_sum)), .ok f4 (some _) =>
          ∃ executor m1 m2 a',
            f3.pool.get? k = some executor
            ∧ env.ops.add_message executor.memory
                (Message.assistant_message env.tok (.str prefix_sum) []) = some (m1, false)
            ∧ env.ops.add_message m1
                (Message.user_message env.tok
                  (.str (lit "Continue to accomplish the task: " ++ input))) = some (m2, false)
            ∧ f4.pool.get? k = some a'
            ∧ a'.memory = m2
            ∧ a'.passed = executor.passed
                ++ [Message.assistant_message env.tok (.str prefix_sum) [],
                    Message.user_message env.tok
                      (.str (lit "Continue to accomplish the task: " ++ input))]
            ∧ a'.state = .IDLE ∧ a'.current_step = 0
      | _, _ => True)
    ∧ (match f.iteration env input result with
      | .ok _ (some _) => ∃ f3 x, f.run_step env = .ok f3 (some x)
      | _ => True) := by
  have hne : input.isEmpty = false := by
    cases input with
    | nil => exact absurd rfl hin
    | cons c cs => rfl
  unfold PlanningFlow.iteration
  cases hrs : f.run_step env with
  | undefined => exact ⟨trivial, trivial⟩
  | raised f3 => exact ⟨trivial, trivial⟩
  | ok f3 v =>
    cases v with
    | none => exact ⟨trivial, trivial⟩
    | some x =>
      obtain ⟨k, heading, prefix_sum⟩ := x
      simp only []
      unfold PlanningFlow.refactor_memory
      cases hp : f3.pool.get? k with
      | none => exact ⟨trivial, trivial⟩
      | some executor =>
        simp only [ToolCallAgent.add_message]
        cases h1 : env.ops.add_message executor.reset_state.memory
            (Message.assistant_message env.tok (.str prefix_sum) []) with
        | none => exact ⟨trivial, trivial⟩
        | some r1 =>
          obtain ⟨m1, b1⟩ := r1
          cases b1 with
          | true => exact ⟨trivial, trivial⟩
          | false =>
            simp only [Option.map_some', hne, if_true]
            cases h2 : env.ops.add_message m1
                (Message.user_message env.tok
                  (.str (lit "Continue to accomplish the task: " ++ input))) with
            | none => exact ⟨trivial, trivial⟩
            | some r2 =>
              obtain ⟨m2, b2⟩ := r2
              cases b2 with
              | true => exact ⟨trivial, trivial⟩
              | false =>
                simp only [Option.map_some']
                refine ⟨⟨executor, m1, m2, _, hp, h1, h2, pool_get_set _ _ _ _ hp, rfl, ?_, rfl,
                  rfl⟩, ⟨f3, _, rfl⟩⟩
                simp [ToolCallAgent.reset_state, ToolCallAgent.set_state]

set_option maxRecDepth 100000 in
/-- The first pass of the loop on the plan `p1` with the input `Write README`. -/
theorem refactor_keeps_step_messages_witness :
    lit "Write README" ≠ []
    ∧ (match flow_p1.run_step (flow_env .no_call),
          flow_p1.iteration (flow_env .no_call) (lit "Write README") [] with
      | .ok f3 (some (k, _, prefix_sum)), .ok f4 (some _) =>
          ∃ executor m1 m2 a',
            f3.pool.get? k = some executor
            ∧ (flow_env .no_call).ops.add_message executor.memory
                (Message.assistant_message (flow_env .no_call).tok (.str prefix_sum) [])
                  = some (m1, false)
            ∧ (flow_env .no_call).ops.add_message m1
                (Message.user_message (flow_env .no_call).tok
                  (.str (lit "Continue to accomplish the task: " ++ lit "Write README")))
                  = some (m2, false)
            ∧ f4.pool.get? k = some a'
            ∧ a'.memory = m2
            ∧ a'.passed = executor.passed
                ++ [Message.assistant_message (flow_env .no_call).tok (.str prefix_sum) [],
                    Message.user_message (flow_env .no_call).tok
                      (.str (lit "Continue to accomplish the task: " ++ lit "Write README"))]
            ∧ a'.state = .IDLE ∧ a'.current_step = 0
      | _, _ => True)
    ∧ (match flow_p1.iteration (flow_env .no_call) (lit "Write README") [] with
      | .ok _ (some _) => ∃ f3 x, flow_p1.run_step (flow_env .no_call) = .ok f3 (some x)
      | _ => True)
    ∧ (flow_p1.iteration (flow_env .no_call) (lit "Write README") []).value?
        = some (some (lit "##book:\nsummary\n\n")) :=
  ⟨by decide,
    (refactor_keeps_step_messages (flow_env .no_call) flow_p1 (lit "Write README") []
      (by decide)).1,
    (refactor_keeps_step_messages (flow_env .no_call) flow_p1 (lit "Write README") []
      (by decide)).2,
    by decide⟩

set_option maxRecDepth 100000 in
/-- C22 as stated fails: after the first pass of the loop on the plan `p1` the
window of the executor holds five messages: the step prompt, the assistant
message and the tool message of the step, then the summary and the
`Continue` message. -/
theorem refactor_leaves_step_messages :
    (flow_p1.iteration (flow_env .no_call) (lit "Write README") []).agent?.map
        (fun f => f.pool.map (fun a => a.memory.messages.map (fun m => (m.role, m.content))))
      = some [[(lit "user", .str (step_prompt [] 0)),
               (lit "assistant", .null),
               (lit "tool", .str (lit "The interaction has been completed with status: success")),
               (lit "assistant", .str (lit "summary")),
               (lit "user", .str (lit "Continue to accomplish the task: Write README"))]] := by
  decide

end Humanus
